import Mathlib

/-! # Verification development for `badu/braintree` (Go)

A shallow embedding of parts of `request.go`, `response.go`, `transaction.go`,
`customer.go`, `subscription.go`, `cc.go` and `webhook.go`: the exact `Decimal`
type with its text codec and its comparison; the `Search` predicate builder with
its slices, maps and predicate pointers on an explicit heap; the serialization of
`TimeField`; the tree of validation errors with its decoder, its accessors and
the normalization of names; `StripNilElements` and `Response.unpackBody`; the
paging of search results; and the signatures of webhook notifications.

Conventions of the embedding

* A Go `string` / `[]byte` is a `List Nat`, one element per byte.  The code
  only ever compares bytes with fixed ASCII bytes, or upper-cases a byte, so
  nothing depends on the elements being below 256; every theorem quantified over
  `List Nat` covers every Go byte string.
* `int64` values are `Int`; where the source multiplies machine integers the
  result is wrapped with `wrap64`.
* The standard-library functions the source calls (`strconv.FormatInt`,
  `strconv.ParseInt`, `strings.Index`, `strings.Replace`, `strings.Repeat`,
  `append`, `copy`, map lookup and assignment, `unicode.ToUpper`, the decoder and
  the encoder of `encoding/xml`, the formatting of `time.Time`, `strings.Split`,
  `strings.Contains`, the verb `%x`) follow the Go standard library and language
  specification; what is taken as given of them is said where they are defined.
  The hash functions, the base64 decoder, the XML lexer, `xml.Unmarshal`, the
  HTTP requests and the offsets of the time zones are parameters.
* A pointer is the address of its target in the heap, or an `Option` when only
  nil matters; a Go function that can panic returns an `Option`, `none` being the
  panic.
* Where a loop is given a bound on its iterations, the bound is computed from
  the input and proved never to be reached.

The definitions come first, the theorems after them.
-/

namespace Braintree

/-! ## Bytes and strings -/

/-- The bytes of an ASCII string literal. -/
def bytes (s : String) : List Nat := s.toList.map Char.toNat

/-- Byte `'0'`. -/
def chZero : Nat := 48

/-- Byte `'+'`. -/
def chPlus : Nat := 43

/-- Byte `'-'`. -/
def chMinus : Nat := 45

/-- Byte `'.'`. -/
def chDot : Nat := 46

/-- Go `strings.Repeat(c, n)` for a one-byte string `c`. -/
def Repeat (c : Nat) (n : Nat) : List Nat := List.replicate n c

/-- Go `strings.Index(s, c)` for a one-byte string `c`: the index of the first
occurrence, or `-1` when there is none. -/
def Index : List Nat → Nat → Int
  | [], _ => -1
  | b :: bs, c => if b = c then 0 else
      let i := Index bs c
      if i = -1 then -1 else i + 1

/-- Go `strings.Contains(s, substr)` for a `substr` of one byte: `Index(s, substr)
>= 0`. -/
def Contains (s : List Nat) (c : Nat) : Bool := decide (Index s c ≥ 0)

/-- Go `strings.Replace(s, c, "", 1)` for a one-byte string `c`: the first
occurrence of `c` is removed, the rest is kept. -/
def Replace1 : List Nat → Nat → List Nat
  | [], _ => []
  | b :: bs, c => if b = c then bs else b :: Replace1 bs c

/-! ## Machine integers -/

/-- Smallest `int64`. -/
def minInt64 : Int := -9223372036854775808

/-- Largest `int64`. -/
def maxInt64 : Int := 9223372036854775807

/-- Largest `uint64`. -/
def maxUint64 : Nat := 18446744073709551615

/-- An integer that an `int64` variable can hold. -/
def isInt64 (z : Int) : Prop := minInt64 ≤ z ∧ z ≤ maxInt64

instance (z : Int) : Decidable (isInt64 z) := by unfold isInt64; infer_instance

/-- Two's-complement wrap-around of a mathematical integer into `int64`. -/
def wrap64 (z : Int) : Int := (z + 9223372036854775808) % 18446744073709551616 - 9223372036854775808

/-! ## `strconv.FormatInt(i, 10)` -/

/-- The digit loop of `strconv.formatBits` in base 10: digits are produced from
the least significant end and written in front of what is already there.  The
first argument bounds the number of iterations. -/
def formatBits : Nat → Nat → List Nat → List Nat
  | 0, u, acc => (chZero + u % 10) :: acc
  | fuel + 1, u, acc =>
      if u ≥ 10 then formatBits fuel (u / 10) ((chZero + u % 10) :: acc)
      else (chZero + u) :: acc

/-- Go `strconv.FormatInt(i, 10)`: the magnitude in decimal, with a leading
`'-'` when `i` is negative. -/
def FormatInt (i : Int) : List Nat :=
  let u := i.natAbs
  if i < 0 then chMinus :: formatBits u u [] else formatBits u u []

/-! ## `strconv.ParseInt(s, 10, 64)` -/

/-- The two error kinds of `strconv.NumError`. -/
inductive NumError where
  | ErrSyntax
  | ErrRange
  deriving DecidableEq, Repr

/-- The loop of `strconv.ParseUint(s, 10, 64)` over the bytes of `s`, with the
accumulator `n`. -/
def parseUintLoop : List Nat → Nat → Except NumError Nat
  | [], n => .ok n
  | c :: cs, n =>
      if chZero ≤ c ∧ c ≤ chZero + 9 then
        let d := c - chZero
        if n ≥ maxUint64 / 10 + 1 then .error .ErrRange
        else
          let n1 := n * 10 + d
          if n1 > maxUint64 then .error .ErrRange
          else parseUintLoop cs n1
      else .error .ErrSyntax

/-- Go `strconv.ParseUint(s, 10, 64)`. -/
def ParseUint (s : List Nat) : Except NumError Nat :=
  if s = [] then .error .ErrSyntax else parseUintLoop s 0

/-- The cutoff `1 << 63` that `strconv.ParseInt` compares the magnitude with. -/
def cutoff63 : Nat := 9223372036854775808

/-- Go `strconv.ParseInt(s, 10, 64)`. -/
def ParseInt (s : List Nat) : Except NumError Int :=
  match s with
  | [] => .error .ErrSyntax
  | c :: cs =>
      let neg : Bool := decide (c = chMinus)
      let s1 := if c = chPlus then cs else if c = chMinus then cs else c :: cs
      match ParseUint s1 with
      | .error e => .error e
      | .ok un =>
          if neg = false ∧ un ≥ cutoff63 then .error .ErrRange
          else if neg = true ∧ un > cutoff63 then .error .ErrRange
          else .ok (if neg = true then -(un : Int) else (un : Int))

/-! ## `Decimal` -/

/-- Go `type Decimal struct { Unscaled int64; Scale int }`. -/
structure Decimal where
  Unscaled : Int
  Scale : Int
  deriving DecidableEq, Repr

/-- Go `(*Decimal).MarshalText`.  The error result of the Go function is `nil`
on every path, so only the text is returned. -/
def MarshalText (d : Decimal) : List Nat :=
  if d.Scale ≤ 0 then
    FormatInt d.Unscaled ++ Repeat chZero (-d.Scale).toNat
  else
    let str := FormatInt d.Unscaled
    let str :=
      if (str.length : Int) ≤ d.Scale then
        Repeat chZero ((d.Scale + 1) - str.length).toNat ++ str
      else str
    str.take ((str.length : Int) - d.Scale).toNat ++ [chDot]
      ++ str.drop ((str.length : Int) - d.Scale).toNat

/-- Go `(*Decimal).UnmarshalText`, as a state transformer of the receiver: the
result is the receiver after the call, with the returned error (`none` for
`nil`). -/
def UnmarshalText (d : Decimal) (text : List Nat) : Decimal × Option NumError :=
  if text = [] then (d, none)
  else
    let i := Index text chDot
    let scale : Int := if i ≠ -1 then (text.length : Int) - i - 1 else 0
    let str := if i ≠ -1 then Replace1 text chDot else text
    match ParseInt str with
    | .error e => (d, some e)
    | .ok unscaled => ({ Unscaled := unscaled, Scale := scale }, none)

/-- The scale-alignment loops of `Cmp`: `for ; hi > lo; hi-- { u = u * 10 }`
on an `int64` variable `u`.  The result is the pair of the loop counter `hi` and
of `u` when the loop is left. -/
def scaleLoop (hi lo : Int) (u : Int) : Int × Int :=
  if hi > lo then scaleLoop (hi - 1) lo (wrap64 (u * 10)) else (hi, u)
termination_by (hi - lo).toNat
decreasing_by omega

/-- Go `(*Decimal).Cmp`. -/
def Cmp (d y : Decimal) : Int :=
  let (xScale, yUnscaled) := scaleLoop d.Scale y.Scale y.Unscaled
  let (_, xUnscaled) := scaleLoop y.Scale xScale d.Unscaled
  if xUnscaled < yUnscaled then -1
  else if xUnscaled > yUnscaled then 1
  else 0

/-! ## Notions used to state the properties of the codec -/

/-- A decimal digit byte `'0'..'9'`. -/
def isDigit (c : Nat) : Prop := chZero ≤ c ∧ c ≤ chZero + 9

instance (c : Nat) : Decidable (isDigit c) := by unfold isDigit; infer_instance

/-- The natural number written in base 10 by a string of digit bytes, read
after the prefix value `n`. -/
def digitsValFrom (n : Nat) : List Nat → Nat
  | [] => n
  | c :: cs => digitsValFrom (n * 10 + (c - chZero)) cs

/-- The natural number written in base 10 by a string of digit bytes. -/
def digitsVal (cs : List Nat) : Nat := digitsValFrom 0 cs

/-- The integer written by an optional sign and a digit string. -/
def signedVal (sign digits : List Nat) : Int :=
  if sign = [chMinus] then -(digitsVal digits : Int) else (digitsVal digits : Int)

/-- The rational number a `Decimal` stands for: `Unscaled * 10^(-Scale)`. -/
def Decimal.value (d : Decimal) : ℚ := (d.Unscaled : ℚ) * (10 : ℚ) ^ (-d.Scale)

/-- What is left of a string once `ParseInt` has picked off a leading sign. -/
def dropSign : List Nat → List Nat
  | [] => []
  | c :: cs => if c = chPlus then cs else if c = chMinus then cs else c :: cs

/-- The second half of `ParseInt`: the range check and the sign applied to the
result of `ParseUint`. -/
def finishInt (neg : Bool) : Except NumError Nat → Except NumError Int
  | .error e => .error e
  | .ok un =>
      if neg = false ∧ un ≥ cutoff63 then .error .ErrRange
      else if neg = true ∧ un > cutoff63 then .error .ErrRange
      else .ok (if neg = true then -(un : Int) else (un : Int))

/-- The integer written by a text: the digits after an optional leading sign,
negated when that sign is `'-'`. -/
def textVal (s : List Nat) : Int :=
  if s.head? = some chMinus then -(digitsVal (dropSign s) : Int)
  else (digitsVal (dropSign s) : Int)

/-- The rejection condition of C5 as the specification words it: a byte that is
not a decimal digit remains once one sign leading the text and one decimal point
are set aside. -/
def strayByteAsStated (text : List Nat) : Prop :=
  ∃ c ∈ Replace1 (dropSign text) chDot, ¬ isDigit c

instance (text : List Nat) : Decidable (strayByteAsStated text) := by
  unfold strayByteAsStated; infer_instance

/-! ## `Search` -/

/-- A Go `float64`, by its IEEE-754 bit pattern; the zero value has `bits = 0`. -/
structure Float64 where
  bits : Nat := 0
  deriving DecidableEq, Repr

/-- A Go `time.Time`, by its two numeric words and its location: `loc` is the
pointer `*Location`, by its address, `none` being nil, which stands for UTC; the
zero value has the two words zero and the location nil. -/
structure Time where
  wall : Nat := 0
  ext : Int := 0
  loc : Option Nat := none
  deriving DecidableEq, Repr

/-- Go `TextField`; `XMLName` holds `XMLName.Local`. -/
structure TextField where
  XMLName : String
  Is : String := ""
  IsNot : String := ""
  StartsWith : String := ""
  EndsWith : String := ""
  Contains : String := ""
  deriving DecidableEq, Repr

/-- Go `RangeField`; `XMLName` holds `XMLName.Local`. -/
structure RangeField where
  XMLName : String
  Is : Float64 := {}
  Min : Float64 := {}
  Max : Float64 := {}
  deriving DecidableEq, Repr

/-- Go `TimeField`; `XMLName` holds `XMLName.Local`. -/
structure TimeField where
  XMLName : String
  Is : Time := {}
  Min : Time := {}
  Max : Time := {}
  deriving DecidableEq, Repr

/-- Go `MultiField`; `XMLName` holds `XMLName.Local`, and `TypeAttr` is the Go field
`Type` (the `type` attribute), renamed because `Type` is reserved in Lean. -/
structure MultiField where
  XMLName : String
  TypeAttr : String := ""
  Items : List String := []
  deriving DecidableEq, Repr

/-- A predicate object a `Search` slot can point to (the dynamic type of the
`interface{}` value is the constructor). -/
inductive Field where
  | text (f : TextField)
  | range (f : RangeField)
  | time (f : TimeField)
  | multi (f : MultiField)
  deriving DecidableEq, Repr

/-- The `XMLName.Local` of a predicate object: the name it is serialized under. -/
def Field.name : Field → String
  | .text f => f.XMLName
  | .range f => f.XMLName
  | .time f => f.XMLName
  | .multi f => f.XMLName

/-- A Go slice header of type `[]interface{}`: the address of the backing array,
the length and the capacity.  The nil slice has length and capacity 0. -/
structure Slice where
  array : Nat
  len : Nat
  cap : Nat
  deriving DecidableEq, Repr

/-- Go `type Search struct { fields []interface{}; fieldIndex map[string]int }`.
The map is a reference: `none` is the nil map, `some m` the map at address `m`. -/
structure Search where
  fields : Slice
  fieldIndex : Option Nat
  deriving DecidableEq, Repr

/-- The part of the Go heap the builder works on.  Every component is indexed by
address; allocation appends.  A backing array holds `interface{}` values: `none`
is the nil interface, `some f` a pointer to the predicate object at address `f`.
A map is the list of its entries. -/
structure Heap where
  objs : List Field
  arrays : List (List (Option Nat))
  maps : List (List (String × Nat))
  searches : List Search
  deriving DecidableEq, Repr

/-- The heap before anything is allocated. -/
def Heap.empty : Heap := ⟨[], [], [], []⟩

/-- Go `v, ok := m[key]` on the entries of a map. -/
def mapLookup : List (String × Nat) → String → Option Nat
  | [], _ => none
  | (k, v) :: m, key => if k = key then some v else mapLookup m key

/-- Go `m[key] = v` on the entries of a map: an entry with the same key is
replaced. -/
def mapInsert (m : List (String × Nat)) (key : String) (v : Nat) : List (String × Nat) :=
  (key, v) :: m.filter (fun p => decide (p.1 ≠ key))

/-- The elements `sl[0:len(sl)]` of a slice; `none` when the header points
outside the heap. -/
def readSlice (h : Heap) (sl : Slice) : Option (List (Option Nat)) :=
  if sl.len = 0 then some []
  else match h.arrays[sl.array]? with
    | none => none
    | some a => if sl.len ≤ a.length then some (a.take sl.len) else none

/-- Go `append(sl, x)`.  With spare capacity the element is written into the
backing array in place; otherwise a new backing array is allocated, the elements
are copied and `x` is stored after them.  The language leaves the capacity of the
new array to the runtime: it is `len(sl) + 1 + extra (cap(sl))` for the
parameter `extra`. -/
def append (extra : Nat → Nat) (h : Heap) (sl : Slice) (x : Option Nat) :
    Option (Heap × Slice) :=
  if sl.len < sl.cap then
    match h.arrays[sl.array]? with
    | none => none
    | some a =>
        some ({ h with arrays := h.arrays.set sl.array (a.set sl.len x) },
              { sl with len := sl.len + 1 })
  else
    match readSlice h sl with
    | none => none
    | some old =>
        some ({ h with arrays := h.arrays ++ [old ++ x :: List.replicate (extra sl.cap) none] },
              ⟨h.arrays.length, sl.len + 1, sl.len + 1 + extra sl.cap⟩)

/-- Go `i, ok := s.fieldIndex[fieldName]`; a nil map has no entries. -/
def lookupIndex (h : Heap) (s : Search) (fieldName : String) : Option Nat :=
  match s.fieldIndex with
  | none => none
  | some m =>
      match h.maps[m]? with
      | none => none
      | some entries => mapLookup entries fieldName

/-- Go `(*Search).addField`, on the search at address `s` with the predicate
pointer `field`.  `none` is a run-time panic (nil receiver, index out of
range). -/
def addField (extra : Nat → Nat) (h : Heap) (s : Nat) (fieldName : String) (field : Nat) :
    Option Heap :=
  match h.searches[s]? with
  | none => none
  | some so =>
      match lookupIndex h so fieldName with
      | none =>
          match append extra h so.fields (some field) with
          | none => none
          | some (h1, fields1) =>
              let (h2, m) :=
                match so.fieldIndex with
                | none => ({ h1 with maps := h1.maps ++ [[]] }, h1.maps.length)
                | some m => (h1, m)
              match h2.maps[m]? with
              | none => none
              | some entries =>
                  some { h2 with
                    maps := h2.maps.set m (mapInsert entries fieldName (fields1.len - 1))
                    searches := h2.searches.set s ⟨fields1, some m⟩ }
      | some i =>
          if i < so.fields.len then
            match h.arrays[so.fields.array]? with
            | none => none
            | some a =>
                some { h with arrays := h.arrays.set so.fields.array (a.set i (some field)) }
          else none

/-- Go `(*Search).AddTextField`: the new predicate is allocated, stored with
`addField`, and its pointer returned. -/
def AddTextField (extra : Nat → Nat) (h : Heap) (s : Nat) (field : String) :
    Option (Heap × Nat) :=
  let f := h.objs.length
  let h1 := { h with objs := h.objs ++ [Field.text { XMLName := field }] }
  (addField extra h1 s field f).map (fun h2 => (h2, f))

/-- Go `(*Search).AddRangeField`. -/
def AddRangeField (extra : Nat → Nat) (h : Heap) (s : Nat) (field : String) :
    Option (Heap × Nat) :=
  let f := h.objs.length
  let h1 := { h with objs := h.objs ++ [Field.range { XMLName := field }] }
  (addField extra h1 s field f).map (fun h2 => (h2, f))

/-- Go `(*Search).AddTimeField`. -/
def AddTimeField (extra : Nat → Nat) (h : Heap) (s : Nat) (field : String) :
    Option (Heap × Nat) :=
  let f := h.objs.length
  let h1 := { h with objs := h.objs ++ [Field.time { XMLName := field }] }
  (addField extra h1 s field f).map (fun h2 => (h2, f))

/-- Go `(*Search).AddMultiField`. -/
def AddMultiField (extra : Nat → Nat) (h : Heap) (s : Nat) (field : String) :
    Option (Heap × Nat) :=
  let f := h.objs.length
  let h1 := { h with objs := h.objs ++ [Field.multi { XMLName := field, TypeAttr := "array" }] }
  (addField extra h1 s field f).map (fun h2 => (h2, f))

/-- Go `copy(dst, src)` on the elements of two slices. -/
def copySlice (dst src : List (Option Nat)) : List (Option Nat) :=
  src.take dst.length ++ dst.drop src.length

/-- Go `(*Search).ShallowCopy`: a new backing array filled by `copy`, a new map
filled entry by entry, and a new `Search` holding both. -/
def ShallowCopy (h : Heap) (s : Nat) : Option (Heap × Nat) :=
  match h.searches[s]? with
  | none => none
  | some so =>
      match readSlice h so.fields with
      | none => none
      | some src =>
          let a := copySlice (List.replicate so.fields.len none) src
          let fields : Slice := ⟨h.arrays.length, so.fields.len, so.fields.len⟩
          let entries : Option (List (String × Nat)) :=
            match so.fieldIndex with
            | none => some []
            | some m => h.maps[m]?
          match entries with
          | none => none
          | some es =>
              let m := es.foldr (fun p acc => mapInsert acc p.1 p.2) []
              some ({ h with
                      arrays := h.arrays ++ [a]
                      maps := h.maps ++ [m]
                      searches := h.searches ++ [⟨fields, some h.maps.length⟩] },
                    h.searches.length)

/-- Go `&Search{}`: a new `Search` with the nil slice and the nil map. -/
def newSearch (h : Heap) : Heap × Nat :=
  ({ h with searches := h.searches ++ [⟨⟨0, 0, 0⟩, none⟩] }, h.searches.length)

/-- The predicate pointers of the search at `s`, in order. -/
def fieldsOf (h : Heap) (s : Nat) : Option (List (Option Nat)) :=
  match h.searches[s]? with
  | none => none
  | some so => readSlice h so.fields

/-- The name index of the search at `s`, as a lookup. -/
def indexOf (h : Heap) (s : Nat) (name : String) : Option Nat :=
  match h.searches[s]? with
  | none => none
  | some so => lookupIndex h so name

/-- The name of the predicate a slot points to. -/
def slotName (h : Heap) : Option Nat → Option String
  | none => none
  | some f => (h.objs[f]?).map Field.name

/-- The names of the predicates of the search at `s`, in order. -/
def namesOf (h : Heap) (s : Nat) : List (Option String) :=
  ((fieldsOf h s).getD []).map (slotName h)

/-! ## Notions used to state the properties of the builder -/

/-- The four predicate kinds, one per `Add…Field` method. -/
inductive Kind where
  | text
  | range
  | time
  | multi
  deriving DecidableEq, Repr

/-- The `Add…Field` method that creates a predicate of the given kind. -/
def Add (k : Kind) (extra : Nat → Nat) (h : Heap) (s : Nat) (field : String) :
    Option (Heap × Nat) :=
  match k with
  | .text => AddTextField extra h s field
  | .range => AddRangeField extra h s field
  | .time => AddTimeField extra h s field
  | .multi => AddMultiField extra h s field

/-- The predicate object each `Add…Field` method allocates. -/
def newField (k : Kind) (field : String) : Field :=
  match k with
  | .text => Field.text { XMLName := field }
  | .range => Field.range { XMLName := field }
  | .time => Field.time { XMLName := field }
  | .multi => Field.multi { XMLName := field, TypeAttr := "array" }

/-- One call of the builder API: `&Search{}`, an `Add…Field` on the search at
address `s`, or `ShallowCopy` of the search at address `s`. -/
inductive Call where
  | new
  | add (k : Kind) (s : Nat) (name : String)
  | copy (s : Nat)
  deriving DecidableEq, Repr

/-- The heap after one call; `none` when the call panics. -/
def step (extra : Nat → Nat) (h : Heap) : Call → Option Heap
  | .new => some (newSearch h).1
  | .add k s name => (Add k extra h s name).map Prod.fst
  | .copy s => (ShallowCopy h s).map Prod.fst

/-- The heap after a sequence of calls. -/
def run (extra : Nat → Nat) : List Call → Heap → Option Heap
  | [], h => some h
  | c :: cs, h =>
      match step extra h c with
      | none => none
      | some h1 => run extra cs h1

/-- A sequence of calls that only mentions searches that exist when the call is
made, `n` being the number of searches allocated so far. -/
def validFrom : Nat → List Call → Bool
  | _, [] => true
  | n, .new :: cs => validFrom (n + 1) cs
  | n, .add _ s _ :: cs => decide (s < n) && validFrom n cs
  | n, .copy s :: cs => decide (s < n) && validFrom (n + 1) cs

/-- The names passed to `Add…Field`, per search, in call order; a copy starts
with the names of the search it was copied from. -/
def histStep (hs : List (List String)) : Call → List (List String)
  | .new => hs ++ [[]]
  | .add _ s name => hs.set s (hs.getD s [] ++ [name])
  | .copy s => hs ++ [hs.getD s []]

/-- The insertion history after a sequence of calls. -/
def hist : List Call → List (List String) → List (List String)
  | [], hs => hs
  | c :: cs, hs => hist cs (histStep hs c)

/-- The distinct elements of a list in the order of their first occurrence. -/
def firstOcc : List String → List String → List String
  | acc, [] => acc
  | acc, n :: ns => if n ∈ acc then firstOcc acc ns else firstOcc (acc ++ [n]) ns

/-- The names of the predicates of a `Search` record, in slot order. -/
def recNames (h : Heap) (so : Search) : List (Option String) :=
  ((readSlice h so.fields).getD []).map (slotName h)

/-- The representation invariant of one `Search` record. -/
structure SearchOK (h : Heap) (so : Search) : Prop where
  len_le : so.fields.len ≤ so.fields.cap
  array : 0 < so.fields.cap →
    ∃ a, h.arrays[so.fields.array]? = some a ∧ a.length = so.fields.cap
  map : ∀ m, so.fieldIndex = some m → ∃ es, h.maps[m]? = some es
  elems : ∀ el ∈ (readSlice h so.fields).getD [], ∃ f o, el = some f ∧ h.objs[f]? = some o
  index : ∀ name i, lookupIndex h so name = some i ↔ (recNames h so)[i]? = some (some name)

/-- No two searches share a backing array or a map. -/
def NoAlias (h : Heap) : Prop :=
  ∀ (s t : Nat) (so st : Search), s ≠ t →
    h.searches[s]? = some so → h.searches[t]? = some st →
    (0 < so.fields.cap → 0 < st.fields.cap → so.fields.array ≠ st.fields.array) ∧
    (∀ m, so.fieldIndex = some m → st.fieldIndex ≠ some m)

/-- The representation invariant of the heap. -/
def WF (h : Heap) : Prop :=
  (∀ (s : Nat) (so : Search), h.searches[s]? = some so → SearchOK h so) ∧ NoAlias h

/-- The invariant that links a heap with the insertion history of its searches. -/
def Inv (h : Heap) (hs : List (List String)) : Prop :=
  WF h ∧ hs.length = h.searches.length ∧
  ∀ s : Nat, s < h.searches.length →
    namesOf h s = (firstOcc [] (hs.getD s [])).map some

/-- A heap with one search holding a text predicate `x` and a range predicate
`y`, as built by `&Search{}`, `AddTextField("x")`, `AddRangeField("y")`. -/
def exampleHeap : Heap :=
  { objs := [Field.text { XMLName := "x" }, Field.range { XMLName := "y" }]
    arrays := [[some 0], [some 0, some 1]]
    maps := [[("y", 1), ("x", 0)]]
    searches := [{ fields := { array := 1, len := 2, cap := 2 }, fieldIndex := some 0 }] }

/-- The calls that build `exampleHeap`. -/
def exampleCalls : List Call := [.new, .add .text 0 "x", .add .range 0 "y"]

/-! ## Name normalization (`response.go`) -/

/-- Go `byte(unicode.ToUpper(rune(b)))` for a byte `b`: the byte is read as the
Latin-1 code point, mapped by `unicode.ToUpper`, and truncated to a byte again.
`a`..`z`, `à`..`ö` and `ø`..`þ` move down by 32; `µ` (U+00B5) has the upper case
U+039C, which truncates to `0x9C`; `ÿ` (U+00FF) has the upper case U+0178, which
truncates to `0x78`; every other byte is unchanged. -/
def upperByte (b : Nat) : Nat :=
  if 97 ≤ b ∧ b ≤ 122 then b - 32
  else if b = 181 then 924 % 256
  else if (224 ≤ b ∧ b ≤ 246) ∨ (248 ≤ b ∧ b ≤ 254) then b - 32
  else if b = 255 then 376 % 256
  else b

/-- The loop shared by `ErrorNameSnakeToCamel` and `ErrorNameKebabToCamel`, over
the bytes still to read, with the flag `capitalizeNext`; the result is what the
loop writes to the buffer. -/
def camelLoop (sep : Nat) : List Nat → Bool → List Nat
  | [], _ => []
  | c :: cs, capitalizeNext =>
      if c = sep then camelLoop sep cs true
      else if capitalizeNext = true then upperByte c :: camelLoop sep cs false
      else c :: camelLoop sep cs false

/-- Go `ErrorNameSnakeToCamel`. -/
def ErrorNameSnakeToCamel (src : List Nat) : List Nat :=
  if src.length = 0 then [] else camelLoop 95 src true

/-- Go `ErrorNameKebabToCamel`. -/
def ErrorNameKebabToCamel (src : List Nat) : List Nat :=
  if src.length = 0 then [] else camelLoop 45 src true

/-- The segments of a string between the occurrences of the separator byte. -/
def segments (sep : Nat) : List Nat → List (List Nat)
  | [] => [[]]
  | c :: cs =>
      if c = sep then [] :: segments sep cs
      else
        match segments sep cs with
        | [] => [[c]]
        | seg :: rest => (c :: seg) :: rest

/-- A segment with its first byte upper-cased. -/
def capFirst : List Nat → List Nat
  | [] => []
  | c :: cs => upperByte c :: cs

/-- The normal form the specification describes: the segments, each with its
first byte upper-cased, concatenated. -/
def camelSpec (sep : Nat) (s : List Nat) : List Nat :=
  ((segments sep s).map capFirst).flatten

/-! ## The error tree (`response.go`) -/

/-- Go `ValidationError`. -/
structure ValidationError where
  Code : List Nat
  Attribute : List Nat
  Message : List Nat
  deriving DecidableEq, Repr

/-- The entries of a Go `map[string]*ValidationErrors`.  Go does not specify the
order in which `range` visits a map and does not keep it from one `range` to the
next: a value of this type lists the entries in the order in which the `range` of
the call under consideration visits them.  An `entry` carries the key and the
fields `Object`, `ValidationErrors`, `Children` of the `ValidationErrors` its
pointer refers to; a `nilEntry` is a key whose pointer is nil.  The nil map and
the empty map are both `nil`. -/
inductive ChildMap where
  | nil
  | entry (key : List Nat) (Object : List Nat) (Errors : List ValidationError)
      (children : ChildMap) (rest : ChildMap)
  | nilEntry (key : List Nat) (rest : ChildMap)
  deriving DecidableEq, Repr

/-- Go `type ValidationErrors struct`; `Errors` is its field `ValidationErrors`
(renamed, it has the name of the type).  A `*ValidationErrors` is an
`Option ValidationErrors`, `none` being the nil pointer. -/
structure ValidationErrors where
  Object : List Nat
  Errors : List ValidationError
  Children : ChildMap
  deriving DecidableEq, Repr

/-- Go `m[name]` on a `map[string]*ValidationErrors`: the pointer stored under
the key, the nil pointer when there is none. -/
def ChildMap.lookup : ChildMap → List Nat → Option ValidationErrors
  | .nil, _ => none
  | .entry key o l c rest, name => if key = name then some ⟨o, l, c⟩ else rest.lookup name
  | .nilEntry key rest, name => if key = name then none else rest.lookup name

/-- Go `m[key] = sub` on a `map[string]*ValidationErrors`, for a non-nil `sub`: the
entry of the key is replaced, or a new entry is added. -/
def ChildMap.insert : ChildMap → List Nat → ValidationErrors → ChildMap
  | .nil, key, sub => .entry key sub.Object sub.Errors sub.Children .nil
  | .entry k o l c rest, key, sub =>
      if k = key then .entry key sub.Object sub.Errors sub.Children rest
      else .entry k o l c (rest.insert key sub)
  | .nilEntry k rest, key, sub =>
      if k = key then .entry key sub.Object sub.Errors sub.Children rest
      else .nilEntry k (rest.insert key sub)

/-- Go `(*ValidationErrors).All`. -/
def ValidationErrors.All : Option ValidationErrors → List ValidationError
  | none => []
  | some r => r.Errors

/-- The loop `for _, sub := range r.Children { errorList = append(errorList,
sub.AllDeep()...) }` of `AllDeep`, over the entries still to visit and with the
`errorList` built so far.  For an entry, `sub.AllDeep()` is the same loop over
the children of `sub`, started from `append([]ValidationError{}, sub.All()...)`;
for a nil pointer it is empty. -/
def ChildMap.rangeAllDeep : ChildMap → List ValidationError → List ValidationError
  | .nil, errorList => errorList
  | .entry _ _ l c rest, errorList =>
      rest.rangeAllDeep (errorList ++ c.rangeAllDeep ([] ++ l))
  | .nilEntry _ rest, errorList => rest.rangeAllDeep (errorList ++ [])

/-- Go `(*ValidationErrors).AllDeep`. -/
def ValidationErrors.AllDeep : Option ValidationErrors → List ValidationError
  | none => []
  | some r => r.Children.rangeAllDeep ([] ++ ValidationErrors.All (some r))

/-- Go `(*ValidationErrors).For`. -/
def ValidationErrors.For (r : Option ValidationErrors) (name : List Nat) :
    Option ValidationErrors :=
  match r with
  | none => none
  | some r => if r.Children = ChildMap.nil then none else r.Children.lookup name

/-- Go `(*ValidationErrors).ForIndex`; `strconv.Itoa(i)` is `FormatInt(int64(i), 10)`. -/
def ValidationErrors.ForIndex (r : Option ValidationErrors) (i : Int) :
    Option ValidationErrors :=
  match r with
  | none => none
  | some r =>
      if r.Children = ChildMap.nil then none else r.Children.lookup (bytes "Index" ++ FormatInt i)

/-- The loop of `On` over the leaves still to read, with the `errors` collected
so far. -/
def onLoop (name : List Nat) : List ValidationError → List ValidationError →
    List ValidationError
  | [], errors => errors
  | err :: rest, errors =>
      if name = err.Attribute then onLoop name rest (errors ++ [err])
      else onLoop name rest errors

/-- Go `(*ValidationErrors).On`. -/
def ValidationErrors.On (r : Option ValidationErrors) (name : List Nat) :
    List ValidationError :=
  match r with
  | none => []
  | some r => onLoop name r.Errors []

/-- The pointers of a map, in visiting order. -/
def ChildMap.subs : ChildMap → List (Option ValidationErrors)
  | .nil => []
  | .entry _ o l c rest => some ⟨o, l, c⟩ :: rest.subs
  | .nilEntry _ rest => none :: rest.subs

/-- The nodes below a map: every non-nil child and every node below it. -/
def ChildMap.nodes : ChildMap → List ValidationErrors
  | .nil => []
  | .entry _ o l c rest => ⟨o, l, c⟩ :: (c.nodes ++ rest.nodes)
  | .nilEntry _ rest => rest.nodes

/-- All nodes of a tree: the root and every node below it. -/
def ValidationErrors.nodes (r : ValidationErrors) : List ValidationErrors :=
  r :: r.Children.nodes

/-- One map followed by another. -/
def ChildMap.append : ChildMap → ChildMap → ChildMap
  | .nil, b => b
  | .entry k o l c rest, b => .entry k o l c (rest.append b)
  | .nilEntry k rest, b => .nilEntry k (rest.append b)

/-- Two values that stand for the same Go map, at every depth, visited in
different orders: the entries are the same up to their order. -/
inductive ChildMap.Reordered : ChildMap → ChildMap → Prop
  | refl (a : ChildMap) : ChildMap.Reordered a a
  | trans {a b c : ChildMap} :
      ChildMap.Reordered a b → ChildMap.Reordered b c → ChildMap.Reordered a c
  | comm (a b : ChildMap) : ChildMap.Reordered (a.append b) (b.append a)
  | entry (k o : List Nat) (l : List ValidationError) {c d rest rest1 : ChildMap} :
      ChildMap.Reordered c d → ChildMap.Reordered rest rest1 →
      ChildMap.Reordered (.entry k o l c rest) (.entry k o l d rest1)
  | nilEntry (k : List Nat) {rest rest1 : ChildMap} :
      ChildMap.Reordered rest rest1 →
      ChildMap.Reordered (.nilEntry k rest) (.nilEntry k rest1)

/-! ## `encoding/xml`: tokens and documents -/

/-- Go `xml.Name`. -/
structure Xml.Name where
  Space : List Nat
  Local : List Nat
  deriving DecidableEq, Repr

/-- Go `xml.Attr`. -/
structure Xml.Attr where
  Name : Xml.Name
  Value : List Nat
  deriving DecidableEq, Repr

/-- Go `xml.Token`: the six kinds of token `(*xml.Decoder).Token` returns. -/
inductive Xml.Token where
  | StartElement (Name : Xml.Name) (Attr : List Xml.Attr)
  | EndElement (Name : Xml.Name)
  | CharData (data : List Nat)
  | Comment (data : List Nat)
  | ProcInst (Target : List Nat) (Inst : List Nat)
  | Directive (data : List Nat)
  deriving DecidableEq, Repr

/-- A well-nested piece of a document: nothing, or a token that is neither a start
nor an end tag followed by the rest, or an element (its start tag, its content,
its end tag) followed by the rest. -/
inductive Xml.Forest where
  | nil
  | leaf (t : Xml.Token) (rest : Xml.Forest)
  | elem (name : Xml.Name) (attr : List Xml.Attr) (content : Xml.Forest) (rest : Xml.Forest)
  deriving DecidableEq, Repr

/-- What `encoding/xml` stores in a `string` field for an element: the character
data directly inside the element, concatenated; elements inside it are skipped. -/
def Xml.Forest.charData : Xml.Forest → List Nat
  | .nil => []
  | .leaf (.CharData data) rest => data ++ rest.charData
  | .leaf _ rest => rest.charData
  | .elem _ _ _ rest => rest.charData

/-! ## Decoding the error tree (`response.go`)

The `UnmarshalXML` methods read the content of their element through the
decoder.  Here the content is given as an `Xml.Forest`: the decoder hands the
tokens of the element out in document order, a `DecodeElement` call on a start tag
consumes that whole element, and after the end tag of the element being decoded
`Token` returns `io.EOF`.  On such an input no call returns an error. -/

/-- The local variable `x` of `ValidationError.UnmarshalXML`. -/
structure ErrorFields where
  Code : List Nat
  Attribute : List Nat
  Message : List Nat
  deriving DecidableEq, Repr

/-- `d.DecodeElement(&x, &start)` in `ValidationError.UnmarshalXML`, over the
content still to read: a child element named `code`, `attribute` or `message`
sets the field of that name, every other token is skipped. -/
def decodeErrorFields : Xml.Forest → ErrorFields → ErrorFields
  | .nil, x => x
  | .leaf _ rest, x => decodeErrorFields rest x
  | .elem name _ content rest, x =>
      if name.Local = bytes "code" then
        decodeErrorFields rest { x with Code := content.charData }
      else if name.Local = bytes "attribute" then
        decodeErrorFields rest { x with Attribute := content.charData }
      else if name.Local = bytes "message" then
        decodeErrorFields rest { x with Message := content.charData }
      else decodeErrorFields rest x

/-- Go `(*ValidationError).UnmarshalXML`, on the content of the element. -/
def ValidationError.UnmarshalXML (_e : ValidationError) (content : Xml.Forest) :
    ValidationError :=
  let x := decodeErrorFields content ⟨[], [], []⟩
  { Code := x.Code, Attribute := ErrorNameSnakeToCamel x.Attribute, Message := x.Message }

/-- `d.DecodeElement(&errorList, &subStart)` in `ValidationErrors.UnmarshalXML`,
over the content still to read and with the `ErrorList` built so far: every child
element named `error` is decoded into a new `ValidationError` and appended. -/
def decodeErrorList : Xml.Forest → List ValidationError → List ValidationError
  | .nil, l => l
  | .leaf _ rest, l => decodeErrorList rest l
  | .elem name _ content rest, l =>
      if name.Local = bytes "error" then
        decodeErrorList rest (l ++ [ValidationError.UnmarshalXML ⟨[], [], []⟩ content])
      else decodeErrorList rest l

/-- Go `(*ValidationErrors).UnmarshalXML`: the `for` loop over the tokens of the
element `start`, with the receiver `r` as it is so far.  The last token is the
end tag of `start`, after which `Token` returns `io.EOF`. -/
def ValidationErrors.UnmarshalXML (start : Xml.Name) :
    Xml.Forest → ValidationErrors → ValidationErrors
  | .nil, r => { r with Object := ErrorNameKebabToCamel start.Local }
  | .leaf _ rest, r =>
      ValidationErrors.UnmarshalXML start rest
        { r with Object := ErrorNameKebabToCamel start.Local }
  | .elem name _ content rest, r =>
      let r := { r with Object := ErrorNameKebabToCamel start.Local }
      if name.Local = bytes "errors" then
        ValidationErrors.UnmarshalXML start rest
          { r with Errors := decodeErrorList content [] }
      else
        let subSectionName := ErrorNameKebabToCamel name.Local
        let subSection := ValidationErrors.UnmarshalXML name content ⟨[], [], .nil⟩
        ValidationErrors.UnmarshalXML start rest
          { r with Children := r.Children.insert subSectionName subSection }

/-- The last child element of a content, other than `errors`, whose name is
normalized to `key` by `ErrorNameKebabToCamel`; `found` is the result when there
is none. -/
def Xml.Forest.lastChild (key : List Nat) :
    Xml.Forest → Option (Xml.Name × Xml.Forest) → Option (Xml.Name × Xml.Forest)
  | .nil, found => found
  | .leaf _ rest, found => rest.lastChild key found
  | .elem name _ content rest, found =>
      if name.Local ≠ bytes "errors" ∧ ErrorNameKebabToCamel name.Local = key then
        rest.lastChild key (some (name, content))
      else rest.lastChild key found

/-- In a map and in every map below it, each pointer is non-nil and the node it
points to has its key as `Object`. -/
def ChildMap.ObjectIsKey : ChildMap → Prop
  | .nil => True
  | .entry key o _ c rest => o = key ∧ c.ObjectIsKey ∧ rest.ObjectIsKey
  | .nilEntry _ _ => False

/-- An element without attributes, in front of the forest `rest`. -/
def fixtureElem (name : String) (content rest : Xml.Forest) : Xml.Forest :=
  .elem ⟨[], bytes name⟩ [] content rest

/-- An element with the attribute `type="array"`, in front of the forest `rest`. -/
def fixtureArray (name : String) (content rest : Xml.Forest) : Xml.Forest :=
  .elem ⟨[], bytes name⟩ [⟨⟨[], bytes "type"⟩, bytes "array"⟩] content rest

/-- An element `<error><code>…</code><attribute type="symbol">…</attribute>
<message>…</message></error>`, in front of the forest `rest`. -/
def fixtureError (code attr message : String) (rest : Xml.Forest) : Xml.Forest :=
  fixtureElem "error"
    (fixtureElem "code" (.leaf (.CharData (bytes code)) .nil) <|
     .elem ⟨[], bytes "attribute"⟩ [⟨⟨[], bytes "type"⟩, bytes "symbol"⟩]
       (.leaf (.CharData (bytes attr)) .nil) <|
     fixtureElem "message" (.leaf (.CharData (bytes message)) .nil) .nil)
    rest

/-- The content of the outer `<errors>` element of the fixture `errorXML` of
`other_test.go`, without the white space between the elements (character data
between elements is ignored by every decoder involved). -/
def errorXMLErrors : Xml.Forest :=
  fixtureArray "errors" .nil <|
  fixtureElem "transaction" (
    fixtureArray "errors" (
      fixtureError "91560" "base"
          "Tx could not be held in escrow." <|
      fixtureError "81502" "amount"
          "Amount is required." <|
      fixtureError "91526" "custom_fields"
          "Custom field is invalid: store_me." <|
      fixtureError "91513" "merchant_account_id"
          "Merchant account ID is invalid." <|
      fixtureError "915157" "line_items"
          "Too many line items." <|
      .nil) <|
    fixtureElem "credit-card" (
      fixtureArray "errors" (
        fixtureError "91708" "base"
            "Cannot provide expiration_date if you are also providing expiration_month and expiration_year." <|
        fixtureError "81714" "number"
            "Credit card number is required." <|
        fixtureError "81725" "base"
            "Credit card must include either number or venmo_sdk_payment_method_code." <|
        fixtureError "81703" "number"
            "Credit card type is not accepted by this merchant account." <|
        .nil) <|
      .nil) <|
    fixtureElem "customer" (
      fixtureArray "errors" (
        fixtureError "81606" "email"
            "Email is an invalid format." <|
        .nil) <|
      .nil) <|
    fixtureElem "line-items" (
      fixtureElem "index-1" (
        fixtureArray "errors" (
          fixtureError "95801" "commodity_code"
              "Commodity code is too long." <|
          .nil) <|
        .nil) <|
      fixtureElem "index-3" (
        fixtureArray "errors" (
          fixtureError "95803" "description"
              "Description is too long." <|
          fixtureError "95809" "product_code"
              "Product code is too long." <|
          .nil) <|
        .nil) <|
      .nil) <|
    .nil) <|
  .nil

/-! ## Notions used to state the properties of the error tree -/

/-- The decimal string of a natural number, most significant digit first: `"0"`
for zero, otherwise its base-10 digits without a leading zero. -/
def natDecimal (n : Nat) : List Nat :=
  if n = 0 then [chZero] else (Nat.digits 10 n).reverse.map (fun d => chZero + d)

/-- The decimal string of an integer: the decimal string of its magnitude, after
a `'-'` when it is negative. -/
def decimalString (i : Int) : List Nat :=
  if i < 0 then chMinus :: natDecimal i.natAbs else natDecimal i.natAbs

/-- Two trees with the same `Object` and `ValidationErrors` at the root whose
maps of children differ in visiting order only. -/
def ValidationErrors.Reordered (a b : ValidationErrors) : Prop :=
  a.Object = b.Object ∧ a.Errors = b.Errors ∧ ChildMap.Reordered a.Children b.Children

/-- The tree decoded from the fixture `errorXML`: the field `errors` of the
`APIError`, decoded from the outer `<errors>` element into a new
`ValidationErrors`. -/
def errorXMLTree : Option ValidationErrors :=
  some (ValidationErrors.UnmarshalXML ⟨[], bytes "errors"⟩ errorXMLErrors ⟨[], [], .nil⟩)

/-- A map with the entries `A` and `B`, each with one leaf, visited `A` first. -/
def mapAB : ChildMap :=
  .entry (bytes "A") (bytes "A") [⟨bytes "1", bytes "Base", bytes "a"⟩] .nil <|
  .entry (bytes "B") (bytes "B") [⟨bytes "2", bytes "Base", bytes "b"⟩] .nil .nil

/-- The map `mapAB`, visited `B` first. -/
def mapBA : ChildMap :=
  .entry (bytes "B") (bytes "B") [⟨bytes "2", bytes "Base", bytes "b"⟩] .nil <|
  .entry (bytes "A") (bytes "A") [⟨bytes "1", bytes "Base", bytes "a"⟩] .nil .nil

/-- The child elements of a content: name and content of each, in document
order. -/
def Xml.Forest.children : Xml.Forest → List (Xml.Name × Xml.Forest)
  | .nil => []
  | .leaf _ rest => rest.children
  | .elem name _ content rest => (name, content) :: rest.children

/-- Go `d.DecodeElement(subSection, &subStart)` for `subSection :=
&ValidationErrors{}`: the element is decoded into a new, zero `ValidationErrors`. -/
def ValidationErrors.decode (start : Xml.Name) (content : Xml.Forest) : ValidationErrors :=
  ValidationErrors.UnmarshalXML start content ⟨[], [], .nil⟩

/-! ## `encoding/xml`: the decoder and the encoder

`encoding/xml` is not part of the repository.  Its lexer is taken as given: the
input of a decoder is the list of raw tokens the lexer cuts the bytes into
(`<a/>` is a start tag followed by an end tag), with a flag telling whether the
lexer ends with a syntax error (an unterminated tag, comment or attribute value,
an invalid character) rather than at the end of the bytes.  In a raw token a name
is as written: the `Space` of `x:a` is the prefix `x`.  What `Token` adds to the
lexer is modelled: the stack of open elements and of name space bindings, and
the translation of the prefixes into name spaces.

The output of an encoder is given as the list of the pieces written, one for
each token, each piece as the tag or the text that was written: a start tag is
given with the name written after `<` and with the attributes written after it,
the declarations of name spaces among them, a prefix written in front of `:`
being the `Space` of the name. -/

/-- Go `xmlURL`. -/
def xmlURL : List Nat := bytes "http://www.w3.org/XML/1998/namespace"

/-- Go `xmlnsPrefix`. -/
def xmlnsPrefix : List Nat := bytes "xmlns"

/-- Go `xmlPrefix`. -/
def xmlPrefix : List Nat := bytes "xml"

/-- The errors of `encoding/xml` that are told apart. -/
inductive Xml.Error where
  /-- Go `io.EOF`. -/
  | EOF
  /-- Go `*xml.SyntaxError`. -/
  | Syntax
  /-- An error returned by `(*xml.Encoder).EncodeToken`. -/
  | Encode
  deriving DecidableEq, Repr

/-- A Go `map[string]string`, by its entries; `m[key] = v` and `delete` keep at
most one entry for a key. -/
abbrev StrMap : Type := List (List Nat × List Nat)

/-- Go `v, ok := m[key]`: `none` when the key has no entry. -/
def strGet : StrMap → List Nat → Option (List Nat)
  | [], _ => none
  | (k, v) :: m, key => if k = key then some v else strGet m key

/-- Go `m[key] = v`. -/
def strSet (m : StrMap) (key v : List Nat) : StrMap :=
  (key, v) :: m.filter (fun p => decide (p.1 ≠ key))

/-- Go `delete(m, key)`. -/
def strDelete (m : StrMap) (key : List Nat) : StrMap :=
  m.filter (fun p => decide (p.1 ≠ key))

/-- An entry of the stack of a decoder (Go `stack`): an open element with its
name as written (`stkStart`), or a name space binding that an element has
replaced (`stkNs`): `name.Local` is the prefix, `name.Space` the name space it
stood for and `ok` whether it stood for one. -/
inductive Xml.StackEntry where
  | start (name : Xml.Name)
  | ns (name : Xml.Name) (ok : Bool)
  deriving DecidableEq, Repr

/-- Go `xml.Decoder` (strict, as `xml.NewDecoder` returns it): the raw tokens
still to come, whether the lexer fails after them, the stack, innermost entry
first, and the map `ns` from prefixes to name spaces. -/
structure Xml.Decoder where
  input : List Xml.Token
  bad : Bool
  stk : List Xml.StackEntry
  ns : StrMap
  deriving DecidableEq, Repr

/-- Go `xml.NewDecoder`, on the raw tokens of the bytes. -/
def Xml.NewDecoder (data : List Xml.Token) (bad : Bool) : Xml.Decoder := ⟨data, bad, [], []⟩

/-- The end of Go `(*xml.Decoder).translate`: the name space the map has for the
`Space` of the name, if it has one (`DefaultSpace` is empty). -/
def Xml.lookupSpace (ns : StrMap) (n : Xml.Name) : Xml.Name :=
  match strGet ns n.Space with
  | some v => ⟨v, n.Local⟩
  | none => n

/-- Go `(*xml.Decoder).translate`: the prefix `xmlns` is kept, an attribute name
without prefix is kept, the prefix `xml` stands for `xmlURL`, the element name
`xmlns` is kept, and any other prefix, the empty one of an element name
included, is replaced by the name space the map has for it. -/
def Xml.translate (ns : StrMap) (n : Xml.Name) (isElementName : Bool) : Xml.Name :=
  if n.Space = xmlnsPrefix then n
  else if n.Space = [] ∧ isElementName = false then n
  else if n.Space = xmlPrefix then Xml.lookupSpace ns ⟨xmlURL, n.Local⟩
  else if n.Space = [] ∧ n.Local = xmlnsPrefix then n
  else Xml.lookupSpace ns n

/-- The body of the first loop of `Token` on a start tag, for one attribute: an
attribute `xmlns:p="v"` binds the prefix `p` to `v`, an attribute `xmlns="v"`
binds the empty prefix, and each time the former binding goes on the stack
(`pushNs`). -/
def Xml.bindAttr (a : Xml.Attr) (s : List Xml.StackEntry × StrMap) :
    List Xml.StackEntry × StrMap :=
  let s1 : List Xml.StackEntry × StrMap :=
    if a.Name.Space = xmlnsPrefix then
      (.ns ⟨(strGet s.2 a.Name.Local).getD [], a.Name.Local⟩ (strGet s.2 a.Name.Local).isSome :: s.1,
        strSet s.2 a.Name.Local a.Value)
    else s
  if a.Name.Space = [] ∧ a.Name.Local = xmlnsPrefix then
    (.ns ⟨(strGet s1.2 []).getD [], []⟩ (strGet s1.2 []).isSome :: s1.1, strSet s1.2 [] a.Value)
  else s1

/-- The first loop of `Token` on a start tag, over the attributes still to
read. -/
def Xml.bindLoop : List Xml.Attr → List Xml.StackEntry → StrMap → List Xml.StackEntry × StrMap
  | [], stk, ns => (stk, ns)
  | a :: rest, stk, ns =>
      Xml.bindLoop rest (Xml.bindAttr a (stk, ns)).1 (Xml.bindAttr a (stk, ns)).2

/-- The last loop of Go `(*xml.Decoder).popElement`: the bindings on top of the
stack are taken off and undone. -/
def Xml.unbindLoop : List Xml.StackEntry → StrMap → List Xml.StackEntry × StrMap
  | .ns name ok :: stk, ns =>
      Xml.unbindLoop stk (if ok = true then strSet ns name.Local name.Space
        else strDelete ns name.Local)
  | stk, ns => (stk, ns)

/-- Go `(*xml.Decoder).Token`.  At the end of the input the error is the lexer's
syntax error, or the syntax error `unexpected EOF` when the stack is not empty,
or `io.EOF`.  A start tag first binds the prefixes its attributes declare, is
pushed on the stack with its name as written, and is returned with the names of
the element and of the attributes translated.  An end tag must close the entry
on top of the stack, an open element with the same name as written
(`popElement`: same `Local`, same `Space`), and is a syntax error otherwise; it
is returned with its name translated, and the bindings of the element are
undone. -/
def Xml.Decoder.Token (d : Xml.Decoder) : Except Xml.Error (Xml.Token × Xml.Decoder) :=
  match d.input with
  | [] =>
      if d.bad = true then .error .Syntax
      else if d.stk ≠ [] then .error .Syntax
      else .error .EOF
  | t :: rest =>
      match t with
      | .StartElement name attr =>
          let b := Xml.bindLoop attr d.stk d.ns
          .ok (.StartElement (Xml.translate b.2 name true)
                (attr.map (fun a => ⟨Xml.translate b.2 a.Name false, a.Value⟩)),
               ⟨rest, d.bad, .start name :: b.1, b.2⟩)
      | .EndElement name =>
          match d.stk with
          | [] => .error .Syntax
          | .ns _ _ :: _ => .error .Syntax
          | .start s :: stk =>
              if s.Local ≠ name.Local then .error .Syntax
              else if s.Space ≠ name.Space then .error .Syntax
              else
                let u := Xml.unbindLoop stk d.ns
                .ok (.EndElement (Xml.translate d.ns name true), ⟨rest, d.bad, u.1, u.2⟩)
      | _ => .ok (t, ⟨rest, d.bad, d.stk, d.ns⟩)

/-- The loop of Go `(*xml.Decoder).Skip`, with the counter `depth`: tokens are
read until the end tag that closes the element whose start tag has been read.
The first argument bounds the number of iterations; `none` is the result when
the bound is reached. -/
def Xml.Decoder.skipLoop : Nat → Xml.Decoder → Nat → Option (Except Xml.Error Xml.Decoder)
  | 0, _, _ => none
  | fuel + 1, d, depth =>
      match d.Token with
      | .error err => some (.error err)
      | .ok (tok, d1) =>
          match tok with
          | .StartElement _ _ => Xml.Decoder.skipLoop fuel d1 (depth + 1)
          | .EndElement _ =>
              if depth = 0 then some (.ok d1) else Xml.Decoder.skipLoop fuel d1 (depth - 1)
          | _ => Xml.Decoder.skipLoop fuel d1 depth

/-- Go `(*xml.Decoder).Skip`.  Every iteration of its loop reads a token, so the
number of raw tokens left, plus one, bounds the iterations. -/
def Xml.Decoder.Skip (d : Xml.Decoder) : Option (Except Xml.Error Xml.Decoder) :=
  Xml.Decoder.skipLoop (d.input.length + 1) d 0

/-- What is taken as given of `encoding/xml` and `bufio` on the encoder's side:
the check `isNameString` (`isName` is the same check on a byte slice), the check
`isValidDirective`, and `Buffered`, the number of bytes in the buffer of the
encoder's `bufio.Writer` after the given pieces have been written. -/
structure Xml.Lib where
  isNameString : List Nat → Bool
  isValidDirective : List Nat → Bool
  Buffered : List Xml.Token → Nat

/-- Go `xml.Encoder` (its `printer`): the pieces written so far, the open tags,
innermost first, the maps `attrNS` (from the prefixes the encoder has declared to
their name spaces) and `attrPrefix` (the other way round), the stack `prefixes`
of the declared prefixes, with an empty string where an element starts, innermost
first, and the counter `seq`. -/
structure Xml.Encoder where
  out : List Xml.Token
  tags : List Xml.Name
  attrNS : StrMap
  attrPrefix : StrMap
  prefixes : List (List Nat)
  seq : Nat
  deriving DecidableEq, Repr

/-- Go `xml.NewEncoder`. -/
def Xml.NewEncoder : Xml.Encoder := ⟨[], [], [], [], [], 0⟩

/-- Go `strings.TrimRight(s, "/")`. -/
def trimRightSlash (s : List Nat) : List Nat :=
  (s.reverse.dropWhile (fun c => decide (c = 47))).reverse

/-- Go `s[strings.LastIndex(s, "/")+1:]`, or `s` without a `/`: what follows the
last `/`. -/
def afterLastSlash (s : List Nat) : List Nat :=
  (s.reverse.takeWhile (fun c => decide (c ≠ 47))).reverse

/-- Go `len(s) >= 3 && strings.EqualFold(s[:3], "xml")`: only the letters
themselves, in either case, fold to `x`, `m` and `l`. -/
def foldsToXml : List Nat → Bool
  | a :: b :: c :: _ =>
      decide (a = 120 ∨ a = 88) && decide (b = 109 ∨ b = 77) && decide (c = 108 ∨ c = 76)
  | _ => false

/-- The loop of `createAttrPrefix` that looks for a prefix not yet declared:
`pfx_1`, `pfx_2`, … from the counter on.  The first argument bounds the number
of iterations; `none` is the result when the bound is reached. -/
def Xml.freshLoop (attrNS : StrMap) (pfx : List Nat) : Nat → Nat → Option (List Nat × Nat)
  | 0, _ => none
  | fuel + 1, seq =>
      if (strGet attrNS (pfx ++ bytes "_" ++ FormatInt (seq : Int))).getD [] = [] then
        some (pfx ++ bytes "_" ++ FormatInt (seq : Int), seq)
      else Xml.freshLoop attrNS pfx fuel (seq + 1)

/-- Go `(*printer).createAttrPrefix`: the prefix to write for the name space
`url` of an attribute, the declaration written in front of the attribute (none
when the prefix is declared already, or is `xml`), and the encoder afterwards.
A new prefix is the end of the path of `url`, or `_`, with a `_` in front when it
starts with `xml`, and with a number at its end when it is taken.  Among as many
candidates as there are declared prefixes, plus one, one is not taken, which
bounds the search. -/
def Xml.Encoder.createAttrPrefix (lib : Xml.Lib) (e : Xml.Encoder) (url : List Nat) :
    Option (List Nat × List Xml.Attr × Xml.Encoder) :=
  if (strGet e.attrPrefix url).getD [] ≠ [] then some ((strGet e.attrPrefix url).getD [], [], e)
  else if url = xmlURL then some (xmlPrefix, [], e)
  else
    let p0 := afterLastSlash (trimRightSlash url)
    let p1 := if p0 = [] ∨ lib.isNameString p0 = false ∨ Contains p0 58 = true then bytes "_"
      else p0
    let p2 := if foldsToXml p1 = true then bytes "_" ++ p1 else p1
    let found : Option (List Nat × Nat) :=
      if (strGet e.attrNS p2).getD [] ≠ [] then
        Xml.freshLoop e.attrNS p2 (e.attrNS.length + 1) (e.seq + 1)
      else some (p2, e.seq)
    match found with
    | none => none
    | some (pfx, seq) =>
        some (pfx, [⟨⟨xmlnsPrefix, pfx⟩, url⟩],
          ⟨e.out, e.tags, strSet e.attrNS pfx url, strSet e.attrPrefix url pfx,
            pfx :: e.prefixes, seq⟩)

/-- The loop of `writeStart` over the attributes still to write, with the
attributes written so far: an attribute without a name is left out, an attribute
with a name space is written with the prefix of `createAttrPrefix`, after the
declaration of that prefix if there is one. -/
def Xml.Encoder.attrLoop (lib : Xml.Lib) :
    List Xml.Attr → Xml.Encoder → List Xml.Attr → Option (List Xml.Attr × Xml.Encoder)
  | [], e, written => some (written, e)
  | a :: rest, e, written =>
      if a.Name.Local = [] then Xml.Encoder.attrLoop lib rest e written
      else if a.Name.Space ≠ [] then
        match e.createAttrPrefix lib a.Name.Space with
        | none => none
        | some (pfx, decl, e1) =>
            Xml.Encoder.attrLoop lib rest e1 (written ++ decl ++ [⟨⟨pfx, a.Name.Local⟩, a.Value⟩])
      else Xml.Encoder.attrLoop lib rest e (written ++ [⟨⟨[], a.Name.Local⟩, a.Value⟩])

/-- Go `(*printer).writeStart`: a start tag needs a name; it is pushed on `tags`,
the start of an element is marked on `prefixes` (`markPrefix`), and `<Local` is
written, then `xmlns="Space"` when the name has a name space, then the
attributes.  `none` is the bound of `createAttrPrefix` being reached. -/
def Xml.Encoder.writeStart (lib : Xml.Lib) (e : Xml.Encoder) (name : Xml.Name)
    (attr : List Xml.Attr) : Option (Except Xml.Error Xml.Encoder) :=
  if name.Local = [] then some (.error .Encode)
  else
    match Xml.Encoder.attrLoop lib attr
        ⟨e.out, name :: e.tags, e.attrNS, e.attrPrefix, [] :: e.prefixes, e.seq⟩
        (if name.Space ≠ [] then [⟨⟨[], xmlnsPrefix⟩, name.Space⟩] else []) with
    | none => none
    | some (written, e1) =>
        some (.ok ⟨e1.out ++ [.StartElement ⟨[], name.Local⟩ written], e1.tags, e1.attrNS,
          e1.attrPrefix, e1.prefixes, e1.seq⟩)

/-- Go `(*printer).popPrefix`, over the stack `prefixes`: the prefixes declared
since the start of the element are taken off and forgotten
(`deleteAttrPrefix`), and so is the mark of the element. -/
def Xml.popPrefixLoop : List (List Nat) → StrMap → StrMap → List (List Nat) × StrMap × StrMap
  | [], attrNS, attrPrefix => ([], attrNS, attrPrefix)
  | pfx :: rest, attrNS, attrPrefix =>
      if pfx = [] then (rest, attrNS, attrPrefix)
      else Xml.popPrefixLoop rest (strDelete attrNS pfx)
        (strDelete attrPrefix ((strGet attrNS pfx).getD []))

/-- Go `(*printer).writeEnd`: an end tag needs a name and must be the innermost
open tag, name space included; `</Local>` is written. -/
def Xml.Encoder.writeEnd (e : Xml.Encoder) (name : Xml.Name) : Except Xml.Error Xml.Encoder :=
  if name.Local = [] then .error .Encode
  else
    match e.tags with
    | [] => .error .Encode
    | top :: tags =>
        if top.Local = [] then .error .Encode
        else if top ≠ name then .error .Encode
        else
          let p := Xml.popPrefixLoop e.prefixes e.attrNS e.attrPrefix
          .ok ⟨e.out ++ [.EndElement ⟨[], name.Local⟩], tags, p.2.1, p.2.2, p.1, e.seq⟩

/-- Go `(*xml.Encoder).EncodeToken`.  A start tag goes to `writeStart` and an end
tag to `writeEnd`; a comment may not contain `-->`; a processing instruction
with the target `xml` is accepted only while the buffer is empty, its target
must be a name and its text may not contain `?>`; a directive must pass
`isValidDirective`.  Writing to a `bytes.Buffer` never fails.  `none` is the
bound of `createAttrPrefix` being reached. -/
def Xml.Encoder.EncodeToken (lib : Xml.Lib) (e : Xml.Encoder) (t : Xml.Token) :
    Option (Except Xml.Error Xml.Encoder) :=
  match t with
  | .StartElement name attr => e.writeStart lib name attr
  | .EndElement name => some (e.writeEnd name)
  | .CharData _ => some (.ok ⟨e.out ++ [t], e.tags, e.attrNS, e.attrPrefix, e.prefixes, e.seq⟩)
  | .Comment data =>
      if List.IsInfix (bytes "-->") data then some (.error .Encode)
      else some (.ok ⟨e.out ++ [t], e.tags, e.attrNS, e.attrPrefix, e.prefixes, e.seq⟩)
  | .ProcInst target inst =>
      if target = bytes "xml" ∧ lib.Buffered e.out ≠ 0 then some (.error .Encode)
      else if lib.isNameString target = false then some (.error .Encode)
      else if List.IsInfix (bytes "?>") inst then some (.error .Encode)
      else some (.ok ⟨e.out ++ [t], e.tags, e.attrNS, e.attrPrefix, e.prefixes, e.seq⟩)
  | .Directive data =>
      if lib.isValidDirective data = false then some (.error .Encode)
      else some (.ok ⟨e.out ++ [t], e.tags, e.attrNS, e.attrPrefix, e.prefixes, e.seq⟩)

/-! ## `StripNilElements` (`response.go`) -/

/-- The loop of `IsTokenNil` over the attributes still to read. -/
def isNilLoop : List Xml.Attr → Bool
  | [] => false
  | attr :: rest =>
      if attr.Name.Space = [] ∧ attr.Name.Local = bytes "nil" ∧ attr.Value = bytes "true" then true
      else isNilLoop rest

/-- Go `IsTokenNil`. -/
def IsTokenNil : Xml.Token → Bool
  | .StartElement _ attr => isNilLoop attr
  | _ => false

/-- The `for` loop of `StripNilElements`.  The first argument bounds the number
of iterations; `none` is the result when the bound is reached, or when it is
reached in `Skip` or in `EncodeToken`. -/
def stripLoop (lib : Xml.Lib) : Nat → Xml.Decoder → Xml.Encoder →
    Option (Except Xml.Error Xml.Encoder)
  | 0, _, _ => none
  | fuel + 1, decoder, encoder =>
      match decoder.Token with
      | .error .EOF => some (.ok encoder)
      | .error err => some (.error err)
      | .ok (token, d1) =>
          if IsTokenNil token = true then
            match d1.Skip with
            | none => none
            | some (.error err) => some (.error err)
            | some (.ok d2) => stripLoop lib fuel d2 encoder
          else
            match encoder.EncodeToken lib token with
            | none => none
            | some (.error err) => some (.error err)
            | some (.ok e1) => stripLoop lib fuel d1 e1

/-- Go `StripNilElements`, on the raw tokens of `data` and the flag telling
whether the lexer fails after them; the result is the pieces written (`Flush`
moves them to the `bytes.Buffer` and cannot fail), or the error, with which Go
returns the nil slice.  Every iteration of the loop reads a token, so the number
of raw tokens, plus one, bounds the iterations; `none` is the result when that
bound is reached. -/
def StripNilElements (lib : Xml.Lib) (data : List Xml.Token) (bad : Bool) :
    Option (Except Xml.Error (List Xml.Token)) :=
  match stripLoop lib (data.length + 1) (Xml.NewDecoder data bad) Xml.NewEncoder with
  | none => none
  | some (.error err) => some (.error err)
  | some (.ok encoder) => some (.ok encoder.out)

/-! ## Notions used to state the properties of `StripNilElements` -/

/-- A start tag or an end tag. -/
def Xml.Token.isTag : Xml.Token → Bool
  | .StartElement _ _ => true
  | .EndElement _ => true
  | _ => false

/-- The open elements after a list of tokens, starting from the open elements
`stk` (innermost first); `none` when an end tag does not close the innermost
open element. -/
def Xml.nesting : List Xml.Name → List Xml.Token → Option (List Xml.Name)
  | stk, [] => some stk
  | stk, .StartElement name _ :: rest => Xml.nesting (name :: stk) rest
  | stk, .EndElement name :: rest =>
      match stk with
      | [] => none
      | s :: stk1 => if s = name then Xml.nesting stk1 rest else none
  | stk, _ :: rest => Xml.nesting stk rest

/-- An input with an unterminated or mismatched element, or on which the lexer
fails. -/
def Xml.malformed (data : List Xml.Token) (bad : Bool) : Prop :=
  bad = true ∨ Xml.nesting [] data ≠ some []

/-- The open elements of a stack, innermost first. -/
def Xml.openNames : List Xml.StackEntry → List Xml.Name
  | [] => []
  | .start name :: stk => name :: Xml.openNames stk
  | .ns _ _ :: stk => Xml.openNames stk

/-- A stack with no binding on top: between two calls of `Token` the bindings
lie under the element that declared them. -/
def Xml.topStart : List Xml.StackEntry → Bool
  | .ns _ _ :: _ => false
  | _ => true

/-- The encoder-side parameters used to evaluate the examples: every non-empty
target is a name, every directive is valid, and every token written leaves
bytes in the buffer. -/
def Xml.testLib : Xml.Lib :=
  ⟨fun s => decide (s ≠ []), fun _ => true, fun out => out.length⟩

/-- The start tag `<name>`, or `<name nil="value">`. -/
def testStart (name : String) (nilValue : Option String) : Xml.Token :=
  .StartElement ⟨[], bytes name⟩
    (match nilValue with
     | none => []
     | some v => [⟨⟨[], bytes "nil"⟩, bytes v⟩])

/-- The end tag `</name>`. -/
def testEnd (name : String) : Xml.Token := .EndElement ⟨[], bytes name⟩

/-- The raw tokens of `<a xmlns:i="urn:i"><b i:nil="true"></b></a>`. -/
def nsNilDocument : List Xml.Token :=
  [.StartElement ⟨[], bytes "a"⟩ [⟨⟨bytes "xmlns", bytes "i"⟩, bytes "urn:i"⟩],
   .StartElement ⟨[], bytes "b"⟩ [⟨⟨bytes "i", bytes "nil"⟩, bytes "true"⟩],
   testEnd "b", testEnd "a"]

/-- Go `(*Time).nsec`: the low 30 bits of `wall`. -/
def Time.nsec (t : Time) : Int := ((t.wall % 2 ^ 30 : Nat) : Int)

/-- Go `wallToInternal`: the seconds from the year 1 to the year 1885. -/
def wallToInternal : Int := (1884 * 365 + 1884 / 4 - 1884 / 100 + 1884 / 400) * 86400

/-- Go `unixToInternal`: the seconds from the year 1 to the year 1970. -/
def unixToInternal : Int := (1969 * 365 + 1969 / 4 - 1969 / 100 + 1969 / 400) * 86400

/-- Go `internalToAbsolute`: the seconds from the year `absoluteZeroYear` to the
year 1. -/
def internalToAbsolute : Int := 9223371966579724800

/-- Go `(*Time).sec`: the seconds since January 1 of the year 1.  When the bit
`hasMonotonic` (bit 63) of `wall` is set they are `wallToInternal` plus the 33
bits of `wall` above the nanoseconds, otherwise they are `ext`. -/
def Time.sec (t : Time) : Int :=
  if t.wall / 2 ^ 63 % 2 = 1 then wallToInternal + ((t.wall % 2 ^ 63 / 2 ^ 30 : Nat) : Int)
  else t.ext

/-- Go `(*Time).unixSec`: the seconds since January 1, 1970 UTC. -/
def Time.unixSec (t : Time) : Int := wrap64 (t.sec - unixToInternal)

/-- Go `Time.IsZero`. -/
def Time.IsZero (t : Time) : Bool := decide (t.sec = 0) && decide (t.nsec = 0)

/-- Go `Time.UTC`: `setLoc(&utcLoc)` strips the monotonic clock reading
(`stripMono`) and sets the location to nil. -/
def Time.UTC (t : Time) : Time :=
  if t.wall / 2 ^ 63 % 2 = 1 then ⟨t.wall % 2 ^ 30, t.sec, none⟩ else ⟨t.wall, t.ext, none⟩

/-- Go `Time.abs`: the seconds since January 1 of the year `absoluteZeroYear`, as
a `uint64`, on the clock of the location of `t`: the offset in force there is
added to the Unix time, unless the location is UTC. -/
def Time.abs (zone : Nat → Int → Int) (t : Time) : Nat :=
  let sec : Int :=
    match t.loc with
    | none => t.unixSec
    | some l => wrap64 (t.unixSec + zone l t.unixSec)
  ((sec + (unixToInternal + internalToAbsolute)) % 2 ^ 64).toNat

/-- Go `absoluteZeroYear`. -/
def absoluteZeroYear : Int := -292277022399

/-- Go `isLeap`. -/
def isLeap (year : Int) : Bool :=
  decide (year % 4 = 0) && (decide (year % 100 ≠ 0) || decide (year % 400 = 0))

/-- Go `daysBefore`: the days of a non-leap year before the start of each month,
and of the whole year. -/
def daysBefore : List Nat := [0, 31, 59, 90, 120, 151, 181, 212, 243, 273, 304, 334, 365]

/-- The second half of Go `absDate`: month and day of the month from the year and
the day of the year (from 0). -/
def monthDay (year : Int) (yday : Nat) : Nat × Nat :=
  if isLeap year = true ∧ yday = 31 + 29 - 1 then (2, 29)
  else
    let day := if isLeap year = true ∧ yday > 31 + 29 - 1 then yday - 1 else yday
    let month := day / 31
    let «end» := daysBefore.getD (month + 1) 0
    if day ≥ «end» then (month + 1 + 1, day - «end» + 1)
    else (month + 1, day - daysBefore.getD month 0 + 1)

/-- Go `absDate(abs, true)`: year, month and day of the month. -/
def absDate (abs : Nat) : Int × Nat × Nat :=
  let d := abs / 86400
  let n := d / 146097
  let y := 400 * n
  let d := d - 146097 * n
  let n := d / 36524
  let n := n - n / 4
  let y := y + 100 * n
  let d := d - 36524 * n
  let n := d / 1461
  let y := y + 4 * n
  let d := d - 1461 * n
  let n := d / 365
  let n := n - n / 4
  let y := y + n
  let d := d - 365 * n
  let year : Int := (y : Int) + absoluteZeroYear
  (year, monthDay year d)

/-- Go `absClock`: hour, minute and second. -/
def absClock (abs : Nat) : Nat × Nat × Nat :=
  let sec := abs % 86400
  let hour := sec / 3600
  let sec := sec - hour * 3600
  let min := sec / 60
  let sec := sec - min * 60
  (hour, min, sec)

/-- Go `appendInt(b, x, width)` of the package `time`, without `b`: a `'-'` for a
negative `x`, then the decimal digits of the magnitude after as many `'0'` as
it takes to reach `width` digits. -/
def appendInt (x : Int) (width : Nat) : List Nat :=
  let digits := formatBits x.natAbs x.natAbs []
  (if x < 0 then [chMinus] else []) ++ List.replicate (width - digits.length) chZero ++ digits

/-- The layout `2006-01-02T15:04:05Z` of Go `Time.AppendFormat`, on the seconds
`abs` that `locabs` returns: the year on 4 digits, the month, the day, the hour,
the minute and the second on 2 digits each, with the literal characters between
them; the final `Z` is a literal. -/
def formatAbs (abs : Nat) : List Nat :=
  let date := absDate abs
  let clock := absClock abs
  appendInt date.1 4 ++ bytes "-" ++ appendInt date.2.1 2 ++ bytes "-" ++ appendInt date.2.2 2
    ++ bytes "T" ++ appendInt clock.1 2 ++ bytes ":" ++ appendInt clock.2.1 2 ++ bytes ":"
    ++ appendInt clock.2.2 2 ++ bytes "Z"

/-- Go `t.Format("2006-01-02T15:04:05Z")`: the layout on the clock of the
location of `t`. -/
def Time.Format (zone : Nat → Int → Int) (t : Time) : List Nat := formatAbs (t.abs zone)

/-! ## `TimeField.MarshalXML` (`request.go`) -/

/-- Go `xml.StartElement`. -/
structure Xml.StartElement where
  Name : Xml.Name
  Attr : List Xml.Attr
  deriving DecidableEq, Repr

/-- Go `(*xml.Encoder).EncodeElement(v, start)` for a `string` `v`: a start tag
without a name is an error; otherwise the start tag is written, then the text
`v` as character data (nothing for the empty string), then the end tag. -/
def Xml.Encoder.EncodeElement (lib : Xml.Lib) (e : Xml.Encoder) (v : List Nat)
    (start : Xml.StartElement) : Option (Except Xml.Error Xml.Encoder) :=
  if start.Name.Local = [] then some (.error .Encode)
  else
    match e.writeStart lib start.Name start.Attr with
    | none => none
    | some (.error err) => some (.error err)
    | some (.ok e1) =>
        let e2 : Xml.Encoder :=
          if v = [] then e1
          else ⟨e1.out ++ [.CharData v], e1.tags, e1.attrNS, e1.attrPrefix, e1.prefixes, e1.seq⟩
        some (e2.writeEnd start.Name)

/-- Go `TimeField.marshalXML`. -/
def TimeField.marshalXML (lib : Xml.Lib) (zone : Nat → Int → Int) (_d : TimeField)
    (e : Xml.Encoder) (name : String) (value : Time) : Option (Except Xml.Error Xml.Encoder) :=
  if value.IsZero = true then some (.ok e)
  else
    let start : Xml.StartElement :=
      ⟨⟨[], bytes name⟩, [⟨⟨[], bytes "type"⟩, bytes "datetime"⟩]⟩
    e.EncodeElement lib (value.UTC.Format zone) start

/-- Go `TimeField.MarshalXML`; `d.XMLName` is the name with the local part
`XMLName` and no name space.  `none` is the bound of `createAttrPrefix` being
reached. -/
def TimeField.MarshalXML (lib : Xml.Lib) (zone : Nat → Int → Int) (d : TimeField)
    (e : Xml.Encoder) (start : Xml.StartElement) : Option (Except Xml.Error Xml.Encoder) :=
  let start : Xml.StartElement := ⟨⟨[], bytes d.XMLName⟩, start.Attr⟩
  match e.EncodeToken lib (.StartElement start.Name start.Attr) with
  | none => none
  | some (.error err) => some (.error err)
  | some (.ok e) =>
      match d.marshalXML lib zone e "is" d.Is with
      | none => none
      | some (.error err) => some (.error err)
      | some (.ok e) =>
          match d.marshalXML lib zone e "min" d.Min with
          | none => none
          | some (.error err) => some (.error err)
          | some (.ok e) =>
              match d.marshalXML lib zone e "max" d.Max with
              | none => none
              | some (.error err) => some (.error err)
              | some (.ok e) => e.EncodeToken lib (.EndElement start.Name)

/-! ## Notions used to state the properties of `TimeField.MarshalXML` -/

/-- The time converted to UTC, in the layout `2006-01-02T15:04:05Z`: the layout
on the seconds from the year `absoluteZeroYear` to the instant `t`, counted in
UTC, whatever the location of `t`. -/
def utcText (t : Time) : List Nat := formatAbs ((t.sec + internalToAbsolute) % 2 ^ 64).toNat

/-- The child element of a sub-field: nothing for a zero time, otherwise the
element with the given name, the attribute `type="datetime"` and the time
converted to UTC as its text. -/
def timeChild (name : String) (value : Time) : List Xml.Token :=
  if value.IsZero = true then []
  else
    [.StartElement ⟨[], bytes name⟩ [⟨⟨[], bytes "type"⟩, bytes "datetime"⟩],
     .CharData (utcText value),
     .EndElement ⟨[], bytes name⟩]

/-- A text in the pattern `2006-01-02T15:04:05Z`: twenty bytes, digits except
for `-` at the positions 4 and 7, `T` at 10, `:` at 13 and 16, and `Z` at the
end. -/
def layoutOK : List Nat → Bool
  | [y1, y2, y3, y4, a, m1, m2, b, d1, d2, t, h1, h2, c, n1, n2, e, s1, s2, z] =>
      decide (isDigit y1) && decide (isDigit y2) && decide (isDigit y3) && decide (isDigit y4) &&
      decide (a = 45) && decide (isDigit m1) && decide (isDigit m2) && decide (b = 45) &&
      decide (isDigit d1) && decide (isDigit d2) && decide (t = 84) &&
      decide (isDigit h1) && decide (isDigit h2) && decide (c = 58) &&
      decide (isDigit n1) && decide (isDigit n2) && decide (e = 58) &&
      decide (isDigit s1) && decide (isDigit s2) && decide (z = 90)
  | _ => false

/-- The year of a time, in UTC. -/
def Time.year (t : Time) : Int := (absDate ((t.sec + internalToAbsolute) % 2 ^ 64).toNat).1

/-- The predicate `settled-at` of `TestSearchXMLEncode`: `Min` is
2016-09-11 00:00:00 UTC and `Max` is 2016-09-11 23:59:59 UTC. -/
def settledAt : TimeField :=
  { XMLName := "settled-at", Min := ⟨0, 63609148800, none⟩, Max := ⟨0, 63609235199, none⟩ }

/-- A zone table for the examples: every location is one hour east of UTC. -/
def testZone : Nat → Int → Int := fun _ _ => 3600

/-- The predicate `settled-at` with the same two instants in a location one hour
east of UTC, where the clocks show 01:00:00 on 2016-09-11 and 00:59:59 on
2016-09-12. -/
def settledAtLocal : TimeField :=
  { XMLName := "settled-at", Min := ⟨0, 63609148800, some 1⟩, Max := ⟨0, 63609235199, some 1⟩ }

/-- A predicate without a key, for `Min` 2016-09-11 00:00:00 UTC. -/
def noKey : TimeField := { XMLName := "", Min := ⟨0, 63609148800, none⟩ }

/-- January 1 of the year 10000, 00:00:00 UTC. -/
def year10000 : Time := ⟨0, 315537897600, none⟩

/-! ## Paged search (`transaction.go`, `customer.go`, `subscription.go`, `cc.go`)

An `int` is the 64-bit integer of the 64-bit platforms: arithmetic wraps around
with `wrap64`.  The HTTP exchange and the XML decoding of its answer are taken as
given: a function that builds a `SearchResult` takes the outcome of `c.do` and
`xml.Unmarshal`, and a function that hydrates a page takes the function `fetch`
that sends the page query and decodes the answer. -/

/-- Go `SearchResult`. -/
structure SearchResult where
  Page : Int := 0
  PageSize : Int := 0
  PageCount : Int := 0
  IDs : List String := []
  deriving DecidableEq, Repr

/-- Go `a / b` on `int`: the quotient truncated towards zero (the most negative
value divided by `-1` wraps around); `none` is the run-time panic of a division
by zero. -/
def intDiv (a b : Int) : Option Int :=
  if b = 0 then none else some (wrap64 (Int.tdiv a b))

/-- The `return &SearchResult{…}` the four identifier searches end with, from the
decoded `PageSize` and `Ids.Item`. -/
def newSearchResult (pageSize : Int) (item : List String) : Option SearchResult :=
  match intDiv (wrap64 (wrap64 ((item.length : Int) + pageSize) - 1)) pageSize with
  | none => none
  | some pageCount => some { PageSize := pageSize, PageCount := pageCount, IDs := item }

/-- Go `(*APIClient).SearchTxs`, after `c.do` and `xml.Unmarshal`: `decoded` is
the error of either, or the decoded `PageSize` and `Ids.Item`.  `none` is a
run-time panic. -/
def SearchTxs {ε : Type} (decoded : Except ε (Int × List String)) :
    Option (Except ε SearchResult) :=
  match decoded with
  | .error err => some (.error err)
  | .ok (pageSize, item) => (newSearchResult pageSize item).map .ok

/-- Go `(*APIClient).SearchCustomersByIDs`, after `c.do` and `xml.Unmarshal`. -/
def SearchCustomersByIDs {ε : Type} (decoded : Except ε (Int × List String)) :
    Option (Except ε SearchResult) :=
  match decoded with
  | .error err => some (.error err)
  | .ok (pageSize, item) => (newSearchResult pageSize item).map .ok

/-- Go `(*APIClient).SearchSubscriptions`, after `c.do` and `xml.Unmarshal`. -/
def SearchSubscriptions {ε : Type} (decoded : Except ε (Int × List String)) :
    Option (Except ε SearchResult) :=
  match decoded with
  | .error err => some (.error err)
  | .ok (pageSize, item) => (newSearchResult pageSize item).map .ok

/-- Go `(*APIClient).ExpiringBetween`, after `c.do` and `xml.Unmarshal`. -/
def ExpiringBetween {ε : Type} (decoded : Except ε (Int × List String)) :
    Option (Except ε SearchResult) :=
  match decoded with
  | .error err => some (.error err)
  | .ok (pageSize, item) => (newSearchResult pageSize item).map .ok

/-- Go `fmt.Errorf("page %d out of bounds, page numbers start at 1 and page count
is %d", page, count)`: the text of the error. -/
def boundsError (page count : Int) : List Nat :=
  bytes "page " ++ FormatInt page
    ++ bytes " out of bounds, page numbers start at 1 and page count is " ++ FormatInt count

/-- The errors a page hydration returns: the out-of-bounds error with its text,
or the error of the hydration request. -/
inductive PageError (ε : Type) where
  | bounds (msg : List Nat)
  | fetch (err : ε)
  deriving DecidableEq, Repr

/-- Go `TransactionSearchResult` (and `CustomerSearchResult`,
`SubscriptionSearchResult`, `CreditCardSearchResult`, which differ in the name
and type of the last field); `τ` is the type of the hydrated records. -/
structure PageResult (τ : Type) where
  TotalItems : Int
  TotalIDs : List String
  CurrentPageNumber : Int
  PageSize : Int
  Records : τ
  deriving DecidableEq, Repr

/-- What a page hydration leaves behind: the heap, the addresses of the queries
sent in hydration requests, and the two results (`none` is `nil`). -/
structure PageRun (τ ε : Type) where
  heap : Heap
  requests : List Nat
  result : Option (PageResult τ)
  err : Option (PageError ε)

/-- The offsets `startOffset` and `endOffset` as the page hydrations compute
them. -/
def pageOffsets (sr : SearchResult) : Int × Int :=
  let startOffset := wrap64 (wrap64 (sr.Page - 1) * sr.PageSize)
  let endOffset := wrap64 (startOffset + sr.PageSize)
  let endOffset := if endOffset > (sr.IDs.length : Int) then (sr.IDs.length : Int) else endOffset
  (startOffset, endOffset)

/-- Go `s[lo:hi]` on a slice whose capacity `hi` does not exceed when it does not
exceed the length: `none` is the run-time panic of a slice bound out of range. -/
def sliceExpr {α : Type} (s : List α) (lo hi : Int) : Option (List α) :=
  if 0 ≤ lo ∧ lo ≤ hi ∧ hi ≤ (s.length : Int) then some ((s.take hi.toNat).drop lo.toNat)
  else none

/-- The slice `IDs[startOffset:endOffset]` of a page. -/
def pageIDs (sr : SearchResult) : Option (List String) :=
  sliceExpr sr.IDs (pageOffsets sr).1 (pageOffsets sr).2

/-- Go `f.Items = items` for the `*MultiField` at address `f`. -/
def setItems (h : Heap) (f : Nat) (items : List String) : Option Heap :=
  match h.objs[f]? with
  | some (.multi m) => some { h with objs := h.objs.set f (.multi { m with Items := items }) }
  | _ => none

/-- Go `(*APIClient).SearchTx`, on the query at address `query`; `fetch` is
`c.FetchTx` on a heap and the address of a query.  `none` is a run-time panic. -/
def SearchTx {τ ε : Type} (extra : Nat → Nat) (fetch : Heap → Nat → τ × Option ε) (h : Heap)
    (query : Nat) (searchResult : SearchResult) : Option (PageRun τ ε) :=
  if searchResult.Page < 1 ∨ searchResult.Page > searchResult.PageCount then
    some ⟨h, [], none, some (.bounds (boundsError searchResult.Page searchResult.PageCount))⟩
  else
    match ShallowCopy h query with
    | none => none
    | some (h1, pageQuery) =>
        match AddMultiField extra h1 pageQuery "ids" with
        | none => none
        | some (h2, f) =>
            match pageIDs searchResult with
            | none => none
            | some items =>
                match setItems h2 f items with
                | none => none
                | some h3 =>
                    let fetched := fetch h3 pageQuery
                    some ⟨h3, [pageQuery],
                      some ⟨(searchResult.IDs.length : Int), searchResult.IDs, searchResult.Page,
                        searchResult.PageSize, fetched.1⟩,
                      fetched.2.map PageError.fetch⟩

/-- Go `(*APIClient).SearchCustomer`: the code of `SearchTx`, with
`c.fetchCustomers` for `fetch`. -/
def SearchCustomer {τ ε : Type} (extra : Nat → Nat) (fetch : Heap → Nat → τ × Option ε)
    (h : Heap) (query : Nat) (result : SearchResult) : Option (PageRun τ ε) :=
  if result.Page < 1 ∨ result.Page > result.PageCount then
    some ⟨h, [], none, some (.bounds (boundsError result.Page result.PageCount))⟩
  else
    match ShallowCopy h query with
    | none => none
    | some (h1, pageQuery) =>
        match AddMultiField extra h1 pageQuery "ids" with
        | none => none
        | some (h2, f) =>
            match pageIDs result with
            | none => none
            | some items =>
                match setItems h2 f items with
                | none => none
                | some h3 =>
                    let fetched := fetch h3 pageQuery
                    some ⟨h3, [pageQuery],
                      some ⟨(result.IDs.length : Int), result.IDs, result.Page,
                        result.PageSize, fetched.1⟩,
                      fetched.2.map PageError.fetch⟩

/-- Go `(*APIClient).SearchSubscription`: the code of `SearchTx`, with
`c.FetchSubscriptions` for `fetch`. -/
def SearchSubscription {τ ε : Type} (extra : Nat → Nat) (fetch : Heap → Nat → τ × Option ε)
    (h : Heap) (query : Nat) (searchResult : SearchResult) : Option (PageRun τ ε) :=
  if searchResult.Page < 1 ∨ searchResult.Page > searchResult.PageCount then
    some ⟨h, [], none, some (.bounds (boundsError searchResult.Page searchResult.PageCount))⟩
  else
    match ShallowCopy h query with
    | none => none
    | some (h1, pageQuery) =>
        match AddMultiField extra h1 pageQuery "ids" with
        | none => none
        | some (h2, f) =>
            match pageIDs searchResult with
            | none => none
            | some items =>
                match setItems h2 f items with
                | none => none
                | some h3 =>
                    let fetched := fetch h3 pageQuery
                    some ⟨h3, [pageQuery],
                      some ⟨(searchResult.IDs.length : Int), searchResult.IDs, searchResult.Page,
                        searchResult.PageSize, fetched.1⟩,
                      fetched.2.map PageError.fetch⟩

/-- Go `(*APIClient).ExpiringBetweenPaged`: the page query is a new `&Search{}`,
and `fetch` is `c.fetchExpiringBetween` with the two dates. -/
def ExpiringBetweenPaged {τ ε : Type} (extra : Nat → Nat) (fetch : Heap → Nat → τ × Option ε)
    (h : Heap) (result : SearchResult) : Option (PageRun τ ε) :=
  if result.Page < 1 ∨ result.Page > result.PageCount then
    some ⟨h, [], none, some (.bounds (boundsError result.Page result.PageCount))⟩
  else
    match newSearch h with
    | (h1, pageQuery) =>
        match AddMultiField extra h1 pageQuery "ids" with
        | none => none
        | some (h2, f) =>
            match pageIDs result with
            | none => none
            | some items =>
                match setItems h2 f items with
                | none => none
                | some h3 =>
                    let fetched := fetch h3 pageQuery
                    some ⟨h3, [pageQuery],
                      some ⟨(result.IDs.length : Int), result.IDs, result.Page,
                        result.PageSize, fetched.1⟩,
                      fetched.2.map PageError.fetch⟩

/-! ## Notions used to state the properties of the paged search -/

/-- A `SearchResult` whose page size is a positive `int` and whose identifier
list is one a Go program can hold: a `[]string` of `n` elements takes `16 * n`
bytes, which do not exceed the largest `int`. -/
def SearchResult.sized (sr : SearchResult) : Prop :=
  1 ≤ sr.PageSize ∧ sr.PageSize ≤ maxInt64 ∧ 16 * (sr.IDs.length : Int) ≤ maxInt64

/-- The `Items` of the `MultiField` the search at `s` holds under a name. -/
def itemsOf (h : Heap) (s : Nat) (name : String) : Option (List String) :=
  match indexOf h s name, fieldsOf h s with
  | some i, some l =>
      match l[i]? with
      | some (some f) =>
          match h.objs[f]? with
          | some (.multi m) => some m.Items
          | _ => none
      | _ => none
  | _, _ => none

/-- The identifier slices of the pages `1..pageCount`, in page order. -/
def pagesOf (pageSize pageCount : Int) (ids : List String) : List (Option (List String)) :=
  (List.range pageCount.toNat).map
    (fun (i : Nat) => pageIDs ⟨(i : Int) + 1, pageSize, pageCount, ids⟩)

/-- A list of `n` distinct identifiers. -/
def testIDs (n : Nat) : List String := (List.range n).map (fun i => String.mk [Char.ofNat i])

/-! ## Webhook signatures (`webhook.go`)

The hash functions are taken as given (`Crypto`), and so are the base64 decoder,
the XML lexer and `xml.Unmarshal` (`Codec`). -/

/-- Go `strings.Split(s, sep)` for a `sep` of one byte: the pieces of `s` between
the occurrences of `sep`, one more than there are occurrences. -/
def Split (s : List Nat) (sep : Nat) : List (List Nat) := segments sep s

/-- Go `SignatureError`. -/
structure SignatureError where
  Message : List Nat
  deriving DecidableEq, Repr

/-- Go `SignatureError.Error`. -/
def SignatureError.Error (i : SignatureError) : List Nat :=
  if i.Message = [] then bytes "Invalid Signature" else i.Message

/-- The values of the Go interface `error` that are told apart: a
`SignatureError`, an error of the base64 decoder, an error of the XML decoder or
encoder in `StripNilElements`, an error of `xml.Unmarshal` with its text, and any
other error with its text. -/
inductive GoError where
  | signature (e : SignatureError)
  | base64
  | xml (e : Xml.Error)
  | unmarshal (text : List Nat)
  | other (text : List Nat)
  deriving DecidableEq, Repr

/-- Go `Key`. -/
structure Key where
  PublicKey : List Nat
  PrivateKey : List Nat
  deriving DecidableEq, Repr

/-- Go `NewKey`. -/
def NewKey (publicKey privateKey : List Nat) : Key :=
  { PublicKey := publicKey, PrivateKey := privateKey }

/-- The loop `for _, pair := range pairs` of `getMatchingSignature`, over the
pairs still to read. -/
def matchLoop (k : Key) : List (List Nat) → List Nat × Bool
  | [] => ([], false)
  | pair :: pairs =>
      let split := Split pair 124
      if split.length = 2 ∧ split[0]? = some k.PublicKey then (split.getD 1 [], true)
      else matchLoop k pairs

/-- Go `Key.getMatchingSignature`. -/
def Key.getMatchingSignature (k : Key) (signaturePairs : List Nat) : List Nat × Bool :=
  matchLoop k (Split signaturePairs 38)

/-- Go `Key.ParseSignature`: the signature and the error (`none` is `nil`). -/
def Key.ParseSignature (k : Key) (signatureKeyPairs : List Nat) :
    List Nat × Option SignatureError :=
  if Contains signatureKeyPairs 124 = false then
    ([], some ⟨bytes "Signature-key pair does not contain |"⟩)
  else
    match k.getMatchingSignature signatureKeyPairs with
    | (_, false) => ([], some ⟨bytes "Signature-key pair contains the wrong public key!"⟩)
    | (signature, true) => (signature, none)

/-- The hash functions: `sha1` is the SHA-1 digest of a byte string, `hmacSha1
key msg` the HMAC-SHA1 of `msg` under `key`. -/
structure Crypto where
  sha1 : List Nat → List Nat
  hmacSha1 : List Nat → List Nat → List Nat

/-- A hexadecimal digit, lower case. -/
def hexDigit (d : Nat) : Nat := if d < 10 then 48 + d else 87 + d

/-- Go `fmt.Sprintf("%x", b)` for a byte slice `b`: two lower-case hexadecimal
digits for every byte (a byte is below 256, so that `b / 16` is its high digit). -/
def hexString : List Nat → List Nat
  | [] => []
  | b :: bs => hexDigit (b / 16 % 16) :: hexDigit (b % 16) :: hexString bs

/-- Go `Key.HMAC`: the HMAC-SHA1 of the payload under the SHA-1 digest of the
private key, in hexadecimal.  The two error returns of the source follow writes
to a `hash.Hash`, which never return an error: the error is always `nil`. -/
def Key.HMAC (c : Crypto) (k : Key) (payload : List Nat) : List Nat × Option GoError :=
  (hexString (c.hmacSha1 (c.sha1 k.PrivateKey) payload), none)

/-- Go `Key.VerifySignature`; `hmac.Equal` is the equality of the two byte
strings. -/
def Key.VerifySignature (c : Crypto) (k : Key) (signature payload : List Nat) :
    Bool × Option GoError :=
  match k.ParseSignature signature with
  | (_, some err) => (false, some (.signature err))
  | (signature, none) =>
      match k.HMAC c payload with
      | (_, some err) => (false, some err)
      | (expectedSignature, none) => (decide (expectedSignature = signature), none)

/-- Go `Secret`: it embeds a `Key`. -/
structure Secret where
  Key : Key
  Raw : List Nat := []
  URL : List Nat := []
  MerchId : List Nat := []
  deriving DecidableEq, Repr

/-- Go `APIClient`, by its field `Key`, a `*Secret` (`none` is the nil pointer). -/
structure APIClient where
  Key : Option Secret
  deriving DecidableEq, Repr

/-- Go `(*APIClient).SignPayload`; `none` is the run-time panic of a nil `Key`. -/
def APIClient.SignPayload (c : Crypto) (cl : APIClient) (src : List Nat) :
    Option (List Nat × Option GoError) :=
  match cl.Key with
  | none => none
  | some secret =>
      let key := NewKey secret.Key.PublicKey secret.Key.PrivateKey
      match key.HMAC c src with
      | (_, some err) => some ([], some err)
      | (payload, none) => some (key.PublicKey ++ bytes "|" ++ payload, none)

/-- Go `(*APIClient).Verify`; `none` is the run-time panic of a nil `Key`. -/
def APIClient.Verify (c : Crypto) (cl : APIClient) (challenge : List Nat) :
    Option (List Nat × Option GoError) :=
  match cl.Key with
  | none => none
  | some secret =>
      let key := NewKey secret.Key.PublicKey secret.Key.PrivateKey
      match key.HMAC c challenge with
      | (_, some err) => some ([], some err)
      | (digest, none) => some (key.PublicKey ++ bytes "|" ++ digest, none)

/-- What is taken as given to decode a payload or a response body into a value
of type `ν`: `base64.StdEncoding.DecodeString` (`none` is its error), the XML
lexer (the raw tokens of the bytes, and whether the lexer fails after them), the
encoder-side parameters, the bytes the encoder writes for a list of tokens, and
`xml.Unmarshal` on the bytes the encoder wrote for a list of tokens (the text of
its error, or the value). -/
structure Codec (ν : Type) where
  base64Decode : List Nat → Option (List Nat)
  lex : List Nat → List Xml.Token × Bool
  lib : Xml.Lib
  render : List Xml.Token → List Nat
  unmarshal : List Xml.Token → Except (List Nat) ν

/-- Go `(*APIClient).Parse`: the notification and the error (`none` is `nil`).
The outer `none` is the run-time panic of a nil `Key`, or the bound of
`StripNilElements` being reached. -/
def APIClient.Parse {ν : Type} (c : Crypto) (codec : Codec ν) (cl : APIClient)
    (signature payload : List Nat) : Option (Option ν × Option GoError) :=
  match cl.Key with
  | none => none
  | some secret =>
      let key := NewKey secret.Key.PublicKey secret.Key.PrivateKey
      match key.VerifySignature c signature payload with
      | (_, some err) => some (none, some err)
      | (false, none) => some (none, some (.signature ⟨[]⟩))
      | (true, none) =>
          match codec.base64Decode payload with
          | none => some (none, some .base64)
          | some xmlNotification =>
              match StripNilElements codec.lib (codec.lex xmlNotification).1
                  (codec.lex xmlNotification).2 with
              | none => none
              | some (.error err) => some (none, some (.xml err))
              | some (.ok strippedBuf) =>
                  match codec.unmarshal strippedBuf with
                  | .error text => some (none, some (.unmarshal text))
                  | .ok result => some (some result, none)

/-! ## `Response.unpackBody` (`response.go`) -/

/-- Go `Response`, by its field `Body`. -/
structure Response where
  Body : List Nat
  deriving DecidableEq, Repr

/-- Go `(*Response).unpackBody`: the response after the call and the error
returned (`none` is `nil`).  `read` is the outcome of reading the body of the
HTTP response, through `gzip.NewReader` when the content encoding is `gzip`: the
error of either, or the bytes read.  The outer `none` is the bound of
`StripNilElements` being reached. -/
def Response.unpackBody {ν ε : Type} (codec : Codec ν) (r : Response)
    (read : Except ε (List Nat)) : Option (Response × Option ε) :=
  if r.Body.length = 0 then
    match read with
    | .error err => some (r, some err)
    | .ok buf =>
        match StripNilElements codec.lib (codec.lex buf).1 (codec.lex buf).2 with
        | none => none
        | some (.ok strippedBuf) => some ({ r with Body := codec.render strippedBuf }, none)
        | some (.error _) => some ({ r with Body := buf }, none)
  else some (r, none)

/-! ## Notions used to state the properties of the webhook signatures -/

/-- A pair of the form `publicKey|digest`: the public key, one `|`, the
digest. -/
def isPairOf (publicKey pair digest : List Nat) : Prop :=
  pair = publicKey ++ 124 :: digest ∧ 124 ∉ publicKey ∧ 124 ∉ digest

/-- The hash functions used to evaluate the examples: the identity for the
digest and the concatenation for the keyed digest (not SHA-1). -/
def testCrypto : Crypto := ⟨fun m => m, fun k m => k ++ m⟩

/-- The codec used to evaluate the examples: every payload is its own base64
decoding, the lexer knows the documents `<element>` (one start tag) and `<a></a>`
and fails on everything else, the encoder writes nothing, and `xml.Unmarshal`
returns the number of tokens. -/
def testCodec : Codec Nat :=
  { base64Decode := fun s => some s
    lex := fun s =>
      if s = bytes "<element>" then ([testStart "element" none], false)
      else if s = bytes "<a></a>" then ([testStart "a" none, testEnd "a"], false)
      else ([], true)
    lib := Xml.testLib
    render := fun _ => []
    unmarshal := fun toks => .ok toks.length }

/-- The client used to evaluate the examples. -/
def testClient : APIClient := ⟨some ⟨⟨bytes "pk", bytes "s"⟩, [], [], []⟩⟩

/-! # Theorems -/

/-! ## Theorems: the standard-library helpers -/

theorem wrap64_of_isInt64 {z : Int} (h : isInt64 z) : wrap64 z = z := by
  unfold isInt64 minInt64 maxInt64 at h
  unfold wrap64
  omega

theorem digitsValFrom_ge (cs : List Nat) : ∀ n, n ≤ digitsValFrom n cs := by
  induction cs with
  | nil => intro n; exact Nat.le_refl n
  | cons c cs ih =>
    intro n
    have h := ih (n * 10 + (c - chZero))
    show n ≤ digitsValFrom (n * 10 + (c - chZero)) cs
    omega

theorem digitsValFrom_append (as bs : List Nat) :
    ∀ n, digitsValFrom n (as ++ bs) = digitsValFrom (digitsValFrom n as) bs := by
  induction as with
  | nil => intro n; rfl
  | cons c cs ih => intro n; exact ih _

theorem parseUintLoop_cons (c : Nat) (cs : List Nat) (n : Nat) :
    parseUintLoop (c :: cs) n =
      if chZero ≤ c ∧ c ≤ chZero + 9 then
        if n ≥ maxUint64 / 10 + 1 then .error .ErrRange
        else if n * 10 + (c - chZero) > maxUint64 then .error .ErrRange
        else parseUintLoop cs (n * 10 + (c - chZero))
      else .error .ErrSyntax := rfl

/-- On a string of digits the `ParseUint` loop returns the value written, or
`ErrRange` when that value exceeds `uint64`. -/
theorem parseUintLoop_digits (cs : List Nat) :
    ∀ n, n ≤ maxUint64 → (∀ c ∈ cs, isDigit c) →
      parseUintLoop cs n =
        if digitsValFrom n cs ≤ maxUint64 then .ok (digitsValFrom n cs)
        else .error .ErrRange := by
  induction cs with
  | nil =>
    intro n hn _
    show Except.ok n = if n ≤ maxUint64 then Except.ok n else Except.error NumError.ErrRange
    rw [if_pos hn]
  | cons c cs ih =>
    intro n hn h
    have hc : isDigit c := h c (List.mem_cons_self _ _)
    have hcs : ∀ x ∈ cs, isDigit x := fun x hx => h x (List.mem_cons_of_mem _ hx)
    have hge := digitsValFrom_ge cs (n * 10 + (c - chZero))
    rw [parseUintLoop_cons, if_pos (show chZero ≤ c ∧ c ≤ chZero + 9 from hc)]
    show _ = if digitsValFrom (n * 10 + (c - chZero)) cs ≤ maxUint64 then
      Except.ok (digitsValFrom (n * 10 + (c - chZero)) cs) else Except.error NumError.ErrRange
    by_cases h1 : n ≥ maxUint64 / 10 + 1
    · have h3 : ¬ digitsValFrom (n * 10 + (c - chZero)) cs ≤ maxUint64 := by
        have : maxUint64 < n * 10 := by
          have e : maxUint64 / 10 + 1 = 1844674407370955162 := by decide
          have e2 : maxUint64 = 18446744073709551615 := rfl
          omega
        omega
      rw [if_pos h1, if_neg h3]
    · by_cases h2 : n * 10 + (c - chZero) > maxUint64
      · have h3 : ¬ digitsValFrom (n * 10 + (c - chZero)) cs ≤ maxUint64 := by omega
        rw [if_neg h1, if_pos h2, if_neg h3]
      · rw [if_neg h1, if_neg h2]
        exact ih _ (by omega) hcs

/-- A byte that is not a digit makes the `ParseUint` loop fail. -/
theorem parseUintLoop_nondigit (cs : List Nat) :
    ∀ n, (∃ c ∈ cs, ¬ isDigit c) → ∃ e, parseUintLoop cs n = .error e := by
  induction cs with
  | nil => intro n h; obtain ⟨c, hc, _⟩ := h; cases hc
  | cons c cs ih =>
    intro n h
    rw [parseUintLoop_cons]
    by_cases hc : isDigit c
    · have hcs : ∃ x ∈ cs, ¬ isDigit x := by
        obtain ⟨x, hx, hnx⟩ := h
        rcases List.mem_cons.1 hx with rfl | hx
        · exact absurd hc hnx
        · exact ⟨x, hx, hnx⟩
      rw [if_pos (show chZero ≤ c ∧ c ≤ chZero + 9 from hc)]
      by_cases h1 : n ≥ maxUint64 / 10 + 1
      · exact ⟨.ErrRange, by rw [if_pos h1]⟩
      · by_cases h2 : n * 10 + (c - chZero) > maxUint64
        · exact ⟨.ErrRange, by rw [if_neg h1, if_pos h2]⟩
        · rw [if_neg h1, if_neg h2]
          exact ih _ hcs
    · exact ⟨.ErrSyntax, by rw [if_neg (show ¬ (chZero ≤ c ∧ c ≤ chZero + 9) from hc)]⟩

theorem ParseInt_cons (c : Nat) (cs : List Nat) :
    ParseInt (c :: cs) = finishInt (decide (c = chMinus)) (ParseUint (dropSign (c :: cs))) := by
  unfold ParseInt finishInt dropSign
  rfl

theorem ParseUint_digits (ds : List Nat) (hds : ∀ c ∈ ds, isDigit c) (hne : ds ≠ []) :
    ParseUint ds =
      if digitsVal ds ≤ maxUint64 then .ok (digitsVal ds) else .error .ErrRange := by
  unfold ParseUint
  rw [if_neg hne]
  exact parseUintLoop_digits ds 0 (Nat.zero_le _) hds

theorem ParseUint_nondigit (s : List Nat) (h : ∃ c ∈ s, ¬ isDigit c) :
    ∃ e, ParseUint s = .error e := by
  unfold ParseUint
  by_cases hs : s = []
  · exact ⟨.ErrSyntax, by rw [if_pos hs]⟩
  · rw [if_neg hs]
    exact parseUintLoop_nondigit s 0 h

theorem finishInt_error (neg : Bool) (e : NumError) :
    finishInt neg (.error e) = .error e := rfl

theorem finishInt_pos {un : Nat} (h : un < cutoff63) :
    finishInt false (.ok un) = .ok (un : Int) := by
  unfold finishInt
  simp only [true_and, false_and, if_false, Bool.false_eq_true]
  rw [if_neg (by omega)]

theorem finishInt_pos_range {un : Nat} (h : cutoff63 ≤ un) :
    finishInt false (.ok un) = .error .ErrRange := by
  unfold finishInt
  simp only [true_and]
  rw [if_pos h]

theorem finishInt_neg {un : Nat} (h : un ≤ cutoff63) :
    finishInt true (.ok un) = .ok (-(un : Int)) := by
  unfold finishInt
  simp only [true_and, false_and, if_false, if_true, Bool.true_eq_false]
  rw [if_neg (by omega)]

theorem finishInt_neg_range {un : Nat} (h : cutoff63 < un) :
    finishInt true (.ok un) = .error .ErrRange := by
  unfold finishInt
  simp only [true_and, false_and, if_false, Bool.true_eq_false]
  rw [if_pos h]

theorem dropSign_cons (c : Nat) (cs : List Nat) :
    dropSign (c :: cs) = if c = chPlus then cs else if c = chMinus then cs else c :: cs := rfl

theorem Index_cons (b : Nat) (bs : List Nat) (c : Nat) :
    Index (b :: bs) c =
      if b = c then 0 else if Index bs c = -1 then -1 else Index bs c + 1 := rfl

theorem Replace1_cons (b : Nat) (bs : List Nat) (c : Nat) :
    Replace1 (b :: bs) c = if b = c then bs else b :: Replace1 bs c := rfl

theorem isDigit_ne_sign {c : Nat} (h : isDigit c) :
    c ≠ chPlus ∧ c ≠ chMinus ∧ c ≠ chDot := by
  unfold isDigit chZero at h
  unfold chPlus chMinus chDot
  omega

theorem dropSign_digit_cons {c : Nat} (cs : List Nat) (h : isDigit c) :
    dropSign (c :: cs) = c :: cs := by
  obtain ⟨h1, h2, _⟩ := isDigit_ne_sign h
  rw [dropSign_cons, if_neg h1, if_neg h2]

/-- `ParseInt` on an optional sign followed by at least one digit returns the
integer written, when it fits in `int64`. -/
theorem ParseInt_ok (sign ds : List Nat)
    (hsign : sign = [] ∨ sign = [chPlus] ∨ sign = [chMinus])
    (hds : ∀ c ∈ ds, isDigit c) (hne : ds ≠ [])
    (hfit : isInt64 (signedVal sign ds)) :
    ParseInt (sign ++ ds) = .ok (signedVal sign ds) := by
  have e1 : cutoff63 = 9223372036854775808 := rfl
  have e2 : maxUint64 = 18446744073709551615 := rfl
  unfold isInt64 minInt64 maxInt64 at hfit
  rcases hsign with rfl | rfl | rfl
  · have hv : signedVal [] ds = (digitsVal ds : Int) := by
      unfold signedVal
      rw [if_neg (by simp)]
    rw [hv] at hfit ⊢
    cases ds with
    | nil => exact absurd rfl hne
    | cons c cs =>
      have hc : isDigit c := hds c (List.mem_cons_self _ _)
      rw [List.nil_append, ParseInt_cons, dropSign_digit_cons cs hc,
        ParseUint_digits _ hds hne, if_pos (by omega),
        decide_eq_false (isDigit_ne_sign hc).2.1, finishInt_pos (by omega)]
  · have hv : signedVal [chPlus] ds = (digitsVal ds : Int) := by
      unfold signedVal
      rw [if_neg (by decide)]
    rw [hv] at hfit ⊢
    have hd : dropSign (chPlus :: ds) = ds := by
      rw [dropSign_cons, if_pos rfl]
    rw [List.singleton_append, ParseInt_cons, hd, ParseUint_digits _ hds hne,
      if_pos (by omega), decide_eq_false (by decide), finishInt_pos (by omega)]
  · have hv : signedVal [chMinus] ds = -(digitsVal ds : Int) := by
      unfold signedVal
      rw [if_pos rfl]
    rw [hv] at hfit ⊢
    have hd : dropSign (chMinus :: ds) = ds := by
      rw [dropSign_cons, if_neg (show ¬ chMinus = chPlus by decide), if_pos rfl]
    rw [List.singleton_append, ParseInt_cons, hd, ParseUint_digits _ hds hne,
      if_pos (by omega), decide_eq_true rfl, finishInt_neg (by omega)]

/-- `ParseInt` fails when a byte other than a digit follows the optional leading
sign. -/
theorem ParseInt_nondigit (s : List Nat) (h : ∃ c ∈ dropSign s, ¬ isDigit c) :
    ∃ e, ParseInt s = .error e := by
  cases s with
  | nil => exact ⟨.ErrSyntax, rfl⟩
  | cons c cs =>
    obtain ⟨e, he⟩ := ParseUint_nondigit _ h
    exact ⟨e, by rw [ParseInt_cons, he, finishInt_error]⟩

/-- `ParseInt` fails when no digit follows the optional leading sign. -/
theorem ParseInt_nodigits (s : List Nat) (h : dropSign s = []) :
    ∃ e, ParseInt s = .error e := by
  cases s with
  | nil => exact ⟨.ErrSyntax, rfl⟩
  | cons c cs =>
    refine ⟨.ErrSyntax, ?_⟩
    rw [ParseInt_cons, h]
    rfl

/-- `ParseInt` fails when the integer written does not fit in `int64`. -/
theorem ParseInt_overflow (s : List Nat) (hds : ∀ c ∈ dropSign s, isDigit c)
    (h : ¬ isInt64 (textVal s)) : ∃ e, ParseInt s = .error e := by
  have e1 : cutoff63 = 9223372036854775808 := rfl
  have e2 : maxUint64 = 18446744073709551615 := rfl
  cases s with
  | nil => exact ⟨.ErrSyntax, rfl⟩
  | cons c cs =>
    by_cases hne : dropSign (c :: cs) = []
    · exact ParseInt_nodigits _ hne
    · refine ⟨.ErrRange, ?_⟩
      rw [ParseInt_cons, ParseUint_digits _ hds hne]
      unfold isInt64 minInt64 maxInt64 textVal at h
      by_cases hu : digitsVal (dropSign (c :: cs)) ≤ maxUint64
      · rw [if_pos hu]
        by_cases hc : c = chMinus
        · rw [decide_eq_true hc]
          have : (c :: cs).head? = some chMinus := by rw [hc]; rfl
          rw [if_pos this] at h
          exact finishInt_neg_range (by omega)
        · rw [decide_eq_false hc]
          have : ¬ (c :: cs).head? = some chMinus := by
            intro hh
            exact hc (by simpa using hh)
          rw [if_neg this] at h
          exact finishInt_pos_range (by omega)
      · rw [if_neg hu]
        rfl

/-! ## Theorems: `strings.Index` and `strings.Replace` -/

theorem Index_ge (s : List Nat) (c : Nat) : -1 ≤ Index s c := by
  induction s with
  | nil => simp [Index]
  | cons b bs ih =>
    rw [Index_cons]
    by_cases hb : b = c
    · rw [if_pos hb]; omega
    · rw [if_neg hb]
      split <;> omega

theorem Index_of_not_mem (s : List Nat) (c : Nat) (h : c ∉ s) : Index s c = -1 := by
  induction s with
  | nil => rfl
  | cons b bs ih =>
    have hb : b ≠ c := fun e => h (by rw [e]; exact List.mem_cons_self _ _)
    have hbs : c ∉ bs := fun e => h (List.mem_cons_of_mem _ e)
    rw [Index_cons, if_neg hb, if_pos (ih hbs)]

theorem Index_append_of_not_mem (a b : List Nat) (c : Nat) (h : c ∉ a) :
    Index (a ++ c :: b) c = a.length := by
  induction a with
  | nil =>
    show Index (c :: b) c = 0
    rw [Index_cons, if_pos rfl]
  | cons x xs ih =>
    have hx : x ≠ c := fun e => h (by rw [e]; exact List.mem_cons_self _ _)
    have hxs : c ∉ xs := fun e => h (List.mem_cons_of_mem _ e)
    show Index (x :: (xs ++ c :: b)) c = _
    rw [Index_cons, if_neg hx, ih hxs, if_neg (by omega)]
    simp

theorem Replace1_of_not_mem (s : List Nat) (c : Nat) (h : c ∉ s) : Replace1 s c = s := by
  induction s with
  | nil => rfl
  | cons b bs ih =>
    have hb : b ≠ c := fun e => h (by rw [e]; exact List.mem_cons_self _ _)
    have hbs : c ∉ bs := fun e => h (List.mem_cons_of_mem _ e)
    rw [Replace1_cons, if_neg hb, ih hbs]

theorem Replace1_append_of_not_mem (a b : List Nat) (c : Nat) (h : c ∉ a) :
    Replace1 (a ++ c :: b) c = a ++ b := by
  induction a with
  | nil =>
    show Replace1 (c :: b) c = b
    rw [Replace1_cons, if_pos rfl]
  | cons x xs ih =>
    have hx : x ≠ c := fun e => h (by rw [e]; exact List.mem_cons_self _ _)
    have hxs : c ∉ xs := fun e => h (List.mem_cons_of_mem _ e)
    show Replace1 (x :: (xs ++ c :: b)) c = _
    rw [Replace1_cons, if_neg hx, ih hxs]
    rfl

theorem Index_ne_of_mem (s : List Nat) (c : Nat) (h : c ∈ s) : Index s c ≠ -1 := by
  induction s with
  | nil => cases h
  | cons b bs ih =>
    rw [Index_cons]
    by_cases hb : b = c
    · rw [if_pos hb]; omega
    · rw [if_neg hb]
      have hbs : c ∈ bs := by
        rcases List.mem_cons.1 h with e | e
        · exact absurd e.symm hb
        · exact e
      have h1 := ih hbs
      have h2 := Index_ge bs c
      rw [if_neg h1]
      omega

/-- A second decimal point survives the removal of the first. -/
theorem mem_Replace1_of_count (s : List Nat) (c : Nat) (h : 2 ≤ s.count c) :
    c ∈ Replace1 s c := by
  induction s with
  | nil => simp at h
  | cons b bs ih =>
    rw [Replace1_cons]
    by_cases hb : b = c
    · rw [if_pos hb]
      subst hb
      rw [List.count_cons_self] at h
      exact List.count_pos_iff.1 (by omega)
    · rw [if_neg hb]
      rw [List.count_cons_of_ne (fun e => hb e.symm)] at h
      exact List.mem_cons_of_mem _ (ih h)

/-! ## Theorems: `Decimal.UnmarshalText` -/

theorem UnmarshalText_nonempty (d : Decimal) (text : List Nat) (h : text ≠ []) :
    UnmarshalText d text =
      match ParseInt (if Index text chDot ≠ -1 then Replace1 text chDot else text) with
      | .error e => (d, some e)
      | .ok unscaled =>
          ({ Unscaled := unscaled,
             Scale := if Index text chDot ≠ -1 then (text.length : Int) - Index text chDot - 1
                      else 0 }, none) := by
  unfold UnmarshalText
  rw [if_neg h]

/-- What `UnmarshalText` hands to `ParseInt`: the text without its first decimal
point. -/
theorem UnmarshalText_str (text : List Nat) :
    (if Index text chDot ≠ -1 then Replace1 text chDot else text) = Replace1 text chDot := by
  by_cases h : Index text chDot ≠ -1
  · rw [if_pos h]
  · rw [if_neg h]
    have hm : chDot ∉ text := fun hm => h (Index_ne_of_mem _ _ hm)
    exact (Replace1_of_not_mem _ _ hm).symm

theorem UnmarshalText_error_of_ParseInt (d : Decimal) (text : List Nat) (h : text ≠ [])
    (he : ∃ e, ParseInt (Replace1 text chDot) = .error e) :
    ∃ e, UnmarshalText d text = (d, some e) := by
  obtain ⟨e, he⟩ := he
  refine ⟨e, ?_⟩
  rw [UnmarshalText_nonempty d text h, UnmarshalText_str, he]

/-- The result of `UnmarshalText` on an optional sign, integer digits and, after
an optional decimal point, fraction digits. -/
theorem UnmarshalText_form (d : Decimal) (sign ip fp : List Nat) (point : Bool)
    (hsign : sign = [] ∨ sign = [chPlus] ∨ sign = [chMinus])
    (hip : ∀ c ∈ ip, isDigit c) (hfp : ∀ c ∈ fp, isDigit c)
    (hpoint : point = false → fp = [])
    (hne : ip ++ fp ≠ [])
    (hfit : isInt64 (signedVal sign (ip ++ fp))) :
    UnmarshalText d (sign ++ ip ++ (if point = true then chDot :: fp else [])) =
      ({ Unscaled := signedVal sign (ip ++ fp), Scale := (fp.length : Int) }, none) := by
  have hds : ∀ c ∈ ip ++ fp, isDigit c := by
    intro c hc
    rcases List.mem_append.1 hc with h | h
    · exact hip c h
    · exact hfp c h
  have hdot_sign : chDot ∉ sign := by
    rcases hsign with rfl | rfl | rfl <;> decide
  have hdot_ip : chDot ∉ ip := fun h => (isDigit_ne_sign (hip _ h)).2.2 rfl
  have hdot : chDot ∉ sign ++ ip := by
    intro h
    rcases List.mem_append.1 h with h | h
    · exact hdot_sign h
    · exact hdot_ip h
  cases point with
  | true =>
    rw [if_pos rfl]
    have htext : sign ++ ip ++ chDot :: fp ≠ [] := by simp
    rw [UnmarshalText_nonempty d _ htext, UnmarshalText_str,
      Replace1_append_of_not_mem _ _ _ hdot, List.append_assoc,
      ParseInt_ok sign (ip ++ fp) hsign hds hne hfit,
      Index_append_of_not_mem _ _ _ hdot]
    have hi : ((sign ++ ip).length : Int) ≠ -1 := by omega
    rw [if_pos hi]
    have hlen : ((sign ++ ip ++ chDot :: fp).length : Int) - ((sign ++ ip).length : Int) - 1
        = (fp.length : Int) := by
      simp only [List.length_append, List.length_cons]
      push_cast
      omega
    rw [hlen]
  | false =>
    have hfp0 : fp = [] := hpoint rfl
    subst hfp0
    rw [List.append_nil] at hne hfit hds ⊢
    have htext : sign ++ ip ++ (if false = true then chDot :: [] else []) ≠ [] := by
      simp [hne]
    have hidx : Index (sign ++ ip ++ (if false = true then chDot :: [] else [])) chDot = -1 := by
      apply Index_of_not_mem
      simpa using hdot
    rw [UnmarshalText_nonempty d _ htext, UnmarshalText_str, hidx]
    have hrep : Replace1 (sign ++ ip ++ (if false = true then chDot :: [] else [])) chDot
        = sign ++ ip := by
      rw [Replace1_of_not_mem _ _ (by simpa using hdot)]
      simp
    rw [hrep, ParseInt_ok sign ip hsign hds hne hfit]
    simp

/-- C4: a text `[sign] intDigits ['.' fracDigits]` with at least one digit whose
signed value fits in `int64` is parsed without error; `Scale` becomes the number
of bytes after the decimal point (0 without a point) and `Unscaled` the signed
base-10 integer written by the integer digits followed by the fraction digits. -/
theorem UnmarshalText_wellformed (d : Decimal) (sign ip fp : List Nat) (point : Bool)
    (hsign : sign = [] ∨ sign = [chPlus] ∨ sign = [chMinus])
    (hip : ∀ c ∈ ip, isDigit c) (hfp : ∀ c ∈ fp, isDigit c)
    (hpoint : point = false → fp = [])
    (hne : ip ++ fp ≠ [])
    (hfit : isInt64 (signedVal sign (ip ++ fp))) :
    UnmarshalText d (sign ++ ip ++ (if point = true then chDot :: fp else [])) =
      ({ Unscaled := signedVal sign (ip ++ fp), Scale := (fp.length : Int) }, none) :=
  UnmarshalText_form d sign ip fp point hsign hip hfp hpoint hne hfit

theorem UnmarshalText_wellformed_witness :
    ([chMinus] = [] ∨ [chMinus] = [chPlus] ∨ [chMinus] = [chMinus]) ∧
    (∀ c ∈ bytes "5", isDigit c) ∧ (∀ c ∈ bytes "504", isDigit c) ∧
    (true = false → bytes "504" = []) ∧ bytes "5" ++ bytes "504" ≠ [] ∧
    isInt64 (signedVal [chMinus] (bytes "5" ++ bytes "504")) ∧
    UnmarshalText ⟨0, 0⟩ (bytes "-5.504") = (⟨-5504, 3⟩, none) :=
  ⟨by decide, by decide, by decide, by decide, by decide, by decide,
    UnmarshalText_wellformed ⟨0, 0⟩ [chMinus] (bytes "5") (bytes "504") true
      (by decide) (by decide) (by decide) (by decide) (by decide) (by decide)⟩

/-- C5 as stated fails: `".-5"` has a sign that does not lead the text, yet
`UnmarshalText` accepts it (the sign leads once the point is removed) and stores
`{-5, 2}`. -/
theorem UnmarshalText_rejects_counterexample :
    bytes ".-5" ≠ [] ∧ strayByteAsStated (bytes ".-5") ∧
    UnmarshalText ⟨0, 0⟩ (bytes ".-5") = (⟨-5, 2⟩, none) := by
  decide

/-- C5, amended: a non-empty text is rejected with an error when it has more
than one decimal point, or when, once its first decimal point is removed, a byte
other than a decimal digit follows the optional leading sign, or when the integer
then written does not fit in `int64`. -/
theorem UnmarshalText_rejects (d : Decimal) (text : List Nat) (hne : text ≠ [])
    (hbad : 2 ≤ text.count chDot ∨
      (∃ c ∈ dropSign (Replace1 text chDot), ¬ isDigit c) ∨
      ¬ isInt64 (textVal (Replace1 text chDot))) :
    ∃ e, (UnmarshalText d text).2 = some e := by
  have key : ∃ e, ParseInt (Replace1 text chDot) = .error e := by
    by_cases hnd : ∃ c ∈ dropSign (Replace1 text chDot), ¬ isDigit c
    · exact ParseInt_nondigit _ hnd
    · have hall : ∀ c ∈ dropSign (Replace1 text chDot), isDigit c := by
        intro c hc
        by_contra hcd
        exact hnd ⟨c, hc, hcd⟩
      rcases hbad with h | h | h
      · exfalso
        have hmem := mem_Replace1_of_count text chDot h
        have hmem2 : chDot ∈ dropSign (Replace1 text chDot) := by
          cases hr : Replace1 text chDot with
          | nil => rw [hr] at hmem; cases hmem
          | cons b bs =>
            rw [hr] at hmem
            rw [dropSign_cons]
            rcases List.mem_cons.1 hmem with e | e
            · rw [if_neg (by rw [← e]; decide), if_neg (by rw [← e]; decide), ← e]
              exact List.mem_cons_self _ _
            · split
              · exact e
              · split
                · exact e
                · exact List.mem_cons_of_mem _ e
        exact (isDigit_ne_sign (hall _ hmem2)).2.2 rfl
      · exact absurd h hnd
      · exact ParseInt_overflow _ hall h
  obtain ⟨e, he⟩ := UnmarshalText_error_of_ParseInt d text hne key
  exact ⟨e, by rw [he]⟩

theorem UnmarshalText_rejects_witness :
    bytes "5.504.98" ≠ [] ∧
    (2 ≤ (bytes "5.504.98").count chDot ∨
      (∃ c ∈ dropSign (Replace1 (bytes "5.504.98") chDot), ¬ isDigit c) ∨
      ¬ isInt64 (textVal (Replace1 (bytes "5.504.98") chDot))) ∧
    ∃ e, (UnmarshalText ⟨0, 0⟩ (bytes "5.504.98")).2 = some e :=
  ⟨by decide, Or.inl (by decide),
    UnmarshalText_rejects ⟨0, 0⟩ (bytes "5.504.98") (by decide) (Or.inl (by decide))⟩

/-- C6: when `UnmarshalText` returns an error the receiver keeps the `Unscaled`
and `Scale` it had before the call. -/
theorem UnmarshalText_atomic (d : Decimal) (text : List Nat)
    (herr : (UnmarshalText d text).2 ≠ none) : (UnmarshalText d text).1 = d := by
  by_cases h : text = []
  · unfold UnmarshalText
    rw [if_pos h]
  · rw [UnmarshalText_nonempty d text h] at herr ⊢
    revert herr
    cases ParseInt (if Index text chDot ≠ -1 then Replace1 text chDot else text) with
    | error e => intro _; rfl
    | ok u => intro herr; exact absurd rfl herr

theorem UnmarshalText_atomic_witness :
    (UnmarshalText ⟨250, 2⟩ (bytes "5E6")).2 ≠ none ∧
    (UnmarshalText ⟨250, 2⟩ (bytes "5E6")).1 = ⟨250, 2⟩ :=
  ⟨by decide, UnmarshalText_atomic ⟨250, 2⟩ (bytes "5E6") (by decide)⟩

/-- C7 as stated fails: on the empty text a receiver holding `{250, 2}` still
holds `{250, 2}` after the call, not the zero value. -/
theorem UnmarshalText_empty_counterexample :
    UnmarshalText ⟨250, 2⟩ [] = (⟨250, 2⟩, none) ∧
    (UnmarshalText ⟨250, 2⟩ []).1 ≠ ⟨0, 0⟩ := by
  decide

/-- C7, amended: on the empty text `UnmarshalText` returns no error and leaves
the receiver as it was; a receiver that was the zero value `{0, 0}` (as a freshly
allocated `Decimal` is) therefore still is. -/
theorem UnmarshalText_empty (d : Decimal) :
    UnmarshalText d [] = (d, none) ∧ UnmarshalText ⟨0, 0⟩ [] = (⟨0, 0⟩, none) :=
  ⟨rfl, rfl⟩

/-! ## Theorems: `Decimal.MarshalText` and the round trip -/

theorem digitsValFrom_eq (cs : List Nat) :
    ∀ n, digitsValFrom n cs = n * 10 ^ cs.length + digitsVal cs := by
  induction cs with
  | nil =>
    intro n
    show n = n * 10 ^ 0 + 0
    rw [pow_zero, Nat.mul_one, Nat.add_zero]
  | cons c cs ih =>
    intro n
    show digitsValFrom (n * 10 + (c - chZero)) cs
      = n * 10 ^ (cs.length + 1) + digitsValFrom (0 * 10 + (c - chZero)) cs
    rw [ih (n * 10 + (c - chZero)), ih (0 * 10 + (c - chZero))]
    ring

theorem digitsVal_cons (c : Nat) (cs : List Nat) :
    digitsVal (c :: cs) = (c - chZero) * 10 ^ cs.length + digitsVal cs := by
  show digitsValFrom (0 * 10 + (c - chZero)) cs = _
  rw [digitsValFrom_eq]
  simp

theorem digitsVal_append (as bs : List Nat) :
    digitsVal (as ++ bs) = digitsVal as * 10 ^ bs.length + digitsVal bs := by
  unfold digitsVal
  rw [digitsValFrom_append, digitsValFrom_eq bs]
  rfl

theorem digitsVal_zeros (k : Nat) : digitsVal (Repeat chZero k) = 0 := by
  induction k with
  | zero => rfl
  | succ k ih =>
    show digitsVal (chZero :: List.replicate k chZero) = 0
    rw [digitsVal_cons]
    have : digitsVal (List.replicate k chZero) = 0 := ih
    rw [this]
    simp

theorem formatBits_zero (u : Nat) (acc : List Nat) :
    formatBits 0 u acc = (chZero + u % 10) :: acc := rfl

theorem formatBits_succ (fuel u : Nat) (acc : List Nat) :
    formatBits (fuel + 1) u acc =
      if u ≥ 10 then formatBits fuel (u / 10) ((chZero + u % 10) :: acc)
      else (chZero + u) :: acc := rfl

/-- `formatBits` writes decimal digits only. -/
theorem formatBits_isDigit (fuel : Nat) :
    ∀ (u : Nat) (acc : List Nat), (∀ c ∈ acc, isDigit c) →
      ∀ c ∈ formatBits fuel u acc, isDigit c := by
  induction fuel with
  | zero =>
    intro u acc hacc c hc
    rw [formatBits_zero] at hc
    rcases List.mem_cons.1 hc with e | e
    · rw [e]
      unfold isDigit
      have := Nat.mod_lt u (show 10 > 0 by decide)
      omega
    · exact hacc c e
  | succ fuel ih =>
    intro u acc hacc c hc
    rw [formatBits_succ] at hc
    by_cases hu : u ≥ 10
    · rw [if_pos hu] at hc
      refine ih (u / 10) _ ?_ c hc
      intro x hx
      rcases List.mem_cons.1 hx with e | e
      · rw [e]
        unfold isDigit
        have := Nat.mod_lt u (show 10 > 0 by decide)
        omega
      · exact hacc x e
    · rw [if_neg hu] at hc
      rcases List.mem_cons.1 hc with e | e
      · rw [e]
        unfold isDigit
        omega
      · exact hacc c e

/-- `formatBits` writes at least one digit. -/
theorem formatBits_ne_nil (fuel : Nat) :
    ∀ (u : Nat) (acc : List Nat), formatBits fuel u acc ≠ [] := by
  induction fuel with
  | zero => intro u acc; rw [formatBits_zero]; exact List.cons_ne_nil _ _
  | succ fuel ih =>
    intro u acc
    rw [formatBits_succ]
    by_cases hu : u ≥ 10
    · rw [if_pos hu]; exact ih _ _
    · rw [if_neg hu]; exact List.cons_ne_nil _ _

/-- The digits `formatBits` writes in front of `acc` are those of `u`. -/
theorem formatBits_val (fuel : Nat) :
    ∀ (u : Nat) (acc : List Nat), u ≤ fuel →
      digitsVal (formatBits fuel u acc) = u * 10 ^ acc.length + digitsVal acc := by
  induction fuel with
  | zero =>
    intro u acc hu
    have hu0 : u = 0 := by omega
    subst hu0
    rw [formatBits_zero, digitsVal_cons]
    simp
  | succ fuel ih =>
    intro u acc hu
    rw [formatBits_succ]
    by_cases h10 : u ≥ 10
    · rw [if_pos h10, ih (u / 10) _ (by omega), digitsVal_cons, List.length_cons]
      have e : chZero + u % 10 - chZero = u % 10 := by omega
      rw [e]
      have hdiv : u = 10 * (u / 10) + u % 10 := (Nat.div_add_mod u 10).symm
      have hp : 10 ^ (acc.length + 1) = 10 * 10 ^ acc.length := by ring
      rw [hp]
      nth_rewrite 3 [hdiv]
      ring
    · rw [if_neg h10, digitsVal_cons]
      have e : chZero + u - chZero = u := by omega
      rw [e]

/-- `FormatInt` of a non-negative integer: a non-empty digit string that writes
it. -/
theorem FormatInt_nonneg {u : Int} (hu : 0 ≤ u) :
    (∀ c ∈ FormatInt u, isDigit c) ∧ FormatInt u ≠ [] ∧
      (digitsVal (FormatInt u) : Int) = u := by
  have hf : FormatInt u = formatBits u.natAbs u.natAbs [] := by
    unfold FormatInt
    rw [if_neg (by omega)]
  rw [hf]
  refine ⟨formatBits_isDigit _ _ _ (fun c hc => by cases hc), formatBits_ne_nil _ _ _, ?_⟩
  rw [formatBits_val _ _ _ (Nat.le_refl _)]
  show ((u.natAbs * 10 ^ 0 + 0 : Nat) : Int) = u
  rw [pow_zero, Nat.mul_one, Nat.add_zero]
  omega

/-- `FormatInt` of a negative integer: `'-'` and a non-empty digit string that
writes its magnitude. -/
theorem FormatInt_neg {u : Int} (hu : u < 0) :
    ∃ ds, FormatInt u = chMinus :: ds ∧ (∀ c ∈ ds, isDigit c) ∧ ds ≠ [] ∧
      -(digitsVal ds : Int) = u := by
  refine ⟨formatBits u.natAbs u.natAbs [], ?_, formatBits_isDigit _ _ _ (fun c hc => by cases hc),
    formatBits_ne_nil _ _ _, ?_⟩
  · unfold FormatInt
    rw [if_pos hu]
  · rw [formatBits_val _ _ _ (Nat.le_refl _)]
    show -((u.natAbs * 10 ^ 0 + 0 : Nat) : Int) = u
    rw [pow_zero, Nat.mul_one, Nat.add_zero]
    omega

/-- Parsing a digit string with a decimal point inserted `n` bytes from its
start, after an optional sign. -/
theorem UnmarshalText_point_insert (d : Decimal) (sign p : List Nat) (n : Nat)
    (hsign : sign = [] ∨ sign = [chPlus] ∨ sign = [chMinus])
    (hp : ∀ c ∈ p, isDigit c) (hne : p ≠ []) (hfit : isInt64 (signedVal sign p)) :
    UnmarshalText d (sign ++ p.take n ++ [chDot] ++ p.drop n) =
      ({ Unscaled := signedVal sign p, Scale := ((p.drop n).length : Int) }, none) := by
  have h := UnmarshalText_form d sign (p.take n) (p.drop n) true hsign
    (fun c hc => hp c (List.mem_of_mem_take hc)) (fun c hc => hp c (List.mem_of_mem_drop hc))
    (fun e => by cases e) (by rw [List.take_append_drop]; exact hne)
    (by rw [List.take_append_drop]; exact hfit)
  rw [List.take_append_drop, if_pos rfl] at h
  rw [← h]
  simp

/-- The round trip through text holds for every `int64` value and every scale
`≥ 0`, unless the value is negative and its `FormatInt` text, sign included, is
no longer than the scale. -/
theorem roundtrip_of_nonneg_or_long (d : Decimal) (u s : Int) (hu : isInt64 u) (hs : 0 ≤ s)
    (h : 0 ≤ u ∨ s < ((FormatInt u).length : Int)) :
    UnmarshalText d (MarshalText ⟨u, s⟩) = (⟨u, s⟩, none) := by
  by_cases hs0 : s ≤ 0
  · have hs00 : s = 0 := by omega
    subst hs00
    have hm : MarshalText ⟨u, 0⟩ = FormatInt u := by
      unfold MarshalText
      rw [if_pos (show (0 : Int) ≤ 0 by decide)]
      show FormatInt u ++ List.replicate 0 chZero = _
      simp
    rw [hm]
    by_cases hneg : u < 0
    · obtain ⟨ds, hds, hdig, hne, hval⟩ := FormatInt_neg hneg
      have hsv : signedVal [chMinus] (ds ++ []) = u := by
        unfold signedVal
        rw [if_pos rfl, List.append_nil]
        exact hval
      have hform := UnmarshalText_form d [chMinus] ds [] false (Or.inr (Or.inr rfl)) hdig
        (fun c hc => by cases hc) (fun _ => rfl) (by simpa using hne) (by rw [hsv]; exact hu)
      rw [hsv] at hform
      rw [hds]
      simpa using hform
    · obtain ⟨hdig, hne, hval⟩ := FormatInt_nonneg (show 0 ≤ u by omega)
      have hsv : signedVal [] (FormatInt u ++ []) = u := by
        unfold signedVal
        rw [if_neg (by simp), List.append_nil]
        exact hval
      have hform := UnmarshalText_form d [] (FormatInt u) [] false (Or.inl rfl) hdig
        (fun c hc => by cases hc) (fun _ => rfl) (by simpa using hne) (by rw [hsv]; exact hu)
      rw [hsv] at hform
      simpa using hform
  · have hspos : 0 < s := by omega
    by_cases hneg : u < 0
    · obtain ⟨ds, hds, hdig, hne, hval⟩ := FormatInt_neg hneg
      have hlong : s < ((FormatInt u).length : Int) := by
        rcases h with h | h
        · omega
        · exact h
      have hlen : ((FormatInt u).length : Int) = (ds.length : Int) + 1 := by
        rw [hds]; simp
      have hm : MarshalText ⟨u, s⟩ =
          [chMinus] ++ ds.take (ds.length - s.toNat) ++ [chDot]
            ++ ds.drop (ds.length - s.toNat) := by
        unfold MarshalText
        rw [if_neg hs0]
        simp only []
        rw [if_neg (by omega), hds]
        have hn : ((chMinus :: ds).length - s : Int).toNat = (ds.length - s.toNat) + 1 := by
          simp only [List.length_cons]
          push_cast
          omega
        rw [hn]
        simp
      have hsv : signedVal [chMinus] ds = u := by
        unfold signedVal
        rw [if_pos rfl]
        exact hval
      rw [hm, UnmarshalText_point_insert d [chMinus] ds _ (Or.inr (Or.inr rfl)) hdig hne
        (by rw [hsv]; exact hu), hsv]
      congr 2
      rw [List.length_drop]
      omega
    · obtain ⟨hdig, hne, hval⟩ := FormatInt_nonneg (show 0 ≤ u by omega)
      have hsv : ∀ k, signedVal [] (Repeat chZero k ++ FormatInt u) = u := by
        intro k
        unfold signedVal
        rw [if_neg (by simp), digitsVal_append, digitsVal_zeros]
        simpa using hval
      have hzero : ∀ k, ∀ c ∈ Repeat chZero k ++ FormatInt u, isDigit c := by
        intro k c hc
        rcases List.mem_append.1 hc with hc | hc
        · rw [List.eq_of_mem_replicate hc]
          decide
        · exact hdig c hc
      have key : ∀ k : Nat, s < ((Repeat chZero k ++ FormatInt u).length : Int) →
          UnmarshalText d
            ((Repeat chZero k ++ FormatInt u).take
                (((Repeat chZero k ++ FormatInt u).length : Int) - s).toNat ++ [chDot]
              ++ (Repeat chZero k ++ FormatInt u).drop
                (((Repeat chZero k ++ FormatInt u).length : Int) - s).toNat)
            = (⟨u, s⟩, none) := by
        intro k hk
        have hins := UnmarshalText_point_insert d [] (Repeat chZero k ++ FormatInt u)
          (((Repeat chZero k ++ FormatInt u).length : Int) - s).toNat (Or.inl rfl) (hzero k)
          (by simp [hne]) (by rw [hsv]; exact hu)
        rw [hsv, List.nil_append] at hins
        rw [hins]
        congr 2
        rw [List.length_drop]
        omega
      unfold MarshalText
      rw [if_neg hs0]
      simp only []
      by_cases hpad : ((FormatInt u).length : Int) ≤ s
      · rw [if_pos hpad]
        apply key
        simp only [List.length_append, Repeat, List.length_replicate]
        push_cast
        omega
      · rw [if_neg hpad]
        have := key 0 (by simpa [Repeat] using (show s < ((FormatInt u).length : Int) by omega))
        simpa [Repeat] using this

theorem roundtrip_of_nonneg_or_long_witness :
    isInt64 (-5504) ∧ (0 : Int) ≤ 2 ∧
    ((0 : Int) ≤ -5504 ∨ (2 : Int) < ((FormatInt (-5504)).length : Int)) ∧
    UnmarshalText ⟨0, 0⟩ (MarshalText ⟨-5504, 2⟩) = (⟨-5504, 2⟩, none) :=
  ⟨by decide, by decide, Or.inr (by decide),
    roundtrip_of_nonneg_or_long ⟨0, 0⟩ (-5504) 2 (by decide) (by decide) (Or.inr (by decide))⟩

/-- The table of `TestDecimalMarshalText`. -/
theorem MarshalText_tests :
    MarshalText ⟨250, -2⟩ = bytes "25000" ∧ MarshalText ⟨2, 0⟩ = bytes "2" ∧
    MarshalText ⟨23, 0⟩ = bytes "23" ∧ MarshalText ⟨234, 0⟩ = bytes "234" ∧
    MarshalText ⟨0, 1⟩ = bytes "0.0" ∧ MarshalText ⟨1, 1⟩ = bytes "0.1" ∧
    MarshalText ⟨12, 1⟩ = bytes "1.2" ∧ MarshalText ⟨0, 2⟩ = bytes "0.00" ∧
    MarshalText ⟨5, 2⟩ = bytes "0.05" ∧ MarshalText ⟨55, 2⟩ = bytes "0.55" ∧
    MarshalText ⟨250, 2⟩ = bytes "2.50" ∧ MarshalText ⟨4586, 2⟩ = bytes "45.86" ∧
    MarshalText ⟨-5504, 2⟩ = bytes "-55.04" ∧ MarshalText ⟨0, 3⟩ = bytes "0.000" ∧
    MarshalText ⟨5, 3⟩ = bytes "0.005" ∧ MarshalText ⟨55, 3⟩ = bytes "0.055" ∧
    MarshalText ⟨250, 3⟩ = bytes "0.250" ∧ MarshalText ⟨4586, 3⟩ = bytes "4.586" ∧
    MarshalText ⟨45867, 3⟩ = bytes "45.867" ∧ MarshalText ⟨-55043, 3⟩ = bytes "-55.043" := by
  decide

/-- The table of `TestDecimalUnmarshalText`, each row started from the zero
`Decimal`. -/
theorem UnmarshalText_tests :
    UnmarshalText ⟨0, 0⟩ (bytes "2.50") = (⟨250, 2⟩, none) ∧
    UnmarshalText ⟨0, 0⟩ (bytes "2") = (⟨2, 0⟩, none) ∧
    UnmarshalText ⟨0, 0⟩ (bytes "0.00") = (⟨0, 2⟩, none) ∧
    UnmarshalText ⟨0, 0⟩ (bytes "-5.504") = (⟨-5504, 3⟩, none) ∧
    UnmarshalText ⟨0, 0⟩ (bytes "0.5") = (⟨5, 1⟩, none) ∧
    UnmarshalText ⟨0, 0⟩ (bytes ".5") = (⟨5, 1⟩, none) ∧
    UnmarshalText ⟨0, 0⟩ (bytes "5.504.98") = (⟨0, 0⟩, some .ErrSyntax) ∧
    UnmarshalText ⟨0, 0⟩ (bytes "5E6") = (⟨0, 0⟩, some .ErrSyntax) := by
  decide

/-- C3, at the input where the code departs from it: `FormatInt(-5)` is `"-5"`,
whose length 2 counts the sign, so one `'0'` is put in front of the sign and the
point is inserted two bytes from the end; `MarshalText` of `{-5, 2}` is `"0.-5"`
and not `"-0.05"`. -/
theorem MarshalText_negative_short :
    FormatInt (-5) = bytes "-5" ∧ MarshalText ⟨-5, 2⟩ = bytes "0.-5" ∧
    MarshalText ⟨-5, 2⟩ ≠ bytes "-0.05" := by
  decide

/-- C1, at the input where the code departs from it: the text `MarshalText`
produces for `{-5, 2}` is rejected by `UnmarshalText`, so the round trip does not
give `{-5, 2}` back. -/
theorem roundtrip_negative_short :
    UnmarshalText ⟨0, 0⟩ (MarshalText ⟨-5, 2⟩) = (⟨0, 0⟩, some .ErrSyntax) ∧
    (UnmarshalText ⟨0, 0⟩ (MarshalText ⟨-5, 2⟩)).1 ≠ ⟨-5, 2⟩ := by
  decide

/-! ## Theorems: `Decimal.Cmp` -/

theorem scaleLoop_stop (hi lo u : Int) (h : hi ≤ lo) : scaleLoop hi lo u = (hi, u) := by
  rw [scaleLoop, if_neg (by omega)]

theorem scaleLoop_step (hi lo u : Int) (h : lo < hi) :
    scaleLoop hi lo u = scaleLoop (hi - 1) lo (wrap64 (u * 10)) := by
  rw [scaleLoop, if_pos h]

theorem isInt64_of_mul_pow {z : Int} (k : Nat) (h : isInt64 (z * 10 ^ k)) : isInt64 z := by
  unfold isInt64 minInt64 maxInt64 at h ⊢
  have hp : (1 : Int) ≤ 10 ^ k := one_le_pow₀ (by norm_num)
  rcases le_or_lt 0 z with hz | hz
  · constructor
    · omega
    · nlinarith
  · constructor
    · nlinarith
    · omega

/-- While the scaled magnitude stays inside `int64` the alignment loop computes
the exact product with the power of ten. -/
theorem scaleLoop_exact (k : Nat) :
    ∀ (hi lo u : Int), (hi - lo).toNat = k → isInt64 (u * 10 ^ k) →
      scaleLoop hi lo u = (min hi lo, u * 10 ^ k) := by
  induction k with
  | zero =>
    intro hi lo u hk _
    rw [scaleLoop_stop hi lo u (by omega), min_eq_left (by omega)]
    simp
  | succ k ih =>
    intro hi lo u hk hfit
    have e : u * 10 ^ (k + 1) = (u * 10) * 10 ^ k := by ring
    rw [e] at hfit
    rw [scaleLoop_step hi lo u (by omega), wrap64_of_isInt64 (isInt64_of_mul_pow k hfit),
      ih (hi - 1) lo (u * 10) (by omega) hfit, e, min_eq_right (by omega),
      min_eq_right (by omega)]

theorem value_eq_aligned (d : Decimal) (m : Int) (k : Nat) (h : m = d.Scale + k) :
    d.value = ((d.Unscaled * 10 ^ k : Int) : ℚ) * (10 : ℚ) ^ (-m) := by
  unfold Decimal.value
  have h10 : (10 : ℚ) ≠ 0 := by norm_num
  have e : -d.Scale = (k : Int) + -m := by omega
  rw [e, zpow_add₀ h10, zpow_natCast]
  push_cast
  ring

theorem Cmp_eq (x y : Decimal) :
    Cmp x y =
      if (scaleLoop y.Scale (scaleLoop x.Scale y.Scale y.Unscaled).1 x.Unscaled).2
          < (scaleLoop x.Scale y.Scale y.Unscaled).2 then -1
      else if (scaleLoop y.Scale (scaleLoop x.Scale y.Scale y.Unscaled).1 x.Unscaled).2
          > (scaleLoop x.Scale y.Scale y.Unscaled).2 then 1
      else 0 := rfl

/-- The table of `TestDecimalCmp`. -/
theorem Cmp_tests :
    Cmp ⟨250, -2⟩ ⟨250, -2⟩ = 0 ∧ Cmp ⟨2, 0⟩ ⟨250, -2⟩ = -1 ∧ Cmp ⟨500, 2⟩ ⟨50, 1⟩ = 0 ∧
    Cmp ⟨2500, -2⟩ ⟨250, -2⟩ = 1 ∧ Cmp ⟨100, 2⟩ ⟨1, 0⟩ = 0 := by
  simp [Cmp, scaleLoop, wrap64]

/-- C2 as stated fails: aligning `{1, 0}` with `{1, 19}` multiplies an `int64` by
ten nineteen times, which wraps to a negative number, so `Cmp` answers `1`
although `1 * 10^-19 < 1`. -/
theorem Cmp_exact_counterexample :
    Cmp ⟨1, 19⟩ ⟨1, 0⟩ = 1 ∧ Decimal.value ⟨1, 19⟩ < Decimal.value ⟨1, 0⟩ := by
  constructor
  · simp [Cmp, scaleLoop, wrap64]
  · norm_num [Decimal.value]

/-- C2, amended: whenever the magnitude of each operand, multiplied by the power
of ten that aligns it with the other operand's scale, still fits in `int64`,
`x.Cmp(y)` is `-1`, `0` or `1` exactly when the rational value
`x.Unscaled * 10^(-x.Scale)` is less than, equal to or greater than
`y.Unscaled * 10^(-y.Scale)`. -/
theorem Cmp_exact (x y : Decimal)
    (hx : isInt64 (x.Unscaled * 10 ^ (y.Scale - x.Scale).toNat))
    (hy : isInt64 (y.Unscaled * 10 ^ (x.Scale - y.Scale).toNat)) :
    (Cmp x y = -1 ↔ x.value < y.value) ∧
    (Cmp x y = 0 ↔ x.value = y.value) ∧
    (Cmp x y = 1 ↔ x.value > y.value) := by
  have hm1 : max x.Scale y.Scale = x.Scale + ((y.Scale - x.Scale).toNat : Int) := by
    rcases le_total x.Scale y.Scale with h | h
    · rw [max_eq_right h]; omega
    · rw [max_eq_left h]; omega
  have hm2 : max x.Scale y.Scale = y.Scale + ((x.Scale - y.Scale).toNat : Int) := by
    rcases le_total x.Scale y.Scale with h | h
    · rw [max_eq_right h]; omega
    · rw [max_eq_left h]; omega
  have hxv := value_eq_aligned x _ _ hm1
  have hyv := value_eq_aligned y _ _ hm2
  have hpos : (0 : ℚ) < (10 : ℚ) ^ (-(max x.Scale y.Scale)) := zpow_pos (by norm_num) _
  have hk : (y.Scale - min x.Scale y.Scale).toNat = (y.Scale - x.Scale).toNat := by
    rcases le_total x.Scale y.Scale with h | h
    · rw [min_eq_left h]
    · rw [min_eq_right h]; omega
  rw [Cmp_eq, scaleLoop_exact _ x.Scale y.Scale y.Unscaled rfl hy]
  simp only []
  rw [scaleLoop_exact _ y.Scale (min x.Scale y.Scale) x.Unscaled hk hx, hxv, hyv]
  simp only []
  generalize x.Unscaled * 10 ^ (y.Scale - x.Scale).toNat = a
  generalize y.Unscaled * 10 ^ (x.Scale - y.Scale).toNat = b
  have hlt : ((a : ℚ) * (10 : ℚ) ^ (-(max x.Scale y.Scale))
      < (b : ℚ) * (10 : ℚ) ^ (-(max x.Scale y.Scale))) ↔ a < b := by
    rw [mul_lt_mul_right hpos]; exact Int.cast_lt
  have hgt : ((a : ℚ) * (10 : ℚ) ^ (-(max x.Scale y.Scale))
      > (b : ℚ) * (10 : ℚ) ^ (-(max x.Scale y.Scale))) ↔ a > b := by
    rw [gt_iff_lt, mul_lt_mul_right hpos]; exact Int.cast_lt
  have heq : ((a : ℚ) * (10 : ℚ) ^ (-(max x.Scale y.Scale))
      = (b : ℚ) * (10 : ℚ) ^ (-(max x.Scale y.Scale))) ↔ a = b := by
    rw [mul_left_inj' (ne_of_gt hpos)]; exact Int.cast_inj
  rw [hlt, hgt, heq]
  rcases lt_trichotomy a b with h | h | h
  · rw [if_pos h]
    refine ⟨⟨fun _ => h, fun _ => rfl⟩, ⟨fun e => absurd e (by decide), fun e => ?_⟩,
      ⟨fun e => absurd e (by decide), fun e => ?_⟩⟩ <;> omega
  · rw [if_neg (by omega), if_neg (by omega)]
    refine ⟨⟨fun e => absurd e (by decide), fun e => ?_⟩, ⟨fun _ => h, fun _ => rfl⟩,
      ⟨fun e => absurd e (by decide), fun e => ?_⟩⟩ <;> omega
  · rw [if_neg (by omega), if_pos h]
    refine ⟨⟨fun e => absurd e (by decide), fun e => ?_⟩,
      ⟨fun e => absurd e (by decide), fun e => ?_⟩, ⟨fun _ => h, fun _ => rfl⟩⟩ <;> omega

theorem Cmp_exact_witness :
    isInt64 ((500 : Int) * 10 ^ ((1 : Int) - 2).toNat) ∧
    isInt64 ((50 : Int) * 10 ^ ((2 : Int) - 1).toNat) ∧
    ((Cmp ⟨500, 2⟩ ⟨50, 1⟩ = -1 ↔ Decimal.value ⟨500, 2⟩ < Decimal.value ⟨50, 1⟩) ∧
     (Cmp ⟨500, 2⟩ ⟨50, 1⟩ = 0 ↔ Decimal.value ⟨500, 2⟩ = Decimal.value ⟨50, 1⟩) ∧
     (Cmp ⟨500, 2⟩ ⟨50, 1⟩ = 1 ↔ Decimal.value ⟨500, 2⟩ > Decimal.value ⟨50, 1⟩)) :=
  ⟨by decide, by decide, Cmp_exact ⟨500, 2⟩ ⟨50, 1⟩ (by decide) (by decide)⟩

/-! ## Theorems: the `Search` builder -/

theorem readSlice_congr (h h1 : Heap) (sl : Slice)
    (ha : sl.len ≠ 0 → h1.arrays[sl.array]? = h.arrays[sl.array]?) :
    readSlice h1 sl = readSlice h sl := by
  unfold readSlice
  by_cases h0 : sl.len = 0
  · rw [if_pos h0, if_pos h0]
  · rw [if_neg h0, if_neg h0, ha h0]

theorem lookupIndex_congr (h h1 : Heap) (so : Search) (name : String)
    (hm : ∀ m, so.fieldIndex = some m → h1.maps[m]? = h.maps[m]?) :
    lookupIndex h1 so name = lookupIndex h so name := by
  unfold lookupIndex
  cases hfi : so.fieldIndex with
  | none => rfl
  | some m => simp only [hm m hfi]

theorem readSlice_length (h : Heap) (sl : Slice) (l : List (Option Nat))
    (hl : readSlice h sl = some l) : l.length = sl.len := by
  unfold readSlice at hl
  by_cases h0 : sl.len = 0
  · rw [if_pos h0] at hl
    cases hl
    simp [h0]
  · rw [if_neg h0] at hl
    cases ha : h.arrays[sl.array]? with
    | none => rw [ha] at hl; cases hl
    | some a =>
      rw [ha] at hl
      by_cases hle : sl.len ≤ a.length
      · simp only [hle, if_true, Option.some.injEq] at hl
        subst hl
        simp [hle]
      · simp [hle] at hl

theorem SearchOK.readSlice_some {h : Heap} {so : Search} (ok : SearchOK h so) :
    ∃ l, readSlice h so.fields = some l ∧ l.length = so.fields.len := by
  by_cases h0 : so.fields.len = 0
  · refine ⟨[], ?_, by simp [h0]⟩
    unfold readSlice
    rw [if_pos h0]
  · obtain ⟨a, ha, hlen⟩ := ok.array (by have := ok.len_le; omega)
    have hle : so.fields.len ≤ a.length := by rw [hlen]; exact ok.len_le
    refine ⟨a.take so.fields.len, ?_, by simp [hle]⟩
    unfold readSlice
    rw [if_neg h0, ha]
    simp [hle]

theorem SearchOK.frame {h h1 : Heap} {so : Search} (ok : SearchOK h so)
    (ha : 0 < so.fields.cap → h1.arrays[so.fields.array]? = h.arrays[so.fields.array]?)
    (hm : ∀ m, so.fieldIndex = some m → h1.maps[m]? = h.maps[m]?)
    (ho : ∀ (f : Nat) (o : Field), h.objs[f]? = some o → h1.objs[f]? = some o) :
    SearchOK h1 so := by
  have hrs : readSlice h1 so.fields = readSlice h so.fields :=
    readSlice_congr h h1 so.fields (fun h0 => ha (by have := ok.len_le; omega))
  have hnames : recNames h1 so = recNames h so := by
    unfold recNames
    rw [hrs]
    apply List.map_congr_left
    intro el hel
    obtain ⟨f, o, rfl, hf⟩ := ok.elems el hel
    simp only [slotName, hf, ho f o hf]
  refine ⟨ok.len_le, ?_, ?_, ?_, ?_⟩
  · intro hc
    rw [ha hc]
    exact ok.array hc
  · intro m hfi
    rw [hm m hfi]
    exact ok.map m hfi
  · intro el hel
    rw [hrs] at hel
    obtain ⟨f, o, rfl, hf⟩ := ok.elems el hel
    exact ⟨f, o, rfl, ho f o hf⟩
  · intro name i
    rw [lookupIndex_congr h h1 so name hm, hnames]
    exact ok.index name i

theorem fieldsOf_eq {h : Heap} {s : Nat} {so : Search} (hs : h.searches[s]? = some so) :
    fieldsOf h s = readSlice h so.fields := by
  unfold fieldsOf
  rw [hs]

theorem indexOf_eq {h : Heap} {s : Nat} {so : Search} (hs : h.searches[s]? = some so)
    (name : String) : indexOf h s name = lookupIndex h so name := by
  unfold indexOf
  rw [hs]

/-- A heap update that rewrites the record of one search `s`, touches no array
and no map owned by another search, and keeps every predicate object, preserves
the invariant and the view of every other search. -/
theorem WF_update (h h1 : Heap) (s : Nat) (so1 : Search) (wf : WF h)
    (hsearch : ∀ t : Nat, h1.searches[t]? = if t = s then some so1 else h.searches[t]?)
    (hobjs : ∀ (f : Nat) (o : Field), h.objs[f]? = some o → h1.objs[f]? = some o)
    (hframe : ∀ (t : Nat) (st : Search), t ≠ s → h.searches[t]? = some st →
      (0 < st.fields.cap →
        h1.arrays[st.fields.array]? = h.arrays[st.fields.array]? ∧
        (0 < so1.fields.cap → so1.fields.array ≠ st.fields.array)) ∧
      (∀ m, st.fieldIndex = some m → h1.maps[m]? = h.maps[m]? ∧ so1.fieldIndex ≠ some m))
    (hok : SearchOK h1 so1) :
    WF h1 ∧ ∀ t : Nat, t ≠ s →
      fieldsOf h1 t = fieldsOf h t ∧ ∀ n, indexOf h1 t n = indexOf h t n := by
  obtain ⟨hall, hna⟩ := wf
  refine ⟨⟨?_, ?_⟩, ?_⟩
  · intro t st ht
    rw [hsearch t] at ht
    by_cases hts : t = s
    · rw [if_pos hts] at ht
      cases ht
      exact hok
    · rw [if_neg hts] at ht
      have hf := hframe t st hts ht
      exact (hall t st ht).frame (fun hc => (hf.1 hc).1) (fun m hm => (hf.2 m hm).1) hobjs
  · intro t u st su htu ht hu
    rw [hsearch t] at ht
    rw [hsearch u] at hu
    by_cases hts : t = s
    · have hus : u ≠ s := fun e => htu (hts.trans e.symm)
      rw [if_pos hts] at ht
      rw [if_neg hus] at hu
      cases ht
      have hf := hframe u su hus hu
      exact ⟨fun hc1 hc2 => (hf.1 hc2).2 hc1, fun m hm e => (hf.2 m e).2 hm⟩
    · rw [if_neg hts] at ht
      by_cases hus : u = s
      · rw [if_pos hus] at hu
        cases hu
        have hf := hframe t st hts ht
        exact ⟨fun hc1 hc2 e => (hf.1 hc1).2 hc2 e.symm, fun m hm => (hf.2 m hm).2⟩
      · rw [if_neg hus] at hu
        exact hna t u st su htu ht hu
  · intro t hts
    cases ht : h.searches[t]? with
    | none =>
      have ht1 : h1.searches[t]? = none := by rw [hsearch t, if_neg hts, ht]
      refine ⟨?_, fun n => ?_⟩
      · unfold fieldsOf; rw [ht, ht1]
      · unfold indexOf; rw [ht, ht1]
    | some st =>
      have ht1 : h1.searches[t]? = some st := by rw [hsearch t, if_neg hts, ht]
      have hf := hframe t st hts ht
      have ok := hall t st ht
      refine ⟨?_, fun n => ?_⟩
      · rw [fieldsOf_eq ht, fieldsOf_eq ht1]
        exact readSlice_congr h h1 _ (fun h0 => (hf.1 (by have := ok.len_le; omega)).1)
      · rw [indexOf_eq ht, indexOf_eq ht1]
        exact lookupIndex_congr h h1 _ n (fun m hm => (hf.2 m hm).1)

theorem mapLookup_cons (k : String) (v : Nat) (m : List (String × Nat)) (key : String) :
    mapLookup ((k, v) :: m) key = if k = key then some v else mapLookup m key := rfl

theorem mapLookup_filter_ne (m : List (String × Nat)) (k key : String) (hne : key ≠ k) :
    mapLookup (m.filter (fun p => decide (p.1 ≠ k))) key = mapLookup m key := by
  induction m with
  | nil => rfl
  | cons p m ih =>
    obtain ⟨k1, v1⟩ := p
    by_cases hk : k1 = k
    · rw [List.filter_cons_of_neg (by simp [hk]), mapLookup_cons, if_neg (by rw [hk]; exact fun e => hne e.symm), ih]
    · rw [List.filter_cons_of_pos (by simp [hk]), mapLookup_cons, mapLookup_cons, ih]

theorem mapLookup_mapInsert (m : List (String × Nat)) (k : String) (v : Nat) (key : String) :
    mapLookup (mapInsert m k v) key = if key = k then some v else mapLookup m key := by
  unfold mapInsert
  rw [mapLookup_cons]
  by_cases hk : key = k
  · rw [if_pos hk.symm, if_pos hk]
  · rw [if_neg (fun e => hk e.symm), if_neg hk, mapLookup_filter_ne m k key hk]

theorem readSlice_of_array (h : Heap) (sl : Slice) (a : List (Option Nat))
    (h0 : sl.len ≠ 0) (ha : h.arrays[sl.array]? = some a) (hle : sl.len ≤ a.length) :
    readSlice h sl = some (a.take sl.len) := by
  unfold readSlice
  simp only [h0, if_false, ha, hle, if_true]

theorem readSlice_of_len_zero {h : Heap} {sl : Slice} (h0 : sl.len = 0) :
    readSlice h sl = some [] := by
  unfold readSlice
  rw [if_pos h0]

theorem searches_set_self {h : Heap} {s : Nat} {so : Search} (hs : h.searches[s]? = some so)
    (t : Nat) : h.searches[t]? = if t = s then some so else h.searches[t]? := by
  by_cases hts : t = s
  · rw [if_pos hts, hts, hs]
  · rw [if_neg hts]

theorem recNames_eq {h : Heap} {so : Search} {l : List (Option Nat)}
    (hl : readSlice h so.fields = some l) : recNames h so = l.map (slotName h) := by
  unfold recNames
  rw [hl]
  rfl

theorem SearchOK.lt_of_index {h : Heap} {so : Search} (ok : SearchOK h so) {name : String}
    {i : Nat} (hi : lookupIndex h so name = some i) : i < so.fields.len := by
  obtain ⟨l, hl, hlen⟩ := ok.readSlice_some
  have h1 := (ok.index name i).1 hi
  rw [recNames_eq hl] at h1
  have h2 : i < (l.map (slotName h)).length := by
    by_contra hcon
    rw [List.getElem?_eq_none (by omega)] at h1
    cases h1
  rw [List.length_map, hlen] at h2
  exact h2

/-- `addField` under a name the index already holds: the slot at the indexed
position is overwritten in place and nothing else changes. -/
theorem addField_replace (extra : Nat → Nat) {h : Heap} (wf : WF h) {s : Nat} {so : Search}
    (hs : h.searches[s]? = some so) {name : String} {f : Nat} {o : Field}
    (hf : h.objs[f]? = some o) (hname : o.name = name)
    {i : Nat} (hi : lookupIndex h so name = some i) :
    ∃ h1 l, addField extra h s name f = some h1 ∧ WF h1 ∧ h1.objs = h.objs ∧
      h1.searches = h.searches ∧
      (∀ t : Nat, t ≠ s →
        fieldsOf h1 t = fieldsOf h t ∧ ∀ n, indexOf h1 t n = indexOf h t n) ∧
      fieldsOf h s = some l ∧ i < l.length ∧
      fieldsOf h1 s = some (l.set i (some f)) ∧
      (∀ n, indexOf h1 s n = indexOf h s n) ∧
      recNames h1 so = recNames h so := by
  have ok := wf.1 s so hs
  have hilt := ok.lt_of_index hi
  obtain ⟨a, ha, halen⟩ := ok.array (by have := ok.len_le; omega)
  have hle : so.fields.len ≤ a.length := by rw [halen]; exact ok.len_le
  have h0 : so.fields.len ≠ 0 := by omega
  have hl : readSlice h so.fields = some (a.take so.fields.len) :=
    readSlice_of_array _ _ _ h0 ha hle
  let h1 : Heap := { h with arrays := h.arrays.set so.fields.array (a.set i (some f)) }
  have hadd : addField extra h s name f = some h1 := by
    unfold addField
    simp only [hs, hi, hilt, if_true, ha]
  have halt : so.fields.array < h.arrays.length := by
    by_contra hcon
    rw [List.getElem?_eq_none (by omega)] at ha
    cases ha
  have ha1 : h1.arrays[so.fields.array]? = some (a.set i (some f)) :=
    List.getElem?_set_eq_of_lt _ halt
  have hl1 : readSlice h1 so.fields = some ((a.take so.fields.len).set i (some f)) := by
    rw [readSlice_of_array _ _ _ h0 ha1 (by rw [List.length_set]; exact hle), List.set_take]
  have hn : recNames h1 so = recNames h so := by
    rw [recNames_eq hl1, recNames_eq hl, List.map_set]
    have hi2 := (ok.index name i).1 hi
    rw [recNames_eq hl] at hi2
    apply List.ext_getElem?
    intro j
    rw [List.getElem?_set]
    by_cases hij : i = j
    · subst hij
      rw [if_pos rfl, hi2]
      have : i < (List.map (slotName h1) (List.take so.fields.len a)).length := by
        simp [hle, hilt]
      rw [if_pos this]
      show some (Option.map Field.name h.objs[f]?) = _
      rw [hf, ← hname]
      rfl
    · rw [if_neg hij]
      rfl
  have hok1 : SearchOK h1 so := by
    refine ⟨ok.len_le, ?_, ok.map, ?_, ?_⟩
    · intro _
      exact ⟨_, ha1, by rw [List.length_set, halen]⟩
    · intro el hel
      rw [hl1] at hel
      rcases List.mem_or_eq_of_mem_set hel with hel | hel
      · exact ok.elems el (by rw [hl]; exact hel)
      · exact ⟨f, o, hel, hf⟩
    · intro n j
      rw [hn, ← ok.index n j]
      rfl
  have hupd := WF_update h h1 s so wf (searches_set_self hs)
    (fun _ _ e => e)
    (by
      intro t st hts ht
      have hna := wf.2 s t so st (fun e => hts e.symm) hs ht
      refine ⟨fun hc => ⟨?_, fun hc1 => hna.1 hc1 hc⟩, fun m hm => ⟨rfl, fun e => hna.2 m e hm⟩⟩
      exact List.getElem?_set_ne (hna.1 (by omega) hc))
    hok1
  refine ⟨h1, a.take so.fields.len, hadd, hupd.1, rfl, rfl, hupd.2, ?_, ?_, ?_, ?_, hn⟩
  · rw [fieldsOf_eq hs, hl]
  · simp [hle, hilt]
  · rw [@fieldsOf_eq h1 s so hs, hl1]
  · intro n
    rfl

/-- `append` on a well-formed slice: the result reads as the old elements
followed by the new one, the backing arrays of other slices are untouched, and
the result lives in the old backing array or in a newly allocated one. -/
theorem append_spec (extra : Nat → Nat) (h : Heap) (sl : Slice) (x : Option Nat)
    (hle : sl.len ≤ sl.cap)
    (harr : 0 < sl.cap → ∃ a, h.arrays[sl.array]? = some a ∧ a.length = sl.cap) :
    ∃ h1 sl1 l, readSlice h sl = some l ∧ append extra h sl x = some (h1, sl1) ∧
      h1.objs = h.objs ∧ h1.maps = h.maps ∧ h1.searches = h.searches ∧
      sl1.len = sl.len + 1 ∧ sl1.len ≤ sl1.cap ∧
      (∃ a1, h1.arrays[sl1.array]? = some a1 ∧ a1.length = sl1.cap) ∧
      readSlice h1 sl1 = some (l ++ [x]) ∧
      (∀ j : Nat, j < h.arrays.length → (0 < sl.cap → j ≠ sl.array) →
        h1.arrays[j]? = h.arrays[j]?) ∧
      ((0 < sl.cap ∧ sl1.array = sl.array) ∨ sl1.array = h.arrays.length) := by
  have hread : ∃ l, readSlice h sl = some l ∧ l.length = sl.len := by
    by_cases h0 : sl.len = 0
    · exact ⟨[], readSlice_of_len_zero h0, by simp [h0]⟩
    · obtain ⟨a, ha, halen⟩ := harr (by omega)
      exact ⟨a.take sl.len, readSlice_of_array _ _ _ h0 ha (by omega), by simp; omega⟩
  obtain ⟨l, hl, hlen⟩ := hread
  by_cases hlt : sl.len < sl.cap
  · obtain ⟨a, ha, halen⟩ := harr (by omega)
    have halt : sl.array < h.arrays.length := by
      by_contra hcon
      rw [List.getElem?_eq_none (by omega)] at ha
      cases ha
    have hl2 : l = a.take sl.len := by
      by_cases h0 : sl.len = 0
      · rw [readSlice_of_len_zero h0] at hl
        cases hl
        simp [h0]
      · rw [readSlice_of_array _ _ _ h0 ha (by omega)] at hl
        cases hl
        rfl
    let h1 : Heap := { h with arrays := h.arrays.set sl.array (a.set sl.len x) }
    have ha1 : h1.arrays[sl.array]? = some (a.set sl.len x) :=
      List.getElem?_set_eq_of_lt _ halt
    refine ⟨h1, { sl with len := sl.len + 1 }, l, hl, ?_, rfl, rfl, rfl, rfl, ?_, ?_, ?_, ?_, ?_⟩
    · unfold append
      simp only [hlt, if_true, ha]
    · show sl.len + 1 ≤ sl.cap
      omega
    · exact ⟨_, ha1, by rw [List.length_set, halen]⟩
    · have hr := readSlice_of_array h1 { sl with len := sl.len + 1 }
        (a.set sl.len x) (by simp) ha1 (by rw [List.length_set]; show sl.len + 1 ≤ a.length; omega)
      rw [hr, hl2]
      show some (List.take (sl.len + 1) (a.set sl.len x)) = _
      rw [List.take_succ, List.set_take, List.set_eq_of_length_le (by simp),
        List.getElem?_set_eq_of_lt _ (by omega)]
      rfl
    · intro j _ hj
      exact List.getElem?_set_ne (fun e => hj (by omega) e.symm)
    · exact Or.inl ⟨by omega, rfl⟩
  · have hcap : sl.len = sl.cap := by omega
    let a1 : List (Option Nat) := l ++ x :: List.replicate (extra sl.cap) none
    let h1 : Heap := { h with arrays := h.arrays ++ [a1] }
    have ha1 : h1.arrays[h.arrays.length]? = some a1 := List.getElem?_concat_length _ _
    refine ⟨h1, ⟨h.arrays.length, sl.len + 1, sl.len + 1 + extra sl.cap⟩, l, hl, ?_,
      rfl, rfl, rfl, rfl, ?_, ?_, ?_, ?_, Or.inr rfl⟩
    · unfold append
      simp only [hlt, if_false, hl]
    · show sl.len + 1 ≤ sl.len + 1 + extra sl.cap
      omega
    · refine ⟨a1, ha1, ?_⟩
      show (l ++ x :: List.replicate (extra sl.cap) none).length = sl.len + 1 + extra sl.cap
      simp [hlen]
      omega
    · have hr := readSlice_of_array h1
        ⟨h.arrays.length, sl.len + 1, sl.len + 1 + extra sl.cap⟩
        a1 (by simp) ha1
        (by show sl.len + 1 ≤ (l ++ x :: List.replicate (extra sl.cap) none).length
            simp [hlen])
      rw [hr]
      show some (List.take (sl.len + 1) (l ++ x :: List.replicate (extra sl.cap) none)) = _
      have e : l ++ x :: List.replicate (extra sl.cap) none
          = (l ++ [x]) ++ List.replicate (extra sl.cap) none := by simp
      rw [e, List.take_left' (by simp [hlen])]
    · intro j hj _
      exact List.getElem?_append_left hj

theorem lt_length_of_getElem?_eq_some {α : Type} {l : List α} {i : Nat} {a : α}
    (h : l[i]? = some a) : i < l.length := by
  by_contra hcon
  rw [List.getElem?_eq_none (by omega)] at h
  cases h

/-- The map part of `addField` when the name is new: after the call the map of
the search holds the old entries and the new name at the new last position. -/
theorem addField_new_eq (extra : Nat → Nat) {h h1 : Heap} {s : Nat} {so : Search}
    {sl1 : Slice} {name : String} {f : Nat}
    (hs : h.searches[s]? = some so) (hi : lookupIndex h so name = none)
    (happ : append extra h so.fields (some f) = some (h1, sl1))
    (hmp : h1.maps = h.maps) (hse : h1.searches = h.searches) (hob : h1.objs = h.objs)
    (hmap : ∀ m, so.fieldIndex = some m → ∃ es, h.maps[m]? = some es) :
    ∃ h3 m es, addField extra h s name f = some h3 ∧ h3.objs = h.objs ∧
      h3.arrays = h1.arrays ∧
      h3.maps[m]? = some (mapInsert es name (sl1.len - 1)) ∧
      (∀ j : Nat, j < h.maps.length → j ≠ m → h3.maps[j]? = h.maps[j]?) ∧
      h3.searches = h.searches.set s ⟨sl1, some m⟩ ∧
      (so.fieldIndex = some m ∨ m = h.maps.length) ∧
      (∀ n, mapLookup es n = lookupIndex h so n) := by
  cases hfi : so.fieldIndex with
  | none =>
    refine ⟨{ h1 with
        maps := (h1.maps ++ [[]]).set h1.maps.length (mapInsert [] name (sl1.len - 1))
        searches := h1.searches.set s ⟨sl1, some h1.maps.length⟩ },
      h.maps.length, [], ?_, hob, rfl, ?_, ?_, ?_, Or.inr rfl, ?_⟩
    · unfold addField
      simp only [hs, hi, happ, hfi, List.getElem?_concat_length]
    · show ((h1.maps ++ [[]]).set h1.maps.length _)[h.maps.length]? = _
      rw [hmp, List.getElem?_set_eq_of_lt _ (by simp)]
    · intro j hj hjm
      show ((h1.maps ++ [[]]).set h1.maps.length _)[j]? = _
      rw [hmp, List.getElem?_set_ne (fun e => hjm e.symm), List.getElem?_append_left hj]
    · show h1.searches.set s ⟨sl1, some h1.maps.length⟩ = _
      rw [hse, hmp]
    · intro n
      unfold lookupIndex
      rw [hfi]
      rfl
  | some m =>
    obtain ⟨es, hes⟩ := hmap m hfi
    have hes1 : h1.maps[m]? = some es := by rw [hmp]; exact hes
    have hm : m < h.maps.length := lt_length_of_getElem?_eq_some hes
    refine ⟨{ h1 with
        maps := h1.maps.set m (mapInsert es name (sl1.len - 1))
        searches := h1.searches.set s ⟨sl1, some m⟩ },
      m, es, ?_, hob, rfl, ?_, ?_, ?_, Or.inl rfl, ?_⟩
    · unfold addField
      simp only [hs, hi, happ, hfi, hes1]
    · show (h1.maps.set m _)[m]? = _
      rw [hmp, List.getElem?_set_eq_of_lt _ hm]
    · intro j _ hjm
      show (h1.maps.set m _)[j]? = _
      rw [hmp, List.getElem?_set_ne (fun e => hjm e.symm)]
    · show h1.searches.set s ⟨sl1, some m⟩ = _
      rw [hse]
    · intro n
      unfold lookupIndex
      rw [hfi]
      simp only [hes]

/-- `addField` under a name the index does not hold: the predicate is appended
after the existing ones, the index maps the name to the new last position, and
no other search is affected. -/
theorem addField_append (extra : Nat → Nat) {h : Heap} (wf : WF h) {s : Nat} {so : Search}
    (hs : h.searches[s]? = some so) {name : String} {f : Nat} {o : Field}
    (hf : h.objs[f]? = some o) (hname : o.name = name)
    (hi : lookupIndex h so name = none) :
    ∃ h3 l so1, addField extra h s name f = some h3 ∧ WF h3 ∧ h3.objs = h.objs ∧
      h3.searches.length = h.searches.length ∧ h3.searches[s]? = some so1 ∧
      (∀ t : Nat, t ≠ s →
        fieldsOf h3 t = fieldsOf h t ∧ ∀ n, indexOf h3 t n = indexOf h t n) ∧
      fieldsOf h s = some l ∧
      fieldsOf h3 s = some (l ++ [some f]) ∧
      (∀ n, indexOf h3 s n = if n = name then some l.length else indexOf h s n) ∧
      recNames h3 so1 = recNames h so ++ [some name] := by
  have ok := wf.1 s so hs
  obtain ⟨h1, sl1, l, hl, happ, hob, hmp, hse, hlen1, hle1, ⟨a1, ha1, halen1⟩, hrd1, hfr, hown⟩ :=
    append_spec extra h so.fields (some f) ok.len_le ok.array
  obtain ⟨h3, m, es, hadd, hob3, harr3, hm3, hmfr, hse3, hmown, hlook⟩ :=
    addField_new_eq extra hs hi happ hmp hse hob ok.map
  have hllen : l.length = so.fields.len := readSlice_length h _ l hl
  have hslt : s < h.searches.length := lt_length_of_getElem?_eq_some hs
  have hsearch : ∀ t : Nat,
      h3.searches[t]? = if t = s then some ⟨sl1, some m⟩ else h.searches[t]? := by
    intro t
    rw [hse3, List.getElem?_set]
    by_cases hts : t = s
    · rw [if_pos hts.symm, if_pos hts, if_pos hslt]
    · rw [if_neg (fun e => hts e.symm), if_neg hts]
  have hrd3 : readSlice h3 sl1 = some (l ++ [some f]) := by
    rw [← hrd1]
    exact readSlice_congr h1 h3 sl1 (fun _ => by rw [harr3])
  have hsn : ∀ el ∈ l, slotName h3 el = slotName h el := by
    intro el _
    cases el with
    | none => rfl
    | some g => simp only [slotName, hob3]
  have hnames : recNames h3 ⟨sl1, some m⟩ = recNames h so ++ [some name] := by
    rw [@recNames_eq h3 ⟨sl1, some m⟩ _ hrd3, recNames_eq hl, List.map_append,
      List.map_congr_left hsn]
    congr 1
    show [Option.map Field.name h3.objs[f]?] = _
    rw [hob3, hf, ← hname]
    rfl
  have hlk3 : ∀ n, lookupIndex h3 ⟨sl1, some m⟩ n =
      if n = name then some l.length else lookupIndex h so n := by
    intro n
    unfold lookupIndex
    simp only [hm3]
    rw [mapLookup_mapInsert, hlook n, hlen1, hllen]
    rfl
  have hok3 : SearchOK h3 ⟨sl1, some m⟩ := by
    refine ⟨hle1, fun _ => ⟨a1, by rw [harr3]; exact ha1, halen1⟩, ?_, ?_, ?_⟩
    · intro m1 hm1
      cases hm1
      exact ⟨_, hm3⟩
    · intro el hel
      rw [hrd3] at hel
      simp only [Option.getD_some, List.mem_append, List.mem_singleton] at hel
      rcases hel with hel | hel
      · obtain ⟨g, o1, hg, hgo⟩ := ok.elems el (by rw [hl]; exact hel)
        exact ⟨g, o1, hg, by rw [hob3]; exact hgo⟩
      · exact ⟨f, o, hel, by rw [hob3]; exact hf⟩
    · intro n i
      rw [hlk3 n, hnames]
      have hnl : (recNames h so).length = l.length := by
        rw [recNames_eq hl, List.length_map]
      by_cases hn : n = name
      · rw [if_pos hn]
        subst hn
        constructor
        · intro e
          cases e
          rw [← hnl, List.getElem?_concat_length]
        · intro e
          by_cases hil : i < (recNames h so).length
          · rw [List.getElem?_append_left hil] at e
            have := (ok.index n i).2 e
            rw [hi] at this
            cases this
          · by_cases hil2 : i = (recNames h so).length
            · rw [hil2, hnl]
            · rw [List.getElem?_eq_none (by simp; omega)] at e
              cases e
      · rw [if_neg hn, ok.index n i]
        by_cases hil : i < (recNames h so).length
        · rw [List.getElem?_append_left hil]
        · rw [List.getElem?_eq_none (by omega)]
          by_cases hil2 : i = (recNames h so).length
          · rw [hil2, List.getElem?_concat_length]
            constructor
            · intro e; cases e
            · intro e
              exact absurd (Option.some.inj (Option.some.inj e)).symm hn
          · rw [List.getElem?_eq_none (by simp; omega)]
  have hupd := WF_update h h3 s ⟨sl1, some m⟩ wf hsearch
    (fun g o1 e => by rw [hob3]; exact e)
    (by
      intro t st hts ht
      have hna := wf.2 s t so st (fun e => hts e.symm) hs ht
      have okt := wf.1 t st ht
      refine ⟨fun hc => ?_, fun mt hmt => ?_⟩
      · obtain ⟨at1, hat, _⟩ := okt.array hc
        have hlt := lt_length_of_getElem?_eq_some hat
        refine ⟨?_, fun _ => ?_⟩
        · rw [harr3]
          exact hfr _ hlt (fun hc0 e => hna.1 hc0 hc e.symm)
        · show sl1.array ≠ st.fields.array
          rcases hown with ⟨hc0, e⟩ | e
          · rw [e]
            exact hna.1 hc0 hc
          · rw [e]
            omega
      · obtain ⟨est, hest⟩ := okt.map mt hmt
        have hlt := lt_length_of_getElem?_eq_some hest
        have hne : mt ≠ m := by
          rcases hmown with e | e
          · intro e2
            exact hna.2 m e (by rw [hmt, e2])
          · omega
        exact ⟨hmfr mt hlt hne, fun e => hne (Option.some.inj e).symm⟩)
    hok3
  refine ⟨h3, l, ⟨sl1, some m⟩, hadd, hupd.1, hob3, ?_, ?_, hupd.2, ?_, ?_, ?_, hnames⟩
  · rw [hse3, List.length_set]
  · rw [hsearch s, if_pos rfl]
  · rw [fieldsOf_eq hs, hl]
  · rw [fieldsOf_eq (by rw [hsearch s, if_pos rfl] : h3.searches[s]? = some ⟨sl1, some m⟩)]
    exact hrd3
  · intro n
    rw [indexOf_eq (by rw [hsearch s, if_pos rfl] : h3.searches[s]? = some ⟨sl1, some m⟩),
      indexOf_eq hs]
    exact hlk3 n

theorem namesOf_eq {h : Heap} {s : Nat} {so : Search} (hs : h.searches[s]? = some so) :
    namesOf h s = recNames h so := by
  unfold namesOf recNames
  rw [fieldsOf_eq hs]

/-- Allocating a predicate object changes no search. -/
theorem WF_alloc {h : Heap} (wf : WF h) (o : Field) :
    WF { h with objs := h.objs ++ [o] } := by
  refine ⟨fun s so hs => ?_, wf.2⟩
  exact (wf.1 s so hs).frame (fun _ => rfl) (fun _ _ => rfl)
    (fun f o1 e => by
      show (h.objs ++ [o])[f]? = some o1
      rw [List.getElem?_append_left (lt_length_of_getElem?_eq_some e)]
      exact e)

theorem recNames_alloc {h : Heap} {so : Search} (ok : SearchOK h so) (o : Field) :
    recNames { h with objs := h.objs ++ [o] } so = recNames h so := by
  unfold recNames
  show List.map _ ((readSlice h so.fields).getD []) = _
  apply List.map_congr_left
  intro el hel
  obtain ⟨f, o1, rfl, hf⟩ := ok.elems el hel
  show Option.map Field.name (h.objs ++ [o])[f]? = Option.map Field.name h.objs[f]?
  rw [List.getElem?_append_left (lt_length_of_getElem?_eq_some hf)]

theorem Add_eq (k : Kind) (extra : Nat → Nat) (h : Heap) (s : Nat) (field : String) :
    Add k extra h s field =
      (addField extra { h with objs := h.objs ++ [newField k field] } s field
        h.objs.length).map (fun h2 => (h2, h.objs.length)) := by
  cases k <;> rfl

theorem newField_name (k : Kind) (field : String) : (newField k field).name = field := by
  cases k <;> rfl

/-- An `Add…Field` call on an existing search of a well-formed heap returns, keeps
the heap well-formed and the other searches as they were, and either overwrites
the slot the index holds for the name or appends a new slot. -/
theorem Add_spec (k : Kind) (extra : Nat → Nat) {h : Heap} (wf : WF h) {s : Nat}
    {so : Search} (hs : h.searches[s]? = some so) (name : String) :
    ∃ h3 l, Add k extra h s name = some (h3, h.objs.length) ∧ WF h3 ∧
      h3.objs = h.objs ++ [newField k name] ∧
      h3.searches.length = h.searches.length ∧
      (∀ t : Nat, t ≠ s →
        fieldsOf h3 t = fieldsOf h t ∧ ∀ n, indexOf h3 t n = indexOf h t n) ∧
      fieldsOf h s = some l ∧
      ((∃ i, indexOf h s name = some i ∧ i < l.length ∧
          fieldsOf h3 s = some (l.set i (some h.objs.length)) ∧
          (∀ n, indexOf h3 s n = indexOf h s n) ∧ namesOf h3 s = namesOf h s) ∨
       (indexOf h s name = none ∧
          fieldsOf h3 s = some (l ++ [some h.objs.length]) ∧
          (∀ n, indexOf h3 s n = if n = name then some l.length else indexOf h s n) ∧
          namesOf h3 s = namesOf h s ++ [some name])) := by
  have wf1 := WF_alloc wf (newField k name)
  have hf : ({ h with objs := h.objs ++ [newField k name] } : Heap).objs[h.objs.length]?
      = some (newField k name) := List.getElem?_concat_length _ _
  have hs1 : ({ h with objs := h.objs ++ [newField k name] } : Heap).searches[s]? = some so := hs
  have hnm := recNames_alloc (wf.1 s so hs) (newField k name)
  rw [Add_eq]
  cases hi : lookupIndex h so name with
  | some i =>
    obtain ⟨h3, l, hadd, wf3, hob, hse, hfr, hl, hil, hl3, hidx, hn⟩ :=
      addField_replace extra wf1 hs1 hf (newField_name k name) hi
    refine ⟨h3, l, by rw [hadd]; rfl, wf3, hob, by rw [hse], hfr, hl, Or.inl ⟨i, ?_, hil, hl3, hidx, ?_⟩⟩
    · rw [indexOf_eq hs]; exact hi
    · have hs3 : h3.searches[s]? = some so := by rw [hse]; exact hs
      rw [namesOf_eq hs3, namesOf_eq hs, hn, hnm]
  | none =>
    obtain ⟨h3, l, so1, hadd, wf3, hob, hse, hs3, hfr, hl, hl3, hidx, hn⟩ :=
      addField_append extra wf1 hs1 hf (newField_name k name) hi
    refine ⟨h3, l, by rw [hadd]; rfl, wf3, hob, hse, hfr, hl, Or.inr ⟨?_, hl3, hidx, ?_⟩⟩
    · rw [indexOf_eq hs]; exact hi
    · rw [namesOf_eq hs3, namesOf_eq hs, hn, hnm]

/-- The entry-by-entry copy of a map answers every lookup as the original. -/
theorem mapLookup_copy (es : List (String × Nat)) (n : String) :
    mapLookup (es.foldr (fun p acc => mapInsert acc p.1 p.2) []) n = mapLookup es n := by
  induction es with
  | nil => rfl
  | cons p es ih =>
    obtain ⟨k, v⟩ := p
    rw [List.foldr_cons, mapLookup_mapInsert, ih, mapLookup_cons]
    by_cases hk : n = k
    · rw [if_pos hk, if_pos hk.symm]
    · rw [if_neg hk, if_neg (fun e => hk e.symm)]

theorem searches_append (h : Heap) (so1 : Search) (t : Nat) :
    (h.searches ++ [so1])[t]? =
      if t = h.searches.length then some so1 else h.searches[t]? := by
  by_cases ht : t = h.searches.length
  · rw [if_pos ht, ht, List.getElem?_concat_length]
  · rw [if_neg ht]
    by_cases hlt : t < h.searches.length
    · rw [List.getElem?_append_left hlt]
    · rw [List.getElem?_eq_none (by simp; omega), List.getElem?_eq_none (by omega)]

/-- `&Search{}` on a well-formed heap: a new empty search, every other search as
it was. -/
theorem newSearch_spec {h : Heap} (wf : WF h) :
    WF (newSearch h).1 ∧ (newSearch h).2 = h.searches.length ∧
      (newSearch h).1.objs = h.objs ∧
      (newSearch h).1.searches.length = h.searches.length + 1 ∧
      (∀ t : Nat, t ≠ h.searches.length →
        fieldsOf (newSearch h).1 t = fieldsOf h t ∧
        ∀ n, indexOf (newSearch h).1 t n = indexOf h t n) ∧
      fieldsOf (newSearch h).1 h.searches.length = some [] ∧
      (∀ n, indexOf (newSearch h).1 h.searches.length n = none) := by
  have hs1 : (newSearch h).1.searches[h.searches.length]? = some ⟨⟨0, 0, 0⟩, none⟩ :=
    List.getElem?_concat_length _ _
  have hok : SearchOK (newSearch h).1 ⟨⟨0, 0, 0⟩, none⟩ := by
    refine ⟨Nat.le_refl _, fun hc => absurd hc (by decide), fun m hm => (by cases hm), ?_, ?_⟩
    · intro el hel
      rw [readSlice_of_len_zero rfl] at hel
      cases hel
    · intro name i
      rw [@recNames_eq _ _ [] (readSlice_of_len_zero rfl)]
      constructor
      · intro e; cases e
      · intro e; cases e
  have hupd := WF_update h (newSearch h).1 h.searches.length
    ⟨⟨0, 0, 0⟩, none⟩ wf (searches_append h _) (fun _ _ e => e)
    (by
      intro t st _ _
      exact ⟨fun _ => ⟨rfl, fun hc => absurd hc (by decide)⟩,
        fun m _ => ⟨rfl, fun e => by cases e⟩⟩)
    hok
  refine ⟨hupd.1, rfl, rfl, ?_, hupd.2, ?_, ?_⟩
  · show (h.searches ++ [_]).length = _
    simp
  · rw [fieldsOf_eq hs1]
    exact readSlice_of_len_zero rfl
  · intro n
    rw [indexOf_eq hs1]
    rfl

/-- `ShallowCopy` of an existing search of a well-formed heap returns a new
search with the same slots and the same index, in a newly allocated array and
map, and leaves every existing search as it was. -/
theorem ShallowCopy_spec {h : Heap} (wf : WF h) {s : Nat} {so : Search}
    (hs : h.searches[s]? = some so) :
    ∃ h1, ShallowCopy h s = some (h1, h.searches.length) ∧ WF h1 ∧ h1.objs = h.objs ∧
      h1.searches.length = h.searches.length + 1 ∧
      (∀ t : Nat, t ≠ h.searches.length →
        fieldsOf h1 t = fieldsOf h t ∧ ∀ n, indexOf h1 t n = indexOf h t n) ∧
      fieldsOf h1 h.searches.length = fieldsOf h s ∧
      (∀ n, indexOf h1 h.searches.length n = indexOf h s n) ∧
      namesOf h1 h.searches.length = namesOf h s := by
  have ok := wf.1 s so hs
  obtain ⟨l, hl, hllen⟩ := ok.readSlice_some
  have hent : ∃ es, (match so.fieldIndex with
      | none => some []
      | some m => h.maps[m]?) = some es ∧ ∀ n, mapLookup es n = lookupIndex h so n := by
    cases hfi : so.fieldIndex with
    | none =>
      refine ⟨[], rfl, fun n => ?_⟩
      unfold lookupIndex
      rw [hfi]
      rfl
    | some m =>
      obtain ⟨es, hes⟩ := ok.map m hfi
      refine ⟨es, hes, fun n => ?_⟩
      unfold lookupIndex
      rw [hfi]
      simp only [hes]
  obtain ⟨es, hes, hlook⟩ := hent
  have hcopy : copySlice (List.replicate so.fields.len none) l = l := by
    unfold copySlice
    rw [List.length_replicate, List.take_of_length_le (by omega),
      List.drop_eq_nil_of_le (by simp; omega), List.append_nil]
  let so1 : Search := ⟨⟨h.arrays.length, so.fields.len, so.fields.len⟩, some h.maps.length⟩
  let h1 : Heap := { h with
    arrays := h.arrays ++ [l]
    maps := h.maps ++ [es.foldr (fun p acc => mapInsert acc p.1 p.2) []]
    searches := h.searches ++ [so1] }
  have hsc : ShallowCopy h s = some (h1, h.searches.length) := by
    unfold ShallowCopy
    simp only [hs, hl, hes, hcopy]
  have ha1 : h1.arrays[h.arrays.length]? = some l := List.getElem?_concat_length _ _
  have hm1 : h1.maps[h.maps.length]?
      = some (es.foldr (fun p acc => mapInsert acc p.1 p.2) []) :=
    List.getElem?_concat_length _ _
  have hs1 : h1.searches[h.searches.length]? = some so1 := List.getElem?_concat_length _ _
  have hrd1 : readSlice h1 so1.fields = some l := by
    by_cases h0 : so.fields.len = 0
    · rw [readSlice_of_len_zero (by exact h0)]
      have : l = [] := List.eq_nil_of_length_eq_zero (by omega)
      rw [this]
    · rw [readSlice_of_array _ _ l (by exact h0) ha1 (by show so.fields.len ≤ l.length; omega)]
      show some (List.take so.fields.len l) = _
      rw [List.take_of_length_le (by omega)]
  have hlk1 : ∀ n, lookupIndex h1 so1 n = lookupIndex h so n := by
    intro n
    unfold lookupIndex
    simp only [so1, hm1]
    rw [mapLookup_copy, hlook n]
    rfl
  have hn1 : recNames h1 so1 = recNames h so := by
    rw [recNames_eq hrd1, recNames_eq hl]
    rfl
  have hok1 : SearchOK h1 so1 := by
    refine ⟨Nat.le_refl _, fun _ => ⟨l, ha1, hllen⟩, fun m hm => ?_, ?_, ?_⟩
    · cases hm
      exact ⟨_, hm1⟩
    · intro el hel
      rw [hrd1] at hel
      exact ok.elems el (by rw [hl]; exact hel)
    · intro n i
      rw [hlk1 n, hn1]
      exact ok.index n i
  have hupd := WF_update h h1 h.searches.length so1 wf
    (searches_append h so1) (fun _ _ e => e)
    (by
      intro t st _ ht
      have okt := wf.1 t st ht
      refine ⟨fun hc => ?_, fun m hm => ?_⟩
      · obtain ⟨at1, hat, _⟩ := okt.array hc
        have hlt := lt_length_of_getElem?_eq_some hat
        refine ⟨List.getElem?_append_left hlt, fun _ => ?_⟩
        show h.arrays.length ≠ st.fields.array
        omega
      · obtain ⟨est, hest⟩ := okt.map m hm
        have hlt := lt_length_of_getElem?_eq_some hest
        refine ⟨List.getElem?_append_left hlt, fun e => ?_⟩
        have := Option.some.inj e
        omega)
    hok1
  refine ⟨h1, hsc, hupd.1, rfl, ?_, hupd.2, ?_, ?_, ?_⟩
  · show (h.searches ++ [so1]).length = _
    simp
  · rw [fieldsOf_eq hs1, fieldsOf_eq hs, hrd1, hl]
  · intro n
    rw [indexOf_eq hs1, indexOf_eq hs]
    exact hlk1 n
  · rw [namesOf_eq hs1, namesOf_eq hs, hn1]

theorem firstOcc_append (l : List String) (n : String) :
    ∀ acc, firstOcc acc (l ++ [n]) =
      if n ∈ firstOcc acc l then firstOcc acc l else firstOcc acc l ++ [n] := by
  induction l with
  | nil =>
    intro acc
    show (if n ∈ acc then firstOcc acc [] else firstOcc (acc ++ [n]) []) = _
    rfl
  | cons x xs ih =>
    intro acc
    show (if x ∈ acc then firstOcc acc (xs ++ [n]) else firstOcc (acc ++ [x]) (xs ++ [n])) = _
    by_cases hx : x ∈ acc
    · rw [if_pos hx, ih acc]
      show _ = if n ∈ (if x ∈ acc then firstOcc acc xs else firstOcc (acc ++ [x]) xs) then
        (if x ∈ acc then firstOcc acc xs else firstOcc (acc ++ [x]) xs)
        else (if x ∈ acc then firstOcc acc xs else firstOcc (acc ++ [x]) xs) ++ [n]
      rw [if_pos hx]
    · rw [if_neg hx, ih (acc ++ [x])]
      show _ = if n ∈ (if x ∈ acc then firstOcc acc xs else firstOcc (acc ++ [x]) xs) then
        (if x ∈ acc then firstOcc acc xs else firstOcc (acc ++ [x]) xs)
        else (if x ∈ acc then firstOcc acc xs else firstOcc (acc ++ [x]) xs) ++ [n]
      rw [if_neg hx]

theorem firstOcc_nodup (l : List String) :
    ∀ acc : List String, acc.Nodup → (firstOcc acc l).Nodup := by
  induction l with
  | nil => intro acc hacc; exact hacc
  | cons x xs ih =>
    intro acc hacc
    show (if x ∈ acc then firstOcc acc xs else firstOcc (acc ++ [x]) xs).Nodup
    by_cases hx : x ∈ acc
    · rw [if_pos hx]; exact ih acc hacc
    · rw [if_neg hx]
      apply ih
      rw [List.nodup_append]
      refine ⟨hacc, List.nodup_singleton x, ?_⟩
      intro a ha hb
      rw [List.mem_singleton] at hb
      exact hx (hb ▸ ha)

/-- The names of a search do not change when its slots stay and predicate
objects are only added. -/
theorem namesOf_frame {h h1 : Heap} (wf : WF h) {t : Nat} (ht : t < h.searches.length)
    (hfields : fieldsOf h1 t = fieldsOf h t)
    (hobjs : ∀ (f : Nat) (o : Field), h.objs[f]? = some o → h1.objs[f]? = some o) :
    namesOf h1 t = namesOf h t := by
  have hst : h.searches[t]? = some h.searches[t] := List.getElem?_eq_getElem ht
  have ok := wf.1 t _ hst
  unfold namesOf
  rw [hfields, fieldsOf_eq hst]
  apply List.map_congr_left
  intro el hel
  obtain ⟨f, o, rfl, hf⟩ := ok.elems el hel
  simp only [slotName, hf, hobjs f o hf]

theorem objs_append_mono (l : List Field) (o : Field) (f : Nat) (o1 : Field)
    (e : l[f]? = some o1) : (l ++ [o])[f]? = some o1 := by
  rw [List.getElem?_append_left (lt_length_of_getElem?_eq_some e)]
  exact e

/-- In a well-formed heap a name is in the index exactly when a predicate of the
search carries it. -/
theorem indexOf_isSome_iff {h : Heap} (wf : WF h) {s : Nat} {so : Search}
    (hs : h.searches[s]? = some so) (name : String) :
    (∃ i, indexOf h s name = some i) ↔ some name ∈ namesOf h s := by
  have ok := wf.1 s so hs
  rw [namesOf_eq hs]
  constructor
  · rintro ⟨i, hi⟩
    rw [indexOf_eq hs] at hi
    exact List.getElem?_mem ((ok.index name i).1 hi)
  · intro hmem
    obtain ⟨i, hi⟩ := List.getElem?_of_mem hmem
    exact ⟨i, by rw [indexOf_eq hs]; exact (ok.index name i).2 hi⟩

theorem getD_append_new (hs : List (List String)) (x : List String) (t : Nat) :
    (hs ++ [x]).getD t [] = if t = hs.length then x else hs.getD t [] := by
  rw [List.getD_eq_getElem?_getD, List.getD_eq_getElem?_getD]
  by_cases ht : t = hs.length
  · rw [if_pos ht, ht, List.getElem?_concat_length]
    rfl
  · rw [if_neg ht]
    by_cases hlt : t < hs.length
    · rw [List.getElem?_append_left hlt]
    · rw [List.getElem?_eq_none (by simp; omega), List.getElem?_eq_none (by omega)]

theorem getD_set (hs : List (List String)) (s : Nat) (x : List String) (t : Nat)
    (hslt : s < hs.length) :
    (hs.set s x).getD t [] = if t = s then x else hs.getD t [] := by
  rw [List.getD_eq_getElem?_getD, List.getD_eq_getElem?_getD, List.getElem?_set]
  by_cases ht : t = s
  · rw [if_pos ht.symm, if_pos ht, if_pos hslt]
    rfl
  · rw [if_neg (fun e => ht e.symm), if_neg ht]

/-- Every builder call on an existing search keeps the invariant. -/
theorem step_Inv (extra : Nat → Nat) {h : Heap} {hs : List (List String)} (inv : Inv h hs)
    (c : Call) (hv : validFrom h.searches.length [c] = true) :
    ∃ h1, step extra h c = some h1 ∧ Inv h1 (histStep hs c) ∧
      ∀ cs, validFrom h1.searches.length cs = validFrom h.searches.length (c :: cs) := by
  obtain ⟨wf, hlen, hnames⟩ := inv
  cases c with
  | new =>
    obtain ⟨wf1, _, hob, hlen1, hfr, hf1, _⟩ := newSearch_spec wf
    refine ⟨(newSearch h).1, rfl, ⟨wf1, ?_, ?_⟩, ?_⟩
    · show (hs ++ [[]]).length = _
      rw [hlen1, List.length_append, hlen]
      rfl
    · intro t ht
      show _ = List.map some (firstOcc [] ((hs ++ [[]]).getD t []))
      rw [getD_append_new, hlen]
      by_cases hts : t = h.searches.length
      · rw [if_pos hts, hts]
        unfold namesOf
        rw [hf1]
        rfl
      · rw [if_neg hts, ← hnames t (by omega)]
        exact namesOf_frame wf (by omega) (hfr t hts).1 (fun f o e => by rw [hob]; exact e)
    · intro cs
      rw [hlen1]
      rfl
  | add k s name =>
    have hslt : s < h.searches.length := by
      simpa [validFrom] using hv
    have hsome : h.searches[s]? = some h.searches[s] := List.getElem?_eq_getElem hslt
    obtain ⟨h3, l, hadd, wf3, hob, hlen3, hfr, hl, hcase⟩ := Add_spec k extra wf hsome name
    refine ⟨h3, by show Option.map Prod.fst (Add k extra h s name) = _; rw [hadd]; rfl,
      ⟨wf3, ?_, ?_⟩, ?_⟩
    · show (hs.set s _).length = _
      rw [List.length_set, hlen3, hlen]
    · intro t ht
      show _ = List.map some (firstOcc [] ((hs.set s (hs.getD s [] ++ [name])).getD t []))
      rw [getD_set _ _ _ _ (by omega)]
      by_cases hts : t = s
      · rw [if_pos hts, hts, firstOcc_append]
        have hmem : some name ∈ namesOf h s ↔ name ∈ firstOcc [] (hs.getD s []) := by
          rw [hnames s hslt, List.mem_map]
          constructor
          · rintro ⟨a, ha, e⟩
            cases e
            exact ha
          · intro ha
            exact ⟨name, ha, rfl⟩
        rcases hcase with ⟨i, hi, _, _, _, hn⟩ | ⟨hi, _, _, hn⟩
        · have := (indexOf_isSome_iff wf hsome name).1 ⟨i, hi⟩
          rw [if_pos (hmem.1 this), hn, hnames s hslt]
        · have hnot : ¬ name ∈ firstOcc [] (hs.getD s []) := by
            intro hin
            obtain ⟨i, hi2⟩ := (indexOf_isSome_iff wf hsome name).2 (hmem.2 hin)
            rw [hi] at hi2
            cases hi2
          rw [if_neg hnot, hn, hnames s hslt, List.map_append]
          rfl
      · rw [if_neg hts, ← hnames t (by omega)]
        exact namesOf_frame wf (by omega) (hfr t hts).1
          (fun f o e => by rw [hob]; exact objs_append_mono _ _ _ _ e)
    · intro cs
      rw [hlen3]
      show _ = (decide (s < h.searches.length) && validFrom h.searches.length cs)
      rw [decide_eq_true hslt]
      rfl
  | copy s =>
    have hslt : s < h.searches.length := by
      simpa [validFrom] using hv
    have hsome : h.searches[s]? = some h.searches[s] := List.getElem?_eq_getElem hslt
    obtain ⟨h1, hsc, wf1, hob, hlen1, hfr, _, _, hn⟩ := ShallowCopy_spec wf hsome
    refine ⟨h1, by show Option.map Prod.fst (ShallowCopy h s) = _; rw [hsc]; rfl,
      ⟨wf1, ?_, ?_⟩, ?_⟩
    · show (hs ++ [_]).length = _
      rw [hlen1, List.length_append, hlen]
      rfl
    · intro t ht
      show _ = List.map some (firstOcc [] ((hs ++ [hs.getD s []]).getD t []))
      rw [getD_append_new, hlen]
      by_cases hts : t = h.searches.length
      · rw [if_pos hts, hts, hn, hnames s hslt]
      · rw [if_neg hts, ← hnames t (by omega)]
        exact namesOf_frame wf (by omega) (hfr t hts).1 (fun f o e => by rw [hob]; exact e)
    · intro cs
      rw [hlen1]
      show _ = (decide (s < h.searches.length) && validFrom (h.searches.length + 1) cs)
      rw [decide_eq_true hslt]
      rfl

theorem validFrom_head (n : Nat) (c : Call) (cs : List Call)
    (hv : validFrom n (c :: cs) = true) : validFrom n [c] = true := by
  cases c with
  | new => rfl
  | add k s name =>
    have : (decide (s < n) && validFrom n cs) = true := hv
    rw [Bool.and_eq_true] at this
    show (decide (s < n) && true) = true
    rw [this.1]
    rfl
  | copy s =>
    have : (decide (s < n) && validFrom (n + 1) cs) = true := hv
    rw [Bool.and_eq_true] at this
    show (decide (s < n) && true) = true
    rw [this.1]
    rfl

/-- A sequence of builder calls that only mentions existing searches runs to the
end without a panic and keeps the invariant. -/
theorem run_Inv (extra : Nat → Nat) (cs : List Call) :
    ∀ (h : Heap) (hs : List (List String)), Inv h hs →
      validFrom h.searches.length cs = true →
      ∃ h1, run extra cs h = some h1 ∧ Inv h1 (hist cs hs) := by
  induction cs with
  | nil => intro h hs inv _; exact ⟨h, rfl, inv⟩
  | cons c cs ih =>
    intro h hs inv hv
    obtain ⟨h1, hstep, inv1, hvalid⟩ := step_Inv extra inv c (validFrom_head _ c cs hv)
    obtain ⟨h2, hrun, inv2⟩ := ih h1 (histStep hs c) inv1 (by rw [hvalid cs]; exact hv)
    refine ⟨h2, ?_, inv2⟩
    show (match step extra h c with
      | none => none
      | some h1 => run extra cs h1) = some h2
    rw [hstep]
    exact hrun

theorem Inv_empty : Inv Heap.empty [] := by
  refine ⟨⟨?_, ?_⟩, rfl, ?_⟩
  · intro s so hs
    cases hs
  · intro s t so st _ hs
    cases hs
  · intro s hs
    cases hs

/-- Every heap the builder API can produce satisfies the representation
invariant. -/
theorem WF_of_run (extra : Nat → Nat) (cs : List Call) (h : Heap)
    (hv : validFrom 0 cs = true) (hr : run extra cs Heap.empty = some h) : WF h := by
  obtain ⟨h1, hrun, inv⟩ := run_Inv extra cs Heap.empty [] Inv_empty hv
  rw [hr] at hrun
  cases hrun
  exact inv.1

/-- `Add…Field` calls on one search leave every other search as it was. -/
theorem run_adds_frame (extra : Nat → Nat) (c s : Nat) (hsc : s ≠ c)
    (adds : List (Kind × String)) :
    ∀ h1 : Heap, WF h1 → c < h1.searches.length → s < h1.searches.length →
      ∃ h2, run extra (adds.map (fun a => Call.add a.1 c a.2)) h1 = some h2 ∧
        fieldsOf h2 s = fieldsOf h1 s ∧ (∀ n, indexOf h2 s n = indexOf h1 s n) ∧
        namesOf h2 s = namesOf h1 s ∧
        (∀ (f : Nat) (o : Field), h1.objs[f]? = some o → h2.objs[f]? = some o) := by
  induction adds with
  | nil =>
    intro h1 _ _ _
    exact ⟨h1, rfl, rfl, fun _ => rfl, rfl, fun _ _ e => e⟩
  | cons a adds ih =>
    intro h1 wf hc hs
    have hsome : h1.searches[c]? = some h1.searches[c] := List.getElem?_eq_getElem hc
    obtain ⟨h3, l, hadd, wf3, hob, hlen3, hfr, _, _⟩ := Add_spec a.1 extra wf hsome a.2
    have hmono : ∀ (f : Nat) (o : Field), h1.objs[f]? = some o → h3.objs[f]? = some o :=
      fun f o e => by rw [hob]; exact objs_append_mono _ _ _ _ e
    obtain ⟨h2, hrun, hf2, hi2, hn2, ho2⟩ := ih h3 wf3 (by omega) (by omega)
    refine ⟨h2, ?_, ?_, ?_, ?_, fun f o e => ho2 f o (hmono f o e)⟩
    · show (match Option.map Prod.fst (Add a.1 extra h1 c a.2) with
        | none => none
        | some h => run extra (adds.map (fun a => Call.add a.1 c a.2)) h) = some h2
      rw [hadd]
      exact hrun
    · rw [hf2, (hfr s hsc).1]
    · intro n
      rw [hi2 n, (hfr s hsc).2 n]
    · rw [hn2]
      exact namesOf_frame wf hs (hfr s hsc).1 hmono

theorem exampleHeap_run :
    run (fun c => c - 1) exampleCalls Heap.empty = some exampleHeap := by decide

/-- C8: in a well-formed heap, for a name the index of the search already maps
to position `i`, each `Add…Field` method returns a handle to a newly allocated
predicate of its kind and stores it at position `i`: the number of predicates is
unchanged, every other position is unchanged, and so are the names in order and
the name index.  In particular adding `x`, `y`, `x` gives the names `[x, y]`. -/
theorem Add_existing_name (k : Kind) (extra : Nat → Nat) (h : Heap) (wf : WF h)
    (s : Nat) (name : String) (i : Nat) (hi : indexOf h s name = some i) :
    (∃ h1 f l l1, Add k extra h s name = some (h1, f) ∧
      h1.objs[f]? = some (newField k name) ∧
      fieldsOf h s = some l ∧ fieldsOf h1 s = some l1 ∧
      l1.length = l.length ∧ (∀ j : Nat, j ≠ i → l1[j]? = l[j]?) ∧ l1[i]? = some (some f) ∧
      namesOf h1 s = namesOf h s ∧ (∀ n, indexOf h1 s n = indexOf h s n)) ∧
    (∃ hx, run extra [.new, .add k 0 "x", .add k 0 "y", .add k 0 "x"] Heap.empty = some hx ∧
      namesOf hx 0 = [some "x", some "y"]) := by
  constructor
  · cases hso : h.searches[s]? with
    | none =>
      unfold indexOf at hi
      rw [hso] at hi
      cases hi
    | some so =>
      obtain ⟨h3, l, hadd, _, hob, _, _, hl, hcase⟩ := Add_spec k extra wf hso name
      rcases hcase with ⟨i1, hi1, hil, hl3, hidx, hn⟩ | ⟨hnone, _⟩
      · rw [hi] at hi1
        cases hi1
        refine ⟨h3, h.objs.length, l, l.set i (some h.objs.length), hadd, ?_, hl, hl3,
          List.length_set _ _ _, fun j hj => List.getElem?_set_ne (fun e => hj e.symm),
          List.getElem?_set_eq_of_lt _ hil, hn, hidx⟩
        rw [hob, List.getElem?_concat_length]
      · rw [hi] at hnone
        cases hnone
  · obtain ⟨hx, hrun, inv⟩ := run_Inv extra
      [.new, .add k 0 "x", .add k 0 "y", .add k 0 "x"] Heap.empty [] Inv_empty rfl
    refine ⟨hx, hrun, ?_⟩
    have hlen : hx.searches.length = 1 := inv.2.1.symm
    rw [inv.2.2 0 (by omega)]
    cases k <;> decide

theorem Add_existing_name_witness :
    WF exampleHeap ∧ indexOf exampleHeap 0 "x" = some 0 ∧
    ((∃ h1 f l l1, Add Kind.multi (fun c => c - 1) exampleHeap 0 "x" = some (h1, f) ∧
      h1.objs[f]? = some (newField Kind.multi "x") ∧
      fieldsOf exampleHeap 0 = some l ∧ fieldsOf h1 0 = some l1 ∧
      l1.length = l.length ∧ (∀ j : Nat, j ≠ 0 → l1[j]? = l[j]?) ∧ l1[0]? = some (some f) ∧
      namesOf h1 0 = namesOf exampleHeap 0 ∧
      (∀ n, indexOf h1 0 n = indexOf exampleHeap 0 n)) ∧
    (∃ hx, run (fun c => c - 1)
        [.new, .add Kind.multi 0 "x", .add Kind.multi 0 "y", .add Kind.multi 0 "x"]
        Heap.empty = some hx ∧
      namesOf hx 0 = [some "x", some "y"])) :=
  ⟨WF_of_run (fun c => c - 1) exampleCalls exampleHeap (by decide) exampleHeap_run,
    by decide,
    Add_existing_name Kind.multi (fun c => c - 1) exampleHeap
      (WF_of_run (fun c => c - 1) exampleCalls exampleHeap (by decide) exampleHeap_run)
      0 "x" 0 (by decide)⟩

/-- C9: a sequence of `&Search{}`, `Add…Field` and `ShallowCopy` calls on existing
searches, started in the empty heap, runs without a panic, and in the heap it
reaches every search has pairwise distinct predicate names, a name index that
maps a name to a position exactly when the predicate at that position carries
the name, and its names in the order in which they were first inserted. -/
theorem Search_names_unique (extra : Nat → Nat) (cs : List Call)
    (hv : validFrom 0 cs = true) :
    ∃ h, run extra cs Heap.empty = some h ∧
      h.searches.length = (hist cs []).length ∧
      ∀ s : Nat, s < h.searches.length →
        (namesOf h s).Nodup ∧
        (∀ name i, indexOf h s name = some i ↔ (namesOf h s)[i]? = some (some name)) ∧
        namesOf h s = (firstOcc [] ((hist cs []).getD s [])).map some := by
  obtain ⟨h, hrun, wf, hlen, hnames⟩ := run_Inv extra cs Heap.empty [] Inv_empty hv
  refine ⟨h, hrun, hlen.symm, fun s hs => ⟨?_, ?_, hnames s hs⟩⟩
  · rw [hnames s hs]
    exact (firstOcc_nodup _ [] List.nodup_nil).map (Option.some_injective _)
  · intro name i
    have hsome : h.searches[s]? = some h.searches[s] := List.getElem?_eq_getElem hs
    rw [indexOf_eq hsome, namesOf_eq hsome]
    exact (wf.1 s _ hsome).index name i

theorem Search_names_unique_witness :
    validFrom 0 [.new, .add .text 0 "x", .add .range 0 "y", .add .multi 0 "x", .copy 0,
      .add .multi 1 "ids"] = true ∧
    ∃ h, run (fun c => c - 1) [.new, .add .text 0 "x", .add .range 0 "y", .add .multi 0 "x",
        .copy 0, .add .multi 1 "ids"] Heap.empty = some h ∧
      h.searches.length = (hist [.new, .add .text 0 "x", .add .range 0 "y",
        .add .multi 0 "x", .copy 0, .add .multi 1 "ids"] []).length ∧
      ∀ s : Nat, s < h.searches.length →
        (namesOf h s).Nodup ∧
        (∀ name i, indexOf h s name = some i ↔ (namesOf h s)[i]? = some (some name)) ∧
        namesOf h s = (firstOcc [] ((hist [.new, .add .text 0 "x", .add .range 0 "y",
          .add .multi 0 "x", .copy 0, .add .multi 1 "ids"] []).getD s [])).map some :=
  ⟨by decide, Search_names_unique (fun c => c - 1) _ (by decide)⟩

/-- C10: in a well-formed heap `ShallowCopy` of a search `s` returns a new search
`c` with the same predicate pointers in the same order and the same name index,
without changing `s`; and after any sequence of `Add…Field` calls on `c`, adding
new names or overwriting existing ones, the predicate pointers, the names and
the name index of `s` are what they were, and so is every predicate object that
existed before. -/
theorem ShallowCopy_isolates (extra : Nat → Nat) (h : Heap) (wf : WF h) (s : Nat)
    (hs : s < h.searches.length) :
    ∃ h1 c, ShallowCopy h s = some (h1, c) ∧ c ≠ s ∧ h1.objs = h.objs ∧
      fieldsOf h1 c = fieldsOf h s ∧ (∀ n, indexOf h1 c n = indexOf h s n) ∧
      fieldsOf h1 s = fieldsOf h s ∧ (∀ n, indexOf h1 s n = indexOf h s n) ∧
      ∀ adds : List (Kind × String),
        ∃ h2, run extra (adds.map (fun a => Call.add a.1 c a.2)) h1 = some h2 ∧
          fieldsOf h2 s = fieldsOf h s ∧ (∀ n, indexOf h2 s n = indexOf h s n) ∧
          namesOf h2 s = namesOf h s ∧
          (∀ (f : Nat) (o : Field), h.objs[f]? = some o → h2.objs[f]? = some o) := by
  have hsome : h.searches[s]? = some h.searches[s] := List.getElem?_eq_getElem hs
  obtain ⟨h1, hsc, wf1, hob, hlen1, hfr, hfc, hic, _⟩ := ShallowCopy_spec wf hsome
  have hne : s ≠ h.searches.length := by omega
  refine ⟨h1, h.searches.length, hsc, fun e => hne e.symm, hob, hfc, hic, (hfr s hne).1,
    (hfr s hne).2, fun adds => ?_⟩
  obtain ⟨h2, hrun, hf2, hi2, hn2, ho2⟩ :=
    run_adds_frame extra h.searches.length s hne adds h1 wf1 (by omega) (by omega)
  refine ⟨h2, hrun, ?_, ?_, ?_, fun f o e => ho2 f o (by rw [hob]; exact e)⟩
  · rw [hf2, (hfr s hne).1]
  · intro n
    rw [hi2 n, (hfr s hne).2 n]
  · rw [hn2]
    exact namesOf_frame wf hs (hfr s hne).1 (fun f o e => by rw [hob]; exact e)

theorem ShallowCopy_isolates_witness :
    WF exampleHeap ∧ 0 < exampleHeap.searches.length ∧
    ∃ h1 c, ShallowCopy exampleHeap 0 = some (h1, c) ∧ c ≠ 0 ∧ h1.objs = exampleHeap.objs ∧
      fieldsOf h1 c = fieldsOf exampleHeap 0 ∧
      (∀ n, indexOf h1 c n = indexOf exampleHeap 0 n) ∧
      fieldsOf h1 0 = fieldsOf exampleHeap 0 ∧
      (∀ n, indexOf h1 0 n = indexOf exampleHeap 0 n) ∧
      ∀ adds : List (Kind × String),
        ∃ h2, run (fun c => c - 1) (adds.map (fun a => Call.add a.1 c a.2)) h1 = some h2 ∧
          fieldsOf h2 0 = fieldsOf exampleHeap 0 ∧
          (∀ n, indexOf h2 0 n = indexOf exampleHeap 0 n) ∧
          namesOf h2 0 = namesOf exampleHeap 0 ∧
          (∀ (f : Nat) (o : Field), exampleHeap.objs[f]? = some o → h2.objs[f]? = some o) :=
  ⟨WF_of_run (fun c => c - 1) exampleCalls exampleHeap (by decide) exampleHeap_run,
    by decide,
    ShallowCopy_isolates (fun c => c - 1) exampleHeap
      (WF_of_run (fun c => c - 1) exampleCalls exampleHeap (by decide) exampleHeap_run)
      0 (by decide)⟩

/-! ## Theorems: name normalization -/

theorem segments_ne_nil (sep : Nat) (s : List Nat) : segments sep s ≠ [] := by
  induction s with
  | nil => simp [segments]
  | cons c cs ih =>
    unfold segments
    split
    · simp
    · split <;> simp

theorem segments_cons (sep c : Nat) (cs : List Nat) :
    segments sep (c :: cs) =
      if c = sep then [] :: segments sep cs
      else (c :: (segments sep cs).head!) :: (segments sep cs).tail := by
  have h := segments_ne_nil sep cs
  rw [segments]
  split
  · rfl
  · cases hs : segments sep cs with
    | nil => exact absurd hs h
    | cons seg rest => rfl

/-- Joining the segments with the separator gives the string back. -/
theorem intercalate_segments (sep : Nat) (s : List Nat) :
    List.intercalate [sep] (segments sep s) = s := by
  induction s with
  | nil => rfl
  | cons c cs ih =>
    rw [segments_cons]
    have h := segments_ne_nil sep cs
    cases hs : segments sep cs with
    | nil => exact absurd hs h
    | cons seg rest =>
      rw [hs] at ih
      by_cases hc : c = sep
      · rw [if_pos hc, hc]
        simp [List.intercalate] at ih ⊢
        cases rest <;> simp_all [List.intersperse]
      · rw [if_neg hc]
        simp [List.intercalate] at ih ⊢
        cases rest <;> simp_all [List.intersperse]

/-- No segment contains the separator. -/
theorem sep_not_mem_segments (sep : Nat) (s : List Nat) :
    ∀ seg ∈ segments sep s, sep ∉ seg := by
  induction s with
  | nil => intro seg hseg; simp [segments] at hseg; subst hseg; simp
  | cons c cs ih =>
    intro seg hseg
    rw [segments_cons] at hseg
    have h := segments_ne_nil sep cs
    cases hs : segments sep cs with
    | nil => exact absurd hs h
    | cons s0 rest =>
      rw [hs] at hseg ih
      by_cases hc : c = sep
      · rw [if_pos hc] at hseg
        rcases List.mem_cons.1 hseg with e | e
        · subst e; simp
        · exact ih seg e
      · rw [if_neg hc] at hseg
        simp only [List.head!_cons, List.tail_cons] at hseg
        rcases List.mem_cons.1 hseg with e | e
        · subst e
          intro hm
          rcases List.mem_cons.1 hm with e2 | e2
          · exact hc e2.symm
          · exact ih s0 (List.mem_cons_self _ _) e2
        · exact ih seg (List.mem_cons_of_mem _ e)

theorem camelLoop_segments (sep : Nat) (s : List Nat) :
    camelLoop sep s true = camelSpec sep s ∧
    camelLoop sep s false =
      (segments sep s).head! ++ (((segments sep s).tail).map capFirst).flatten := by
  induction s with
  | nil => exact ⟨rfl, rfl⟩
  | cons c cs ih =>
    obtain ⟨iht, ihf⟩ := ih
    have h := segments_ne_nil sep cs
    unfold camelSpec at iht ⊢
    rw [segments_cons]
    cases hs : segments sep cs with
    | nil => exact absurd hs h
    | cons s0 rest =>
      rw [hs] at iht ihf
      simp only [List.head!_cons, List.tail_cons] at ihf ⊢
      by_cases hc : c = sep
      · rw [if_pos hc]
        constructor
        · show (if c = sep then camelLoop sep cs true else _) = _
          rw [if_pos hc, iht]
          rfl
        · show (if c = sep then camelLoop sep cs true else _) = _
          rw [if_pos hc, iht]
          rfl
      · rw [if_neg hc]
        constructor
        · show (if c = sep then _ else if true = true then upperByte c :: camelLoop sep cs false
            else c :: camelLoop sep cs false) = _
          rw [if_neg hc, if_pos rfl, ihf]
          rfl
        · show (if c = sep then _ else if false = true then upperByte c :: camelLoop sep cs false
            else c :: camelLoop sep cs false) = _
          rw [if_neg hc, if_neg (by decide), ihf]
          rfl

theorem upperByte_ne (sep c : Nat) (hsep : sep = 45 ∨ sep = 95) (hc : c ≠ sep) :
    upperByte c ≠ sep := by
  unfold upperByte
  rcases hsep with rfl | rfl <;> (repeat' split) <;> omega

theorem sep_not_mem_camelSpec (sep : Nat) (hsep : sep = 45 ∨ sep = 95) (s : List Nat) :
    sep ∉ camelSpec sep s := by
  unfold camelSpec
  intro hm
  rw [List.mem_flatten] at hm
  obtain ⟨l, hl, hml⟩ := hm
  rw [List.mem_map] at hl
  obtain ⟨seg, hseg, rfl⟩ := hl
  have hns := sep_not_mem_segments sep s seg hseg
  cases seg with
  | nil => cases hml
  | cons c cs =>
    rcases List.mem_cons.1 hml with e | e
    · exact upperByte_ne sep c hsep (fun e2 => hns (by rw [e2]; exact List.mem_cons_self _ _)) e.symm
    · exact hns (List.mem_cons_of_mem _ e)

/-- C14: `ErrorNameKebabToCamel(s)` is the concatenation of the `-`-separated
segments of `s`, each with its first byte upper-cased (as
`byte(unicode.ToUpper(rune(b)))` does) and its other bytes unchanged, and contains
no `-`; `ErrorNameSnakeToCamel(s)` is the same with `_`; the empty string maps to
the empty string; with four examples. -/
theorem ErrorName_normalization (s : List Nat) :
    ErrorNameKebabToCamel s = camelSpec 45 s ∧ 45 ∉ ErrorNameKebabToCamel s ∧
    ErrorNameSnakeToCamel s = camelSpec 95 s ∧ 95 ∉ ErrorNameSnakeToCamel s ∧
    ErrorNameKebabToCamel [] = [] ∧ ErrorNameSnakeToCamel [] = [] ∧
    ErrorNameKebabToCamel (bytes "line-items") = bytes "LineItems" ∧
    ErrorNameKebabToCamel (bytes "index-123") = bytes "Index123" ∧
    ErrorNameSnakeToCamel (bytes "index_1") = bytes "Index1" ∧
    ErrorNameSnakeToCamel (bytes "commodity_code") = bytes "CommodityCode" := by
  have hk : ErrorNameKebabToCamel s = camelSpec 45 s := by
    unfold ErrorNameKebabToCamel
    by_cases h0 : s.length = 0
    · rw [if_pos h0, List.eq_nil_of_length_eq_zero h0]; rfl
    · rw [if_neg h0]; exact (camelLoop_segments 45 s).1
  have hs : ErrorNameSnakeToCamel s = camelSpec 95 s := by
    unfold ErrorNameSnakeToCamel
    by_cases h0 : s.length = 0
    · rw [if_pos h0, List.eq_nil_of_length_eq_zero h0]; rfl
    · rw [if_neg h0]; exact (camelLoop_segments 95 s).1
  refine ⟨hk, ?_, hs, ?_, rfl, rfl, by decide, by decide, by decide, by decide⟩
  · rw [hk]; exact sep_not_mem_camelSpec 45 (Or.inl rfl) s
  · rw [hs]; exact sep_not_mem_camelSpec 95 (Or.inr rfl) s

/-! ## Theorems: the accessors of the error tree -/

theorem rangeAllDeep_acc (c : ChildMap) :
    ∀ acc, c.rangeAllDeep acc = acc ++ c.rangeAllDeep [] := by
  induction c with
  | nil => intro acc; simp [ChildMap.rangeAllDeep]
  | entry k o l c rest ihc ihr =>
    intro acc
    simp only [ChildMap.rangeAllDeep]
    rw [ihr (acc ++ _), ihr ([] ++ _)]
    simp
  | nilEntry k rest ihr =>
    intro acc
    simp only [ChildMap.rangeAllDeep]
    rw [ihr (acc ++ []), ihr ([] ++ [])]
    simp

theorem AllDeep_some (r : ValidationErrors) :
    ValidationErrors.AllDeep (some r) = r.Errors ++ r.Children.rangeAllDeep [] := by
  show r.Children.rangeAllDeep ([] ++ r.Errors) = _
  rw [rangeAllDeep_acc]
  simp

theorem rangeAllDeep_entry (k o : List Nat) (l : List ValidationError) (c rest : ChildMap) :
    (ChildMap.entry k o l c rest).rangeAllDeep [] =
      ValidationErrors.AllDeep (some ⟨o, l, c⟩) ++ rest.rangeAllDeep [] := by
  show rest.rangeAllDeep ([] ++ c.rangeAllDeep ([] ++ l)) = _
  rw [rangeAllDeep_acc rest, AllDeep_some, rangeAllDeep_acc c]
  simp

theorem rangeAllDeep_nilEntry (k : List Nat) (rest : ChildMap) :
    (ChildMap.nilEntry k rest).rangeAllDeep [] = rest.rangeAllDeep [] := rfl

theorem rangeAllDeep_subs (c : ChildMap) :
    c.rangeAllDeep [] = (c.subs.map ValidationErrors.AllDeep).flatten := by
  induction c with
  | nil => rfl
  | entry k o l c rest _ ihr =>
    rw [rangeAllDeep_entry, ihr]
    simp [ChildMap.subs]
  | nilEntry k rest ihr =>
    rw [rangeAllDeep_nilEntry, ihr]
    simp [ChildMap.subs, ValidationErrors.AllDeep]

theorem rangeAllDeep_nodes (c : ChildMap) :
    c.rangeAllDeep [] = (c.nodes.map (fun n => n.Errors)).flatten := by
  induction c with
  | nil => rfl
  | entry k o l c rest ihc ihr =>
    rw [rangeAllDeep_entry, AllDeep_some, ihr, ihc]
    simp [ChildMap.nodes]
  | nilEntry k rest ihr =>
    rw [rangeAllDeep_nilEntry, ihr]
    rfl

theorem rangeAllDeep_append (a b : ChildMap) :
    (a.append b).rangeAllDeep [] = a.rangeAllDeep [] ++ b.rangeAllDeep [] := by
  induction a with
  | nil => rfl
  | entry k o l c rest _ ihr =>
    show (ChildMap.entry k o l c (rest.append b)).rangeAllDeep [] = _
    rw [rangeAllDeep_entry, rangeAllDeep_entry, ihr]
    simp
  | nilEntry k rest ihr =>
    show (ChildMap.nilEntry k (rest.append b)).rangeAllDeep [] = _
    rw [rangeAllDeep_nilEntry, rangeAllDeep_nilEntry, ihr]

theorem Reordered_perm {a b : ChildMap} (h : ChildMap.Reordered a b) :
    (a.rangeAllDeep []).Perm (b.rangeAllDeep []) := by
  induction h with
  | refl a => exact List.Perm.refl _
  | trans _ _ ih1 ih2 => exact ih1.trans ih2
  | comm a b =>
    rw [rangeAllDeep_append, rangeAllDeep_append]
    exact List.perm_append_comm
  | entry k o l _ _ ihc ihr =>
    rw [rangeAllDeep_entry, rangeAllDeep_entry, AllDeep_some, AllDeep_some]
    exact ((ihc.append_left l).append ihr)
  | nilEntry k _ ihr =>
    rw [rangeAllDeep_nilEntry, rangeAllDeep_nilEntry]
    exact ihr

theorem onLoop_eq (name : List Nat) (ls : List ValidationError) :
    ∀ acc, onLoop name ls acc = acc ++ ls.filter (fun e => decide (name = e.Attribute)) := by
  induction ls with
  | nil => intro acc; simp [onLoop]
  | cons e rest ih =>
    intro acc
    by_cases he : name = e.Attribute
    · show (if name = e.Attribute then onLoop name rest (acc ++ [e]) else _) = _
      rw [if_pos he, ih, List.filter_cons_of_pos (by simpa using he)]
      simp
    · show (if name = e.Attribute then _ else onLoop name rest acc) = _
      rw [if_neg he, ih, List.filter_cons_of_neg (by simpa using he)]

/-! ## Theorems: decoding the error tree -/

theorem lookup_insert (m : ChildMap) (key : List Nat) (sub : ValidationErrors)
    (name : List Nat) :
    (m.insert key sub).lookup name = if key = name then some sub else m.lookup name := by
  induction m with
  | nil => rfl
  | entry k o l c rest _ ih =>
    by_cases hk : k = key
    · show (if k = key then ChildMap.entry key sub.Object sub.Errors sub.Children rest
        else _).lookup name = _
      rw [if_pos hk]
      show (if key = name then some (⟨sub.Object, sub.Errors, sub.Children⟩ : ValidationErrors)
        else rest.lookup name) = if key = name then some sub
          else (if k = name then some ⟨o, l, c⟩ else rest.lookup name)
      by_cases hn : key = name
      · rw [if_pos hn, if_pos hn]
      · rw [if_neg hn, if_neg hn, if_neg (by rw [hk]; exact hn)]
    · show (if k = key then _ else ChildMap.entry k o l c (rest.insert key sub)).lookup name = _
      rw [if_neg hk]
      show (if k = name then some (⟨o, l, c⟩ : ValidationErrors)
        else (rest.insert key sub).lookup name) = if key = name then some sub
          else (if k = name then some ⟨o, l, c⟩ else rest.lookup name)
      rw [ih]
      by_cases hn : key = name
      · rw [if_pos hn, if_pos hn, if_neg (by rw [← hn]; exact hk)]
      · rw [if_neg hn, if_neg hn]
  | nilEntry k rest ih =>
    by_cases hk : k = key
    · show (if k = key then ChildMap.entry key sub.Object sub.Errors sub.Children rest
        else _).lookup name = _
      rw [if_pos hk]
      show (if key = name then some (⟨sub.Object, sub.Errors, sub.Children⟩ : ValidationErrors)
        else rest.lookup name) = if key = name then some sub
          else (if k = name then none else rest.lookup name)
      by_cases hn : key = name
      · rw [if_pos hn, if_pos hn]
      · rw [if_neg hn, if_neg hn, if_neg (by rw [hk]; exact hn)]
    · show (if k = key then _ else ChildMap.nilEntry k (rest.insert key sub)).lookup name = _
      rw [if_neg hk]
      show (if k = name then none else (rest.insert key sub).lookup name)
        = if key = name then some sub else (if k = name then none else rest.lookup name)
      rw [ih]
      by_cases hn : key = name
      · rw [if_pos hn, if_pos hn, if_neg (by rw [← hn]; exact hk)]
      · rw [if_neg hn, if_neg hn]

theorem ObjectIsKey_insert (m : ChildMap) (key : List Nat) (sub : ValidationErrors)
    (hm : m.ObjectIsKey) (hs : sub.Object = key) (hsc : sub.Children.ObjectIsKey) :
    (m.insert key sub).ObjectIsKey := by
  induction m with
  | nil => exact ⟨hs, hsc, trivial⟩
  | entry k o l c rest _ ih =>
    obtain ⟨h1, h2, h3⟩ := hm
    by_cases hk : k = key
    · show (if k = key then ChildMap.entry key sub.Object sub.Errors sub.Children rest
        else _).ObjectIsKey
      rw [if_pos hk]
      exact ⟨hs, hsc, h3⟩
    · show (if k = key then _ else ChildMap.entry k o l c (rest.insert key sub)).ObjectIsKey
      rw [if_neg hk]
      exact ⟨h1, h2, ih h3⟩
  | nilEntry k rest ih => exact absurd hm (fun h => h)

theorem lastChild_found (key : List Nat) (f : Xml.Forest) :
    ∀ found, f.lastChild key found =
      match f.lastChild key none with
      | some p => some p
      | none => found := by
  induction f with
  | nil => intro found; rfl
  | leaf t rest ih => intro found; exact ih found
  | elem name attr content rest _ ih =>
    intro found
    by_cases h : name.Local ≠ bytes "errors" ∧ ErrorNameKebabToCamel name.Local = key
    · simp only [Xml.Forest.lastChild, h, and_self, if_true, ne_eq, not_false_eq_true]
      rw [ih (some (name, content))]
      cases rest.lastChild key none <;> rfl
    · simp only [Xml.Forest.lastChild]
      rw [if_neg h, if_neg h]
      exact ih found

theorem UnmarshalXML_nil (start : Xml.Name) (r : ValidationErrors) :
    ValidationErrors.UnmarshalXML start .nil r
      = { r with Object := ErrorNameKebabToCamel start.Local } := rfl

theorem UnmarshalXML_leaf (start : Xml.Name) (t : Xml.Token) (rest : Xml.Forest)
    (r : ValidationErrors) :
    ValidationErrors.UnmarshalXML start (.leaf t rest) r
      = ValidationErrors.UnmarshalXML start rest
          { r with Object := ErrorNameKebabToCamel start.Local } := rfl

theorem UnmarshalXML_elem (start name : Xml.Name) (attr : List Xml.Attr)
    (content rest : Xml.Forest) (r : ValidationErrors) :
    ValidationErrors.UnmarshalXML start (.elem name attr content rest) r
      = if name.Local = bytes "errors" then
          ValidationErrors.UnmarshalXML start rest
            { Object := ErrorNameKebabToCamel start.Local,
              Errors := decodeErrorList content [],
              Children := r.Children }
        else
          ValidationErrors.UnmarshalXML start rest
            { Object := ErrorNameKebabToCamel start.Local,
              Errors := r.Errors,
              Children := r.Children.insert (ErrorNameKebabToCamel name.Local)
                (ValidationErrors.UnmarshalXML name content ⟨[], [], .nil⟩) } := rfl

/-- What `UnmarshalXML` leaves in the receiver: the normalized name of the element
as `Object`, and under every key the decoding of the last child element with that
normalized name, or what the receiver held when there is none. -/
theorem UnmarshalXML_spec (content : Xml.Forest) :
    ∀ (start : Xml.Name) (r : ValidationErrors),
      (ValidationErrors.UnmarshalXML start content r).Object
        = ErrorNameKebabToCamel start.Local ∧
      (∀ key, (ValidationErrors.UnmarshalXML start content r).Children.lookup key =
        match content.lastChild key none with
        | some (name, sub) => some (ValidationErrors.UnmarshalXML name sub ⟨[], [], .nil⟩)
        | none => r.Children.lookup key) ∧
      (r.Children.ObjectIsKey →
        (ValidationErrors.UnmarshalXML start content r).Children.ObjectIsKey) := by
  induction content with
  | nil =>
    intro start r
    exact ⟨rfl, fun _ => rfl, fun h => h⟩
  | leaf t rest ih =>
    intro start r
    rw [UnmarshalXML_leaf]
    exact ih start _
  | elem name attr content rest ihc ihr =>
    intro start r
    rw [UnmarshalXML_elem]
    by_cases he : name.Local = bytes "errors"
    · rw [if_pos he]
      obtain ⟨h1, h2, h3⟩ := ihr start
        { Object := ErrorNameKebabToCamel start.Local,
          Errors := decodeErrorList content [], Children := r.Children }
      refine ⟨h1, fun key => ?_, h3⟩
      rw [h2 key]
      have : (Xml.Forest.elem name attr content rest).lastChild key none
          = rest.lastChild key none := by
        show (if name.Local ≠ bytes "errors" ∧ ErrorNameKebabToCamel name.Local = key then _
          else rest.lastChild key none) = _
        rw [if_neg (fun h => h.1 he)]
      rw [this]
    · rw [if_neg he]
      obtain ⟨h1, h2, h3⟩ := ihr start
        { Object := ErrorNameKebabToCamel start.Local,
          Errors := r.Errors,
          Children := r.Children.insert (ErrorNameKebabToCamel name.Local)
            (ValidationErrors.UnmarshalXML name content ⟨[], [], .nil⟩) }
      obtain ⟨c1, _, c3⟩ := ihc name ⟨[], [], .nil⟩
      refine ⟨h1, fun key => ?_, fun hr => h3 (ObjectIsKey_insert _ _ _ hr c1 (c3 trivial))⟩
      rw [h2 key]
      show (match rest.lastChild key none with
        | some (name, sub) => some (ValidationErrors.UnmarshalXML name sub ⟨[], [], .nil⟩)
        | none => (r.Children.insert (ErrorNameKebabToCamel name.Local)
            (ValidationErrors.UnmarshalXML name content ⟨[], [], .nil⟩)).lookup key) = _
      rw [lookup_insert]
      by_cases hk : ErrorNameKebabToCamel name.Local = key
      · have : (Xml.Forest.elem name attr content rest).lastChild key none
            = rest.lastChild key (some (name, content)) := by
          show (if name.Local ≠ bytes "errors" ∧ ErrorNameKebabToCamel name.Local = key then
            rest.lastChild key (some (name, content)) else _) = _
          rw [if_pos ⟨he, hk⟩]
        rw [this, lastChild_found key rest (some (name, content)), if_pos hk]
        cases rest.lastChild key none <;> rfl
      · have : (Xml.Forest.elem name attr content rest).lastChild key none
            = rest.lastChild key none := by
          show (if name.Local ≠ bytes "errors" ∧ ErrorNameKebabToCamel name.Local = key then _
            else rest.lastChild key none) = _
          rw [if_neg (fun h => hk h.2)]
        rw [this, if_neg hk]

/-! ## Theorems: the accessors of the error tree -/

theorem natDecimal_step (u : Nat) (h : u ≥ 10) :
    natDecimal u = natDecimal (u / 10) ++ [chZero + u % 10] := by
  unfold natDecimal
  rw [if_neg (by omega), if_neg (by omega), Nat.digits_def' (by decide) (by omega)]
  simp

theorem natDecimal_small (u : Nat) (h : ¬ u ≥ 10) : natDecimal u = [chZero + u] := by
  unfold natDecimal
  by_cases h0 : u = 0
  · rw [if_pos h0, h0]
    rfl
  · rw [if_neg h0, Nat.digits_of_lt 10 u h0 (by omega)]
    rfl

/-- The digit loop writes the decimal string of `u` in front of `acc`. -/
theorem formatBits_natDecimal (fuel : Nat) :
    ∀ (u : Nat) (acc : List Nat), u ≤ fuel → formatBits fuel u acc = natDecimal u ++ acc := by
  induction fuel with
  | zero =>
    intro u acc hu
    have hu0 : u = 0 := by omega
    subst hu0
    rfl
  | succ fuel ih =>
    intro u acc hu
    rw [formatBits_succ]
    by_cases h10 : u ≥ 10
    · rw [if_pos h10, ih (u / 10) _ (by omega), natDecimal_step u h10, List.append_assoc]
      rfl
    · rw [if_neg h10, natDecimal_small u h10]
      rfl

/-- `strconv.FormatInt(i, 10)` is the decimal string of `i`. -/
theorem FormatInt_decimalString (i : Int) : FormatInt i = decimalString i := by
  unfold FormatInt decimalString
  simp only [formatBits_natDecimal _ _ _ (Nat.le_refl _), List.append_nil]

theorem lookup_nil (name : List Nat) : ChildMap.nil.lookup name = none := rfl

theorem For_some (r : ValidationErrors) (name : List Nat) :
    ValidationErrors.For (some r) name = r.Children.lookup name := by
  show (if r.Children = ChildMap.nil then none else r.Children.lookup name) = _
  by_cases h : r.Children = ChildMap.nil
  · rw [if_pos h, h]
    rfl
  · rw [if_neg h]

theorem ForIndex_some (r : ValidationErrors) (i : Int) :
    ValidationErrors.ForIndex (some r) i = r.Children.lookup (bytes "Index" ++ FormatInt i) := by
  show (if r.Children = ChildMap.nil then none
    else r.Children.lookup (bytes "Index" ++ FormatInt i)) = _
  by_cases h : r.Children = ChildMap.nil
  · rw [if_pos h, h]
    rfl
  · rw [if_neg h]

theorem ForIndex_eq_For (r : Option ValidationErrors) (i : Int) :
    ValidationErrors.ForIndex r i = ValidationErrors.For r (bytes "Index" ++ FormatInt i) := by
  cases r with
  | none => rfl
  | some r => rw [ForIndex_some, For_some]

theorem On_some (r : ValidationErrors) (name : List Nat) :
    ValidationErrors.On (some r) name
      = r.Errors.filter (fun e => decide (name = e.Attribute)) := by
  show onLoop name r.Errors [] = _
  rw [onLoop_eq]
  rfl

theorem lastChild_some (key : List Nat) (f : Xml.Forest) :
    ∀ (found p : Option (Xml.Name × Xml.Forest)), f.lastChild key found = p →
      p = found ∨ ∃ name sub, p = some (name, sub) ∧ (name, sub) ∈ f.children ∧
        name.Local ≠ bytes "errors" ∧ ErrorNameKebabToCamel name.Local = key := by
  induction f with
  | nil => intro found p h; exact Or.inl h.symm
  | leaf t rest ih => intro found p h; exact ih found p h
  | elem name attr content rest _ ih =>
    intro found p h
    by_cases hk : name.Local ≠ bytes "errors" ∧ ErrorNameKebabToCamel name.Local = key
    · have h1 : rest.lastChild key (some (name, content)) = p := by
        rw [← h]
        show _ = (if name.Local ≠ bytes "errors" ∧ ErrorNameKebabToCamel name.Local = key
          then rest.lastChild key (some (name, content)) else rest.lastChild key found)
        rw [if_pos hk]
      rcases ih _ p h1 with e | ⟨n, s, e, hm, h2, h3⟩
      · exact Or.inr ⟨name, content, e, List.mem_cons_self _ _, hk.1, hk.2⟩
      · exact Or.inr ⟨n, s, e, List.mem_cons_of_mem _ hm, h2, h3⟩
    · have h1 : rest.lastChild key found = p := by
        rw [← h]
        show _ = (if name.Local ≠ bytes "errors" ∧ ErrorNameKebabToCamel name.Local = key
          then rest.lastChild key (some (name, content)) else rest.lastChild key found)
        rw [if_neg hk]
      rcases ih _ p h1 with e | ⟨n, s, e, hm, h2, h3⟩
      · exact Or.inl e
      · exact Or.inr ⟨n, s, e, List.mem_cons_of_mem _ hm, h2, h3⟩

theorem lastChild_isSome (f : Xml.Forest) (name : Xml.Name) (sub : Xml.Forest)
    (hm : (name, sub) ∈ f.children) (hne : name.Local ≠ bytes "errors") :
    (f.lastChild (ErrorNameKebabToCamel name.Local) none).isSome = true := by
  have key : ∀ (g : Xml.Forest) (found : Option (Xml.Name × Xml.Forest)),
      (found.isSome = true ∨ (name, sub) ∈ g.children) →
        (g.lastChild (ErrorNameKebabToCamel name.Local) found).isSome = true := by
    intro g
    induction g with
    | nil =>
      intro found h
      rcases h with h | h
      · exact h
      · cases h
    | leaf t rest ih => intro found h; exact ih found h
    | elem n attr content rest _ ih =>
      intro found h
      by_cases hk : n.Local ≠ bytes "errors" ∧
          ErrorNameKebabToCamel n.Local = ErrorNameKebabToCamel name.Local
      · show (if n.Local ≠ bytes "errors" ∧
            ErrorNameKebabToCamel n.Local = ErrorNameKebabToCamel name.Local
          then rest.lastChild _ (some (n, content)) else rest.lastChild _ found).isSome = true
        rw [if_pos hk]
        exact ih _ (Or.inl rfl)
      · show (if n.Local ≠ bytes "errors" ∧
            ErrorNameKebabToCamel n.Local = ErrorNameKebabToCamel name.Local
          then rest.lastChild _ (some (n, content)) else rest.lastChild _ found).isSome = true
        rw [if_neg hk]
        refine ih _ ?_
        rcases h with h | h
        · exact Or.inl h
        · rcases List.mem_cons.1 h with e | e
          · exfalso
            apply hk
            have e1 : n = name := (Prod.mk.inj e).1.symm
            rw [e1]
            exact ⟨hne, rfl⟩
          · exact Or.inr e
  exact key f none (Or.inr hm)

theorem camelLoop_cons (sep c : Nat) (cs : List Nat) (capitalizeNext : Bool) :
    camelLoop sep (c :: cs) capitalizeNext =
      if c = sep then camelLoop sep cs true
      else if capitalizeNext = true then upperByte c :: camelLoop sep cs false
      else c :: camelLoop sep cs false := rfl

/-- Without a separator and after the first byte, the loop copies. -/
theorem camelLoop_nosep (sep : Nat) (l : List Nat) (h : sep ∉ l) :
    camelLoop sep l false = l := by
  induction l with
  | nil => rfl
  | cons c cs ih =>
    rw [camelLoop_cons, if_neg (fun e => h (by rw [e]; exact List.mem_cons_self _ _)),
      if_neg (by decide), ih (fun hm => h (List.mem_cons_of_mem _ hm))]

theorem upperByte_digit {c : Nat} (h : isDigit c) : upperByte c = c := by
  unfold isDigit chZero at h
  unfold upperByte
  rw [if_neg (by omega), if_neg (by omega), if_neg (by omega), if_neg (by omega)]

/-- The name `index-N` is normalized to `IndexN`. -/
theorem Kebab_index (ds : List Nat) (hds : ∀ c ∈ ds, isDigit c) :
    ErrorNameKebabToCamel (bytes "index-" ++ ds) = bytes "Index" ++ ds := by
  have hb : bytes "index-" ++ ds = 105 :: 110 :: 100 :: 101 :: 120 :: 45 :: ds := by
    have : bytes "index-" = [105, 110, 100, 101, 120, 45] := by decide
    rw [this]
    rfl
  have hB : bytes "Index" ++ ds = 73 :: 110 :: 100 :: 101 :: 120 :: ds := by
    have : bytes "Index" = [73, 110, 100, 101, 120] := by decide
    rw [this]
    rfl
  have hn : (45 : Nat) ∉ ds := fun hm => by
    have := hds 45 hm
    unfold isDigit chZero at this
    omega
  rw [hb, hB]
  unfold ErrorNameKebabToCamel
  rw [if_neg (by simp)]
  rw [camelLoop_cons, if_neg (by decide), if_pos rfl]
  rw [camelLoop_cons, if_neg (by decide), if_neg (by decide)]
  rw [camelLoop_cons, if_neg (by decide), if_neg (by decide)]
  rw [camelLoop_cons, if_neg (by decide), if_neg (by decide)]
  rw [camelLoop_cons, if_neg (by decide), if_neg (by decide)]
  rw [camelLoop_cons, if_pos rfl]
  have e73 : upperByte 105 = 73 := by decide
  rw [e73]
  cases ds with
  | nil => rfl
  | cons d ds =>
    have hd : d ≠ 45 := fun e => hn (by rw [e]; exact List.mem_cons_self _ _)
    rw [camelLoop_cons, if_neg hd, if_pos rfl, upperByte_digit (hds d (List.mem_cons_self _ _)),
      camelLoop_nosep 45 ds (fun hm => hn (List.mem_cons_of_mem _ hm))]

/-! ## Theorems: the claims about the error tree -/

/-- C15, at an explicit input: decoding the content `<index_1/>` stores the child
under the key `Index_1`, with `Object` `Index_1`; nothing is stored under
`Index1`, the PascalCase form of `index_1`, and `ForIndex(1)` finds nothing. -/
theorem UnmarshalXML_keys_counterexample :
    (ValidationErrors.decode ⟨[], bytes "errors"⟩
        (fixtureElem "index_1" .nil .nil)).Children.lookup (bytes "Index1") = none ∧
    (ValidationErrors.decode ⟨[], bytes "errors"⟩
        (fixtureElem "index_1" .nil .nil)).Children.lookup (bytes "Index_1")
      = some ⟨bytes "Index_1", [], .nil⟩ ∧
    ValidationErrors.ForIndex (some (ValidationErrors.decode ⟨[], bytes "errors"⟩
        (fixtureElem "index_1" .nil .nil))) 1 = none ∧
    ErrorNameSnakeToCamel (bytes "index_1") = bytes "Index1" := by
  decide

/-- C15, as amended: in the tree decoded from an element, a child found under a
key is the decoding of the last child element (other than `errors`) whose name is
normalized to that key by `ErrorNameKebabToCamel`, which turns kebab-case into
PascalCase and leaves `_` alone; the `Object` of the child is the key, and so it
is at every depth; every child element other than `errors` is stored; and the
name `index-N` is normalized to the key `Index` followed by `N`, the key
`ForIndex(N)` reads. -/
theorem UnmarshalXML_keys (start : Xml.Name) (content : Xml.Forest) (key : List Nat)
    (sub : ValidationErrors)
    (h : (ValidationErrors.decode start content).Children.lookup key = some sub) :
    sub.Object = key ∧
    (∃ name c, (name, c) ∈ content.children ∧ name.Local ≠ bytes "errors" ∧
      ErrorNameKebabToCamel name.Local = key ∧
      content.lastChild key none = some (name, c) ∧ sub = ValidationErrors.decode name c) ∧
    (ValidationErrors.decode start content).Object = ErrorNameKebabToCamel start.Local ∧
    (ValidationErrors.decode start content).Children.ObjectIsKey ∧
    (∀ name c, (name, c) ∈ content.children → name.Local ≠ bytes "errors" →
      ((ValidationErrors.decode start content).Children.lookup
        (ErrorNameKebabToCamel name.Local)).isSome = true) ∧
    (∀ n : Nat, ErrorNameKebabToCamel (bytes "index-" ++ FormatInt n)
        = bytes "Index" ++ FormatInt n ∧
      ValidationErrors.ForIndex (some (ValidationErrors.decode start content)) n
        = (ValidationErrors.decode start content).Children.lookup
            (ErrorNameKebabToCamel (bytes "index-" ++ FormatInt n))) := by
  obtain ⟨h1, h2, h3⟩ := UnmarshalXML_spec content start ⟨[], [], .nil⟩
  have hidx : ∀ n : Nat, ErrorNameKebabToCamel (bytes "index-" ++ FormatInt n)
      = bytes "Index" ++ FormatInt n := fun n =>
    Kebab_index _ (FormatInt_nonneg (Int.ofNat_nonneg n)).1
  have hl : ∀ k, (ValidationErrors.decode start content).Children.lookup k =
      match content.lastChild k none with
      | some (name, sub) => some (ValidationErrors.decode name sub)
      | none => none := h2
  have hk := hl key
  rw [h] at hk
  cases hc : content.lastChild key none with
  | none => rw [hc] at hk; cases hk
  | some p =>
    obtain ⟨name, c⟩ := p
    rw [hc] at hk
    have hsub : sub = ValidationErrors.decode name c := Option.some.inj hk
    rcases lastChild_some key content none _ hc with e | ⟨n, s, e, hm, hne, hkey⟩
    · cases e
    · obtain ⟨e1, e2⟩ := Prod.mk.inj (Option.some.inj e)
      subst e1
      subst e2
      refine ⟨?_, ⟨name, c, hm, hne, hkey, rfl, hsub⟩, h1, h3 trivial, ?_, ?_⟩
      · rw [hsub, ← hkey]
        exact (UnmarshalXML_spec c name ⟨[], [], .nil⟩).1
      · intro n2 c2 hm2 hne2
        rw [hl]
        have := lastChild_isSome content n2 c2 hm2 hne2
        cases hx : content.lastChild (ErrorNameKebabToCamel n2.Local) none with
        | none => rw [hx] at this; cases this
        | some q => rfl
      · intro n
        exact ⟨hidx n, by rw [ForIndex_some, hidx n]⟩

/-- C15, on the fixture: under `Transaction`, `credit-card` is found under
`CreditCard`, with `Object` `CreditCard`. -/
theorem UnmarshalXML_keys_witness :
    (ValidationErrors.decode ⟨[], bytes "transaction"⟩
        (fixtureElem "credit-card" .nil .nil)).Children.lookup (bytes "CreditCard")
      = some ⟨bytes "CreditCard", [], .nil⟩ ∧
    (⟨bytes "CreditCard", [], .nil⟩ : ValidationErrors).Object = bytes "CreditCard" ∧
    ((ValidationErrors.For (ValidationErrors.For errorXMLTree (bytes "Transaction"))
      (bytes "CreditCard")).map (fun r => r.Object)) = some (bytes "CreditCard") :=
  ⟨by decide,
   (UnmarshalXML_keys ⟨[], bytes "transaction"⟩ (fixtureElem "credit-card" .nil .nil)
      (bytes "CreditCard") ⟨bytes "CreditCard", [], .nil⟩ (by decide)).1,
   by decide⟩

/-- C16: `AllDeep` on a nil node is empty; on a node it is the node's own leaves
in their order followed by the `AllDeep` of every child in visiting order, which
is the leaves of all the nodes of the tree, one after the other, so that its
length is the total number of leaves; on the fixture that is 13. -/
theorem AllDeep_collects (r : ValidationErrors) :
    ValidationErrors.AllDeep none = [] ∧
    ValidationErrors.AllDeep (some r)
      = r.Errors ++ (r.Children.subs.map ValidationErrors.AllDeep).flatten ∧
    ValidationErrors.AllDeep (some r) = (r.nodes.map (fun n => n.Errors)).flatten ∧
    ((ValidationErrors.AllDeep (some r) : List ValidationError) : Multiset ValidationError)
      = (r.nodes.map (fun n => ((n.Errors : List ValidationError) :
          Multiset ValidationError))).sum ∧
    (ValidationErrors.AllDeep (some r)).length = (r.nodes.map (fun n => n.Errors.length)).sum ∧
    (ValidationErrors.AllDeep errorXMLTree).length = 13 := by
  have hflat : ValidationErrors.AllDeep (some r) = (r.nodes.map (fun n => n.Errors)).flatten := by
    rw [AllDeep_some, rangeAllDeep_nodes]
    rfl
  have hms : ∀ l : List ValidationErrors,
      (((l.map (fun n => n.Errors)).flatten : List ValidationError) : Multiset ValidationError)
        = (l.map (fun n => ((n.Errors : List ValidationError) :
            Multiset ValidationError))).sum := by
    intro l
    induction l with
    | nil => rfl
    | cons a l ih =>
      rw [List.map_cons, List.flatten_cons, List.map_cons, List.sum_cons, ← ih]
      rfl
  refine ⟨rfl, ?_, hflat, ?_, ?_, by decide⟩
  · rw [AllDeep_some, rangeAllDeep_subs]
  · rw [hflat]
    exact hms _
  · rw [hflat, List.length_flatten, List.map_map]
    rfl

/-- C17, at an explicit input: the map with the entries `A` and `B` visited in the
two possible orders (same entries under the same keys), and the two different
sequences `AllDeep` returns. -/
theorem AllDeep_order_counterexample :
    ChildMap.Reordered mapAB mapBA ∧
    (∀ name, mapAB.lookup name = mapBA.lookup name) ∧
    ValidationErrors.AllDeep (some ⟨[], [], mapAB⟩)
      ≠ ValidationErrors.AllDeep (some ⟨[], [], mapBA⟩) := by
  refine ⟨?_, ?_, by decide⟩
  · exact ChildMap.Reordered.comm
      (.entry (bytes "A") (bytes "A") [⟨bytes "1", bytes "Base", bytes "a"⟩] .nil .nil)
      (.entry (bytes "B") (bytes "B") [⟨bytes "2", bytes "Base", bytes "b"⟩] .nil .nil)
  · intro name
    show (if bytes "A" = name then _ else if bytes "B" = name then _ else none)
      = (if bytes "B" = name then _ else if bytes "A" = name then _ else none)
    by_cases ha : bytes "A" = name
    · have hb : ¬ bytes "B" = name := by rw [← ha]; decide
      rw [if_pos ha, if_neg hb, if_pos ha]
    · rw [if_neg ha, if_neg ha]

/-- C17, as amended: two calls of `AllDeep` on the same tree, which may visit the
children of every node in different orders, return the same errors with the same
multiplicities, both starting with the leaves of the node itself in their
original order. -/
theorem AllDeep_reordered (a b : ValidationErrors) (h : ValidationErrors.Reordered a b) :
    (ValidationErrors.AllDeep (some a)).Perm (ValidationErrors.AllDeep (some b)) ∧
    (ValidationErrors.AllDeep (some a)).take a.Errors.length = a.Errors ∧
    (ValidationErrors.AllDeep (some b)).take a.Errors.length = a.Errors := by
  obtain ⟨_, he, hc⟩ := h
  rw [AllDeep_some, AllDeep_some, ← he]
  refine ⟨List.Perm.append_left _ (Reordered_perm hc), ?_, ?_⟩
  · rw [List.take_left']
    rfl
  · rw [List.take_left']
    rfl

/-- C17, on the map with the entries `A` and `B`. -/
theorem AllDeep_reordered_witness :
    ValidationErrors.Reordered ⟨[], [], mapAB⟩ ⟨[], [], mapBA⟩ ∧
    (ValidationErrors.AllDeep (some ⟨[], [], mapAB⟩)).Perm
      (ValidationErrors.AllDeep (some ⟨[], [], mapBA⟩)) :=
  have hr : ValidationErrors.Reordered ⟨[], [], mapAB⟩ ⟨[], [], mapBA⟩ :=
    ⟨rfl, rfl, ChildMap.Reordered.comm
      (.entry (bytes "A") (bytes "A") [⟨bytes "1", bytes "Base", bytes "a"⟩] .nil .nil)
      (.entry (bytes "B") (bytes "B") [⟨bytes "2", bytes "Base", bytes "b"⟩] .nil .nil)⟩
  ⟨hr, (AllDeep_reordered _ _ hr).1⟩

/-- C18: on the nil node `For`, `ForIndex`, `All`, `AllDeep` and `On` return the
nil node or no errors; on a node `For` and `ForIndex` return what the map holds
under the key, which is the child last stored under it, and the nil node when
there is none; so when a link of the chain `For(a).For(b).ForIndex(i)` is absent,
the chain ends in the nil node and `On`, `All` and `AllDeep` return no errors. -/
theorem lookups_chain (r : Option ValidationErrors) (a b attr : List Nat) (i : Int)
    (h : ValidationErrors.For r a = none ∨
      ValidationErrors.For (ValidationErrors.For r a) b = none ∨
      ValidationErrors.ForIndex (ValidationErrors.For (ValidationErrors.For r a) b) i = none) :
    ValidationErrors.For none a = none ∧
    ValidationErrors.ForIndex none i = none ∧
    ValidationErrors.All none = [] ∧
    ValidationErrors.AllDeep none = [] ∧
    ValidationErrors.On none attr = [] ∧
    (∀ x : ValidationErrors,
      ValidationErrors.For (some x) a = x.Children.lookup a ∧
      ValidationErrors.ForIndex (some x) i = x.Children.lookup (bytes "Index" ++ FormatInt i) ∧
      ValidationErrors.For (some ⟨x.Object, x.Errors, .nil⟩) a = none ∧
      ∀ sub : ValidationErrors,
        ValidationErrors.For (some ⟨x.Object, x.Errors, x.Children.insert a sub⟩) a
          = some sub) ∧
    ValidationErrors.ForIndex (ValidationErrors.For (ValidationErrors.For r a) b) i = none ∧
    ValidationErrors.On
      (ValidationErrors.ForIndex (ValidationErrors.For (ValidationErrors.For r a) b) i) attr
      = [] ∧
    ValidationErrors.All
      (ValidationErrors.ForIndex (ValidationErrors.For (ValidationErrors.For r a) b) i) = [] ∧
    ValidationErrors.AllDeep
      (ValidationErrors.ForIndex (ValidationErrors.For (ValidationErrors.For r a) b) i)
      = [] := by
  have hend : ValidationErrors.ForIndex
      (ValidationErrors.For (ValidationErrors.For r a) b) i = none := by
    rcases h with h | h | h
    · rw [h]; rfl
    · rw [h]; rfl
    · exact h
  refine ⟨rfl, rfl, rfl, rfl, rfl, ?_, hend, ?_, ?_, ?_⟩
  · intro x
    refine ⟨For_some x a, ForIndex_some x i, rfl, fun sub => ?_⟩
    rw [For_some]
    show (x.Children.insert a sub).lookup a = some sub
    rw [lookup_insert, if_pos rfl]
  · rw [hend]; rfl
  · rw [hend]; rfl
  · rw [hend]; rfl

/-- C18, on the fixture: `For("Transaction").For("Nope").ForIndex(1).On("Base")`
has an absent link and yields no errors. -/
theorem lookups_chain_witness :
    ValidationErrors.For (ValidationErrors.For errorXMLTree (bytes "Transaction"))
      (bytes "Nope") = none ∧
    ValidationErrors.On
      (ValidationErrors.ForIndex (ValidationErrors.For
        (ValidationErrors.For errorXMLTree (bytes "Transaction")) (bytes "Nope")) 1)
      (bytes "Base") = [] :=
  ⟨by decide,
   (lookups_chain errorXMLTree (bytes "Transaction") (bytes "Nope") (bytes "Base") 1
      (Or.inr (Or.inl (by decide)))).2.2.2.2.2.2.2.1⟩

/-- C19: `ForIndex(i)` returns what `For` returns for the name `Index` followed by
the decimal string of `i`, on every node and on the nil node. -/
theorem ForIndex_sugar (r : Option ValidationErrors) (i : Int) :
    ValidationErrors.ForIndex r i
      = ValidationErrors.For r (bytes "Index" ++ decimalString i) := by
  rw [ForIndex_eq_For, FormatInt_decimalString]

/-- C20: `On(name)` returns the leaves of the node itself whose `Attribute` is
`name`, in their original order (the children of the node play no part); each of
them is in `All()`; the `Attribute` of a decoded leaf is the text of its
`attribute` element normalized by `ErrorNameSnakeToCamel`, so that on the fixture
the leaf with the attribute `commodity_code` is the one `On("CommodityCode")`
returns. -/
theorem On_filters (r : ValidationErrors) (name : List Nat) :
    ValidationErrors.On (some r) name
      = (ValidationErrors.All (some r)).filter (fun e => decide (e.Attribute = name)) ∧
    (ValidationErrors.On (some r) name).Sublist (ValidationErrors.All (some r)) ∧
    ValidationErrors.On (some r) name ⊆ ValidationErrors.All (some r) ∧
    (ValidationErrors.On (some r) name).all (fun e => decide (e.Attribute = name)) = true ∧
    ValidationErrors.On none name = [] ∧
    (∀ (e : ValidationError) (content : Xml.Forest),
      (ValidationError.UnmarshalXML e content).Attribute
        = ErrorNameSnakeToCamel (decodeErrorFields content ⟨[], [], []⟩).Attribute) ∧
    ValidationError.UnmarshalXML ⟨[], [], []⟩
        (fixtureElem "code" (.leaf (.CharData (bytes "95801")) .nil) <|
         fixtureElem "attribute" (.leaf (.CharData (bytes "commodity_code")) .nil) <|
         fixtureElem "message" (.leaf (.CharData (bytes "Commodity code is too long.")) .nil)
           .nil)
      = ⟨bytes "95801", bytes "CommodityCode", bytes "Commodity code is too long."⟩ ∧
    ValidationErrors.On
      (ValidationErrors.ForIndex (ValidationErrors.For
        (ValidationErrors.For errorXMLTree (bytes "Transaction")) (bytes "LineItems")) 1)
      (bytes "CommodityCode")
      = [⟨bytes "95801", bytes "CommodityCode", bytes "Commodity code is too long."⟩] := by
  have hf : ValidationErrors.On (some r) name
      = (ValidationErrors.All (some r)).filter (fun e => decide (e.Attribute = name)) := by
    rw [On_some]
    show r.Errors.filter _ = r.Errors.filter _
    congr 1
    funext e
    by_cases he : name = e.Attribute
    · rw [decide_eq_true he, decide_eq_true he.symm]
    · rw [decide_eq_false he, decide_eq_false (fun x => he x.symm)]
  refine ⟨hf, ?_, ?_, ?_, rfl, fun _ _ => rfl, by decide, by decide⟩
  · rw [hf]; exact List.filter_sublist _
  · rw [hf]; exact (List.filter_sublist _).subset
  · rw [hf, List.all_eq_true]
    intro e he
    exact (List.mem_filter.1 he).2

/-! ## Theorems: the decoder and `StripNilElements` -/

theorem openNames_bindAttr (a : Xml.Attr) (s : List Xml.StackEntry × StrMap) :
    Xml.openNames (Xml.bindAttr a s).1 = Xml.openNames s.1 := by
  unfold Xml.bindAttr
  simp only []
  split <;> split <;> rfl

theorem openNames_bindLoop (attr : List Xml.Attr) :
    ∀ (stk : List Xml.StackEntry) (ns : StrMap),
      Xml.openNames (Xml.bindLoop attr stk ns).1 = Xml.openNames stk := by
  induction attr with
  | nil => intro stk ns; rfl
  | cons a rest ih =>
    intro stk ns
    show Xml.openNames (Xml.bindLoop rest (Xml.bindAttr a (stk, ns)).1
      (Xml.bindAttr a (stk, ns)).2).1 = _
    rw [ih, openNames_bindAttr]

theorem unbindLoop_spec (stk : List Xml.StackEntry) :
    ∀ ns : StrMap, Xml.openNames (Xml.unbindLoop stk ns).1 = Xml.openNames stk ∧
      Xml.topStart (Xml.unbindLoop stk ns).1 = true := by
  induction stk with
  | nil => intro ns; exact ⟨rfl, rfl⟩
  | cons s stk ih =>
    intro ns
    cases s with
    | start name => exact ⟨rfl, rfl⟩
    | ns name ok =>
      show Xml.openNames (Xml.unbindLoop stk _).1 = Xml.openNames stk ∧ _
      exact ih _

theorem openNames_ne_nil (stk : List Xml.StackEntry) (h : Xml.topStart stk = true)
    (hne : stk ≠ []) : Xml.openNames stk ≠ [] := by
  cases stk with
  | nil => exact absurd rfl hne
  | cons s stk =>
    cases s with
    | start name => exact List.cons_ne_nil _ _
    | ns name ok => cases h

theorem Token_nil (bad : Bool) (stk : List Xml.StackEntry) (ns : StrMap) :
    Xml.Decoder.Token ⟨[], bad, stk, ns⟩ =
      if bad = true then .error .Syntax
      else if stk ≠ [] then .error .Syntax
      else .error .EOF := rfl

theorem Token_start (name : Xml.Name) (attr : List Xml.Attr) (rest : List Xml.Token)
    (bad : Bool) (stk : List Xml.StackEntry) (ns : StrMap) :
    Xml.Decoder.Token ⟨.StartElement name attr :: rest, bad, stk, ns⟩ =
      .ok (.StartElement (Xml.translate (Xml.bindLoop attr stk ns).2 name true)
            (attr.map (fun a => ⟨Xml.translate (Xml.bindLoop attr stk ns).2 a.Name false,
              a.Value⟩)),
           ⟨rest, bad, .start name :: (Xml.bindLoop attr stk ns).1,
            (Xml.bindLoop attr stk ns).2⟩) := rfl

theorem Token_end_nil (name : Xml.Name) (rest : List Xml.Token) (bad : Bool) (ns : StrMap) :
    Xml.Decoder.Token ⟨.EndElement name :: rest, bad, [], ns⟩ = .error .Syntax := rfl

theorem Token_end_cons (name : Xml.Name) (rest : List Xml.Token) (bad : Bool) (s : Xml.Name)
    (stk : List Xml.StackEntry) (ns : StrMap) :
    Xml.Decoder.Token ⟨.EndElement name :: rest, bad, .start s :: stk, ns⟩ =
      if s.Local ≠ name.Local then .error .Syntax
      else if s.Space ≠ name.Space then .error .Syntax
      else .ok (.EndElement (Xml.translate ns name true),
        ⟨rest, bad, (Xml.unbindLoop stk ns).1, (Xml.unbindLoop stk ns).2⟩) := rfl

theorem Token_other (t : Xml.Token) (ht : t.isTag = false) (rest : List Xml.Token) (bad : Bool)
    (stk : List Xml.StackEntry) (ns : StrMap) :
    Xml.Decoder.Token ⟨t :: rest, bad, stk, ns⟩ = .ok (t, ⟨rest, bad, stk, ns⟩) := by
  cases t with
  | StartElement name attr => cases ht
  | EndElement name => cases ht
  | CharData data => rfl
  | Comment data => rfl
  | ProcInst target inst => rfl
  | Directive data => rfl

theorem nesting_other (t : Xml.Token) (ht : t.isTag = false) (rest : List Xml.Token)
    (stk : List Xml.Name) :
    Xml.nesting stk (t :: rest) = Xml.nesting stk rest := by
  cases t with
  | StartElement name attr => cases ht
  | EndElement name => cases ht
  | CharData data => rfl
  | Comment data => rfl
  | ProcInst target inst => rfl
  | Directive data => rfl

theorem nesting_start (name : Xml.Name) (attr : List Xml.Attr) (rest : List Xml.Token)
    (stk : List Xml.Name) :
    Xml.nesting stk (.StartElement name attr :: rest) = Xml.nesting (name :: stk) rest := rfl

theorem nesting_end_cons (name s : Xml.Name) (rest : List Xml.Token) (stk : List Xml.Name) :
    Xml.nesting (s :: stk) (.EndElement name :: rest)
      = if s = name then Xml.nesting stk rest else none := rfl

theorem Name_eq_of (s name : Xml.Name) (h1 : s.Local = name.Local) (h2 : s.Space = name.Space) :
    s = name := by
  cases s; cases name
  simp only at h1 h2
  rw [h1, h2]

/-- A token handed out by `Token`: it comes from the first raw token, and the
open elements of the stack follow it; the token handed out is a start tag, an
end tag or another token as the raw token is, and no binding is on top of the
stack afterwards. -/
theorem Token_ok (d d1 : Xml.Decoder) (t : Xml.Token) (hd : Xml.topStart d.stk = true)
    (h : d.Token = .ok (t, d1)) :
    d.input.length = d1.input.length + 1 ∧ d1.bad = d.bad ∧ Xml.topStart d1.stk = true ∧
    Xml.nesting (Xml.openNames d.stk) d.input = Xml.nesting (Xml.openNames d1.stk) d1.input ∧
    (∀ name attr, t = .StartElement name attr →
      (Xml.openNames d1.stk).length = (Xml.openNames d.stk).length + 1) ∧
    (∀ name, t = .EndElement name →
      (Xml.openNames d.stk).length = (Xml.openNames d1.stk).length + 1) ∧
    (t.isTag = false → Xml.openNames d1.stk = Xml.openNames d.stk) := by
  obtain ⟨input, bad, stk, ns⟩ := d
  cases input with
  | nil =>
    rw [Token_nil] at h
    split at h
    · cases h
    · split at h <;> cases h
  | cons t0 rest =>
    by_cases ht : t0.isTag = false
    · rw [Token_other t0 ht] at h
      cases h
      refine ⟨rfl, rfl, hd, nesting_other t ht rest _, ?_, ?_, fun _ => rfl⟩
      · intro n a e
        rw [e] at ht
        cases ht
      · intro n e
        rw [e] at ht
        cases ht
    · cases t0 with
      | StartElement name attr =>
        rw [Token_start] at h
        cases h
        have hn : Xml.openNames (Xml.StackEntry.start name :: (Xml.bindLoop attr stk ns).1)
            = name :: Xml.openNames stk := by
          show name :: Xml.openNames (Xml.bindLoop attr stk ns).1 = _
          rw [openNames_bindLoop]
        refine ⟨rfl, rfl, rfl, ?_, ?_, ?_, ?_⟩
        · show Xml.nesting (Xml.openNames stk) (.StartElement name attr :: rest)
            = Xml.nesting (Xml.openNames (Xml.StackEntry.start name ::
                (Xml.bindLoop attr stk ns).1)) rest
          rw [hn, nesting_start]
        · intro n a _
          show (Xml.openNames (Xml.StackEntry.start name :: (Xml.bindLoop attr stk ns).1)).length
            = (Xml.openNames stk).length + 1
          rw [hn]
          rfl
        · intro n e
          cases e
        · intro e
          cases e
      | EndElement name =>
        cases stk with
        | nil => rw [Token_end_nil] at h; cases h
        | cons s0 stk =>
          cases s0 with
          | ns n0 ok => cases hd
          | start s =>
            rw [Token_end_cons] at h
            by_cases h1 : s.Local ≠ name.Local
            · rw [if_pos h1] at h; cases h
            · rw [if_neg h1] at h
              by_cases h2 : s.Space ≠ name.Space
              · rw [if_pos h2] at h; cases h
              · rw [if_neg h2] at h
                cases h
                have hs : s = name := Name_eq_of s name (not_not.1 h1) (not_not.1 h2)
                obtain ⟨hu1, hu2⟩ := unbindLoop_spec stk ns
                refine ⟨rfl, rfl, hu2, ?_, ?_, ?_, ?_⟩
                · show Xml.nesting (s :: Xml.openNames stk) (.EndElement name :: rest)
                    = Xml.nesting (Xml.openNames (Xml.unbindLoop stk ns).1) rest
                  rw [nesting_end_cons, if_pos hs, hu1]
                · intro n a e
                  cases e
                · intro n _
                  show (s :: Xml.openNames stk).length
                    = (Xml.openNames (Xml.unbindLoop stk ns).1).length + 1
                  rw [hu1]
                  rfl
                · intro e
                  cases e
      | CharData data => exact absurd rfl ht
      | Comment data => exact absurd rfl ht
      | ProcInst target inst => exact absurd rfl ht
      | Directive data => exact absurd rfl ht

/-- An error of `Token`: `io.EOF` at the end of an input on which the lexer did
not fail and with no element open, a syntax error when the lexer fails or the
elements are not well nested. -/
theorem Token_error (d : Xml.Decoder) (err : Xml.Error) (hd : Xml.topStart d.stk = true)
    (h : d.Token = .error err) :
    (err = .EOF ∧ d.input = [] ∧ d.bad = false ∧ d.stk = []) ∨
    (err = .Syntax ∧ (d.bad = true ∨ Xml.nesting (Xml.openNames d.stk) d.input ≠ some [])) := by
  obtain ⟨input, bad, stk, ns⟩ := d
  cases input with
  | nil =>
    rw [Token_nil] at h
    by_cases hb : bad = true
    · rw [if_pos hb] at h
      cases h
      exact Or.inr ⟨rfl, Or.inl hb⟩
    · rw [if_neg hb] at h
      by_cases hs : stk ≠ []
      · rw [if_pos hs] at h
        cases h
        refine Or.inr ⟨rfl, Or.inr ?_⟩
        intro e
        have e1 : some (Xml.openNames stk) = some [] := e
        exact openNames_ne_nil stk hd hs (Option.some.inj e1)
      · rw [if_neg hs] at h
        cases h
        exact Or.inl ⟨rfl, rfl, by simpa using hb, not_not.1 hs⟩
  | cons t0 rest =>
    by_cases ht : t0.isTag = false
    · rw [Token_other t0 ht] at h
      cases h
    · cases t0 with
      | StartElement name attr => rw [Token_start] at h; cases h
      | EndElement name =>
        cases stk with
        | nil =>
          rw [Token_end_nil] at h
          cases h
          exact Or.inr ⟨rfl, Or.inr (fun e => by cases e)⟩
        | cons s0 stk =>
          cases s0 with
          | ns n0 ok => cases hd
          | start s =>
            rw [Token_end_cons] at h
            have hne : s ≠ name →
                Xml.nesting (Xml.openNames (Xml.StackEntry.start s :: stk))
                  (.EndElement name :: rest) ≠ some [] := by
              intro hs e
              have e1 : Xml.nesting (s :: Xml.openNames stk) (.EndElement name :: rest)
                  = some [] := e
              rw [nesting_end_cons, if_neg hs] at e1
              cases e1
            by_cases h1 : s.Local ≠ name.Local
            · rw [if_pos h1] at h
              cases h
              exact Or.inr ⟨rfl, Or.inr (hne (fun e => h1 (by rw [e])))⟩
            · rw [if_neg h1] at h
              by_cases h2 : s.Space ≠ name.Space
              · rw [if_pos h2] at h
                cases h
                exact Or.inr ⟨rfl, Or.inr (hne (fun e => h2 (by rw [e])))⟩
              · rw [if_neg h2] at h
                cases h
      | CharData data => exact absurd rfl ht
      | Comment data => exact absurd rfl ht
      | ProcInst target inst => exact absurd rfl ht
      | Directive data => exact absurd rfl ht

theorem skipLoop_succ (fuel : Nat) (d : Xml.Decoder) (depth : Nat) :
    Xml.Decoder.skipLoop (fuel + 1) d depth =
      match d.Token with
      | .error err => some (.error err)
      | .ok (tok, d1) =>
          match tok with
          | .StartElement _ _ => Xml.Decoder.skipLoop fuel d1 (depth + 1)
          | .EndElement _ =>
              if depth = 0 then some (.ok d1) else Xml.Decoder.skipLoop fuel d1 (depth - 1)
          | _ => Xml.Decoder.skipLoop fuel d1 depth := rfl

theorem skipLoop_other (fuel : Nat) (d d1 : Xml.Decoder) (depth : Nat) (t : Xml.Token)
    (ht : t.isTag = false) (h : d.Token = .ok (t, d1)) :
    Xml.Decoder.skipLoop (fuel + 1) d depth = Xml.Decoder.skipLoop fuel d1 depth := by
  rw [skipLoop_succ, h]
  cases t with
  | StartElement name attr => cases ht
  | EndElement name => cases ht
  | CharData data => rfl
  | Comment data => rfl
  | ProcInst target inst => rfl
  | Directive data => rfl

/-- With more fuel than raw tokens and inside an open element, the loop of
`Skip` ends: in a syntax error, or after the end tag of that element, further
in the input and with the same verdict on the nesting of the whole input. -/
theorem skipLoop_spec (fuel : Nat) :
    ∀ (d : Xml.Decoder) (depth : Nat), Xml.topStart d.stk = true → d.input.length < fuel →
      depth < (Xml.openNames d.stk).length →
      Xml.Decoder.skipLoop fuel d depth = some (.error .Syntax) ∨
      ∃ d2, Xml.Decoder.skipLoop fuel d depth = some (.ok d2) ∧
        d2.input.length < d.input.length ∧ d2.bad = d.bad ∧ Xml.topStart d2.stk = true ∧
        Xml.nesting (Xml.openNames d2.stk) d2.input
          = Xml.nesting (Xml.openNames d.stk) d.input := by
  induction fuel with
  | zero => intro d depth _ h; omega
  | succ fuel ih =>
    intro d depth hd hlen hdepth
    cases hT : d.Token with
    | error err =>
      left
      rw [skipLoop_succ, hT]
      rcases Token_error d err hd hT with ⟨_, _, _, hs⟩ | ⟨he, _⟩
      · rw [hs] at hdepth
        cases hdepth
      · rw [he]
    | ok p =>
      obtain ⟨t, d1⟩ := p
      obtain ⟨hl, hbad, htop, hnest, hstart, hend, hother⟩ := Token_ok d d1 t hd hT
      have step : ∀ depth1, depth1 < (Xml.openNames d1.stk).length →
          Xml.Decoder.skipLoop fuel d1 depth1 = some (.error .Syntax) ∨
          ∃ d2, Xml.Decoder.skipLoop fuel d1 depth1 = some (.ok d2) ∧
            d2.input.length < d.input.length ∧ d2.bad = d.bad ∧ Xml.topStart d2.stk = true ∧
            Xml.nesting (Xml.openNames d2.stk) d2.input
              = Xml.nesting (Xml.openNames d.stk) d.input := by
        intro depth1 h1
        rcases ih d1 depth1 htop (by omega) h1 with e | ⟨d2, e, h2, h3, h4, h5⟩
        · exact Or.inl e
        · exact Or.inr ⟨d2, e, by omega, by rw [h3, hbad], h4, by rw [h5, hnest]⟩
      cases t with
      | StartElement name attr =>
        have e : Xml.Decoder.skipLoop (fuel + 1) d depth
            = Xml.Decoder.skipLoop fuel d1 (depth + 1) := by
          rw [skipLoop_succ, hT]
        rw [e]
        refine step _ ?_
        rw [hstart name attr rfl]
        omega
      | EndElement name =>
        have hs := hend name rfl
        have e : Xml.Decoder.skipLoop (fuel + 1) d depth
            = if depth = 0 then some (.ok d1)
              else Xml.Decoder.skipLoop fuel d1 (depth - 1) := by
          rw [skipLoop_succ, hT]
        rw [e]
        by_cases h0 : depth = 0
        · rw [if_pos h0]
          exact Or.inr ⟨d1, rfl, by omega, hbad, htop, hnest.symm⟩
        · rw [if_neg h0]
          refine step _ ?_
          omega
      | CharData data =>
        rw [skipLoop_other fuel d d1 depth (.CharData data) rfl hT]
        exact step _ (by rw [hother rfl]; exact hdepth)
      | Comment data =>
        rw [skipLoop_other fuel d d1 depth (.Comment data) rfl hT]
        exact step _ (by rw [hother rfl]; exact hdepth)
      | ProcInst target inst =>
        rw [skipLoop_other fuel d d1 depth (.ProcInst target inst) rfl hT]
        exact step _ (by rw [hother rfl]; exact hdepth)
      | Directive data =>
        rw [skipLoop_other fuel d d1 depth (.Directive data) rfl hT]
        exact step _ (by rw [hother rfl]; exact hdepth)

/-! ### The encoder never runs out of prefixes -/

theorem mem_keys_of_strGet (m : StrMap) (key : List Nat) (h : strGet m key ≠ none) :
    key ∈ m.map Prod.fst := by
  induction m with
  | nil => exact absurd rfl h
  | cons p m ih =>
    obtain ⟨k, v⟩ := p
    by_cases hk : k = key
    · rw [hk]
      exact List.mem_cons_self _ _
    · have e : strGet ((k, v) :: m) key = strGet m key := by
        show (if k = key then some v else strGet m key) = _
        rw [if_neg hk]
      rw [e] at h
      exact List.mem_cons_of_mem _ (ih h)

theorem FormatInt_nat_injective (a b : Nat) (h : FormatInt (a : Int) = FormatInt (b : Int)) :
    a = b := by
  have ha := (FormatInt_nonneg (Int.ofNat_nonneg a)).2.2
  have hb := (FormatInt_nonneg (Int.ofNat_nonneg b)).2.2
  have : (a : Int) = (b : Int) :=
    ha.symm.trans ((congrArg (fun l => (digitsVal l : Int)) h).trans hb)
  exact Int.ofNat.inj this

theorem freshLoop_cons (attrNS : StrMap) (pfx : List Nat) (fuel seq : Nat) :
    Xml.freshLoop attrNS pfx (fuel + 1) seq =
      if (strGet attrNS (pfx ++ bytes "_" ++ FormatInt (seq : Int))).getD [] = [] then
        some (pfx ++ bytes "_" ++ FormatInt (seq : Int), seq)
      else Xml.freshLoop attrNS pfx fuel (seq + 1) := rfl

/-- When the search for a prefix reaches its bound, all the candidates it has
tried are taken. -/
theorem freshLoop_none (attrNS : StrMap) (pfx : List Nat) (fuel : Nat) :
    ∀ seq, Xml.freshLoop attrNS pfx fuel seq = none →
      ∀ k, k < fuel → strGet attrNS (pfx ++ bytes "_" ++ FormatInt ((seq + k : Nat) : Int))
        ≠ none := by
  induction fuel with
  | zero => intro seq _ k hk; omega
  | succ fuel ih =>
    intro seq h k hk
    rw [freshLoop_cons] at h
    by_cases h0 : (strGet attrNS (pfx ++ bytes "_" ++ FormatInt (seq : Int))).getD [] = []
    · rw [if_pos h0] at h
      cases h
    · rw [if_neg h0] at h
      cases k with
      | zero =>
        intro e
        apply h0
        rw [Nat.add_zero] at e
        rw [e]
        rfl
      | succ k =>
        have := ih (seq + 1) h k (by omega)
        have e : seq + 1 + k = seq + (k + 1) := by omega
        rw [e] at this
        exact this

/-- Of as many candidates as there are declared prefixes, plus one, one is not
taken: the search for a prefix finds one. -/
theorem freshLoop_some (attrNS : StrMap) (pfx : List Nat) (seq : Nat) :
    Xml.freshLoop attrNS pfx (attrNS.length + 1) seq ≠ none := by
  intro h
  have hall := freshLoop_none attrNS pfx (attrNS.length + 1) seq h
  have hinj : Function.Injective
      (fun k : Nat => pfx ++ bytes "_" ++ FormatInt ((seq + k : Nat) : Int)) := by
    intro a b e
    have e1 := List.append_cancel_left e
    have := FormatInt_nat_injective _ _ e1
    omega
  have hnd : ((List.range (attrNS.length + 1)).map
      (fun k : Nat => pfx ++ bytes "_" ++ FormatInt ((seq + k : Nat) : Int))).Nodup :=
    (List.nodup_range _).map hinj
  have hsub : ((List.range (attrNS.length + 1)).map
      (fun k : Nat => pfx ++ bytes "_" ++ FormatInt ((seq + k : Nat) : Int)))
        ⊆ attrNS.map Prod.fst := by
    intro x hx
    obtain ⟨k, hk, rfl⟩ := List.mem_map.1 hx
    exact mem_keys_of_strGet attrNS _ (hall k (List.mem_range.1 hk))
  have hlen := (List.subperm_of_subset hnd hsub).length_le
  rw [List.length_map, List.length_range, List.length_map] at hlen
  omega

theorem found_ne_none (attrNS : StrMap) (pfx : List Nat) (seq : Nat) :
    (if (strGet attrNS pfx).getD [] ≠ [] then
        Xml.freshLoop attrNS pfx (attrNS.length + 1) (seq + 1)
      else some (pfx, seq)) ≠ none := by
  split
  · exact freshLoop_some _ _ _
  · exact fun h => by cases h

/-- The function `createAttrPrefix` returns, and leaves the pieces written and
the open tags as they are. -/
theorem createAttrPrefix_spec (lib : Xml.Lib) (e : Xml.Encoder) (url : List Nat) :
    ∃ pfx decl e1, e.createAttrPrefix lib url = some (pfx, decl, e1) ∧
      e1.out = e.out ∧ e1.tags = e.tags := by
  unfold Xml.Encoder.createAttrPrefix
  split
  · exact ⟨_, _, _, rfl, rfl, rfl⟩
  · split
    · exact ⟨_, _, _, rfl, rfl, rfl⟩
    · simp only []
      split
      · rename_i h
        exact absurd h (found_ne_none _ _ _)
      · exact ⟨_, _, _, rfl, rfl, rfl⟩

theorem attrLoop_cons (lib : Xml.Lib) (a : Xml.Attr) (rest : List Xml.Attr) (e : Xml.Encoder)
    (written : List Xml.Attr) :
    Xml.Encoder.attrLoop lib (a :: rest) e written =
      if a.Name.Local = [] then Xml.Encoder.attrLoop lib rest e written
      else if a.Name.Space ≠ [] then
        match e.createAttrPrefix lib a.Name.Space with
        | none => none
        | some (pfx, decl, e1) =>
            Xml.Encoder.attrLoop lib rest e1 (written ++ decl ++ [⟨⟨pfx, a.Name.Local⟩, a.Value⟩])
      else Xml.Encoder.attrLoop lib rest e (written ++ [⟨⟨[], a.Name.Local⟩, a.Value⟩]) := rfl

/-- The loop over the attributes returns, and leaves the pieces written and the
open tags as they are. -/
theorem attrLoop_spec (lib : Xml.Lib) (attr : List Xml.Attr) :
    ∀ (e : Xml.Encoder) (written : List Xml.Attr),
      ∃ w e1, Xml.Encoder.attrLoop lib attr e written = some (w, e1) ∧
        e1.out = e.out ∧ e1.tags = e.tags := by
  induction attr with
  | nil => intro e written; exact ⟨_, _, rfl, rfl, rfl⟩
  | cons a rest ih =>
    intro e written
    rw [attrLoop_cons]
    by_cases h1 : a.Name.Local = []
    · rw [if_pos h1]
      exact ih e written
    · rw [if_neg h1]
      by_cases h2 : a.Name.Space ≠ []
      · rw [if_pos h2]
        obtain ⟨pfx, decl, e1, hc, ho, ht⟩ := createAttrPrefix_spec lib e a.Name.Space
        rw [hc]
        obtain ⟨w, e2, h, ho2, ht2⟩ := ih e1 (written ++ decl ++ [⟨⟨pfx, a.Name.Local⟩, a.Value⟩])
        exact ⟨w, e2, h, by rw [ho2, ho], by rw [ht2, ht]⟩
      · rw [if_neg h2]
        exact ih e _

/-- A start tag with a name is written: the piece is a start tag with the local
part of the name, and the name is the innermost open tag afterwards. -/
theorem writeStart_ok (lib : Xml.Lib) (e : Xml.Encoder) (name : Xml.Name)
    (attr : List Xml.Attr) (h : name.Local ≠ []) :
    ∃ written e1, e.writeStart lib name attr = some (.ok e1) ∧
      e1.out = e.out ++ [.StartElement ⟨[], name.Local⟩ written] ∧ e1.tags = name :: e.tags := by
  unfold Xml.Encoder.writeStart
  rw [if_neg h]
  obtain ⟨w, e1, ha, ho, ht⟩ := attrLoop_spec lib attr
    ⟨e.out, name :: e.tags, e.attrNS, e.attrPrefix, [] :: e.prefixes, e.seq⟩
    (if name.Space ≠ [] then [⟨⟨[], xmlnsPrefix⟩, name.Space⟩] else [])
  rw [ha]
  exact ⟨w, _, rfl, by rw [ho], ht⟩

theorem writeStart_noName (lib : Xml.Lib) (e : Xml.Encoder) (name : Xml.Name)
    (attr : List Xml.Attr) (h : name.Local = []) :
    e.writeStart lib name attr = some (.error .Encode) := by
  unfold Xml.Encoder.writeStart
  rw [if_pos h]

/-- The function `EncodeToken` returns, and its errors are encoder errors. -/
theorem EncodeToken_spec (lib : Xml.Lib) (e : Xml.Encoder) (t : Xml.Token) :
    e.EncodeToken lib t = some (.error .Encode) ∨ ∃ e1, e.EncodeToken lib t = some (.ok e1) := by
  cases t with
  | StartElement name attr =>
    show e.writeStart lib name attr = _ ∨ ∃ e1, e.writeStart lib name attr = _
    by_cases h : name.Local = []
    · exact Or.inl (writeStart_noName lib e name attr h)
    · obtain ⟨w, e1, h1, _, _⟩ := writeStart_ok lib e name attr h
      exact Or.inr ⟨e1, h1⟩
  | EndElement name =>
    show some (e.writeEnd name) = _ ∨ ∃ e1, some (e.writeEnd name) = _
    unfold Xml.Encoder.writeEnd
    split
    · exact Or.inl rfl
    · split
      · exact Or.inl rfl
      · split
        · exact Or.inl rfl
        · split
          · exact Or.inl rfl
          · exact Or.inr ⟨_, rfl⟩
  | CharData data => exact Or.inr ⟨_, rfl⟩
  | Comment data =>
    unfold Xml.Encoder.EncodeToken
    simp only []
    split
    · exact Or.inl rfl
    · exact Or.inr ⟨_, rfl⟩
  | ProcInst target inst =>
    unfold Xml.Encoder.EncodeToken
    simp only []
    split
    · exact Or.inl rfl
    · split
      · exact Or.inl rfl
      · split
        · exact Or.inl rfl
        · exact Or.inr ⟨_, rfl⟩
  | Directive data =>
    unfold Xml.Encoder.EncodeToken
    simp only []
    split
    · exact Or.inl rfl
    · exact Or.inr ⟨_, rfl⟩

theorem stripLoop_succ (lib : Xml.Lib) (fuel : Nat) (decoder : Xml.Decoder)
    (encoder : Xml.Encoder) :
    stripLoop lib (fuel + 1) decoder encoder =
      match decoder.Token with
      | .error .EOF => some (.ok encoder)
      | .error err => some (.error err)
      | .ok (token, d1) =>
          if IsTokenNil token = true then
            match d1.Skip with
            | none => none
            | some (.error err) => some (.error err)
            | some (.ok d2) => stripLoop lib fuel d2 encoder
          else
            match encoder.EncodeToken lib token with
            | none => none
            | some (.error err) => some (.error err)
            | some (.ok e1) => stripLoop lib fuel d1 e1 := rfl

/-- With more fuel than raw tokens the loop of `StripNilElements` ends: in an
error other than `io.EOF`, or with an encoder, and then the lexer did not fail
and the elements of the input are well nested. -/
theorem stripLoop_spec (lib : Xml.Lib) (fuel : Nat) :
    ∀ (d : Xml.Decoder) (e : Xml.Encoder), Xml.topStart d.stk = true → d.input.length < fuel →
      (∃ err, stripLoop lib fuel d e = some (.error err) ∧ err ≠ .EOF) ∨
      ∃ e2, stripLoop lib fuel d e = some (.ok e2) ∧ d.bad = false ∧
        Xml.nesting (Xml.openNames d.stk) d.input = some [] := by
  induction fuel with
  | zero => intro d e _ h; omega
  | succ fuel ih =>
    intro d e hd hlen
    rw [stripLoop_succ]
    cases hT : d.Token with
    | error err =>
      rcases Token_error d err hd hT with ⟨he, hi, hb, hs⟩ | ⟨he, hbad⟩
      · subst he
        refine Or.inr ⟨e, rfl, hb, ?_⟩
        rw [hi, hs]
        rfl
      · subst he
        exact Or.inl ⟨.Syntax, rfl, by decide⟩
    | ok p =>
      obtain ⟨t, d1⟩ := p
      obtain ⟨hl, hbad, htop, hnest, hstart, _, _⟩ := Token_ok d d1 t hd hT
      simp only []
      by_cases hnil : IsTokenNil t = true
      · rw [if_pos hnil]
        have h1 : 0 < (Xml.openNames d1.stk).length := by
          cases t with
          | StartElement name attr => rw [hstart name attr rfl]; exact Nat.succ_pos _
          | EndElement name => cases hnil
          | CharData data => cases hnil
          | Comment data => cases hnil
          | ProcInst target inst => cases hnil
          | Directive data => cases hnil
        rcases skipLoop_spec (d1.input.length + 1) d1 0 htop (Nat.lt_succ_self _) h1
          with hs | ⟨d2, hs, h2, h3, h4, h5⟩
        · have hs1 : d1.Skip = some (.error .Syntax) := hs
          rw [hs1]
          exact Or.inl ⟨.Syntax, rfl, by decide⟩
        · have hs1 : d1.Skip = some (.ok d2) := hs
          rw [hs1]
          simp only []
          rcases ih d2 e h4 (by omega) with ⟨err, h6, h7⟩ | ⟨e2, h6, h7, h8⟩
          · exact Or.inl ⟨err, h6, h7⟩
          · exact Or.inr ⟨e2, h6, by rw [← hbad, ← h3]; exact h7,
              by rw [hnest, ← h5]; exact h8⟩
      · rw [if_neg hnil]
        rcases EncodeToken_spec lib e t with hE | ⟨e1, hE⟩
        · rw [hE]
          exact Or.inl ⟨.Encode, rfl, by decide⟩
        · rw [hE]
          simp only []
          rcases ih d1 e1 htop (by omega) with ⟨err, h5, h6⟩ | ⟨e2, h5, h6, h7⟩
          · exact Or.inl ⟨err, h5, h6⟩
          · exact Or.inr ⟨e2, h5, by rw [← hbad]; exact h6, by rw [hnest]; exact h7⟩

/-- `StripNilElements` ends on every input: in an error other than `io.EOF`, or
with an output, and then the lexer did not fail and the elements of the input
are well nested. -/
theorem StripNilElements_spec (lib : Xml.Lib) (data : List Xml.Token) (bad : Bool) :
    (∃ err, StripNilElements lib data bad = some (.error err) ∧ err ≠ .EOF) ∨
    ∃ out, StripNilElements lib data bad = some (.ok out) ∧ bad = false ∧
      Xml.nesting [] data = some [] := by
  unfold StripNilElements
  rcases stripLoop_spec lib (data.length + 1) (Xml.NewDecoder data bad) Xml.NewEncoder rfl
    (Nat.lt_succ_self _) with ⟨err, h, hne⟩ | ⟨e2, h, hb, hn⟩
  · rw [h]
    exact Or.inl ⟨err, rfl, hne⟩
  · rw [h]
    exact Or.inr ⟨e2.out, rfl, hb, hn⟩

/-- The end tag of the innermost open tag, after which no prefix has been
declared, is written as it was read. -/
theorem writeEnd_lexed (name : Xml.Name) (hs : name.Space = []) (hn : name.Local ≠ [])
    (out : List Xml.Token) (tags : List Xml.Name) (attrNS attrPrefix : StrMap)
    (prefixes : List (List Nat)) (seq : Nat) :
    Xml.Encoder.writeEnd ⟨out, name :: tags, attrNS, attrPrefix, [] :: prefixes, seq⟩ name
      = .ok ⟨out ++ [.EndElement name], tags, attrNS, attrPrefix, prefixes, seq⟩ := by
  unfold Xml.Encoder.writeEnd
  rw [if_neg hn]
  simp only []
  rw [if_neg hn, if_neg (fun h => h rfl)]
  have en : (⟨[], name.Local⟩ : Xml.Name) = name := by
    obtain ⟨sp, lo⟩ := name
    simp only at hs
    rw [hs]
  rw [en]
  rfl

/-- C13: on an input with an unterminated or mismatched element, or on which the
lexer fails, `StripNilElements` ends and returns an error, which is not `io.EOF`,
and no output. -/
theorem StripNilElements_malformed (lib : Xml.Lib) (data : List Xml.Token) (bad : Bool)
    (h : Xml.malformed data bad) :
    ∃ err, StripNilElements lib data bad = some (.error err) ∧ err ≠ .EOF := by
  rcases StripNilElements_spec lib data bad with h1 | ⟨out, _, hb, hn⟩
  · exact h1
  · rcases h with h | h
    · rw [hb] at h
      cases h
    · exact absurd hn h

/-- C13, on the inputs of `TestStripNilElementsErrors`: `<element>`,
`<element><element>`, `<element></sub>`, `<element nil="hi">` and
`<element nil="true/>` (on which the lexer fails), and on the unterminated
`<element nil="true">`. -/
theorem StripNilElements_malformed_witness :
    Xml.malformed [testStart "element" none] false ∧
    (∃ err, StripNilElements Xml.testLib [testStart "element" none] false
      = some (.error err) ∧ err ≠ .EOF) ∧
    StripNilElements Xml.testLib [testStart "element" none] false = some (.error .Syntax) ∧
    StripNilElements Xml.testLib [testStart "element" none, testStart "element" none] false
      = some (.error .Syntax) ∧
    StripNilElements Xml.testLib [testStart "element" none, testEnd "sub"] false
      = some (.error .Syntax) ∧
    StripNilElements Xml.testLib [testStart "element" (some "hi")] false
      = some (.error .Syntax) ∧
    StripNilElements Xml.testLib [] true = some (.error .Syntax) ∧
    StripNilElements Xml.testLib [testStart "element" (some "true")] false
      = some (.error .Syntax) :=
  ⟨Or.inr (by decide),
   StripNilElements_malformed Xml.testLib [testStart "element" none] false (Or.inr (by decide)),
   rfl, rfl, rfl, rfl, rfl, rfl⟩

/-- The cases of `TestStripNilElements`. -/
theorem StripNilElements_tests :
    StripNilElements Xml.testLib [] false = some (.ok []) ∧
    StripNilElements Xml.testLib [testStart "element" none, testEnd "element"] false
      = some (.ok [testStart "element" none, testEnd "element"]) ∧
    StripNilElements Xml.testLib [testStart "element" (some "true"), testEnd "element"] false
      = some (.ok []) ∧
    StripNilElements Xml.testLib
        [testStart "root" none, testStart "element" none, testStart "sub" none,
          .CharData (bytes "name"), testEnd "sub", testEnd "element", testEnd "root"] false
      = some (.ok [testStart "root" none, testStart "element" none, testStart "sub" none,
          .CharData (bytes "name"), testEnd "sub", testEnd "element", testEnd "root"]) ∧
    StripNilElements Xml.testLib
        [testStart "root" none, testStart "element" (some "true"), testStart "sub" none,
          .CharData (bytes "name"), testEnd "sub", testEnd "element", testEnd "root"] false
      = some (.ok [testStart "root" none, testEnd "root"]) ∧
    StripNilElements Xml.testLib
        [testStart "root" none, testStart "element" none, testStart "sub" (some "true"),
          .CharData (bytes "name"), testEnd "sub", testEnd "element", testEnd "root"] false
      = some (.ok [testStart "root" none, testStart "element" none, testEnd "element",
          testEnd "root"]) :=
  ⟨rfl, rfl, rfl, rfl, rfl, rfl⟩

/-- On `<a xmlns:i="urn:i"><b i:nil="true"></b></a>` the element `b`, whose nil
attribute has a name space, is kept; the encoder declares prefixes of its own
for the name spaces of the attributes. -/
theorem StripNilElements_namespaces :
    StripNilElements Xml.testLib nsNilDocument false
      = some (.ok [.StartElement ⟨[], bytes "a"⟩
            [⟨⟨bytes "xmlns", bytes "_xmlns"⟩, bytes "xmlns"⟩,
             ⟨⟨bytes "_xmlns", bytes "i"⟩, bytes "urn:i"⟩],
          .StartElement ⟨[], bytes "b"⟩
            [⟨⟨bytes "xmlns", bytes "_"⟩, bytes "urn:i"⟩,
             ⟨⟨bytes "_", bytes "nil"⟩, bytes "true"⟩],
          testEnd "b", testEnd "a"]) := rfl

/-! ## Theorems: `time.Time` formatting -/

theorem natDecimal_length_le (x w : Nat) (h : x < 10 ^ w) (hw : 1 ≤ w) :
    (natDecimal x).length ≤ w := by
  unfold natDecimal
  by_cases h0 : x = 0
  · rw [if_pos h0]
    exact hw
  · rw [if_neg h0, List.length_map, List.length_reverse]
    have h1 := Nat.base_pow_length_digits_le 10 x (by decide) h0
    have h2 : 10 ^ (Nat.digits 10 x).length < 10 ^ (w + 1) := by
      rw [Nat.pow_succ]
      omega
    exact Nat.lt_succ_iff.1 ((Nat.pow_lt_pow_iff_right (by decide)).1 h2)

/-- A number below `10 ^ width` is written by `appendInt` as exactly `width`
digits. -/
theorem appendInt_nat (x w : Nat) (h : x < 10 ^ w) (hw : 1 ≤ w) :
    (appendInt (x : Int) w).length = w ∧ ∀ c ∈ appendInt (x : Int) w, isDigit c := by
  have hd : formatBits x x [] = natDecimal x := by
    rw [formatBits_natDecimal x x [] (Nat.le_refl _), List.append_nil]
  have hlen := natDecimal_length_le x w h hw
  have hdig : ∀ c ∈ natDecimal x, isDigit c := by
    rw [← hd]
    exact formatBits_isDigit _ _ _ (fun c hc => by cases hc)
  have e : appendInt (x : Int) w
      = List.replicate (w - (natDecimal x).length) chZero ++ natDecimal x := by
    unfold appendInt
    simp only [Int.natAbs_ofNat, hd]
    rw [if_neg (by omega)]
    rfl
  rw [e]
  constructor
  · rw [List.length_append, List.length_replicate]
    omega
  · intro c hc
    rcases List.mem_append.1 hc with h1 | h1
    · rw [(List.mem_replicate.1 h1).2]
      decide
    · exact hdig c h1

theorem two_digits (l : List Nat) (h : l.length = 2 ∧ ∀ c ∈ l, isDigit c) :
    ∃ a b, l = [a, b] ∧ isDigit a ∧ isDigit b := by
  obtain ⟨hl, hd⟩ := h
  obtain ⟨a, b, rfl⟩ := List.length_eq_two.1 hl
  exact ⟨a, b, rfl, hd a (by simp), hd b (by simp)⟩

theorem four_digits (l : List Nat) (h : l.length = 4 ∧ ∀ c ∈ l, isDigit c) :
    ∃ a b c d, l = [a, b, c, d] ∧ isDigit a ∧ isDigit b ∧ isDigit c ∧ isDigit d := by
  obtain ⟨hl, hd⟩ := h
  rcases l with _ | ⟨a, _ | ⟨b, _ | ⟨c, _ | ⟨d, _ | ⟨x, l⟩⟩⟩⟩⟩
  · cases hl
  · cases hl
  · cases hl
  · cases hl
  · exact ⟨a, b, c, d, rfl, hd a (by simp), hd b (by simp), hd c (by simp), hd d (by simp)⟩
  · simp at hl

theorem layoutOK_parts (Y M D H N S : List Nat)
    (hY : Y.length = 4 ∧ ∀ c ∈ Y, isDigit c) (hM : M.length = 2 ∧ ∀ c ∈ M, isDigit c)
    (hD : D.length = 2 ∧ ∀ c ∈ D, isDigit c) (hH : H.length = 2 ∧ ∀ c ∈ H, isDigit c)
    (hN : N.length = 2 ∧ ∀ c ∈ N, isDigit c) (hS : S.length = 2 ∧ ∀ c ∈ S, isDigit c) :
    layoutOK (Y ++ bytes "-" ++ M ++ bytes "-" ++ D ++ bytes "T" ++ H ++ bytes ":" ++ N
      ++ bytes ":" ++ S ++ bytes "Z") = true := by
  obtain ⟨y1, y2, y3, y4, rfl, h1, h2, h3, h4⟩ := four_digits Y hY
  obtain ⟨m1, m2, rfl, h5, h6⟩ := two_digits M hM
  obtain ⟨d1, d2, rfl, h7, h8⟩ := two_digits D hD
  obtain ⟨a1, a2, rfl, h9, h10⟩ := two_digits H hH
  obtain ⟨n1, n2, rfl, h11, h12⟩ := two_digits N hN
  obtain ⟨s1, s2, rfl, h13, h14⟩ := two_digits S hS
  have e1 : bytes "-" = [45] := by decide
  have e2 : bytes "T" = [84] := by decide
  have e3 : bytes ":" = [58] := by decide
  have e4 : bytes "Z" = [90] := by decide
  rw [e1, e2, e3, e4]
  show layoutOK [y1, y2, y3, y4, 45, m1, m2, 45, d1, d2, 84, a1, a2, 58, n1, n2, 58, s1, s2, 90]
    = true
  unfold layoutOK
  simp only [decide_eq_true h1, decide_eq_true h2, decide_eq_true h3, decide_eq_true h4,
    decide_eq_true h5, decide_eq_true h6, decide_eq_true h7, decide_eq_true h8,
    decide_eq_true h9, decide_eq_true h10, decide_eq_true h11, decide_eq_true h12,
    decide_eq_true h13, decide_eq_true h14, decide_True, Bool.and_self]

theorem absClock_lt (abs : Nat) :
    (absClock abs).1 < 10 ^ 2 ∧ (absClock abs).2.1 < 10 ^ 2 ∧ (absClock abs).2.2 < 10 ^ 2 := by
  unfold absClock
  simp only []
  omega

theorem monthDay_lt (year : Int) (yday : Nat) (h : yday ≤ 365) :
    (monthDay year yday).1 < 10 ^ 2 ∧ (monthDay year yday).2 < 10 ^ 2 := by
  unfold monthDay
  by_cases h1 : isLeap year = true ∧ yday = 31 + 29 - 1
  · rw [if_pos h1]
    decide
  · rw [if_neg h1]
    simp only []
    generalize hday : (if isLeap year = true ∧ yday > 31 + 29 - 1 then yday - 1 else yday) = day
    have hd : day ≤ 365 := by
      rw [← hday]
      split <;> omega
    have hm : day / 31 ≤ 11 := by omega
    generalize hmo : day / 31 = month at hm
    have hlo : 31 * month ≤ day := by omega
    have hhi : day < 31 * month + 31 := by omega
    interval_cases month <;> simp only [daysBefore, List.getD_cons_succ, List.getD_cons_zero]
      <;> split <;> simp only [] <;> omega

theorem absDate_lt (abs : Nat) :
    (absDate abs).2.1 < 10 ^ 2 ∧ (absDate abs).2.2 < 10 ^ 2 := by
  unfold absDate
  simp only []
  apply monthDay_lt
  omega


theorem UTC_sec (t : Time) : t.UTC.sec = t.sec := by
  unfold Time.UTC
  by_cases h : t.wall / 2 ^ 63 % 2 = 1
  · rw [if_pos h]
    have hm : ¬ (t.wall % 2 ^ 30) / 2 ^ 63 % 2 = 1 := by omega
    show (if (t.wall % 2 ^ 30) / 2 ^ 63 % 2 = 1 then _ else t.sec) = t.sec
    rw [if_neg hm]
  · rw [if_neg h]
    rfl

theorem UTC_loc (t : Time) : t.UTC.loc = none := by
  unfold Time.UTC
  split <;> rfl

/-- The seconds `abs` of a time in UTC count the instant itself, without any
offset. -/
theorem abs_of_loc_none (zone : Nat → Int → Int) (t : Time) (h : t.loc = none) :
    t.abs zone = ((t.sec + internalToAbsolute) % 2 ^ 64).toNat := by
  unfold Time.abs
  rw [h]
  simp only []
  unfold Time.unixSec wrap64 unixToInternal internalToAbsolute
  congr 1
  omega

/-- The seconds `abs` of a time in another location count the offset in force
there. -/
theorem abs_of_loc_some (zone : Nat → Int → Int) (t : Time) (l : Nat) (h : t.loc = some l) :
    t.abs zone
      = ((t.sec + zone l t.unixSec + internalToAbsolute) % 2 ^ 64).toNat := by
  unfold Time.abs
  rw [h]
  simp only []
  generalize zone l t.unixSec = z
  unfold Time.unixSec wrap64 unixToInternal internalToAbsolute
  congr 1
  omega

/-- The text of `value.UTC().Format(layout)` is the time converted to UTC,
whatever the location of `value` and the offset in force there. -/
theorem Format_UTC (zone : Nat → Int → Int) (t : Time) : t.UTC.Format zone = utcText t := by
  unfold Time.Format utcText
  rw [abs_of_loc_none zone t.UTC (UTC_loc t), UTC_sec]

theorem formatAbs_ne_nil (abs : Nat) : formatAbs abs ≠ [] := by
  unfold formatAbs
  simp only []
  exact List.append_ne_nil_of_right_ne_nil _ (by decide)

/-- The seconds of a year with at most four digits are formatted in the pattern
`2006-01-02T15:04:05Z`. -/
theorem formatAbs_layout (abs : Nat) (h0 : 0 ≤ (absDate abs).1) (h1 : (absDate abs).1 ≤ 9999) :
    layoutOK (formatAbs abs) = true := by
  unfold formatAbs
  simp only []
  obtain ⟨y, hy⟩ : ∃ y : Nat, (absDate abs).1 = (y : Int) :=
    ⟨(absDate abs).1.toNat, (Int.toNat_of_nonneg h0).symm⟩
  have hy1 : y < 10 ^ 4 := by
    rw [hy] at h1
    have : (y : Int) ≤ 9999 := h1
    have e : (10 : Nat) ^ 4 = 10000 := by decide
    omega
  rw [hy]
  exact layoutOK_parts _ _ _ _ _ _ (appendInt_nat y 4 hy1 (by decide))
    (appendInt_nat _ 2 (absDate_lt abs).1 (by decide))
    (appendInt_nat _ 2 (absDate_lt abs).2 (by decide))
    (appendInt_nat _ 2 (absClock_lt abs).1 (by decide))
    (appendInt_nat _ 2 (absClock_lt abs).2.1 (by decide))
    (appendInt_nat _ 2 (absClock_lt abs).2.2 (by decide))

/-! ## Theorems: `TimeField.MarshalXML` -/

theorem bytes_ne_nil (s : String) (h : s ≠ "") : bytes s ≠ [] := by
  intro e
  apply h
  unfold bytes at e
  have e1 : s.toList = [] := List.map_eq_nil_iff.1 e
  cases s with
  | mk data =>
    have : data = [] := e1
    rw [this]

theorem bytes_empty : bytes "" = [] := rfl

/-- A start tag without name space whose only attribute is `type="datetime"` is
written as it is. -/
theorem writeStart_typed (lib : Xml.Lib) (e : Xml.Encoder) (name : List Nat) (h : name ≠ []) :
    e.writeStart lib ⟨[], name⟩ [⟨⟨[], bytes "type"⟩, bytes "datetime"⟩]
      = some (.ok ⟨e.out ++ [.StartElement ⟨[], name⟩ [⟨⟨[], bytes "type"⟩, bytes "datetime"⟩]],
          ⟨[], name⟩ :: e.tags, e.attrNS, e.attrPrefix, [] :: e.prefixes, e.seq⟩) := by
  unfold Xml.Encoder.writeStart
  rw [if_neg h, if_neg (fun h1 => h1 rfl), attrLoop_cons,
    if_neg (by decide), if_neg (fun h1 => h1 rfl)]
  rfl

/-- `marshalXML` writes the child of a sub-field and leaves the rest of the
encoder as it was. -/
theorem marshalXML_ok (lib : Xml.Lib) (zone : Nat → Int → Int) (d : TimeField)
    (e : Xml.Encoder) (name : String) (hname : name ≠ "") (value : Time) :
    d.marshalXML lib zone e name value
      = some (.ok ⟨e.out ++ timeChild name value, e.tags, e.attrNS, e.attrPrefix, e.prefixes,
          e.seq⟩) := by
  unfold TimeField.marshalXML timeChild
  by_cases hz : value.IsZero = true
  · rw [if_pos hz, if_pos hz, List.append_nil]
  · rw [if_neg hz, if_neg hz]
    have hn := bytes_ne_nil name hname
    unfold Xml.Encoder.EncodeElement
    simp only []
    rw [if_neg hn, writeStart_typed lib e _ hn, Format_UTC]
    simp only []
    rw [if_neg (by unfold utcText; exact formatAbs_ne_nil _)]
    show some (Xml.Encoder.writeEnd ⟨_, ⟨[], bytes name⟩ :: e.tags, _, _, [] :: e.prefixes, _⟩
      ⟨[], bytes name⟩) = _
    rw [writeEnd_lexed ⟨[], bytes name⟩ rfl hn]
    simp only [List.append_assoc, List.cons_append, List.nil_append]

set_option maxRecDepth 8000 in
/-- C11, as claimed, fails for a `TimeField` without a key: `MarshalXML` returns
the error of the encoder, which refuses a start tag without a name, and emits no
element, although `Min` is not zero.  And for a time in the year 10000 the text
has five digits for the year, one more than the pattern. -/
theorem MarshalXML_children_counterexample :
    noKey.Min.IsZero = false ∧
    TimeField.MarshalXML Xml.testLib testZone noKey Xml.NewEncoder ⟨⟨[], bytes "TimeField"⟩, []⟩
      = some (.error .Encode) ∧
    year10000.UTC.Format testZone = bytes "10000-01-01T00:00:00Z" ∧
    layoutOK (year10000.UTC.Format testZone) = false := by
  refine ⟨by decide, rfl, ?_, ?_⟩
  · decide
  · decide

/-- C11, amended: for a `TimeField` with a key, `MarshalXML` writes the start
tag named by the key, then for `is`, `min` and `max` in this order the child of
the sub-field, then the end tag, and returns no error; without a key it returns
the error of the encoder.  The child of a zero time is nothing; the child of any
other time is one element with the attribute `type="datetime"` and, as text, the
time converted to UTC in the layout `2006-01-02T15:04:05Z`: the text is the same
whatever the location of the time and the offset in force there, and it is in
the pattern of the layout when the year has at most four digits.  The three
sub-fields are decided independently. -/
theorem MarshalXML_children (lib : Xml.Lib) (zone : Nat → Int → Int) (d : TimeField)
    (e : Xml.Encoder) (start : Xml.StartElement) :
    (d.XMLName ≠ "" →
      ∃ written e1, d.MarshalXML lib zone e start = some (.ok e1) ∧
        e1.out = e.out ++ [.StartElement ⟨[], bytes d.XMLName⟩ written]
          ++ timeChild "is" d.Is ++ timeChild "min" d.Min ++ timeChild "max" d.Max
          ++ [.EndElement ⟨[], bytes d.XMLName⟩] ∧
        e1.tags = e.tags ∧ (start.Attr = [] → written = [])) ∧
    (d.XMLName = "" → d.MarshalXML lib zone e start = some (.error .Encode)) ∧
    (∀ (name : String) (t : Time), t.IsZero = true → timeChild name t = []) ∧
    (∀ (name : String) (t : Time), t.IsZero = false →
      timeChild name t
        = [.StartElement ⟨[], bytes name⟩ [⟨⟨[], bytes "type"⟩, bytes "datetime"⟩],
           .CharData (utcText t), .EndElement ⟨[], bytes name⟩]) ∧
    (∀ t : Time, t.UTC.Format zone = utcText t) ∧
    (∀ (t : Time) (l : Option Nat), utcText ⟨t.wall, t.ext, l⟩ = utcText t) ∧
    (∀ t : Time, 0 ≤ t.year → t.year ≤ 9999 → layoutOK (utcText t) = true) := by
  refine ⟨?_, ?_, ?_, ?_, Format_UTC zone, fun _ _ => rfl, ?_⟩
  · intro hname
    have hn := bytes_ne_nil d.XMLName hname
    obtain ⟨written, e1, h1, ho, ht⟩ := writeStart_ok lib e ⟨[], bytes d.XMLName⟩ start.Attr hn
    have hw : start.Attr = [] → written = [] := by
      intro ha
      rw [ha] at h1
      unfold Xml.Encoder.writeStart at h1
      rw [if_neg hn, if_neg (fun h => h rfl)] at h1
      have e2 := Except.ok.inj (Option.some.inj h1)
      rw [← e2] at ho
      have e3 := List.append_cancel_left ho
      have e4 := (Xml.Token.StartElement.inj (List.cons.inj e3).1).2
      exact e4.symm
    have hend : Xml.Encoder.writeEnd
        ⟨e1.out ++ timeChild "is" d.Is ++ timeChild "min" d.Min ++ timeChild "max" d.Max,
          e1.tags, e1.attrNS, e1.attrPrefix, e1.prefixes, e1.seq⟩ ⟨[], bytes d.XMLName⟩
        = .ok ⟨e1.out ++ timeChild "is" d.Is ++ timeChild "min" d.Min ++ timeChild "max" d.Max
            ++ [.EndElement ⟨[], bytes d.XMLName⟩], e.tags,
            (Xml.popPrefixLoop e1.prefixes e1.attrNS e1.attrPrefix).2.1,
            (Xml.popPrefixLoop e1.prefixes e1.attrNS e1.attrPrefix).2.2,
            (Xml.popPrefixLoop e1.prefixes e1.attrNS e1.attrPrefix).1, e1.seq⟩ := by
      unfold Xml.Encoder.writeEnd
      rw [if_neg hn]
      simp only []
      rw [ht]
      simp only []
      rw [if_neg hn, if_neg (fun h => h rfl)]
    refine ⟨written,
      ⟨e1.out ++ timeChild "is" d.Is ++ timeChild "min" d.Min ++ timeChild "max" d.Max
          ++ [.EndElement ⟨[], bytes d.XMLName⟩], e.tags,
        (Xml.popPrefixLoop e1.prefixes e1.attrNS e1.attrPrefix).2.1,
        (Xml.popPrefixLoop e1.prefixes e1.attrNS e1.attrPrefix).2.2,
        (Xml.popPrefixLoop e1.prefixes e1.attrNS e1.attrPrefix).1, e1.seq⟩, ?_, ?_, rfl, hw⟩
    · have hE : e.EncodeToken lib (.StartElement ⟨[], bytes d.XMLName⟩ start.Attr)
          = some (.ok e1) := h1
      unfold TimeField.MarshalXML
      simp only []
      rw [hE]
      simp only []
      rw [marshalXML_ok lib zone d _ "is" (by decide)]
      simp only []
      rw [marshalXML_ok lib zone d _ "min" (by decide)]
      simp only []
      rw [marshalXML_ok lib zone d _ "max" (by decide)]
      simp only []
      show some (Xml.Encoder.writeEnd _ ⟨[], bytes d.XMLName⟩) = _
      rw [hend]
    · show e1.out ++ timeChild "is" d.Is ++ timeChild "min" d.Min ++ timeChild "max" d.Max
        ++ [Xml.Token.EndElement ⟨[], bytes d.XMLName⟩] = _
      rw [ho]
  · intro hname
    have hE : e.EncodeToken lib (.StartElement ⟨[], bytes d.XMLName⟩ start.Attr)
        = some (.error .Encode) :=
      writeStart_noName lib e ⟨[], bytes d.XMLName⟩ start.Attr (by rw [hname]; rfl)
    unfold TimeField.MarshalXML
    simp only []
    rw [hE]
  · intro name t hz
    unfold timeChild
    rw [if_pos hz]
  · intro name t hz
    unfold timeChild
    rw [if_neg (by rw [hz]; decide)]
  · intro t h0 h1
    exact formatAbs_layout _ h0 h1

set_option maxRecDepth 8000 in
/-- C11, on the predicate `settled-at` of `TestSearchXMLEncode`, with the two
instants in a location one hour east of UTC: no child for `is`, then
`<min type="datetime">2016-09-11T00:00:00Z</min>` and
`<max type="datetime">2016-09-11T23:59:59Z</max>`, the times in UTC and not the
01:00:00 and 00:59:59 the clocks of the location show; and on a predicate
without a key. -/
theorem MarshalXML_children_witness :
    (∃ e1, TimeField.MarshalXML Xml.testLib testZone settledAtLocal Xml.NewEncoder
        ⟨⟨[], bytes "TimeField"⟩, []⟩ = some (.ok e1) ∧
      e1.out = [.StartElement ⟨[], bytes "settled-at"⟩ [],
          .StartElement ⟨[], bytes "min"⟩ [⟨⟨[], bytes "type"⟩, bytes "datetime"⟩],
          .CharData (bytes "2016-09-11T00:00:00Z"), .EndElement ⟨[], bytes "min"⟩,
          .StartElement ⟨[], bytes "max"⟩ [⟨⟨[], bytes "type"⟩, bytes "datetime"⟩],
          .CharData (bytes "2016-09-11T23:59:59Z"), .EndElement ⟨[], bytes "max"⟩,
          .EndElement ⟨[], bytes "settled-at"⟩]) ∧
    settledAtLocal.Min.Format testZone = bytes "2016-09-11T01:00:00Z" ∧
    settledAtLocal.Max.Format testZone = bytes "2016-09-12T00:59:59Z" ∧
    TimeField.MarshalXML Xml.testLib testZone noKey Xml.NewEncoder ⟨⟨[], bytes "TimeField"⟩, []⟩
      = some (.error .Encode) := by
  obtain ⟨written, e1, h1, h2, _, h4⟩ :=
    (MarshalXML_children Xml.testLib testZone settledAtLocal Xml.NewEncoder
      ⟨⟨[], bytes "TimeField"⟩, []⟩).1 (by decide)
  refine ⟨⟨e1, h1, ?_⟩, by decide, by decide,
    (MarshalXML_children Xml.testLib testZone noKey Xml.NewEncoder
      ⟨⟨[], bytes "TimeField"⟩, []⟩).2.1 rfl⟩
  rw [h2, h4 rfl]
  decide

set_option maxRecDepth 8000 in
/-- The predicate `settled-at` of `TestSearchXMLEncode`, whose times are in UTC:
no child for `is`, then `<min type="datetime">2016-09-11T00:00:00Z</min>` and
`<max type="datetime">2016-09-11T23:59:59Z</max>`. -/
theorem MarshalXML_tests :
    TimeField.MarshalXML Xml.testLib testZone settledAt Xml.NewEncoder
        ⟨⟨[], bytes "TimeField"⟩, []⟩
      = some (.ok ⟨[.StartElement ⟨[], bytes "settled-at"⟩ [],
          .StartElement ⟨[], bytes "min"⟩ [⟨⟨[], bytes "type"⟩, bytes "datetime"⟩],
          .CharData (bytes "2016-09-11T00:00:00Z"), .EndElement ⟨[], bytes "min"⟩,
          .StartElement ⟨[], bytes "max"⟩ [⟨⟨[], bytes "type"⟩, bytes "datetime"⟩],
          .CharData (bytes "2016-09-11T23:59:59Z"), .EndElement ⟨[], bytes "max"⟩,
          .EndElement ⟨[], bytes "settled-at"⟩], [], [], [], [], 0⟩) := rfl

/-! ## Theorems: `Decimal.Cmp` under wrap-around -/

/-- One pass of a scale-alignment loop: the operand is multiplied by ten, with
wrap-around, once for every unit the counter is above the bound. -/
theorem scaleLoop_iterate (k : Nat) :
    ∀ (hi lo u : Int), hi - lo = k →
      scaleLoop hi lo u = (lo, (fun v => wrap64 (v * 10))^[k] u) := by
  induction k with
  | zero =>
    intro hi lo u h
    have e : hi = lo := by omega
    rw [scaleLoop_stop hi lo u (by omega), e]
    rfl
  | succ k ih =>
    intro hi lo u h
    rw [scaleLoop_step hi lo u (by omega), ih (hi - 1) lo _ (by omega)]
    rfl

/-- The two operands `Cmp` compares: each `Unscaled` multiplied by ten, with
wrap-around, as many times as its own scale is below the other scale. -/
theorem Cmp_aligned (x y : Decimal) :
    Cmp x y =
      if (fun v => wrap64 (v * 10))^[(y.Scale - x.Scale).toNat] x.Unscaled
          < (fun v => wrap64 (v * 10))^[(x.Scale - y.Scale).toNat] y.Unscaled then -1
      else if (fun v => wrap64 (v * 10))^[(y.Scale - x.Scale).toNat] x.Unscaled
          > (fun v => wrap64 (v * 10))^[(x.Scale - y.Scale).toNat] y.Unscaled then 1
      else 0 := by
  rw [Cmp_eq]
  by_cases h : x.Scale > y.Scale
  · rw [scaleLoop_iterate (x.Scale - y.Scale).toNat x.Scale y.Scale y.Unscaled (by omega)]
    show (if (scaleLoop y.Scale y.Scale x.Unscaled).2 < _ then _ else
      if (scaleLoop y.Scale y.Scale x.Unscaled).2 > _ then _ else _) = _
    rw [scaleLoop_stop y.Scale y.Scale x.Unscaled (Int.le_refl _)]
    have e : (y.Scale - x.Scale).toNat = 0 := by omega
    rw [e]
    rfl
  · rw [scaleLoop_stop x.Scale y.Scale y.Unscaled (by omega)]
    show (if (scaleLoop y.Scale x.Scale x.Unscaled).2 < _ then _ else
      if (scaleLoop y.Scale x.Scale x.Unscaled).2 > _ then _ else _) = _
    rw [scaleLoop_iterate (y.Scale - x.Scale).toNat y.Scale x.Scale x.Unscaled (by omega)]
    have e : (x.Scale - y.Scale).toNat = 0 := by omega
    rw [e]
    rfl

/-- C30: `Cmp` is antisymmetric and reflexive on all inputs, wrap-around
included: `x.Cmp(y)` is the negation of `y.Cmp(x)`, and `x.Cmp(x)` is `0`; both
call orders multiply the same operand by ten the same number of times.  With the
operands `{1, 19}` and `{1, 0}`, where the multiplication wraps around, the two
results are `1` and `-1`. -/
theorem Cmp_antisymm (x y : Decimal) :
    Cmp x y = -(Cmp y x) ∧ Cmp x x = 0 ∧
    Cmp ⟨1, 19⟩ ⟨1, 0⟩ = 1 ∧ Cmp ⟨1, 0⟩ ⟨1, 19⟩ = -1 := by
  refine ⟨?_, ?_, ?_, ?_⟩
  · rw [Cmp_aligned x y, Cmp_aligned y x]
    generalize (fun v => wrap64 (v * 10))^[(y.Scale - x.Scale).toNat] x.Unscaled = a
    generalize (fun v => wrap64 (v * 10))^[(x.Scale - y.Scale).toNat] y.Unscaled = b
    by_cases h1 : a < b
    · rw [if_pos h1, if_neg (by omega), if_pos h1]
    · by_cases h2 : a > b
      · rw [if_neg h1, if_pos h2, if_pos h2]
        rfl
      · rw [if_neg h1, if_neg h2, if_neg h2, if_neg h1]
        rfl
  · rw [Cmp_aligned x x]
    rw [if_neg (lt_irrefl _), if_neg (lt_irrefl _)]
  · simp [Cmp, scaleLoop, wrap64]
  · simp [Cmp, scaleLoop, wrap64]

/-! ## Theorems: the paged search -/

theorem isInt64_iff (z : Int) :
    isInt64 z ↔ -9223372036854775808 ≤ z ∧ z ≤ 9223372036854775807 := Iff.rfl

theorem wrap64_wrap64_add (z w : Int) : wrap64 (wrap64 z + w) = wrap64 (z + w) := by
  unfold wrap64
  omega

/-- The ceiling of a quotient of integers, by integer division. -/
theorem ceil_div_eq (n ps : Int) (hps : 1 ≤ ps) :
    ⌈(n : ℚ) / (ps : ℚ)⌉ = (n + ps - 1) / ps := by
  have hpos : (0 : ℚ) < (ps : ℚ) := by exact_mod_cast (by omega : (0 : Int) < ps)
  have hd := Int.ediv_add_emod (n + ps - 1) ps
  have hr0 := Int.emod_nonneg (n + ps - 1) (by omega : ps ≠ 0)
  have hr1 := Int.emod_lt_of_pos (n + ps - 1) (by omega : (0 : Int) < ps)
  rw [Int.ceil_eq_iff]
  constructor
  · rw [lt_div_iff₀ hpos]
    have : ((n + ps - 1) / ps - 1) * ps < n := by
      have e : ((n + ps - 1) / ps - 1) * ps = ps * ((n + ps - 1) / ps) - ps := by ring
      rw [e]
      omega
    exact_mod_cast this
  · rw [div_le_iff₀ hpos]
    have : n ≤ ((n + ps - 1) / ps) * ps := by
      have e : ((n + ps - 1) / ps) * ps = ps * ((n + ps - 1) / ps) := by ring
      rw [e]
      omega
    exact_mod_cast this

/-- What the page count being the ceiling of the quotient says, without
division. -/
theorem ceil_div_iff (n ps pc : Int) (hps : 1 ≤ ps) :
    pc = ⌈(n : ℚ) / (ps : ℚ)⌉ ↔ (pc - 1) * ps < n ∧ n ≤ pc * ps := by
  have hpos : (0 : ℚ) < (ps : ℚ) := by exact_mod_cast (by omega : (0 : Int) < ps)
  rw [eq_comm, Int.ceil_eq_iff, lt_div_iff₀ hpos, div_le_iff₀ hpos]
  constructor
  · rintro ⟨h1, h2⟩
    exact ⟨by exact_mod_cast h1, by exact_mod_cast h2⟩
  · rintro ⟨h1, h2⟩
    exact ⟨by exact_mod_cast h1, by exact_mod_cast h2⟩

theorem intDiv_pos (a b : Int) (ha : 0 ≤ a) (ha1 : a ≤ 9223372036854775807) (hb : 1 ≤ b) :
    intDiv a b = some (a / b) := by
  unfold intDiv
  rw [if_neg (by omega), Int.tdiv_eq_ediv ha (by omega)]
  have h0 : 0 ≤ a / b := Int.ediv_nonneg ha (by omega)
  have h1 : a / b ≤ a := Int.ediv_le_self b ha
  rw [wrap64_of_isInt64 ((isInt64_iff _).2 ⟨by omega, by omega⟩)]

/-- Without overflow, the page count is the quotient of `len + PageSize - 1` by
`PageSize`. -/
theorem newSearchResult_ok (ps : Int) (ids : List String) (hps : 1 ≤ ps)
    (hfit : (ids.length : Int) + ps - 1 ≤ 9223372036854775807) :
    newSearchResult ps ids
      = some { PageSize := ps, PageCount := ((ids.length : Int) + ps - 1) / ps, IDs := ids } := by
  unfold newSearchResult
  have e : wrap64 (wrap64 ((ids.length : Int) + ps) - 1) = (ids.length : Int) + ps - 1 := by
    have e1 : wrap64 ((ids.length : Int) + ps) - 1 = wrap64 ((ids.length : Int) + ps) + (-1) := by
      ring
    rw [e1, wrap64_wrap64_add]
    have e2 : (ids.length : Int) + ps + -1 = (ids.length : Int) + ps - 1 := by ring
    rw [e2]
    exact wrap64_of_isInt64 ((isInt64_iff _).2 ⟨by omega, by omega⟩)
  rw [e, intDiv_pos _ _ (by omega) hfit hps]

/-- The offsets of a page within bounds: no wrap-around, the start is
`(Page - 1) * PageSize`, the end is `Page * PageSize` clamped at the length, and
the start is below the end. -/
theorem pageOffsets_spec (sr : SearchResult) (hs : sr.sized)
    (hc : sr.PageCount = ⌈(sr.IDs.length : ℚ) / (sr.PageSize : ℚ)⌉)
    (hp1 : 1 ≤ sr.Page) (hp2 : sr.Page ≤ sr.PageCount) :
    (pageOffsets sr).1 = (sr.Page - 1) * sr.PageSize ∧
    (pageOffsets sr).2 = min (sr.Page * sr.PageSize) (sr.IDs.length : Int) ∧
    0 ≤ (pageOffsets sr).1 ∧ (pageOffsets sr).1 < (pageOffsets sr).2 ∧
    (pageOffsets sr).2 ≤ (sr.IDs.length : Int) ∧
    (sr.Page < sr.PageCount → sr.Page * sr.PageSize ≤ (sr.IDs.length : Int)) := by
  obtain ⟨hps, hps1, hlen⟩ := hs
  have hmax : maxInt64 = 9223372036854775807 := rfl
  rw [hmax] at hps1 hlen
  have hcc : sr.PageCount = ⌈((sr.IDs.length : Int) : ℚ) / (sr.PageSize : ℚ)⌉ := by
    rw [hc]
    norm_cast
  obtain ⟨hc1, hc2⟩ := (ceil_div_iff _ _ _ hps).1 hcc
  have hS0 : 0 ≤ (sr.Page - 1) * sr.PageSize := Int.mul_nonneg (by omega) (by omega)
  have hS1 : (sr.Page - 1) * sr.PageSize ≤ (sr.PageCount - 1) * sr.PageSize :=
    Int.mul_le_mul_of_nonneg_right (by omega) (by omega)
  have hS2 : 2 ≤ sr.Page → sr.PageSize ≤ (sr.Page - 1) * sr.PageSize := by
    intro h2
    have := Int.mul_le_mul_of_nonneg_right (show (1 : Int) ≤ sr.Page - 1 by omega)
      (show (0 : Int) ≤ sr.PageSize by omega)
    rw [Int.one_mul] at this
    exact this
  have hS3 : sr.Page * sr.PageSize = (sr.Page - 1) * sr.PageSize + sr.PageSize := by ring
  have hS4 : sr.Page < sr.PageCount → sr.Page * sr.PageSize ≤ (sr.PageCount - 1) * sr.PageSize :=
    fun h => Int.mul_le_mul_of_nonneg_right (by omega) (by omega)
  have hstart : (pageOffsets sr).1 = (sr.Page - 1) * sr.PageSize := by
    show wrap64 (wrap64 (sr.Page - 1) * sr.PageSize) = _
    have hpc : sr.PageCount - 1 < (sr.IDs.length : Int) := by
      have := Int.mul_le_mul_of_nonneg_left hps (show (0 : Int) ≤ sr.PageCount - 1 by omega)
      rw [Int.mul_one] at this
      omega
    have e1 : wrap64 (sr.Page - 1) = sr.Page - 1 :=
      wrap64_of_isInt64 ((isInt64_iff _).2 ⟨by omega, by omega⟩)
    rw [e1]
    exact wrap64_of_isInt64 ((isInt64_iff _).2 ⟨by omega, by omega⟩)
  have hsum : wrap64 ((sr.Page - 1) * sr.PageSize + sr.PageSize)
      = (sr.Page - 1) * sr.PageSize + sr.PageSize := by
    refine wrap64_of_isInt64 ((isInt64_iff _).2 ⟨by omega, ?_⟩)
    by_cases h2 : 2 ≤ sr.Page
    · have := hS2 h2
      omega
    · have e : sr.Page - 1 = 0 := by omega
      rw [e, Int.zero_mul]
      omega
  have hend : (pageOffsets sr).2 = min (sr.Page * sr.PageSize) (sr.IDs.length : Int) := by
    show (if wrap64 (wrap64 (wrap64 (sr.Page - 1) * sr.PageSize) + sr.PageSize)
        > (sr.IDs.length : Int) then (sr.IDs.length : Int)
      else wrap64 (wrap64 (wrap64 (sr.Page - 1) * sr.PageSize) + sr.PageSize)) = _
    have hst : wrap64 (wrap64 (sr.Page - 1) * sr.PageSize) = (sr.Page - 1) * sr.PageSize := hstart
    rw [hst, hsum, ← hS3]
    by_cases hgt : sr.Page * sr.PageSize > (sr.IDs.length : Int)
    · rw [if_pos hgt, min_eq_right (by omega)]
    · rw [if_neg hgt, min_eq_left (by omega)]
  refine ⟨hstart, hend, by rw [hstart]; exact hS0, ?_, ?_, ?_⟩
  · rw [hstart, hend]
    exact lt_min (by omega) (by omega)
  · rw [hend]
    exact min_le_right _ _
  · intro h
    have := hS4 h
    omega

/-- C21, at an explicit input: with the page size `9223372036854775807` and two
identifiers, `len + PageSize - 1` wraps around to the most negative `int`, and
the page count is `-1`, while the ceiling of the quotient is `1`. -/
theorem SearchTxs_pageCount_counterexample :
    (SearchTxs (.ok (9223372036854775807, ["a", "b"])) : Option (Except Unit SearchResult))
      = some (.ok { PageSize := 9223372036854775807, PageCount := -1, IDs := ["a", "b"] }) ∧
    ⌈((["a", "b"] : List String).length : ℚ) / ((9223372036854775807 : Int) : ℚ)⌉ = 1 := by
  refine ⟨rfl, ?_⟩
  rw [Int.ceil_eq_iff]
  norm_num

/-- C21, as amended: when `len(IDs) + PageSize - 1` does not exceed the largest
`int`, the `SearchResult` built by `SearchTxs`, `SearchCustomersByIDs`,
`SearchSubscriptions` and `ExpiringBetween` for a page size of at least 1 has
the identifiers and the page size of the answer, and its `PageCount` is the
ceiling of `len(IDs) / PageSize`, which is `(len(IDs) + PageSize - 1) / PageSize`
in integer arithmetic. -/
theorem SearchTxs_pageCount {ε : Type} (ps : Int) (ids : List String) (hps : 1 ≤ ps)
    (hfit : (ids.length : Int) + ps - 1 ≤ maxInt64) :
    ∃ sr : SearchResult,
      (SearchTxs (.ok (ps, ids)) : Option (Except ε SearchResult)) = some (.ok sr) ∧
      (SearchCustomersByIDs (.ok (ps, ids)) : Option (Except ε SearchResult)) = some (.ok sr) ∧
      (SearchSubscriptions (.ok (ps, ids)) : Option (Except ε SearchResult)) = some (.ok sr) ∧
      (ExpiringBetween (.ok (ps, ids)) : Option (Except ε SearchResult)) = some (.ok sr) ∧
      sr.PageSize = ps ∧ sr.IDs = ids ∧
      sr.PageCount = ⌈(ids.length : ℚ) / (ps : ℚ)⌉ ∧
      sr.PageCount = ((ids.length : Int) + ps - 1) / ps := by
  have h := newSearchResult_ok ps ids hps hfit
  have hmap : ∀ f : Except ε (Int × List String) → Option (Except ε SearchResult),
      (∀ d, f d = match d with
        | .error err => some (.error err)
        | .ok (pageSize, item) => (newSearchResult pageSize item).map .ok) →
      f (.ok (ps, ids)) = some (.ok ⟨0, ps, ((ids.length : Int) + ps - 1) / ps, ids⟩) := by
    intro f hf
    rw [hf]
    show (newSearchResult ps ids).map Except.ok = _
    rw [h]
    rfl
  refine ⟨_, hmap SearchTxs (fun _ => rfl), hmap SearchCustomersByIDs (fun _ => rfl),
    hmap SearchSubscriptions (fun _ => rfl), hmap ExpiringBetween (fun _ => rfl), rfl, rfl, ?_, rfl⟩
  show ((ids.length : Int) + ps - 1) / ps = ⌈(ids.length : ℚ) / (ps : ℚ)⌉
  rw [← ceil_div_eq _ _ hps]
  norm_cast

/-- C21, on 51 identifiers with the page size 50, which give the page count 2,
and on no identifier, which gives 0. -/
theorem SearchTxs_pageCount_witness :
    (1 : Int) ≤ 50 ∧ ((testIDs 51).length : Int) + 50 - 1 ≤ maxInt64 ∧
    (∃ sr : SearchResult,
      (SearchTxs (.ok (50, testIDs 51)) : Option (Except Unit SearchResult)) = some (.ok sr) ∧
      sr.PageCount = 2) ∧
    (∃ sr : SearchResult,
      (SearchTxs (.ok (50, [])) : Option (Except Unit SearchResult)) = some (.ok sr) ∧
      sr.PageCount = 0) := by
  refine ⟨by decide, by decide, ?_, ?_⟩
  · obtain ⟨sr, h1, _, _, _, _, _, _, h8⟩ :=
      @SearchTxs_pageCount Unit 50 (testIDs 51) (by decide) (by decide)
    exact ⟨sr, h1, by rw [h8]; decide⟩
  · obtain ⟨sr, h1, _, _, _, _, _, _, h8⟩ :=
      @SearchTxs_pageCount Unit 50 [] (by decide) (by decide)
    exact ⟨sr, h1, by rw [h8]; decide⟩

theorem sliceExpr_ok {α : Type} (s : List α) (lo hi : Int) (h0 : 0 ≤ lo) (h1 : lo ≤ hi)
    (h2 : hi ≤ (s.length : Int)) :
    sliceExpr s lo hi = some ((s.take hi.toNat).drop lo.toNat) ∧
    (((s.take hi.toNat).drop lo.toNat).length : Int) = hi - lo := by
  constructor
  · unfold sliceExpr
    rw [if_pos ⟨h0, h1, h2⟩]
  · rw [List.length_drop, List.length_take]
    omega

/-- C29: for a `SearchResult` with a page size of at least 1, the page count the
ceiling of `len(IDs) / PageSize` and a page between 1 and the page count, the
offsets are computed without wrap-around and satisfy `0 ≤ startOffset <
endOffset ≤ len(IDs)`; the slice expression does not panic, and the page holds
at least 1 and at most `PageSize` identifiers, exactly `PageSize` on every page
but the last. -/
theorem pageOffsets_in_range (sr : SearchResult) (hs : sr.sized)
    (hc : sr.PageCount = ⌈(sr.IDs.length : ℚ) / (sr.PageSize : ℚ)⌉)
    (hp1 : 1 ≤ sr.Page) (hp2 : sr.Page ≤ sr.PageCount) :
    (pageOffsets sr).1 = (sr.Page - 1) * sr.PageSize ∧
    0 ≤ (pageOffsets sr).1 ∧ (pageOffsets sr).1 < (pageOffsets sr).2 ∧
    (pageOffsets sr).2 ≤ (sr.IDs.length : Int) ∧
    ∃ items, pageIDs sr = some items ∧
      (items.length : Int) = (pageOffsets sr).2 - (pageOffsets sr).1 ∧
      1 ≤ items.length ∧ (items.length : Int) ≤ sr.PageSize ∧
      (sr.Page < sr.PageCount → (items.length : Int) = sr.PageSize) := by
  obtain ⟨h1, h2, h3, h4, h5, h6⟩ := pageOffsets_spec sr hs hc hp1 hp2
  obtain ⟨hsl, hlen⟩ := sliceExpr_ok sr.IDs _ _ h3 (le_of_lt h4) h5
  have hS3 : sr.Page * sr.PageSize = (sr.Page - 1) * sr.PageSize + sr.PageSize := by ring
  have hle : (pageOffsets sr).2 ≤ sr.Page * sr.PageSize := by
    rw [h2]
    exact min_le_left _ _
  refine ⟨h1, h3, h4, h5, _, hsl, hlen, ?_, ?_, ?_⟩
  · omega
  · rw [hlen]
    omega
  · intro hlt
    have := h6 hlt
    rw [hlen, h2, min_eq_left this, h1]
    omega

theorem ceil_testIDs : (2 : Int) = ⌈((testIDs 51).length : ℚ) / ((50 : Int) : ℚ)⌉ := by
  rw [eq_comm, Int.ceil_eq_iff]
  have : ((testIDs 51).length : ℚ) = 51 := by
    have : (testIDs 51).length = 51 := by decide
    rw [this]
    norm_num
  rw [this]
  norm_num

/-- C29, on page 2 of 51 identifiers with the page size 50: the offsets are 50
and 51, and the page holds one identifier. -/
theorem pageOffsets_in_range_witness :
    SearchResult.sized ⟨2, 50, 2, testIDs 51⟩ ∧
    pageOffsets ⟨2, 50, 2, testIDs 51⟩ = (50, 51) ∧
    (pageIDs ⟨2, 50, 2, testIDs 51⟩).map List.length = some 1 ∧
    (0 : Int) ≤ (pageOffsets ⟨2, 50, 2, testIDs 51⟩).1 := by
  have hs : SearchResult.sized ⟨2, 50, 2, testIDs 51⟩ := by
    unfold SearchResult.sized
    decide
  have hc : (2 : Int) = ⌈((testIDs 51).length : ℚ) / ((50 : Int) : ℚ)⌉ := ceil_testIDs
  exact ⟨hs, by decide, by decide,
    (pageOffsets_in_range ⟨2, 50, 2, testIDs 51⟩ hs hc (by decide) (by decide)).2.1⟩

theorem SearchTx_outOfBounds {τ ε : Type} (extra : Nat → Nat) (fetch : Heap → Nat → τ × Option ε)
    (h : Heap) (query : Nat) (sr : SearchResult) (hb : sr.Page < 1 ∨ sr.Page > sr.PageCount) :
    SearchTx extra fetch h query sr
        = some ⟨h, [], none, some (.bounds (boundsError sr.Page sr.PageCount))⟩ ∧
    SearchCustomer extra fetch h query sr
        = some ⟨h, [], none, some (.bounds (boundsError sr.Page sr.PageCount))⟩ ∧
    SearchSubscription extra fetch h query sr
        = some ⟨h, [], none, some (.bounds (boundsError sr.Page sr.PageCount))⟩ ∧
    ExpiringBetweenPaged extra fetch h sr
        = some ⟨h, [], none, some (.bounds (boundsError sr.Page sr.PageCount))⟩ := by
  refine ⟨?_, ?_, ?_, ?_⟩
  · unfold SearchTx
    rw [if_pos hb]
  · unfold SearchCustomer
    rw [if_pos hb]
  · unfold SearchSubscription
    rw [if_pos hb]
  · unfold ExpiringBetweenPaged
    rw [if_pos hb]

theorem map_fetch_ne_bounds {ε : Type} (e : Option ε) (msg : List Nat) :
    e.map PageError.fetch ≠ some (PageError.bounds msg) := by
  cases e with
  | none => intro hc; cases hc
  | some x => intro hc; cases hc

/-- Within bounds, a page hydration that returns has sent one request and
returns a page, with no error or with the error of the request. -/
theorem SearchTx_inBounds {τ ε : Type} (extra : Nat → Nat) (fetch : Heap → Nat → τ × Option ε)
    (h : Heap) (query : Nat) (sr : SearchResult) (hb : ¬ (sr.Page < 1 ∨ sr.Page > sr.PageCount))
    (run : PageRun τ ε)
    (hrun : SearchTx extra fetch h query sr = some run ∨
      SearchCustomer extra fetch h query sr = some run ∨
      SearchSubscription extra fetch h query sr = some run ∨
      ExpiringBetweenPaged extra fetch h sr = some run) :
    run.result ≠ none ∧ (∀ msg, run.err ≠ some (.bounds msg)) ∧ run.requests.length = 1 := by
  rcases hrun with hrun | hrun | hrun | hrun
  · unfold SearchTx at hrun
    rw [if_neg hb] at hrun
    split at hrun
    · cases hrun
    · split at hrun
      · cases hrun
      · split at hrun
        · cases hrun
        · split at hrun
          · cases hrun
          · cases hrun
            exact ⟨(fun hc => by cases hc), fun msg => map_fetch_ne_bounds _ msg, rfl⟩
  · unfold SearchCustomer at hrun
    rw [if_neg hb] at hrun
    split at hrun
    · cases hrun
    · split at hrun
      · cases hrun
      · split at hrun
        · cases hrun
        · split at hrun
          · cases hrun
          · cases hrun
            exact ⟨(fun hc => by cases hc), fun msg => map_fetch_ne_bounds _ msg, rfl⟩
  · unfold SearchSubscription at hrun
    rw [if_neg hb] at hrun
    split at hrun
    · cases hrun
    · split at hrun
      · cases hrun
      · split at hrun
        · cases hrun
        · split at hrun
          · cases hrun
          · cases hrun
            exact ⟨(fun hc => by cases hc), fun msg => map_fetch_ne_bounds _ msg, rfl⟩
  · unfold ExpiringBetweenPaged at hrun
    rw [if_neg hb] at hrun
    simp only [] at hrun
    split at hrun
    · cases hrun
    · split at hrun
      · cases hrun
      · split at hrun
        · cases hrun
        · cases hrun
          exact ⟨(fun hc => by cases hc), fun msg => map_fetch_ne_bounds _ msg, rfl⟩

/-- C22: `SearchTx`, and likewise `SearchCustomer`, `SearchSubscription` and
`ExpiringBetweenPaged`, returns the out-of-bounds error, with no page, exactly
when `Page < 1` or `Page > PageCount`; the text of the error is `page N out of
bounds, page numbers start at 1 and page count is M` with the page for `N` and
the page count for `M`; and then the heap is as it was (no query has been
copied or created) and no hydration request has been sent. -/
theorem SearchTx_bounds {τ ε : Type} (extra : Nat → Nat) (fetch : Heap → Nat → τ × Option ε)
    (h : Heap) (query : Nat) (sr : SearchResult) :
    ((∃ run msg, SearchTx extra fetch h query sr = some run ∧ run.err = some (.bounds msg))
      ↔ (sr.Page < 1 ∨ sr.Page > sr.PageCount)) ∧
    ((∃ run msg, SearchCustomer extra fetch h query sr = some run ∧
        run.err = some (.bounds msg))
      ↔ (sr.Page < 1 ∨ sr.Page > sr.PageCount)) ∧
    ((∃ run msg, SearchSubscription extra fetch h query sr = some run ∧
        run.err = some (.bounds msg))
      ↔ (sr.Page < 1 ∨ sr.Page > sr.PageCount)) ∧
    ((∃ run msg, ExpiringBetweenPaged extra fetch h sr = some run ∧
        run.err = some (.bounds msg))
      ↔ (sr.Page < 1 ∨ sr.Page > sr.PageCount)) ∧
    ((sr.Page < 1 ∨ sr.Page > sr.PageCount) →
      SearchTx extra fetch h query sr
          = some ⟨h, [], none, some (.bounds (boundsError sr.Page sr.PageCount))⟩ ∧
      SearchCustomer extra fetch h query sr
          = some ⟨h, [], none, some (.bounds (boundsError sr.Page sr.PageCount))⟩ ∧
      SearchSubscription extra fetch h query sr
          = some ⟨h, [], none, some (.bounds (boundsError sr.Page sr.PageCount))⟩ ∧
      ExpiringBetweenPaged extra fetch h sr
          = some ⟨h, [], none, some (.bounds (boundsError sr.Page sr.PageCount))⟩) ∧
    boundsError sr.Page sr.PageCount
      = bytes "page " ++ decimalString sr.Page
        ++ bytes " out of bounds, page numbers start at 1 and page count is "
        ++ decimalString sr.PageCount := by
  have key : ∀ F : Option (PageRun τ ε),
      ((sr.Page < 1 ∨ sr.Page > sr.PageCount) →
        F = some ⟨h, [], none, some (.bounds (boundsError sr.Page sr.PageCount))⟩) →
      (¬ (sr.Page < 1 ∨ sr.Page > sr.PageCount) → ∀ run, F = some run →
        ∀ msg, run.err ≠ some (.bounds msg)) →
      ((∃ run msg, F = some run ∧ run.err = some (.bounds msg))
        ↔ (sr.Page < 1 ∨ sr.Page > sr.PageCount)) := by
    intro F h1 h2
    constructor
    · rintro ⟨run, msg, hr, he⟩
      by_contra hb
      exact h2 hb run hr msg he
    · intro hb
      exact ⟨_, _, h1 hb, rfl⟩
  refine ⟨key _ (fun hb => (SearchTx_outOfBounds extra fetch h query sr hb).1)
      (fun hb run hr => (SearchTx_inBounds extra fetch h query sr hb run (Or.inl hr)).2.1),
    key _ (fun hb => (SearchTx_outOfBounds extra fetch h query sr hb).2.1)
      (fun hb run hr =>
        (SearchTx_inBounds extra fetch h query sr hb run (Or.inr (Or.inl hr))).2.1),
    key _ (fun hb => (SearchTx_outOfBounds extra fetch h query sr hb).2.2.1)
      (fun hb run hr =>
        (SearchTx_inBounds extra fetch h query sr hb run (Or.inr (Or.inr (Or.inl hr)))).2.1),
    key _ (fun hb => (SearchTx_outOfBounds extra fetch h query sr hb).2.2.2)
      (fun hb run hr =>
        (SearchTx_inBounds extra fetch h query sr hb run (Or.inr (Or.inr (Or.inr hr)))).2.1),
    fun hb => SearchTx_outOfBounds extra fetch h query sr hb, ?_⟩
  unfold boundsError
  rw [FormatInt_decimalString, FormatInt_decimalString]

/-- C22, on the two out-of-bounds pages of `TestTransactionSearchPage`: page 0
and page 3 of a result with 2 pages; the heap is as it was and no request has
been sent. -/
theorem SearchTx_bounds_witness :
    ((0 : Int) < 1 ∨ (0 : Int) > 2) ∧
    SearchTx (fun c => c) (fun _ _ => ((), (none : Option Unit))) exampleHeap 0
        ⟨0, 50, 2, testIDs 51⟩
      = some ⟨exampleHeap, [], none, some (.bounds
          (bytes "page 0 out of bounds, page numbers start at 1 and page count is 2"))⟩ ∧
    SearchTx (fun c => c) (fun _ _ => ((), (none : Option Unit))) exampleHeap 0
        ⟨3, 50, 2, testIDs 51⟩
      = some ⟨exampleHeap, [], none, some (.bounds
          (bytes "page 3 out of bounds, page numbers start at 1 and page count is 2"))⟩ :=
  ⟨Or.inl (by decide),
   ((SearchTx_bounds (fun c => c) (fun _ _ => ((), (none : Option Unit))) exampleHeap 0
      ⟨0, 50, 2, testIDs 51⟩).2.2.2.2.1 (Or.inl (by decide))).1,
   ((SearchTx_bounds (fun c => c) (fun _ _ => ((), (none : Option Unit))) exampleHeap 0
      ⟨3, 50, 2, testIDs 51⟩).2.2.2.2.1 (Or.inr (by decide))).1⟩

theorem fieldsOf_objs (h : Heap) (objs : List Field) (s : Nat) :
    fieldsOf { h with objs := objs } s = fieldsOf h s := rfl

theorem indexOf_objs (h : Heap) (objs : List Field) (s : Nat) (n : String) :
    indexOf { h with objs := objs } s n = indexOf h s n := rfl

/-- Within bounds, on a query of a well-formed heap and with a slice expression
that does not panic, `SearchTx` returns: it has copied the query, sent the copy
in one hydration request, and the copy holds the identifiers of the page as the
`Items` of its `MultiField` `ids`. -/
theorem SearchTx_places {τ ε : Type} (extra : Nat → Nat) (fetch : Heap → Nat → τ × Option ε)
    {h : Heap} (wf : WF h) {query : Nat} {so : Search} (hq : h.searches[query]? = some so)
    (sr : SearchResult) (hb : ¬ (sr.Page < 1 ∨ sr.Page > sr.PageCount))
    (items : List String) (hitems : pageIDs sr = some items) :
    ∃ run, SearchTx extra fetch h query sr = some run ∧
      run.requests = [h.searches.length] ∧
      itemsOf run.heap h.searches.length "ids" = some items ∧
      run.result = some ⟨(sr.IDs.length : Int), sr.IDs, sr.Page, sr.PageSize,
        (fetch run.heap h.searches.length).1⟩ ∧
      run.err = (fetch run.heap h.searches.length).2.map PageError.fetch := by
  obtain ⟨h1, hcopy, wf1, hobjs1, hlen1, _, _, _, _⟩ := ShallowCopy_spec wf hq
  have hc : h.searches.length < h1.searches.length := by omega
  obtain ⟨so1, hs1⟩ : ∃ so1, h1.searches[h.searches.length]? = some so1 :=
    ⟨h1.searches[h.searches.length], List.getElem?_eq_getElem hc⟩
  obtain ⟨h3, l, hadd, _, hobjs3, _, _, hl, hcase⟩ := Add_spec .multi extra wf1 hs1 "ids"
  have hadd1 : AddMultiField extra h1 h.searches.length "ids" = some (h3, h1.objs.length) := hadd
  have hobj : h3.objs[h1.objs.length]?
      = some (Field.multi { XMLName := "ids", TypeAttr := "array" }) := by
    rw [hobjs3]
    exact List.getElem?_concat_length _ _
  have hflt : h1.objs.length < h3.objs.length := by
    rw [hobjs3, List.length_append]
    exact Nat.lt_succ_self _
  obtain ⟨h4, hh4⟩ : ∃ h4 : Heap, h4 = ⟨h3.objs.set h1.objs.length
      (.multi ⟨"ids", "array", items⟩), h3.arrays, h3.maps, h3.searches⟩ := ⟨_, rfl⟩
  have hset : setItems h3 h1.objs.length items = some h4 := by
    unfold setItems
    rw [hobj, hh4]
  have hslot : ∃ i l3, indexOf h3 h.searches.length "ids" = some i ∧
      fieldsOf h3 h.searches.length = some l3 ∧ l3[i]? = some (some h1.objs.length) := by
    rcases hcase with ⟨i, hi, hil, hf3, hidx, _⟩ | ⟨_, hf3, hidx, _⟩
    · refine ⟨i, _, ?_, hf3, ?_⟩
      · rw [hidx, hi]
      · rw [List.getElem?_set_self hil]
    · refine ⟨l.length, _, ?_, hf3, ?_⟩
      · rw [hidx, if_pos rfl]
      · exact List.getElem?_concat_length _ _
  obtain ⟨i, l3, hidx3, hf3, hli⟩ := hslot
  refine ⟨⟨h4, [h.searches.length],
    some ⟨(sr.IDs.length : Int), sr.IDs, sr.Page, sr.PageSize, (fetch h4 h.searches.length).1⟩,
    (fetch h4 h.searches.length).2.map PageError.fetch⟩, ?_, rfl, ?_, rfl, rfl⟩
  · unfold SearchTx
    rw [if_neg hb, hcopy]
    simp only []
    rw [hadd1]
    simp only []
    rw [hitems]
    simp only []
    rw [hset]
  · have e1 : indexOf h4 h.searches.length "ids" = indexOf h3 h.searches.length "ids" := by
      rw [hh4]
      rfl
    have e2 : fieldsOf h4 h.searches.length = fieldsOf h3 h.searches.length := by
      rw [hh4]
      rfl
    have e3 : h4.objs[h1.objs.length]? = some (.multi ⟨"ids", "array", items⟩) := by
      rw [hh4]
      exact List.getElem?_set_self hflt
    unfold itemsOf
    simp only []
    rw [e1, e2, hidx3, hf3]
    simp only []
    rw [hli]
    simp only []
    rw [e3]

theorem take_append_drop_take {α : Type} (l : List α) (a b : Nat) (hab : a ≤ b) :
    l.take a ++ (l.take b).drop a = l.take b := by
  have e : l.take a = (l.take b).take a := by
    rw [List.take_take, Nat.min_eq_left hab]
  rw [e]
  exact List.take_append_drop a (l.take b)

/-- The offsets and the slice of page `p`. -/
theorem pageOffsets_page (p ps pc : Int) (ids : List String)
    (hs : SearchResult.sized ⟨0, ps, pc, ids⟩)
    (hc : pc = ⌈(ids.length : ℚ) / (ps : ℚ)⌉) (hp1 : 1 ≤ p) (hp2 : p ≤ pc) :
    0 ≤ (p - 1) * ps ∧ (p - 1) * ps < (ids.length : Int) ∧
    (p - 1) * ps < min (p * ps) (ids.length : Int) ∧
    pageIDs ⟨p, ps, pc, ids⟩
      = some ((ids.take (min (p * ps) (ids.length : Int)).toNat).drop ((p - 1) * ps).toNat) := by
  have hsp : SearchResult.sized ⟨p, ps, pc, ids⟩ := hs
  obtain ⟨hst, hen, h0, hlt, hle, _⟩ := pageOffsets_spec ⟨p, ps, pc, ids⟩ hsp hc hp1 hp2
  obtain ⟨hsl, _⟩ := sliceExpr_ok ids _ _ h0 (le_of_lt hlt) hle
  have hst1 : (pageOffsets ⟨p, ps, pc, ids⟩).1 = (p - 1) * ps := hst
  have hen1 : (pageOffsets ⟨p, ps, pc, ids⟩).2 = min (p * ps) (ids.length : Int) := hen
  have hle1 : (pageOffsets ⟨p, ps, pc, ids⟩).2 ≤ (ids.length : Int) := hle
  refine ⟨by rw [← hst1]; exact h0, ?_, by rw [← hst1, ← hen1]; exact hlt, ?_⟩
  · rw [← hst1]
    omega
  · unfold pageIDs
    show sliceExpr ids _ _ = _
    rw [hsl, hen1, hst1]

/-- The identifiers of the first `k` pages, one page after the other, are the
first `k * PageSize` identifiers. -/
theorem pages_prefix (ps pc : Int) (ids : List String)
    (hs : SearchResult.sized ⟨0, ps, pc, ids⟩)
    (hc : pc = ⌈(ids.length : ℚ) / (ps : ℚ)⌉) (k : Nat) :
    (k : Int) ≤ pc →
      ((List.range k).map (fun (i : Nat) => pageIDs ⟨(i : Int) + 1, ps, pc, ids⟩)).all Option.isSome
          = true ∧
      ((List.range k).map (fun (i : Nat) =>
          (pageIDs ⟨(i : Int) + 1, ps, pc, ids⟩).getD [])).flatten
        = ids.take (min ((k : Int) * ps) (ids.length : Int)).toNat := by
  induction k with
  | zero =>
    intro _
    refine ⟨rfl, ?_⟩
    show [] = ids.take _
    have : (min (((0 : Nat) : Int) * ps) (ids.length : Int)).toNat = 0 := by
      have e : ((0 : Nat) : Int) * ps = 0 := by simp
      rw [e]
      omega
    rw [this]
    rfl
  | succ k ih =>
    intro hk
    have hk0 : (k : Int) ≤ pc := by omega
    obtain ⟨ih1, ih2⟩ := ih hk0
    have hk1 : ((k + 1 : Nat) : Int) = (k : Int) + 1 := by push_cast; rfl
    rw [hk1] at hk
    obtain ⟨hk0', hstart0, hmono0, hpage0⟩ :=
      pageOffsets_page ((k : Int) + 1) ps pc ids hs hc (by omega) hk
    have e : (k : Int) + 1 - 1 = (k : Int) := by omega
    rw [e] at hk0' hstart0 hmono0 hpage0
    have hpage : pageIDs ⟨(k : Int) + 1, ps, pc, ids⟩
        = some ((ids.take (min (((k : Int) + 1) * ps) (ids.length : Int)).toNat).drop
            ((k : Int) * ps).toNat) := hpage0
    have hstart : (k : Int) * ps < (ids.length : Int) := hstart0
    have hmono : (k : Int) * ps ≤ min (((k : Int) + 1) * ps) (ids.length : Int) :=
      le_of_lt hmono0
    constructor
    · rw [List.range_succ, List.map_append, List.all_append, ih1, List.map_cons, List.map_nil,
        hpage]
      rfl
    · rw [List.range_succ, List.map_append, List.flatten_append, ih2, List.map_cons,
        List.map_nil, hpage, hk1, min_eq_left (le_of_lt hstart)]
      show ids.take ((k : Int) * ps).toNat ++ ((ids.take _).drop _ ++ []) = _
      rw [List.append_nil]
      exact take_append_drop_take ids _ _ (Int.toNat_le_toNat hmono)

/-- C23: for an identifier list, a page size of at least 1 and the page count
the ceiling of their quotient, the pages `1..PageCount` all have a slice, and
the slices, one after the other in page order, are the identifier list: every
position is in exactly one page.  On page `p`, `SearchTx` on a query of a
well-formed heap returns, and the `MultiField` `ids` of the page query it sends
holds the slice `ids[(p-1)*ps : min(p*ps, len(ids))]` as its `Items`. -/
theorem pages_partition {τ ε : Type} (extra : Nat → Nat) (fetch : Heap → Nat → τ × Option ε)
    (h : Heap) (wf : WF h) (query : Nat) (hq : query < h.searches.length)
    (ps pc : Int) (ids : List String) (hs : SearchResult.sized ⟨0, ps, pc, ids⟩)
    (hc : pc = ⌈(ids.length : ℚ) / (ps : ℚ)⌉) :
    (pagesOf ps pc ids).all Option.isSome = true ∧
    ((pagesOf ps pc ids).map (fun o => o.getD [])).flatten = ids ∧
    ∀ p : Int, 1 ≤ p → p ≤ pc →
      ∃ run, SearchTx extra fetch h query ⟨p, ps, pc, ids⟩ = some run ∧
        run.requests = [h.searches.length] ∧
        itemsOf run.heap h.searches.length "ids"
          = some ((ids.take (min (p * ps) (ids.length : Int)).toNat).drop
              ((p - 1) * ps).toNat) ∧
        pageIDs ⟨p, ps, pc, ids⟩
          = some ((ids.take (min (p * ps) (ids.length : Int)).toNat).drop
              ((p - 1) * ps).toNat) := by
  have hps : 1 ≤ ps := hs.1
  have hcc : pc = ⌈((ids.length : Int) : ℚ) / (ps : ℚ)⌉ := by
    rw [hc]
    norm_cast
  obtain ⟨hc1, hc2⟩ := (ceil_div_iff _ _ _ hps).1 hcc
  have hpc0 : 0 ≤ pc := by
    by_contra hneg
    have : pc * ps ≤ (-1) * ps := Int.mul_le_mul_of_nonneg_right (by omega) (by omega)
    omega
  obtain ⟨hall, hflat⟩ := pages_prefix ps pc ids hs hc pc.toNat (by omega)
  have hmap : (pagesOf ps pc ids).map (fun o => o.getD [])
      = (List.range pc.toNat).map (fun (i : Nat) => (pageIDs ⟨(i : Int) + 1, ps, pc, ids⟩).getD []) := by
    unfold pagesOf
    rw [List.map_map]
    rfl
  refine ⟨hall, ?_, ?_⟩
  · rw [hmap, hflat, Int.toNat_of_nonneg hpc0, min_eq_right hc2]
    show ids.take ids.length = ids
    exact List.take_length ids
  · intro p hp1 hp2
    obtain ⟨_, _, _, hpage⟩ := pageOffsets_page p ps pc ids hs hc hp1 hp2
    obtain ⟨so, hso⟩ : ∃ so, h.searches[query]? = some so :=
      ⟨h.searches[query], List.getElem?_eq_getElem hq⟩
    obtain ⟨run, hr, hreq, hitems, _, _⟩ :=
      SearchTx_places extra fetch wf hso ⟨p, ps, pc, ids⟩ (by
        intro hb
        rcases hb with hb | hb
        · exact absurd hp1 (by show ¬ (1 ≤ p); exact not_le.2 hb)
        · exact absurd hp2 (by show ¬ (p ≤ pc); exact not_le.2 hb)) _ hpage
    exact ⟨run, hr, hreq, hitems, hpage⟩

/-- C23, on 51 identifiers with the page size 50, from a heap with one query:
the pages 1 and 2 hold 50 and 1 identifiers and together are the 51
identifiers. -/
theorem pages_partition_witness :
    WF exampleHeap ∧ 0 < exampleHeap.searches.length ∧
    SearchResult.sized ⟨0, 50, 2, testIDs 51⟩ ∧
    (pagesOf 50 2 (testIDs 51)).map (fun o => (o.getD []).length) = [50, 1] ∧
    ((pagesOf 50 2 (testIDs 51)).map (fun o => o.getD [])).flatten = testIDs 51 ∧
    (SearchTx (fun c => c) (fun _ _ => ((), (none : Option Unit))) exampleHeap 0
        ⟨2, 50, 2, testIDs 51⟩).map (fun run => (itemsOf run.heap 1 "ids", run.requests))
      = some (some [String.mk [Char.ofNat 50]], [1]) :=
  have wf : WF exampleHeap :=
    WF_of_run (fun c => c - 1) exampleCalls exampleHeap (by decide) exampleHeap_run
  have hs : SearchResult.sized ⟨0, 50, 2, testIDs 51⟩ := by
    unfold SearchResult.sized
    decide
  ⟨wf, by decide, hs, by decide,
   (@pages_partition Unit Unit (fun c => c) (fun _ _ => ((), none)) exampleHeap wf 0 (by decide)
      50 2 (testIDs 51) hs ceil_testIDs).2.1,
   by decide⟩

/-! ## Webhook signatures -/

theorem Contains_iff (s : List Nat) (c : Nat) : Contains s c = true ↔ c ∈ s := by
  unfold Contains
  rw [decide_eq_true_iff]
  constructor
  · intro h
    by_contra hc
    rw [Index_of_not_mem s c hc] at h
    omega
  · intro h
    have h1 := Index_ne_of_mem s c h
    have h2 := Index_ge s c
    omega

theorem Contains_false_iff (s : List Nat) (c : Nat) : Contains s c = false ↔ c ∉ s := by
  rw [← Contains_iff]
  cases Contains s c <;> simp

/-- A string without the separator is its own single piece. -/
theorem Split_of_not_mem (s : List Nat) (sep : Nat) (h : sep ∉ s) : Split s sep = [s] := by
  unfold Split
  induction s with
  | nil => rfl
  | cons c cs ih =>
    have hc : c ≠ sep := fun e => h (by rw [e]; exact List.mem_cons_self _ _)
    have hcs : sep ∉ cs := fun e => h (List.mem_cons_of_mem _ e)
    rw [segments_cons, if_neg hc, ih hcs]
    rfl

/-- The pieces of `a ++ sep :: b`, for `a` without the separator, are `a` and the
pieces of `b`. -/
theorem Split_append_sep (a b : List Nat) (sep : Nat) (h : sep ∉ a) :
    Split (a ++ sep :: b) sep = a :: Split b sep := by
  unfold Split
  induction a with
  | nil =>
    show segments sep (sep :: b) = _
    rw [segments_cons, if_pos rfl]
  | cons c cs ih =>
    have hc : c ≠ sep := fun e => h (by rw [e]; exact List.mem_cons_self _ _)
    have hcs : sep ∉ cs := fun e => h (List.mem_cons_of_mem _ e)
    show segments sep (c :: (cs ++ sep :: b)) = _
    rw [segments_cons, if_neg hc, ih hcs]
    rfl

/-- Joining the pieces with the separator gives the string back, and no piece
holds the separator. -/
theorem Split_spec (s : List Nat) (sep : Nat) :
    List.intercalate [sep] (Split s sep) = s ∧ ∀ piece ∈ Split s sep, sep ∉ piece :=
  ⟨intercalate_segments sep s, sep_not_mem_segments sep s⟩

/-- The test of `getMatchingSignature` on a pair holds exactly for the pairs of
the form `publicKey|digest`, and `split[1]` is then the digest. -/
theorem pair_test_iff (publicKey pair : List Nat) :
    ((Split pair 124).length = 2 ∧ (Split pair 124)[0]? = some publicKey) ↔
      ∃ digest, isPairOf publicKey pair digest := by
  constructor
  · rintro ⟨hlen, h0⟩
    obtain ⟨hj, hn⟩ := Split_spec pair 124
    match hs : Split pair 124, hlen with
    | [a, b], _ =>
      rw [hs] at h0 hj hn
      have ha : a = publicKey := by simpa using h0
      subst ha
      refine ⟨b, ?_, hn a (by simp), hn b (by simp)⟩
      rw [← hj]
      simp [List.intercalate]
  · rintro ⟨digest, hp, h1, h2⟩
    rw [hp, Split_append_sep _ _ _ h1, Split_of_not_mem _ _ h2]
    simp

theorem pair_test_digest (publicKey pair digest : List Nat)
    (h : isPairOf publicKey pair digest) : (Split pair 124).getD 1 [] = digest := by
  obtain ⟨hp, h1, h2⟩ := h
  rw [hp, Split_append_sep _ _ _ h1, Split_of_not_mem _ _ h2]
  rfl

theorem isPairOf_unique (publicKey pair d1 d2 : List Nat)
    (h1 : isPairOf publicKey pair d1) (h2 : isPairOf publicKey pair d2) : d1 = d2 := by
  have e : publicKey ++ 124 :: d1 = publicKey ++ 124 :: d2 := by rw [← h1.1, ← h2.1]
  have e2 := List.append_cancel_left e
  injection e2

theorem matchLoop_cons (k : Key) (pair : List Nat) (pairs : List (List Nat)) :
    matchLoop k (pair :: pairs) =
      if (Split pair 124).length = 2 ∧ (Split pair 124)[0]? = some k.PublicKey then
        ((Split pair 124).getD 1 [], true)
      else matchLoop k pairs := rfl

/-- The loop finds nothing when no pair has the form `publicKey|digest`. -/
theorem matchLoop_none (k : Key) (pairs : List (List Nat))
    (h : ∀ pair ∈ pairs, ¬ ∃ digest, isPairOf k.PublicKey pair digest) :
    matchLoop k pairs = ([], false) := by
  induction pairs with
  | nil => rfl
  | cons pair rest ih =>
    rw [matchLoop_cons, if_neg]
    · exact ih (fun p hp => h p (List.mem_cons_of_mem _ hp))
    · rw [pair_test_iff]
      exact h pair (List.mem_cons_self _ _)

/-- The loop returns the digest of the first pair of the form
`publicKey|digest`. -/
theorem matchLoop_first (k : Key) (pre : List (List Nat)) (pair : List Nat)
    (post : List (List Nat)) (digest : List Nat)
    (hpre : ∀ p ∈ pre, ¬ ∃ d, isPairOf k.PublicKey p d)
    (hpair : isPairOf k.PublicKey pair digest) :
    matchLoop k (pre ++ pair :: post) = (digest, true) := by
  induction pre with
  | nil =>
    show matchLoop k (pair :: post) = _
    rw [matchLoop_cons, if_pos ((pair_test_iff _ _).2 ⟨digest, hpair⟩),
      pair_test_digest _ _ _ hpair]
  | cons p rest ih =>
    show matchLoop k (p :: (rest ++ pair :: post)) = _
    rw [matchLoop_cons, if_neg]
    · exact ih (fun q hq => hpre q (List.mem_cons_of_mem _ hq))
    · rw [pair_test_iff]
      exact hpre p (List.mem_cons_self _ _)

/-- A list of pairs either has no pair of the form `publicKey|digest`, or it has
a first one. -/
theorem first_pair (publicKey : List Nat) (pairs : List (List Nat)) :
    (∀ pair ∈ pairs, ¬ ∃ digest, isPairOf publicKey pair digest) ∨
    ∃ pre pair post digest, pairs = pre ++ pair :: post ∧
      (∀ p ∈ pre, ¬ ∃ d, isPairOf publicKey p d) ∧ isPairOf publicKey pair digest := by
  induction pairs with
  | nil => exact Or.inl (fun _ h => by cases h)
  | cons p rest ih =>
    by_cases hp : ∃ d, isPairOf publicKey p d
    · obtain ⟨d, hd⟩ := hp
      exact Or.inr ⟨[], p, rest, d, rfl, (fun _ h => by cases h), hd⟩
    · rcases ih with h | ⟨pre, pair, post, digest, e, h1, h2⟩
      · refine Or.inl (fun q hq => ?_)
        rcases List.mem_cons.1 hq with e | e
        · rw [e]; exact hp
        · exact h q e
      · refine Or.inr ⟨p :: pre, pair, post, digest, by rw [e]; rfl, fun q hq => ?_, h2⟩
        rcases List.mem_cons.1 hq with e | e
        · rw [e]; exact hp
        · exact h1 q e

theorem mem_intercalate (sep : List Nat) (pieces : List (List Nat)) (piece : List Nat)
    (hp : piece ∈ pieces) (x : Nat) (hx : x ∈ piece) : x ∈ List.intercalate sep pieces := by
  induction pieces with
  | nil => cases hp
  | cons a rest ih =>
    cases rest with
    | nil =>
      have e : piece = a := by simpa using hp
      subst e
      simpa [List.intercalate] using hx
    | cons b more =>
      have e : List.intercalate sep (a :: b :: more) =
          a ++ sep ++ List.intercalate sep (b :: more) := by
        simp [List.intercalate, List.intersperse]
      rw [e]
      rcases List.mem_cons.1 hp with h | h
      · subst h
        simp [hx]
      · have := ih h
        simp [this]

theorem ParseSignature_noPipe (k : Key) (s : List Nat) (h : 124 ∉ s) :
    k.ParseSignature s = ([], some ⟨bytes "Signature-key pair does not contain |"⟩) := by
  unfold Key.ParseSignature
  rw [if_pos ((Contains_false_iff s 124).2 h)]

theorem ParseSignature_pipe (k : Key) (s : List Nat) (h : 124 ∈ s) :
    k.ParseSignature s =
      match matchLoop k (Split s 38) with
      | (_, false) => ([], some ⟨bytes "Signature-key pair contains the wrong public key!"⟩)
      | (signature, true) => (signature, none) := by
  unfold Key.ParseSignature
  rw [if_neg (by rw [(Contains_iff s 124).2 h]; simp)]
  rfl

theorem ParseSignature_wrongKey (k : Key) (s : List Nat) (h : 124 ∈ s)
    (hno : ∀ pair ∈ Split s 38, ¬ ∃ digest, isPairOf k.PublicKey pair digest) :
    k.ParseSignature s =
      ([], some ⟨bytes "Signature-key pair contains the wrong public key!"⟩) := by
  rw [ParseSignature_pipe k s h, matchLoop_none k _ hno]

theorem ParseSignature_first (k : Key) (s : List Nat) (pre : List (List Nat))
    (pair : List Nat) (post : List (List Nat)) (digest : List Nat)
    (hs : Split s 38 = pre ++ pair :: post)
    (hpre : ∀ p ∈ pre, ¬ ∃ d, isPairOf k.PublicKey p d)
    (hpair : isPairOf k.PublicKey pair digest) :
    k.ParseSignature s = (digest, none) := by
  have hmem : 124 ∈ s := by
    obtain ⟨hj, _⟩ := Split_spec s 38
    rw [← hj, hs]
    refine mem_intercalate [38] _ pair (by simp) 124 ?_
    rw [hpair.1]
    simp
  rw [ParseSignature_pipe k s hmem, hs, matchLoop_first k pre pair post digest hpre hpair]

theorem hexDigit_range (d : Nat) (h : d < 16) :
    (48 ≤ hexDigit d ∧ hexDigit d ≤ 57) ∨ (97 ≤ hexDigit d ∧ hexDigit d ≤ 102) := by
  unfold hexDigit
  split <;> omega

/-- The output of `%x` holds only the digits `0`..`9` and `a`..`f`. -/
theorem hexString_range (b : List Nat) :
    ∀ x ∈ hexString b, (48 ≤ x ∧ x ≤ 57) ∨ (97 ≤ x ∧ x ≤ 102) := by
  induction b with
  | nil => intro x hx; cases hx
  | cons a rest ih =>
    intro x hx
    have e : hexString (a :: rest) =
        hexDigit (a / 16 % 16) :: hexDigit (a % 16) :: hexString rest := rfl
    rw [e] at hx
    rcases List.mem_cons.1 hx with h | h
    · rw [h]; exact hexDigit_range _ (Nat.mod_lt _ (by decide))
    · rcases List.mem_cons.1 h with h | h
      · rw [h]; exact hexDigit_range _ (Nat.mod_lt _ (by decide))
      · exact ih x h

theorem HMAC_eq (c : Crypto) (k : Key) (payload : List Nat) :
    k.HMAC c payload = (hexString (c.hmacSha1 (c.sha1 k.PrivateKey) payload), none) := rfl

theorem VerifySignature_error (c : Crypto) (k : Key) (signature payload : List Nat)
    (g : List Nat) (err : SignatureError) (h : k.ParseSignature signature = (g, some err)) :
    k.VerifySignature c signature payload = (false, some (.signature err)) := by
  unfold Key.VerifySignature
  rw [h]

theorem VerifySignature_digest (c : Crypto) (k : Key) (signature payload : List Nat)
    (g : List Nat) (h : k.ParseSignature signature = (g, none)) :
    k.VerifySignature c signature payload = (decide ((k.HMAC c payload).1 = g), none) := by
  unfold Key.VerifySignature
  rw [h]
  rfl

/-- The signature `publicKey|HMAC(payload)` is accepted, for a public key without
`|` and `&`. -/
theorem VerifySignature_signed (c : Crypto) (k : Key) (payload : List Nat)
    (hp : 124 ∉ k.PublicKey) (ha : 38 ∉ k.PublicKey) :
    k.VerifySignature c (k.PublicKey ++ bytes "|" ++ (k.HMAC c payload).1) payload =
      (true, none) := by
  have hx := hexString_range (c.hmacSha1 (c.sha1 k.PrivateKey) payload)
  have h124 : 124 ∉ (k.HMAC c payload).1 := fun h => by
    have := hx 124 h
    omega
  have h38 : 38 ∉ (k.HMAC c payload).1 := fun h => by
    have := hx 38 h
    omega
  have e : k.PublicKey ++ bytes "|" ++ (k.HMAC c payload).1 =
      k.PublicKey ++ 124 :: (k.HMAC c payload).1 := by
    rw [List.append_assoc]
    rfl
  have hs : Split (k.PublicKey ++ bytes "|" ++ (k.HMAC c payload).1) 38 =
      [] ++ (k.PublicKey ++ bytes "|" ++ (k.HMAC c payload).1) :: [] := by
    rw [List.nil_append]
    apply Split_of_not_mem
    rw [e]
    intro h
    rcases List.mem_append.1 h with h | h
    · exact ha h
    · rcases List.mem_cons.1 h with h | h
      · omega
      · exact h38 h
  have hpar := ParseSignature_first k _ [] _ [] (k.HMAC c payload).1 hs
    (fun _ h => by cases h) ⟨e, hp, h124⟩
  rw [VerifySignature_digest c k _ payload _ hpar, decide_eq_true rfl]

/-- The three ways `Parse` goes on after `VerifySignature`. -/
theorem Parse_cases {ν : Type} (c : Crypto) (codec : Codec ν) (cl : APIClient)
    (secret : Secret) (hk : cl.Key = some secret) (signature payload : List Nat) :
    (∀ b err, secret.Key.VerifySignature c signature payload = (b, some err) →
      APIClient.Parse c codec cl signature payload = some (none, some err)) ∧
    (secret.Key.VerifySignature c signature payload = (false, none) →
      APIClient.Parse c codec cl signature payload = some (none, some (.signature ⟨[]⟩))) ∧
    (secret.Key.VerifySignature c signature payload = (true, none) →
      ∃ r, APIClient.Parse c codec cl signature payload = some r ∧
        (∀ e, r.2 ≠ some (.signature e)) ∧ (r.1 = none ↔ r.2 ≠ none)) := by
  have hkey : NewKey secret.Key.PublicKey secret.Key.PrivateKey = secret.Key := rfl
  refine ⟨?_, ?_, ?_⟩
  · intro b err h
    unfold APIClient.Parse
    rw [hk]
    simp only [hkey, h]
  · intro h
    unfold APIClient.Parse
    rw [hk]
    simp only [hkey, h]
  · intro h
    unfold APIClient.Parse
    rw [hk]
    simp only [hkey, h]
    cases hb : codec.base64Decode payload with
    | none => exact ⟨_, rfl, (fun e he => by cases he), by simp⟩
    | some xmlNotification =>
      simp only []
      rcases StripNilElements_spec codec.lib (codec.lex xmlNotification).1
          (codec.lex xmlNotification).2 with ⟨err, hs, _⟩ | ⟨out, hs, _, _⟩
      · rw [hs]
        exact ⟨_, rfl, (fun e he => by cases he), by simp⟩
      · rw [hs]
        simp only []
        cases hu : codec.unmarshal out with
        | error text => exact ⟨_, rfl, (fun e he => by cases he), by simp⟩
        | ok result => exact ⟨_, rfl, (fun e he => by cases he), by simp⟩

/-- C24: `ParseSignature` returns the error "Signature-key pair does not contain
|" exactly when the string holds no `|`; when it holds one, it returns the error
"Signature-key pair contains the wrong public key!" exactly when none of the
pieces between the `&` has the form `publicKey|digest` for the public key of the
key; and when a piece has that form, it returns the digest of the first such
piece, without error.  With an error the signature returned is empty, and
`pub1|abc&pub2|def` with the public key `pub2` gives `def`. -/
theorem ParseSignature_classifies (k : Key) (s : List Nat) :
    ((k.ParseSignature s).2 = some ⟨bytes "Signature-key pair does not contain |"⟩ ↔
      124 ∉ s) ∧
    (124 ∈ s →
      ((k.ParseSignature s).2 =
          some ⟨bytes "Signature-key pair contains the wrong public key!"⟩ ↔
        ¬ ∃ pair ∈ Split s 38, ∃ digest, isPairOf k.PublicKey pair digest)) ∧
    (∀ pre pair post digest, Split s 38 = pre ++ pair :: post →
      (∀ p ∈ pre, ¬ ∃ d, isPairOf k.PublicKey p d) → isPairOf k.PublicKey pair digest →
      k.ParseSignature s = (digest, none)) ∧
    ((k.ParseSignature s).2 ≠ none → (k.ParseSignature s).1 = []) ∧
    Key.ParseSignature ⟨bytes "pub2", k.PrivateKey⟩ (bytes "pub1|abc&pub2|def") =
      (bytes "def", none) := by
  have hmsg : (⟨bytes "Signature-key pair contains the wrong public key!"⟩ : SignatureError) ≠
      ⟨bytes "Signature-key pair does not contain |"⟩ := by decide
  refine ⟨?_, ?_, ?_, ?_, rfl⟩
  · constructor
    · intro h hmem
      rcases first_pair k.PublicKey (Split s 38) with hno | ⟨pre, pair, post, d, e, h1, h2⟩
      · rw [ParseSignature_wrongKey k s hmem hno] at h
        exact hmsg (Option.some.inj h)
      · rw [ParseSignature_first k s pre pair post d e h1 h2] at h
        cases h
    · intro h
      rw [ParseSignature_noPipe k s h]
  · intro hmem
    constructor
    · rintro h ⟨pair, hpair, digest, hd⟩
      rcases first_pair k.PublicKey (Split s 38) with hno | ⟨pre, pair, post, d, e, h1, h2⟩
      · exact hno pair hpair ⟨digest, hd⟩
      · rw [ParseSignature_first k s pre pair post d e h1 h2] at h
        cases h
    · intro h
      rw [ParseSignature_wrongKey k s hmem (fun pair hpair hd => h ⟨pair, hpair, hd⟩)]
  · intro pre pair post digest e h1 h2
    exact ParseSignature_first k s pre pair post digest e h1 h2
  · intro h
    by_cases hmem : 124 ∈ s
    · rcases first_pair k.PublicKey (Split s 38) with hno | ⟨pre, pair, post, d, e, h1, h2⟩
      · rw [ParseSignature_wrongKey k s hmem hno]
      · rw [ParseSignature_first k s pre pair post d e h1 h2] at h
        exact absurd rfl h
    · rw [ParseSignature_noPipe k s hmem]

theorem ParseSignature_classifies_witness :
    (124 ∈ bytes "pubkey2|the_signature" ∧
      ¬ ∃ pair ∈ Split (bytes "pubkey2|the_signature") 38,
        ∃ digest, isPairOf (bytes "pubkey") pair digest) ∧
    Key.ParseSignature ⟨bytes "pubkey", bytes "privkey"⟩
        (bytes "pubkey2|sig&pubkey|the_signature") = (bytes "the_signature", none) :=
  ⟨⟨by decide,
    ((ParseSignature_classifies ⟨bytes "pubkey", bytes "privkey"⟩
      (bytes "pubkey2|the_signature")).2.1 (by decide)).1 (by decide)⟩,
   (ParseSignature_classifies ⟨bytes "pubkey", bytes "privkey"⟩
      (bytes "pubkey2|sig&pubkey|the_signature")).2.2.1
      [bytes "pubkey2|sig"] (bytes "pubkey|the_signature") [] (bytes "the_signature")
      (by decide)
      (fun p hp => by
        have e : p = bytes "pubkey2|sig" := by simpa using hp
        rw [e, ← pair_test_iff]
        decide)
      ⟨by decide, by decide, by decide⟩⟩

/-- C25: when `ParseSignature` fails, `VerifySignature` returns false and that
same error; when `ParseSignature` returns the digest `g`, `VerifySignature`
returns true without error if `g` is the hexadecimal HMAC of the payload under
the key, and false without error if it is not.  `HMAC` itself never fails. -/
theorem VerifySignature_result (c : Crypto) (k : Key) (signature payload : List Nat) :
    (∀ err, (k.ParseSignature signature).2 = some err →
      k.VerifySignature c signature payload = (false, some (.signature err))) ∧
    (∀ g, k.ParseSignature signature = (g, none) →
      (g = (k.HMAC c payload).1 → k.VerifySignature c signature payload = (true, none)) ∧
      (g ≠ (k.HMAC c payload).1 → k.VerifySignature c signature payload = (false, none))) ∧
    (k.HMAC c payload).2 = none := by
  refine ⟨?_, ?_, rfl⟩
  · intro err h
    exact VerifySignature_error c k signature payload (k.ParseSignature signature).1 err
      (by rw [← h])
  · intro g h
    rw [VerifySignature_digest c k signature payload g h]
    constructor
    · intro e
      rw [decide_eq_true e.symm]
    · intro e
      rw [decide_eq_false (fun e2 => e e2.symm)]

theorem VerifySignature_result_witness :
    Key.VerifySignature testCrypto ⟨bytes "pk", bytes "s"⟩ (bytes "pk2|7361") (bytes "a") =
      (false, some (.signature ⟨bytes "Signature-key pair contains the wrong public key!"⟩)) ∧
    Key.VerifySignature testCrypto ⟨bytes "pk", bytes "s"⟩ (bytes "pk|7361") (bytes "a") =
      (true, none) ∧
    Key.VerifySignature testCrypto ⟨bytes "pk", bytes "s"⟩ (bytes "pk|7362") (bytes "a") =
      (false, none) :=
  ⟨(VerifySignature_result testCrypto ⟨bytes "pk", bytes "s"⟩ (bytes "pk2|7361")
      (bytes "a")).1 _ (by decide),
   ((VerifySignature_result testCrypto ⟨bytes "pk", bytes "s"⟩ (bytes "pk|7361")
      (bytes "a")).2.1 (bytes "7361") (by decide)).1 (by decide),
   ((VerifySignature_result testCrypto ⟨bytes "pk", bytes "s"⟩ (bytes "pk|7362")
      (bytes "a")).2.1 (bytes "7362") (by decide)).2 (by decide)⟩

/-- C26: for a key whose public key holds neither `|` nor `&`, and every payload,
`SignPayload` and `Verify` return `publicKey + "|" + HMAC(payload)` without
error, `VerifySignature` accepts that signature for the payload with (true, nil),
and `Parse` of the payload with that signature ends with a result whose error is
not a `SignatureError`. -/
theorem SignPayload_verifies {ν : Type} (c : Crypto) (codec : Codec ν) (secret : Secret)
    (payload : List Nat) (hp : 124 ∉ secret.Key.PublicKey) (ha : 38 ∉ secret.Key.PublicKey) :
    ∃ sig, sig = secret.Key.PublicKey ++ bytes "|" ++ (secret.Key.HMAC c payload).1 ∧
      APIClient.SignPayload c ⟨some secret⟩ payload = some (sig, none) ∧
      APIClient.Verify c ⟨some secret⟩ payload = some (sig, none) ∧
      secret.Key.VerifySignature c sig payload = (true, none) ∧
      ∃ r, APIClient.Parse c codec ⟨some secret⟩ sig payload = some r ∧
        ∀ e, r.2 ≠ some (.signature e) := by
  refine ⟨_, rfl, rfl, rfl, VerifySignature_signed c secret.Key payload hp ha, ?_⟩
  obtain ⟨r, hr, hne, _⟩ := (Parse_cases c codec ⟨some secret⟩ secret rfl
    (secret.Key.PublicKey ++ bytes "|" ++ (secret.Key.HMAC c payload).1) payload).2.2
    (VerifySignature_signed c secret.Key payload hp ha)
  exact ⟨r, hr, hne⟩

theorem SignPayload_verifies_witness :
    ∃ sig, sig = bytes "pk" ++ bytes "|" ++
        (Key.HMAC testCrypto ⟨bytes "pk", bytes "s"⟩ (bytes "<a></a>")).1 ∧
      APIClient.SignPayload testCrypto testClient (bytes "<a></a>") = some (sig, none) ∧
      APIClient.Verify testCrypto testClient (bytes "<a></a>") = some (sig, none) ∧
      Key.VerifySignature testCrypto ⟨bytes "pk", bytes "s"⟩ sig (bytes "<a></a>") =
        (true, none) ∧
      ∃ r, APIClient.Parse testCrypto testCodec testClient sig (bytes "<a></a>") = some r ∧
        ∀ e, r.2 ≠ some (.signature e) :=
  SignPayload_verifies testCrypto testCodec ⟨⟨bytes "pk", bytes "s"⟩, [], [], []⟩
    (bytes "<a></a>") (by decide) (by decide)

/-- C27: `Parse` returns a notification only when the client has a key and
`VerifySignature` returned (true, nil) for the signature and the payload, and
then without error; when `VerifySignature` returns an error, `Parse` returns that
error and no notification; when it returns false without error, `Parse` returns
no notification and a `SignatureError` whose text is "Invalid Signature".  In
the last two cases the result is the same for every decoder of the payload. -/
theorem Parse_after_verification {ν : Type} (c : Crypto) (codec : Codec ν) (cl : APIClient)
    (signature payload : List Nat) :
    (∀ n err, APIClient.Parse c codec cl signature payload = some (some n, err) →
      err = none ∧ ∃ secret, cl.Key = some secret ∧
        secret.Key.VerifySignature c signature payload = (true, none)) ∧
    (∀ secret, cl.Key = some secret →
      (∀ b err, secret.Key.VerifySignature c signature payload = (b, some err) →
        APIClient.Parse c codec cl signature payload = some (none, some err)) ∧
      (secret.Key.VerifySignature c signature payload = (false, none) →
        ∃ e : SignatureError, e.Error = bytes "Invalid Signature" ∧
          APIClient.Parse c codec cl signature payload =
            some (none, some (.signature e)))) := by
  constructor
  · intro n err h
    cases hk : cl.Key with
    | none =>
      unfold APIClient.Parse at h
      rw [hk] at h
      cases h
    | some secret =>
      obtain ⟨h1, h2, h3⟩ := Parse_cases c codec cl secret hk signature payload
      match hv : secret.Key.VerifySignature c signature payload with
      | (b, some e) =>
        rw [h1 b e hv] at h
        cases h
      | (false, none) =>
        rw [h2 hv] at h
        cases h
      | (true, none) =>
        obtain ⟨r, hr, _, hiff⟩ := h3 hv
        rw [hr] at h
        have e : r = (some n, err) := Option.some.inj h
        rw [e] at hiff
        refine ⟨?_, secret, rfl, hv⟩
        by_contra hne
        exact absurd (hiff.2 hne) (by simp)
  · intro secret hk
    obtain ⟨h1, h2, _⟩ := Parse_cases c codec cl secret hk signature payload
    exact ⟨h1, fun hv => ⟨⟨[]⟩, by decide, h2 hv⟩⟩

theorem Parse_after_verification_witness :
    (APIClient.Parse testCrypto testCodec testClient (bytes "pk00") (bytes "<a></a>") =
      some (none, some (.signature ⟨bytes "Signature-key pair does not contain |"⟩))) ∧
    (∃ e : SignatureError, e.Error = bytes "Invalid Signature" ∧
      APIClient.Parse testCrypto testCodec testClient (bytes "pk|00") (bytes "<a></a>") =
        some (none, some (.signature e))) ∧
    Key.VerifySignature testCrypto ⟨bytes "pk", bytes "s"⟩
      (bytes "pk|" ++ hexString (bytes "s<a></a>")) (bytes "<a></a>") = (true, none) :=
  ⟨((Parse_after_verification testCrypto testCodec testClient (bytes "pk00")
      (bytes "<a></a>")).2 _ rfl).1 false _ (by decide),
   ((Parse_after_verification testCrypto testCodec testClient (bytes "pk|00")
      (bytes "<a></a>")).2 _ rfl).2 (by decide),
   by
    obtain ⟨_, secret, hk, hv⟩ :=
      (Parse_after_verification testCrypto testCodec testClient
        (bytes "pk|" ++ hexString (bytes "s<a></a>")) (bytes "<a></a>")).1 2 none rfl
    have e : secret = ⟨⟨bytes "pk", bytes "s"⟩, [], [], []⟩ := (Option.some.inj hk).symm
    rw [e] at hv
    exact hv⟩

/-! ## `Response.unpackBody` -/

/-- The outcomes of `unpackBody`. -/
theorem unpackBody_cases {ν ε : Type} (codec : Codec ν) (r : Response)
    (read : Except ε (List Nat)) :
    (r.Body ≠ [] → Response.unpackBody codec r read = some (r, none)) ∧
    (r.Body = [] → ∀ err, read = .error err →
      Response.unpackBody codec r read = some (r, some err)) ∧
    (r.Body = [] → ∀ buf, read = .ok buf →
      (∀ err, StripNilElements codec.lib (codec.lex buf).1 (codec.lex buf).2 =
          some (.error err) →
        Response.unpackBody codec r read = some (⟨buf⟩, none)) ∧
      (∀ out, StripNilElements codec.lib (codec.lex buf).1 (codec.lex buf).2 =
          some (.ok out) →
        Response.unpackBody codec r read = some (⟨codec.render out⟩, none))) := by
  refine ⟨?_, ?_, ?_⟩
  · intro h
    unfold Response.unpackBody
    rw [if_neg (by rw [List.length_eq_zero]; exact h)]
  · intro h err hr
    unfold Response.unpackBody
    rw [if_pos (by rw [h]; rfl), hr]
  · intro h buf hr
    constructor
    · intro err hs
      unfold Response.unpackBody
      rw [if_pos (by rw [h]; rfl), hr]
      simp only [hs]
    · intro out hs
      unfold Response.unpackBody
      rw [if_pos (by rw [h]; rfl), hr]
      simp only [hs]

/-- C28, as claimed, fails: on the body `<element>`, an unterminated document on
which `StripNilElements` returns a syntax error, `unpackBody` returns no error
and keeps the body as it was read. -/
theorem unpackBody_counterexample :
    StripNilElements testCodec.lib (testCodec.lex (bytes "<element>")).1
        (testCodec.lex (bytes "<element>")).2 = some (.error .Syntax) ∧
      Response.unpackBody testCodec ⟨[]⟩ (.ok (bytes "<element>") : Except Unit (List Nat)) =
        some (⟨bytes "<element>"⟩, none) :=
  ⟨rfl, rfl⟩

/-- C28, amended: for every response body on which `StripNilElements` returns an
error, `unpackBody` returns no error and stores the body as it was read; the
only errors `unpackBody` returns are those of reading the body. -/
theorem unpackBody_fallback {ν ε : Type} (codec : Codec ν) (r : Response)
    (read : Except ε (List Nat)) :
    (r.Body = [] → ∀ buf err, read = .ok buf →
      StripNilElements codec.lib (codec.lex buf).1 (codec.lex buf).2 = some (.error err) →
      Response.unpackBody codec r read = some (⟨buf⟩, none)) ∧
    (∃ res, Response.unpackBody codec r read = some res) ∧
    (∀ res err, Response.unpackBody codec r read = some (res, some err) →
      r.Body = [] ∧ read = .error err) := by
  obtain ⟨h1, h2, h3⟩ := unpackBody_cases codec r read
  refine ⟨fun hb buf err hr hs => (h3 hb buf hr).1 err hs, ?_, ?_⟩
  · by_cases hb : r.Body = []
    · cases read with
      | error e => exact ⟨_, h2 hb e rfl⟩
      | ok buf =>
        rcases StripNilElements_spec codec.lib (codec.lex buf).1 (codec.lex buf).2
          with ⟨err, hs, _⟩ | ⟨out, hs, _, _⟩
        · exact ⟨_, (h3 hb buf rfl).1 err hs⟩
        · exact ⟨_, (h3 hb buf rfl).2 out hs⟩
    · exact ⟨_, h1 hb⟩
  · intro res err h
    by_cases hb : r.Body = []
    · cases read with
      | error e =>
        rw [h2 hb e rfl] at h
        injection h with h
        injection h with _ h
        injection h with h
        exact ⟨hb, by rw [h]⟩
      | ok buf =>
        rcases StripNilElements_spec codec.lib (codec.lex buf).1 (codec.lex buf).2
          with ⟨e, hs, _⟩ | ⟨out, hs, _, _⟩
        · rw [(h3 hb buf rfl).1 e hs] at h
          cases h
        · rw [(h3 hb buf rfl).2 out hs] at h
          cases h
    · rw [h1 hb] at h
      cases h

theorem unpackBody_fallback_witness :
    Response.unpackBody testCodec ⟨[]⟩ (.ok (bytes "<element>") : Except Unit (List Nat)) =
      some (⟨bytes "<element>"⟩, none) :=
  (unpackBody_fallback testCodec ⟨[]⟩ (.ok (bytes "<element>") : Except Unit (List Nat))).1
    rfl (bytes "<element>") .Syntax rfl rfl

end Braintree
